import Mathlib

/-!
# md-parser: a shallow embedding of the CommonMark-to-HTML converter

The C++ program (Qt based) is embedded as follows.

* A `QChar` is a UTF-16 code unit, a natural number; a `QString` is a list of code units.
* Every computation that can leave the defined behaviour of the C++ program
  (`QString::at` outside the string, an array subscript outside the array, a call through a
  null pointer) runs in the monad `M = Except Fault` and raises the matching fault.
* The block tree is an arena of nodes addressed by index; parent links and the
  `current` cursor of the parser are indices.
* Loops whose trip count is bounded by the text are structural recursions over the
  unread suffix of the text; the remaining recursions carry a fuel argument and raise
  `Fault.outOfFuel` when it is used up.
-/

namespace MdParser

set_option maxRecDepth 100000
set_option maxHeartbeats 4000000

/-- Ways in which a run of the program can fail to produce a value. -/
inductive Fault where
  /-- An index passed to `QString::at`, `QStringRef::at` or an array lies outside the container. -/
  | outOfRange
  /-- A member call through a null `Block*`. -/
  | nullDeref
  /-- The `Q_ASSERT(false)` of a method that must not be invoked. -/
  | assertFailed
  /-- The recursion budget of the embedding is used up. -/
  | outOfFuel
  /-- The result depends on the iteration order of a `std::unordered_map`, which the language
  leaves unspecified. -/
  | unspecified
deriving DecidableEq, Repr

deriving instance DecidableEq for Except

abbrev M := Except Fault

abbrev QChar := Nat

abbrev QString := List Nat

/-- Code unit of a character literal of the C++ source. -/
def ch (c : Char) : QChar := c.toNat

/-- The apostrophe. -/
def chApostrophe : QChar := 39

/-- The double quote. -/
def chQuote : QChar := 34

/-- The grave accent used for code spans and fences. -/
def chBacktick : QChar := 96

/-- The opening curly bracket. -/
def chLBrace : QChar := 123

/-- The closing curly bracket. -/
def chRBrace : QChar := 125

/-- UTF-16 code units of a list of code points. -/
def utf16 : List Char → QString
  | [] => []
  | c :: cs =>
    if c.toNat < 65536 then c.toNat :: utf16 cs
    else (0xD800 + (c.toNat - 65536) / 1024) :: (0xDC00 + (c.toNat - 65536) % 1024) :: utf16 cs

/-- The `QString` of a string literal. -/
def qs (s : String) : QString := utf16 s.toList

/-- `QString::at` and `QStringRef::at`: reading outside the string is undefined. -/
def charAt (s : QString) (i : Nat) : M QChar :=
  match s[i]? with
  | some c => pure c
  | none => throw Fault.outOfRange

namespace QChar

/-- `QChar::isSpace`. -/
def isSpace (n : QChar) : Bool :=
  n == 0x20 || (0x09 ≤ n && n ≤ 0x0d) || n == 0x85 || n == 0xa0 || n == 0x1680 ||
  (0x2000 ≤ n && n ≤ 0x200a) || n == 0x2028 || n == 0x2029 || n == 0x202f || n == 0x205f ||
  n == 0x3000

/-- `QChar::isPunct` (general categories Pc, Pd, Ps, Pe, Pi, Pf, Po): exact on U+0000..U+00FF;
above that range the Qt tables are approximated by the General Punctuation block and the
CJK comma, full stop and ditto mark. -/
def isPunct (n : QChar) : Bool :=
  (33 ≤ n && n ≤ 35) || (37 ≤ n && n ≤ 42) || (44 ≤ n && n ≤ 47) || n == 58 || n == 59 ||
  n == 63 || n == 64 || (91 ≤ n && n ≤ 93) || n == 95 || n == 123 || n == 125 ||
  n == 0xa1 || n == 0xa7 || n == 0xab || n == 0xb6 || n == 0xb7 || n == 0xbb || n == 0xbf ||
  (0x2010 ≤ n && n ≤ 0x2027) || (0x2030 ≤ n && n ≤ 0x205e) || (0x3001 ≤ n && n ≤ 0x3003)

/-- `QChar::isDigit` (general category Nd): exact on U+0000..U+00FF. -/
def isDigit (n : QChar) : Bool := 48 ≤ n && n ≤ 57

/-- `QChar::isUpper` (general category Lu): exact on U+0000..U+00FF. -/
def isUpper (n : QChar) : Bool :=
  (65 ≤ n && n ≤ 90) || (0xc0 ≤ n && n ≤ 0xd6) || (0xd8 ≤ n && n ≤ 0xde)

/-- `QChar::isLetter`: exact on U+0000..U+00FF; a code unit above that range counts as a
letter unless it is a space or punctuation of the approximated tables. -/
def isLetter (n : QChar) : Bool :=
  (65 ≤ n && n ≤ 90) || (97 ≤ n && n ≤ 122) || n == 0xaa || n == 0xb5 || n == 0xba ||
  (0xc0 ≤ n && n ≤ 0xd6) || (0xd8 ≤ n && n ≤ 0xf6) || (0xf8 ≤ n && n ≤ 0xff) ||
  (0x100 ≤ n && !isSpace n && !isPunct n)

/-- `QChar::isLetterOrNumber` (letters and the categories Nd, Nl, No). -/
def isLetterOrNumber (n : QChar) : Bool :=
  isLetter n || isDigit n || n == 0xb2 || n == 0xb3 || n == 0xb9 || (0xbc ≤ n && n ≤ 0xbe)

/-- `QChar::toLower`: exact on U+0000..U+00FF, the identity above. -/
def toLower (n : QChar) : QChar :=
  if (65 ≤ n && n ≤ 90) || (0xc0 ≤ n && n ≤ 0xd6) || (0xd8 ≤ n && n ≤ 0xde) then n + 32 else n

/-- `QChar::unicodeVersion() == QChar::Unicode_Unassigned`: the unassigned code points of the
Basic Latin to Greek range and the two noncharacters that end the plane. -/
def isUnassigned (n : QChar) : Bool :=
  n == 0x378 || n == 0x379 || (0x380 ≤ n && n ≤ 0x383) || n == 0x38b || n == 0x38d ||
  n == 0x3a2 || n == 0x530 || n == 0xfffe || n == 0xffff

/-- `QChar::toLatin1` read as `unsigned char`: zero above U+00FF. -/
def toLatin1 (n : QChar) : Nat := if n > 0xff then 0 else n

end QChar

namespace QString

/-- `QString::toLower`. -/
def toLower (s : QString) : QString := s.map QChar.toLower

/-- Drop leading white space. -/
def trimLeft (s : QString) : QString := s.dropWhile QChar.isSpace

/-- `QString::trimmed`. -/
def trimmed (s : QString) : QString := (trimLeft (trimLeft s).reverse).reverse

/-- `QString::mid(pos, n)` with a length that may be negative (then: up to the end). -/
def mid (s : QString) (pos : Nat) (n : Int) : QString :=
  if n < 0 then s.drop pos else (s.drop pos).take n.toNat

/-- `QString::replace(pos, len, after)`. -/
def replace (s : QString) (pos len : Nat) (after : QString) : QString :=
  if pos > s.length then s else s.take pos ++ after ++ s.drop (pos + len)

/-- `QString::remove(pos, len)`. -/
def remove (s : QString) (pos len : Nat) : QString := s.take pos ++ s.drop (pos + len)

/-- `QString::chop(n)`. -/
def chop (s : QString) (n : Nat) : QString := s.take (s.length - n)

/-- `QString::count(QChar)`. -/
def count (s : QString) (c : QChar) : Nat := List.count c s

/-- `QString::startsWith(QString)`. -/
def startsWith : QString → QString → Bool
  | _, [] => true
  | [], _ :: _ => false
  | c :: s, d :: p => c == d && startsWith s p

/-- `QString::indexOf(QString, from)` as a search over the suffix `s` that starts at `pos`. -/
def indexOfFrom (p : QString) : QString → Nat → Option Nat
  | [], pos => if p.isEmpty then some pos else none
  | c :: s, pos => if startsWith (c :: s) p then some pos else indexOfFrom p s (pos + 1)

/-- `QString::splitRef(sep)` keeping empty parts; `cur` is the part being read, reversed. -/
def splitLoop (sep : QChar) : QString → QString → List QString
  | [], cur => [cur.reverse]
  | c :: s, cur => if c == sep then cur.reverse :: splitLoop sep s [] else splitLoop sep s (c :: cur)

/-- `QString::splitRef(sep)`. -/
def splitRef (s : QString) (sep : QChar) : List QString := splitLoop sep s []

/-- `QStringList::join(sep)`. -/
def join (sep : QString) : List QString → QString
  | [] => []
  | [x] => x
  | x :: y :: r => x ++ sep ++ join sep (y :: r)

/-- Decimal digits of a number, `QString::number`. -/
def number (n : Nat) : QString := (Nat.toDigits 10 n).map Char.toNat

/-- Value of a string of ASCII decimal digits read left to right from `acc`. -/
def decimalValue : QString → Nat → Nat
  | [], acc => acc
  | c :: s, acc => decimalValue s (acc * 10 + (c - 48))

/-- Value of one hexadecimal digit. -/
def hexDigit (c : QChar) : Option Nat :=
  if 48 ≤ c && c ≤ 57 then some (c - 48)
  else if 65 ≤ c && c ≤ 70 then some (c - 55)
  else if 97 ≤ c && c ≤ 102 then some (c - 87)
  else none

/-- Value of a string of hexadecimal digits read left to right from `acc`. -/
def hexValue : QString → Nat → Option Nat
  | [], acc => some acc
  | c :: s, acc => match hexDigit c with
    | some d => hexValue s (acc * 16 + d)
    | none => none

/-- `QString::toInt(&ok, 16)`: fails on the empty string, on a character that is no
hexadecimal digit and on a value that does not fit a 32-bit `int`. -/
def toIntHex (s : QString) : Option Nat :=
  if s.isEmpty then none else
  match hexValue s 0 with
  | some v => if v < 2147483648 then some v else none
  | none => none

end QString

/-! ## Character tables (`character.cpp`) -/

/-- An `EscapeChar`: the output fragment and the number of input code units it stands for. -/
structure EscapeChar where
  str : QString
  inputLength : Nat
deriving DecidableEq, Repr

namespace EscapeChar

/-- The default constructor `EscapeChar()`. -/
def empty : EscapeChar := ⟨[], 0⟩

/-- `EscapeChar::isEmpty`. -/
def isEmpty (e : EscapeChar) : Bool := e.inputLength == 0

/-- `EscapeChar::output`. -/
def output (e : EscapeChar) : QString := e.str

/-- The constructor `EscapeChar(QChar chr, int inputLength)`. -/
def ofChar (chr : QChar) (inputLength : Nat) : EscapeChar :=
  if chr == chQuote then ⟨qs "&quot;", inputLength⟩
  else if chr == ch '<' then ⟨qs "&lt;", inputLength⟩
  else if chr == ch '>' then ⟨qs "&gt;", inputLength⟩
  else if QChar.isUnassigned chr || chr == 0 then ⟨[0xfffd], inputLength⟩
  else ⟨[chr], inputLength⟩

/-- The entries that the constructor of `BackslashEscapedList` inserts, in source order. -/
def backslashEscapedEntries : List (QChar × QString) :=
  [(ch '\n', qs "<br />\n"), (ch '!', qs "!"), (chQuote, qs "&quot;"), (ch '#', qs "#"),
   (ch '$', qs "$"), (ch '%', qs "%"), (ch '&', qs "&amp;"), (chApostrophe, [chApostrophe]),
   (ch '(', qs "("), (ch ')', qs ")"), (ch '*', qs "*"), (ch '+', qs "+"), (ch ',', qs ","),
   (ch '-', qs "-"), (ch '.', qs "."), (ch '/', qs "/"), (ch ':', qs ":"), (ch ';', qs ";"),
   (ch '<', qs "&lt;"), (ch '=', qs "="), (ch '>', qs "&gt;"), (ch '?', qs "?"),
   (ch '@', qs "@"), (ch '[', qs "["), (ch '\\', qs "\\"), (ch ']', qs "]"), (ch '^', qs "^"),
   (ch '_', qs "_"), (chBacktick, [chBacktick]), (chLBrace, [chLBrace]), (ch '|', qs "|"),
   (chRBrace, [chRBrace]), (ch '~', qs "~")]

/-- Number of elements of the array `list_[0xff]`. -/
def backslashEscapedSize : Nat := 0xff

/-- `BackslashEscapedList::operator[]`: the array has `0xff` elements, every one preset to
a literal backslash of input length 1, and is subscripted by the Latin-1 value of `chr`. -/
def backslashEscapedList (chr : QChar) : M EscapeChar :=
  if QChar.toLatin1 chr < backslashEscapedSize then
    match backslashEscapedEntries.lookup (QChar.toLatin1 chr) with
    | some s => pure ⟨s, 2⟩
    | none => pure ⟨qs "\\", 1⟩
  else throw Fault.outOfRange

/-- `EscapeChar::getBackslashEscaped`. -/
def getBackslashEscaped (text : QString) : M EscapeChar :=
  match text with
  | [] => throw Fault.outOfRange
  | [c] => if c != ch '\\' then pure empty else pure ⟨qs "\\", 1⟩
  | c :: d :: _ => if c != ch '\\' then pure empty else backslashEscapedList d

/-- `QChar(int)`: the low 16 bits of the number. -/
def qcharOfInt (n : Nat) : QChar := n % 65536

/-- The digit loop of `getEntityWithHex` over the suffix that starts at `pos`,
which runs while `pos < stop`. -/
def hexLoop : QString → Nat → Nat → QString → EscapeChar
  | [], _, _, _ => empty
  | chr :: rest, pos, stop, hex =>
    if pos < stop then
      if chr == ch ';' then
        match QString.toIntHex hex with
        | none => empty
        | some number => ofChar (qcharOfInt number) (hex.length + 4)
      else if QChar.isLetterOrNumber chr then hexLoop rest (pos + 1) stop (hex ++ [chr])
      else empty
    else empty

/-- `EscapeChar::getEntityWithHex`. -/
def getEntityWithHex (text : QString) : EscapeChar :=
  hexLoop (text.drop 3) 3 (min text.length 12) []

/-- The digit loop of `getEntityWithCode` over the suffix that starts at `pos`. -/
def codeLoop : QString → Nat → Nat → QString → EscapeChar
  | [], _, _, _ => empty
  | chr :: rest, pos, stop, decimal =>
    if pos < stop then
      if chr == ch ';' then
        ofChar (qcharOfInt (QString.decimalValue decimal 0)) (decimal.length + 3)
      else if QChar.isDigit chr then codeLoop rest (pos + 1) stop (decimal ++ [chr])
      else empty
    else empty

/-- `EscapeChar::getEntityWithCode`. -/
def getEntityWithCode (text : QString) : EscapeChar :=
  match text with
  | _ :: c1 :: third :: rest =>
    if text.length ≥ 4 && c1 == ch '#' then
      if third == ch 'x' || third == ch 'X' then getEntityWithHex text
      else if QChar.isDigit third then codeLoop rest 3 (min text.length 11) [third]
      else empty
    else empty
  | _ => empty

/-- The comparison chain of `getEntityWithText` once the semicolon is reached. -/
def namedEntity (temp : QString) : EscapeChar :=
  if temp == qs "nbsp" then ofChar 0xa0 6
  else if temp == qs "amp" then ⟨qs "&amp;", 5⟩
  else if temp == qs "auml" then ⟨qs "ä", 6⟩
  else if temp == qs "ouml" then ⟨qs "ö", 6⟩
  else if temp == qs "copy" then ⟨qs "©", 6⟩
  else if temp == qs "AElig" then ⟨qs "Æ", 7⟩
  else if temp == qs "Dcaron" then ⟨qs "Ď", 8⟩
  else if temp == qs "frac34" then ⟨qs "¾", 8⟩
  else if temp == qs "HilbertSpace" then ⟨qs "ℋ", 14⟩
  else if temp == qs "DifferentialD" then ⟨qs "ⅆ", 15⟩
  else if temp == qs "ClockwiseContourIntegral" then ⟨qs "∲", 26⟩
  else if temp == qs "ngE" then ⟨qs "≧̸", 5⟩
  else empty

/-- The name loop of `getEntityWithText` over the suffix that starts at `pos`. -/
def textLoop : QString → Nat → Nat → QString → EscapeChar
  | [], _, _, _ => empty
  | chr :: rest, pos, stop, temp =>
    if pos < stop then
      if chr == ch ';' then namedEntity temp
      else if QChar.isSpace chr then empty
      else if QChar.isLetterOrNumber chr then textLoop rest (pos + 1) stop (temp ++ [chr])
      else textLoop rest (pos + 1) stop temp
    else empty

/-- `EscapeChar::getEntityWithText`. -/
def getEntityWithText (text : QString) : EscapeChar :=
  textLoop (text.drop 1) 1 (min text.length 26) []

/-- `EscapeChar::get`. -/
def get (text : QString) : M EscapeChar :=
  match text with
  | [] => pure empty
  | c :: _ => do
    let escape ← getBackslashEscaped text
    if !escape.isEmpty then pure escape
    else if c == ch '&' then
      let entity := getEntityWithCode text
      if entity.isEmpty then pure (getEntityWithText text) else pure entity
    else pure empty

end EscapeChar

namespace EntityChar

/-- `EntityChar::get(chr).output()`; the empty string stands for the empty `EntityChar`. -/
def get (chr : QChar) : QString :=
  if chr == chQuote then qs "&quot;"
  else if chr == ch '&' then qs "&amp;"
  else if chr == ch '<' then qs "&lt;"
  else if chr == ch '>' then qs "&gt;"
  else []

end EntityChar

/-! ## Percent encoding (Qt library) -/

namespace Url

/-- UTF-8 bytes of a string of UTF-16 code units, `QString::toUtf8`; an unpaired surrogate
is encoded like any other code unit. -/
def utf8 : QString → List Nat
  | [] => []
  | [c] =>
    if c < 0x80 then [c]
    else if c < 0x800 then [0xc0 + c / 64, 0x80 + c % 64]
    else [0xe0 + c / 4096, 0x80 + (c / 64) % 64, 0x80 + c % 64]
  | c :: d :: rest =>
    if c < 0x80 then c :: utf8 (d :: rest)
    else if c < 0x800 then (0xc0 + c / 64) :: (0x80 + c % 64) :: utf8 (d :: rest)
    else if 0xd800 ≤ c && c < 0xdc00 && 0xdc00 ≤ d && d < 0xe000 then
      let u := 0x10000 + (c - 0xd800) * 1024 + (d - 0xdc00)
      (0xf0 + u / 262144) :: (0x80 + (u / 4096) % 64) :: (0x80 + (u / 64) % 64) ::
        (0x80 + u % 64) :: utf8 rest
    else (0xe0 + c / 4096) :: (0x80 + (c / 64) % 64) :: (0x80 + c % 64) :: utf8 (d :: rest)

/-- An upper-case hexadecimal digit. -/
def hexUpper (d : Nat) : QChar := if d < 10 then 48 + d else 55 + d

/-- The escape `%XX` of one byte. -/
def percentByte (b : Nat) : QString := [ch '%', hexUpper (b / 16), hexUpper (b % 16)]

/-- The unreserved characters of RFC 3986. -/
def isUnreserved (b : Nat) : Bool :=
  (48 ≤ b && b ≤ 57) || (65 ≤ b && b ≤ 90) || (97 ≤ b && b ≤ 122) ||
  b == ch '-' || b == ch '.' || b == ch '_' || b == ch '~'

/-- `QByteArray::toPercentEncoding(exclude)`. -/
def toPercentEncoding (exclude : QString) : List Nat → QString
  | [] => []
  | b :: rest =>
    (if isUnreserved b || exclude.contains b then [b] else percentByte b) ++
      toPercentEncoding exclude rest

/-- `QByteArray::replace("&", "&amp;")`. -/
def replaceAmp : QString → QString
  | [] => []
  | c :: rest => if c == ch '&' then qs "&amp;" ++ replaceAmp rest else c :: replaceAmp rest

/-- Modelled library call `QUrl(temp).toEncoded()`: the unreserved characters, the
delimiters of RFC 3986 and the percent sign are kept and every other byte of the UTF-8
form is escaped. -/
def toEncoded (temp : QString) : QString :=
  toPercentEncoding ([chApostrophe] ++ qs "!$&()*+,;=:/?#[]@%") (utf8 temp)

end Url

/-! ## Text scanner (`texthandler.cpp`) -/

namespace TextHandler

/-- The loop of `skipWhitespace` over the suffix that starts at `pos`; the second
component counts the line breaks. -/
def skipWhitespaceLoop : QString → Nat → Nat → Nat × Nat
  | [], pos, nl => (pos, nl)
  | chr :: rest, pos, nl =>
    if chr == ch '\t' || chr == ch ' ' then skipWhitespaceLoop rest (pos + 1) nl
    else if chr == ch '\n' then skipWhitespaceLoop rest (pos + 1) (nl + 1)
    else (pos, nl)

/-- `TextHandler::skipWhitespace(begin)`. -/
def skipWhitespace (text : QString) (begin : Nat) : Nat :=
  (skipWhitespaceLoop (text.drop begin) begin 0).1

/-- `TextHandler::skipWhitespace(begin, &hasLinebreak)`. -/
def skipWhitespaceLinebreak (text : QString) (begin : Nat) : Nat × Bool :=
  let r := skipWhitespaceLoop (text.drop begin) begin 0
  (r.1, decide (r.2 > 0))

/-- The loop of `isAutolink` over the suffix that starts at position 1. -/
def isAutolinkLoop : QString → Bool
  | [] => false
  | chr :: rest =>
    if chr == ch ':' || chr == ch '@' then true
    else if !QChar.isLetterOrNumber chr && chr != ch '+' && chr != ch '-' then false
    else isAutolinkLoop rest

/-- `TextHandler::isAutolink`. -/
def isAutolink (text : QString) : Bool :=
  match text with
  | c0 :: c1 :: rest =>
    if text.length ≤ 7 || c0 != ch '<' || QChar.isSpace c1 || c1 == ch '/' then false
    else isAutolinkLoop (c1 :: rest)
  | _ => false

/-- The loop `while (text_.at(pos).isSpace()) if (++pos >= length) return QString();`
over the suffix that starts at `pos`; `none` stands for the early return. -/
def labelSkipSpace : QString → Nat → M (Option Nat)
  | [], _ => throw Fault.outOfRange
  | chr :: rest, pos =>
    if QChar.isSpace chr then
      match rest with
      | [] => pure none
      | _ :: _ => labelSkipSpace rest (pos + 1)
    else pure (some pos)

/-- The backtick loop of `findLinkLabel` over the suffix that follows the opening backtick at
`pos`; the result is the position of the closing backtick and the label, `none` for the
early return. -/
def labelCodeLoop : QString → Nat → QString → M (Option (Nat × QString))
  | [], _, _ => pure none
  | chr :: rest, pos, label =>
    if chr == ch '\\' then
      match rest with
      | [] => throw Fault.outOfRange
      | d :: rest2 => labelCodeLoop rest2 (pos + 2) (label ++ [chr, d])
    else if chr == chBacktick then pure (some (pos + 1, label ++ [chr]))
    else labelCodeLoop rest (pos + 1) (label ++ [chr])

/-- The loop `do if (++pos >= length) return QString(); while (text_.at(pos).isSpace());`
over the suffix that follows `pos`; the result is the position of the first character that
is no space. -/
def labelSpaceRun : QString → Nat → Option Nat
  | [], _ => none
  | chr :: rest, pos => if QChar.isSpace chr then labelSpaceRun rest (pos + 1) else some (pos + 1)

mutual

/-- `TextHandler::findLinkLabel(int* begin)`: the label and the new value of `*begin`. -/
def findLinkLabel (text : QString) : Nat → Nat → M (QString × Nat)
  | 0, _ => throw Fault.outOfFuel
  | fuel + 1, begin =>
    let pos := skipWhitespace text begin
    if pos ≥ text.length then pure ([], begin) else do
    let c ← charAt text pos
    if c == ch '[' then do
      let r ← labelSkipSpace (text.drop (pos + 1)) (pos + 1)
      match r with
      | none => pure ([], begin)
      | some pos1 => findLinkLabelLoop text begin fuel pos1 []
    else pure ([], begin)

/-- The `for` loop of `findLinkLabel`. -/
def findLinkLabelLoop (text : QString) (begin : Nat) : Nat → Nat → QString → M (QString × Nat)
  | 0, _, _ => throw Fault.outOfFuel
  | fuel + 1, pos, label =>
    match text[pos]? with
    | none => pure ([], begin)
    | some chr =>
      if chr == ch '[' then do
        let (result, pos1) ← findLinkLabel text fuel pos
        if result.isEmpty && begin < pos1 then pure (result, pos1) else pure (result, begin)
      else if chr == ch ']' then pure (label, pos + 1)
      else if chr == ch '\\' then do
        let d ← charAt text (pos + 1)
        findLinkLabelLoop text begin fuel (pos + 2) (label ++ [chr, d])
      else if chr == chBacktick then do
        let r ← labelCodeLoop (text.drop (pos + 1)) pos (label ++ [chr])
        match r with
        | none => pure ([], begin)
        | some (pos1, label1) => findLinkLabelLoop text begin fuel (pos1 + 1) label1
      else if QChar.isSpace chr then
        match labelSpaceRun (text.drop (pos + 1)) pos with
        | none => pure ([], begin)
        | some pos1 => findLinkLabelLoop text begin fuel pos1 (label ++ [ch ' '])
      else findLinkLabelLoop text begin fuel (pos + 1) (label ++ [chr])

end

/-- Fuel that lets `findLinkLabel` read the whole text. -/
def labelFuel (text : QString) : Nat := 2 * text.length + 2

/-- `TextHandler::findLinkLabel(int* begin, QChar nextChar)`. -/
def findLinkLabelNext (text : QString) (begin : Nat) (nextChar : QChar) : M (QString × Nat) := do
  let (label, pos) ← findLinkLabel text (labelFuel text) begin
  if pos == begin || pos ≥ text.length then pure ([], begin) else do
  let c ← charAt text pos
  if c != nextChar then pure ([], begin) else pure (label, pos + 1)

/-- The angle brackets that `findLinkReference` strips when it meets white space. -/
def stripAngle (temp : QString) : QString :=
  if temp.head? == some (ch '<') && temp.getLast? == some (ch '>') then
    QString.chop (QString.remove temp 0 1) 1
  else temp

/-- The `while` loop of `findLinkReference`: the raw destination and the final position. -/
def findLinkReferenceLoop (text : QString) : Nat → Nat → QString → M (QString × Nat)
  | 0, _, _ => throw Fault.outOfFuel
  | fuel + 1, pos, temp =>
    match text[pos]? with
    | none => pure (temp, pos)
    | some chr =>
      if QChar.isSpace chr then pure (stripAngle temp, pos)
      else do
        let escape ← EscapeChar.get (text.drop pos)
        if !escape.isEmpty then
          findLinkReferenceLoop text fuel (pos + escape.inputLength) (temp ++ escape.output)
        else findLinkReferenceLoop text fuel (pos + 1) (temp ++ [chr])

/-- `TextHandler::findLinkReference(int* begin)`. -/
def findLinkReference (text : QString) (begin : Nat) : M (QString × Nat) := do
  let (temp, pos) ← findLinkReferenceLoop text (text.length + 1) (skipWhitespace text begin) []
  pure (Url.toEncoded temp, pos)

/-- The loop of `findLinkTitle` after the closing quote, over the suffix that follows
`pos`: `none` when a character other than space or tab precedes the line end. -/
def titleTail : QString → Nat → Option Nat
  | [], pos => some (pos + 1)
  | chr :: rest, pos =>
    if chr == ch '\n' then some (pos + 2)
    else if chr != ch ' ' && chr != ch '\t' then none
    else titleTail rest (pos + 1)

/-- The `do ... while (pos < length)` loop of `findLinkTitle`; the result is the title, the
new `*begin` and `*ok`, where `begin` and `ok` are the values on entry of the loop. -/
def findLinkTitleLoop (text : QString) (chr1 : QChar) (begin : Nat) (ok : Bool) :
    Nat → Nat → QString → M (QString × Nat × Bool)
  | 0, _, _ => throw Fault.outOfFuel
  | fuel + 1, pos, title => do
    let chr2 ← charAt text pos
    if chr2 == chr1 then
      match titleTail (text.drop (pos + 1)) pos with
      | none => pure ([], begin, ok)
      | some pos1 => pure (title, pos1, true)
    else do
      let escape ← EscapeChar.get (text.drop pos)
      let pos1 := if !escape.isEmpty then pos + escape.inputLength else pos + 1
      let title1 := if !escape.isEmpty then title ++ escape.output else title ++ [chr2]
      if pos1 < text.length then findLinkTitleLoop text chr1 begin ok fuel pos1 title1
      else pure ([], begin, false)

/-- `TextHandler::findLinkTitle(int* begin, bool* ok)`. -/
def findLinkTitle (text : QString) (begin : Nat) : M (QString × Nat × Bool) := do
  let (pos, ok) := skipWhitespaceLinebreak text begin
  if text.length > pos + 1 then do
    let chr1 ← charAt text pos
    if chr1 == chApostrophe || chr1 == chQuote then
      findLinkTitleLoop text chr1 pos ok (text.length + 1) (pos + 1) []
    else pure ([], pos, true)
  else pure ([], pos, true)

/-- `TextHandler::rest`. -/
def rest (text : QString) (begin : Nat) : QString := text.drop begin

/-- `TextHandler::convertToPercentEncoding`. -/
def convertToPercentEncoding (text : QString) : QString :=
  Url.replaceAmp (Url.toPercentEncoding (qs "@#%()&*/:+=?,") (Url.utf8 text))

/-- The `for` loop of `convertEntityReferecence`; `length` is the length of the
handler's own text, `temp` the copy that is rewritten. -/
def convertEntityLoop (length : Nat) : Nat → Nat → QString → M QString
  | 0, _, _ => throw Fault.outOfFuel
  | fuel + 1, pos, temp =>
    if pos < length then do
      let c ← charAt temp pos
      let entity := EntityChar.get c
      if !entity.isEmpty then
        convertEntityLoop length fuel (pos + (entity.length - 1) + 1)
          (QString.replace temp pos 1 entity)
      else convertEntityLoop length fuel (pos + 1) temp
    else pure temp

/-- `TextHandler::convertEntityReferecence`. -/
def convertEntityReferecence (text : QString) : M QString :=
  convertEntityLoop text.length (text.length + 1) 0 (text.drop (skipWhitespace text 0))

/-- The loop of `skipHTMLComment` over the suffix that starts at `pos`. -/
def skipHTMLCommentLoop (begin : Nat) : QString → Nat → Nat → Nat
  | [], _, _ => begin
  | chr :: rest, pos, count =>
    if count == 2 then (if chr == ch '>' then pos + 1 else begin)
    else skipHTMLCommentLoop begin rest (pos + 1) (if chr == ch '-' then count + 1 else 0)

/-- `TextHandler::skipHTMLComment`. -/
def skipHTMLComment (text : QString) (begin : Nat) : Nat :=
  match text.drop begin with
  | c0 :: c1 :: c2 :: c3 :: c4 :: rest =>
    if c0 != ch '!' || c1 != ch '-' || c2 != ch '-' || c3 == ch '>' ||
        (c3 == ch '-' && c4 == ch '>') then begin
    else skipHTMLCommentLoop begin (c3 :: c4 :: rest) (begin + 3) 0
  | _ => begin

/-- The loop of `skipProcessingInstruction` over the suffix that starts at `pos`. -/
def skipProcessingInstructionLoop (begin : Nat) : QString → Nat → Nat
  | [], _ => begin
  | [_], _ => begin
  | c :: d :: rest, pos =>
    if c == ch '?' && d == ch '>' then pos + 2
    else skipProcessingInstructionLoop begin (d :: rest) (pos + 1)

/-- `TextHandler::skipProcessingInstruction`. -/
def skipProcessingInstruction (text : QString) (begin : Nat) : Nat :=
  match text.drop begin with
  | c0 :: c1 :: rest =>
    if c0 != ch '?' then begin else skipProcessingInstructionLoop begin (c1 :: rest) (begin + 1)
  | _ => begin

/-- The loop `while (++pos < end) if (!text_.at(pos).isUpper()) break;` over the suffix
that follows `pos`: the position where it stops. -/
def upperRun : QString → Nat → Nat
  | [], pos => pos + 1
  | chr :: rest, pos => if !QChar.isUpper chr then pos + 1 else upperRun rest (pos + 1)

/-- The final loop of `skipDeclaration` over the suffix that starts at `pos`. -/
def findGreater (begin : Nat) : QString → Nat → Nat
  | [], _ => begin
  | chr :: rest, pos => if chr == ch '>' then pos + 1 else findGreater begin rest (pos + 1)

/-- `TextHandler::skipDeclaration`. -/
def skipDeclaration (text : QString) (begin : Nat) : M Nat :=
  match text.drop begin with
  | c0 :: c1 :: rest =>
    if c0 != ch '!' then pure begin
    else if !QChar.isUpper c1 then pure begin
    else do
      let pos := upperRun rest (begin + 1)
      let c ← charAt text pos
      if !QChar.isSpace c then pure begin
      else
        let pos1 := skipWhitespace text (pos + 1)
        pure (findGreater begin (text.drop pos1) pos1)
  | _ => pure begin

/-- The loop of `skipCDATASection` over the suffix that starts at `pos`. -/
def skipCDATALoop (begin : Nat) : QString → Nat → Nat
  | [], _ => begin
  | chr :: rest, pos =>
    if chr == ch ']' then
      match rest with
      | d :: e :: _ =>
        if d == ch ']' && e == ch '>' then pos + 3 else skipCDATALoop begin rest (pos + 1)
      | _ => begin
    else skipCDATALoop begin rest (pos + 1)

/-- `TextHandler::skipCDATASection`. -/
def skipCDATASection (text : QString) (begin : Nat) : Nat :=
  match text.drop begin with
  | c0 :: c1 :: c2 :: c3 :: c4 :: c5 :: c6 :: c7 :: rest =>
    if c0 != ch '!' || c1 != ch '[' || c2 != ch 'C' || c3 != ch 'D' || c4 != ch 'A' ||
        c5 != ch 'T' || c6 != ch 'A' || c7 != ch '[' then begin
    else skipCDATALoop begin rest (begin + 8)
  | _ => begin

/-- The loop of `skipTagName` over the suffix that starts at `pos`. -/
def skipTagNameLoop (text : QString) (begin : Nat) : QString → Nat → Nat
  | [], _ => begin
  | chr :: rest, pos =>
    if QChar.isSpace chr then skipWhitespace text (pos + 1)
    else if chr == ch '>' || chr == ch '/' then pos
    else if !QChar.isLetterOrNumber chr && chr != ch '-' then begin
    else skipTagNameLoop text begin rest (pos + 1)

/-- `TextHandler::skipTagName`. -/
def skipTagName (text : QString) (begin : Nat) : Nat :=
  match text.drop begin with
  | [] => begin
  | c :: rest => if !QChar.isLetter c then begin else skipTagNameLoop text begin rest (begin + 1)

/-- The loop of `skipAttributeName` over the suffix that starts at `pos`. -/
def skipAttributeNameLoop (text : QString) (begin : Nat) : QString → Nat → Nat
  | [], _ => begin
  | chr :: rest, pos =>
    if QChar.isSpace chr then skipWhitespace text (pos + 1)
    else if chr == ch '=' || chr == ch '>' || chr == ch '/' then pos
    else if !QChar.isLetterOrNumber chr && chr != ch '_' && chr != ch '.' && chr != ch ':' &&
        chr != ch '-' then begin
    else skipAttributeNameLoop text begin rest (pos + 1)

/-- `TextHandler::skipAttributeName`. -/
def skipAttributeName (text : QString) (begin : Nat) : Nat :=
  match text.drop begin with
  | [] => begin
  | chr :: rest =>
    if !QChar.isLetter chr && chr != ch '_' && chr != ch ':' then begin
    else skipAttributeNameLoop text begin rest (begin + 1)

/-- The loop of `skipUnquotedAttributeValue` over the suffix that starts at `pos`. -/
def skipUnquotedLoop (text : QString) (begin : Nat) : QString → Nat → Nat
  | [], _ => begin
  | chr :: rest, pos =>
    if QChar.isSpace chr then skipWhitespace text (pos + 1)
    else if chr == ch '>' || chr == ch '/' then pos
    else if !QChar.isLetterOrNumber chr && (chr == chQuote || chr == chApostrophe ||
        chr == ch '=' || chr == ch '<' || chr == ch '.') then begin
    else skipUnquotedLoop text begin rest (pos + 1)

/-- `TextHandler::skipUnquotedAttributeValue`. -/
def skipUnquotedAttributeValue (text : QString) (begin : Nat) : Nat :=
  skipUnquotedLoop text begin (text.drop begin) begin

/-- The loop of `skipQuotedAttributeValue` over the suffix that follows `pos`. -/
def skipQuotedLoop (text : QString) (begin : Nat) (delimiter : QChar) : QString → Nat → Nat
  | [], _ => begin
  | chr :: rest, pos =>
    if chr == delimiter then
      match rest with
      | [] => begin
      | d :: _ =>
        if QChar.isSpace d then skipWhitespace text (pos + 3)
        else if d == ch '/' || d == ch '>' then pos + 2
        else begin
    else skipQuotedLoop text begin delimiter rest (pos + 1)

/-- `TextHandler::skipQuotedAttributeValue`. -/
def skipQuotedAttributeValue (text : QString) (begin : Nat) (delimiter : QChar) : Nat :=
  match text.drop begin with
  | [] => begin
  | chr :: rest => if chr != delimiter then begin else skipQuotedLoop text begin delimiter rest begin

/-- `TextHandler::skipSingleQuotedAttributeValue`. -/
def skipSingleQuotedAttributeValue (text : QString) (begin : Nat) : Nat :=
  skipQuotedAttributeValue text begin chApostrophe

/-- `TextHandler::skipDoubleQuotedAttributeValue`. -/
def skipDoubleQuotedAttributeValue (text : QString) (begin : Nat) : Nat :=
  skipQuotedAttributeValue text begin chQuote

/-- The loop of `skipAttribute` that looks for the value after the equals sign, over the
suffix that follows `pos`. -/
def skipAttributeValue (text : QString) (begin : Nat) : QString → Nat → Nat
  | [], _ => begin
  | chr :: rest, pos =>
    if !QChar.isSpace chr then
      let p := pos + 1
      if p != skipUnquotedAttributeValue text p then skipUnquotedAttributeValue text p
      else if p != skipSingleQuotedAttributeValue text p then skipSingleQuotedAttributeValue text p
      else if p == skipDoubleQuotedAttributeValue text p then begin
      else skipDoubleQuotedAttributeValue text p
    else skipAttributeValue text begin rest (pos + 1)

/-- `TextHandler::skipAttribute`. -/
def skipAttribute (text : QString) (begin : Nat) : Nat :=
  let temp := skipAttributeName text begin
  if temp == begin || temp ≥ text.length then begin
  else
    match text.drop temp with
    | [] => begin
    | chr :: rest =>
      if chr == ch '/' || chr == ch '>' then temp
      else if chr != ch '=' then temp
      else skipAttributeValue text begin rest temp

/-- The `while` loop of `skipOpenTag`. -/
def skipOpenTagLoop (text : QString) (begin : Nat) : Nat → Nat → M Nat
  | 0, _ => throw Fault.outOfFuel
  | fuel + 1, pos =>
    match text[pos]? with
    | none => pure begin
    | some chr =>
      if chr == ch '<' || chr == ch '\\' then pure begin
      else
        let endOfAttribute := skipAttribute text pos
        if endOfAttribute == pos then
          if chr == ch '/' then
            (if text[pos + 1]? == some (ch '>') then pure (pos + 2) else pure begin)
          else if chr == ch '>' then pure (pos + 1)
          else pure begin
        else skipOpenTagLoop text begin fuel endOfAttribute

/-- `TextHandler::skipOpenTag`. -/
def skipOpenTag (text : QString) (begin : Nat) : M Nat :=
  let endOfTagName := skipTagName text begin
  if begin == endOfTagName then pure begin
  else skipOpenTagLoop text begin (text.length + 1) endOfTagName

/-- `TextHandler::skipCloseTag`. -/
def skipCloseTag (text : QString) (begin : Nat) : Nat :=
  if text[begin]? != some (ch '/') then begin
  else
    let endOfTagName := skipTagName text (begin + 1)
    if begin + 1 != endOfTagName && text[endOfTagName]? == some (ch '>') then endOfTagName + 1
    else begin

/-- `TextHandler::skipHTMLBlock`. -/
def skipHTMLBlock (text : QString) (begin : Nat) : M Nat :=
  if text[begin]? != some (ch '<') then pure begin
  else do
    let pos := begin + 1
    let t1 ← skipOpenTag text pos
    if pos != t1 then pure t1 else
    let t2 := skipCloseTag text pos
    if pos != t2 then pure t2 else
    let t3 := skipHTMLComment text pos
    if pos != t3 then pure t3 else
    let t4 := skipProcessingInstruction text pos
    if pos != t4 then pure t4 else do
    let t5 ← skipDeclaration text pos
    if pos != t5 then pure t5 else
    let t6 := skipCDATASection text pos
    if pos != t6 then pure t6 else pure begin

end TextHandler

/-! ## HTML tag catalogue (`htmltag.cpp`) -/

/-- The compiled patterns of `HTMLTag`: the five openers and the five closers of
`type12345List` (the closer of type 1 is also `type1CloseTag`). -/
inductive HtmlPattern where
  /-- `^\s*<(script|pre|style)([\s>].*|)$` -/
  | open1
  /-- `^\s*<!--` -/
  | open2
  /-- `^\s*<\?` -/
  | open3
  /-- `^\s*<![A-Z]` -/
  | open4
  /-- `^\s*<!\[CDATA\[` -/
  | open5
  /-- `</(script|pre|style)>` -/
  | close1
  /-- `-->` -/
  | close2
  /-- `\?>` -/
  | close3
  /-- `>` -/
  | close4
  /-- `]]>` -/
  | close5
deriving DecidableEq, Repr

namespace HtmlPattern

/-- The class `\s` of the pattern language. -/
def isReSpace (c : QChar) : Bool := c == 32 || (9 ≤ c && c ≤ 13)

/-- The subject after the leading `\s*`. -/
def skipReSpace (s : QString) : QString := s.dropWhile isReSpace

/-- What may follow the tag name in the opener of type 1: `([\s>].*|)$`. -/
def open1Tail (s : QString) : Bool :=
  match s with
  | [] => true
  | c :: _ => isReSpace c || c == ch '>'

/-- A match of the opener of type 1 at the start of the subject. -/
def matchOpen1 (line : QString) : Bool :=
  let s := skipReSpace line
  (QString.startsWith s (qs "<script") && open1Tail (s.drop 7)) ||
  (QString.startsWith s (qs "<pre") && open1Tail (s.drop 4)) ||
  (QString.startsWith s (qs "<style") && open1Tail (s.drop 6))

/-- A match of `^\s*<![A-Z]` at the start of the subject. -/
def matchOpen4 (line : QString) : Bool :=
  match skipReSpace line with
  | c0 :: c1 :: c2 :: _ => c0 == ch '<' && c1 == ch '!' && 65 ≤ c2 && c2 ≤ 90
  | _ => false

/-- An occurrence of one of the fixed strings `alts` in the suffix `s`. -/
def searchAny (alts : List QString) : QString → Bool
  | [] => alts.any fun p => p.isEmpty
  | c :: s => (alts.any fun p => QString.startsWith (c :: s) p) || searchAny alts s

/-- `QRegularExpression::match(line, offset).hasMatch()`: an anchored pattern matches only
from offset 0, the others are searched for from `offset` on. -/
def hasMatch (p : HtmlPattern) (line : QString) (offset : Nat) : Bool :=
  match p with
  | open1 => offset == 0 && matchOpen1 line
  | open2 => offset == 0 && QString.startsWith (skipReSpace line) (qs "<!--")
  | open3 => offset == 0 && QString.startsWith (skipReSpace line) (qs "<?")
  | open4 => offset == 0 && matchOpen4 line
  | open5 => offset == 0 && QString.startsWith (skipReSpace line) (qs "<![CDATA[")
  | close1 => searchAny [qs "</script>", qs "</pre>", qs "</style>"] (line.drop offset)
  | close2 => searchAny [qs "-->"] (line.drop offset)
  | close3 => searchAny [qs "?>"] (line.drop offset)
  | close4 => searchAny [qs ">"] (line.drop offset)
  | close5 => searchAny [qs "]]>"] (line.drop offset)

end HtmlPattern

namespace HTMLTag

/-- `HTMLTag::type1CloseTag`. -/
def type1CloseTag : HtmlPattern := HtmlPattern.close1

/-- `HTMLTag::type12345List`. -/
def type12345List : List (HtmlPattern × HtmlPattern) :=
  [(.open1, .close1), (.open2, .close2), (.open3, .close3), (.open4, .close4), (.open5, .close5)]

/-- The names in the order of the `prepend` calls of the constructor. -/
def type6Prepended : List String :=
  ["address", "article", "aside", "base", "basefont", "blockquote", "body", "caption",
   "center", "col", "colgroup", "dd", "details", "dialog", "dir", "div", "dl", "dt",
   "fieldset", "figcaption", "figure", "footer", "form", "frame", "frameset", "h1", "h2",
   "h3", "h4", "h5", "h6", "head", "header", "hr", "html", "iframe", "legend", "li", "link",
   "main", "menu", "menuitem", "meta", "nav", "noframes", "ol", "optgroup", "option", "p",
   "param", "section", "source", "summary", "table", "tbody", "td", "tfoot", "th", "thead",
   "title", "tr", "track", "ul"]

/-- `HTMLTag::type6List`: every `prepend` puts its name in front of the earlier ones. -/
def type6List : List QString := (type6Prepended.map qs).reverse

end HTMLTag

/-! ## Line scanner (`linehandler.cpp`) -/

/-- The six fields of a `LineHandler`. -/
structure LineHandler where
  line : QString
  physicalPosition : Nat
  logicalPosition : Nat
  offset : Nat
  depth : Nat
  indent : Nat
deriving DecidableEq, Repr

namespace LineHandler

/-- `LineHandler::TAB_SIZE`. -/
def TAB_SIZE : Nat := 4

/-- The public constructor `LineHandler(line)`. -/
def new (line : QString) : LineHandler := ⟨line, 0, 0, 0, 0, 0⟩

/-- A run of `n` spaces. -/
def spaces (n : Nat) : QString := List.replicate n (ch ' ')

/-- `LineHandler::currentTextRef`. -/
def currentTextRef (lh : LineHandler) : QString := lh.line.drop lh.physicalPosition

/-- `LineHandler::currentText`. -/
def currentText (lh : LineHandler) : QString := spaces lh.offset ++ lh.currentTextRef

/-- `LineHandler::putLinebreakAtBOL`. -/
def putLinebreakAtBOL (lh : LineHandler) : QString :=
  (qs "\n    ").take (lh.offset + 1) ++ lh.currentTextRef

/-- `LineHandler::putLinebreakAtEOL`. -/
def putLinebreakAtEOL (lh : LineHandler) : QString :=
  spaces lh.offset ++ lh.currentTextRef ++ [ch '\n']

/-- `LineHandler::position`. -/
def position (lh : LineHandler) : Nat := lh.logicalPosition

/-- First index of `chr` in the suffix that starts at `pos`, or -1. -/
def indexOfLoop (chr : QChar) : QString → Nat → Int
  | [], _ => -1
  | c :: rest, pos => if c == chr then (pos : Int) else indexOfLoop chr rest (pos + 1)

/-- `LineHandler::indexOf`. -/
def indexOf (lh : LineHandler) (chr : QChar) : Int :=
  indexOfLoop chr (lh.line.drop lh.physicalPosition) lh.physicalPosition

/-- The loop of `countIndent` over the suffix that starts at `pos`. -/
def countIndentLoop : QString → Nat → Nat → Nat
  | [], _, count => count
  | chr :: rest, pos, count =>
    if chr == ch '\t' then countIndentLoop rest (pos + 1) (count + (TAB_SIZE - pos % TAB_SIZE))
    else if chr == ch ' ' then countIndentLoop rest (pos + 1) (count + 1)
    else count

/-- `LineHandler::countIndent`. -/
def countIndent (lh : LineHandler) : Nat := countIndentLoop lh.line 0 0

/-- The loop of `removeIndent` over the suffix that starts at `pos`: the final `pos`,
`logical` and `offset`. -/
def removeIndentLoop (target : Nat) : QString → Nat → Nat → Nat × Nat × Nat
  | [], pos, logical => (pos, logical, 0)
  | chr :: rest, pos, logical =>
    if logical ≥ target then (pos, target, logical - target)
    else if chr == ch '\t' then
      removeIndentLoop target rest (pos + 1) (logical + (TAB_SIZE - logical % TAB_SIZE))
    else if chr == ch ' ' then removeIndentLoop target rest (pos + 1) (logical + 1)
    else (pos, logical, 0)

/-- The part of `removeIndent` that is reached when `indent > indent_`. -/
def removeIndentFrom (lh : LineHandler) (indent : Nat) : LineHandler :=
  let target := lh.logicalPosition + indent - lh.indent
  let r := removeIndentLoop target (lh.line.drop lh.physicalPosition) lh.physicalPosition
    (lh.logicalPosition + lh.offset)
  ⟨lh.line, r.1, r.2.1, r.2.2, lh.depth, (r.2.1 - lh.logicalPosition) + lh.indent⟩

/-- `LineHandler::removeIndent`; the recursive call on `LineHandler(line_)` is unfolded,
the indent of that fresh scanner being 0. -/
def removeIndent (lh : LineHandler) (indent : Nat) : LineHandler :=
  if indent == lh.indent then lh
  else if indent < lh.indent then
    (if indent == 0 then new lh.line else removeIndentFrom (new lh.line) indent)
  else removeIndentFrom lh indent

/-- The loop `while (--pos > physicalPosition_) if (stop(line_.at(pos))) break;`: the
value of `pos` when the loop is left, for the value `pos` on entry. -/
def scanBack (line_ : QString) (phys : Nat) (stop : QChar → Bool) : Nat → Int
  | 0 => -1
  | pos + 1 =>
    if pos > phys then
      match line_[pos]? with
      | some c => if stop c then (pos : Int) else scanBack line_ phys stop pos
      | none => (pos : Int)
    else (pos : Int)

/-- Neither space nor tab. -/
def notBlankChar (c : QChar) : Bool := c != ch ' ' && c != ch '\t'

/-- `LineHandler::removeLastSequence`. -/
def removeLastSequence (lh : LineHandler) (chr : QChar) : LineHandler :=
  let phys := lh.physicalPosition
  let pos1 := scanBack lh.line phys notBlankChar lh.line.length
  if pos1 ≤ (phys : Int) || lh.line[pos1.toNat]? != some chr then lh
  else
    let pos2 := scanBack lh.line phys (fun c => c != chr) pos1.toNat
    if pos2 == (phys : Int) then { lh with line := lh.line.take pos2.toNat }
    else if lh.line[pos2.toNat]? != some (ch ' ') && lh.line[pos2.toNat]? != some (ch '\t') then lh
    else
      let pos3 := scanBack lh.line phys notBlankChar pos2.toNat
      { lh with line := lh.line.take (pos3 + 1).toNat }

/-- The loop of `skipWhitespace` over the suffix that starts at `physical`. -/
def skipWhitespaceLoop : QString → Nat → Nat → Nat → Nat × Nat × Nat
  | [], physical, logical, indent => (physical, logical, indent)
  | chr :: rest, physical, logical, indent =>
    if chr == ch '\t' then
      let diff := TAB_SIZE - logical % TAB_SIZE
      skipWhitespaceLoop rest (physical + 1) (logical + diff) (indent + diff)
    else if chr == ch ' ' then skipWhitespaceLoop rest (physical + 1) (logical + 1) (indent + 1)
    else (physical, logical, indent)

/-- `LineHandler::skipWhitespace`. -/
def skipWhitespace (lh : LineHandler) : LineHandler :=
  let r := skipWhitespaceLoop (lh.line.drop lh.physicalPosition) lh.physicalPosition
    lh.logicalPosition lh.indent
  { lh with physicalPosition := r.1, logicalPosition := r.2.1, indent := r.2.2 }

/-- `LineHandler::trimmed`. -/
def trimmed (lh : LineHandler) : QString := QString.trimmed (lh.line.drop lh.physicalPosition)

/-- `LineHandler::matchHTMLOpenTag`. -/
def matchHTMLOpenTag (lh : LineHandler) (tag : HtmlPattern) : Bool :=
  tag.hasMatch lh.line lh.physicalPosition

/-- `LineHandler::matchHTMLCloseTag`. -/
def matchHTMLCloseTag (lh : LineHandler) (tag : HtmlPattern) : Bool := lh.matchHTMLOpenTag tag

/-- `QString::compare`: the sign of the comparison by code units. -/
def compareStr : QString → QString → Int
  | [], [] => 0
  | [], _ :: _ => -1
  | _ :: _, [] => 1
  | a :: s, b :: t => if a < b then -1 else if a > b then 1 else compareStr s t

/-- The `for` loop of `matchHTMLTag` over the tag names; `temp` is the text after
`<` or `</`. -/
def matchTagNames (temp : QString) : List QString → Bool
  | [] => false
  | tagName :: more =>
    let pos := tagName.length
    let result := compareStr tagName (temp.take pos)
    if result > 0 then matchTagNames temp more
    else if result < 0 then false
    else if pos ≥ temp.length then true
    else
      match temp.drop pos with
      | [] => true
      | chr :: after =>
        QChar.isSpace chr || chr == ch '>' ||
          (chr == ch '/' && decide (pos + 1 < temp.length) && after.head? == some (ch '>'))

/-- The `while` loop of `matchHTMLTag` over the suffix that starts at `pos`. -/
def matchHTMLTagLoop (tagList : List QString) (length : Nat) : QString → Nat → Bool
  | [], _ => false
  | chr :: rest, pos =>
    if pos + 3 < length then
      if QChar.isSpace chr then matchHTMLTagLoop tagList length rest (pos + 1)
      else if chr != ch '<' then false
      else
        match rest with
        | [] => false
        | d :: rest2 => matchTagNames (if d == ch '/' then rest2 else d :: rest2) tagList
    else false

/-- `LineHandler::matchHTMLTag(tagList)`. -/
def matchHTMLTag (lh : LineHandler) (tagList : List QString) : Bool :=
  matchHTMLTagLoop tagList lh.line.length (lh.line.drop lh.physicalPosition) lh.physicalPosition

/-- The loop of `findHeadingMarker` over the suffix that starts at `pos`; `none` stands
for the two `return 0` (and `return false`) statements inside the loop. -/
def findHeadingMarkerLoop : QString → Nat → Nat → Nat → Option (Nat × Nat × Nat × Nat)
  | [], count, pos, logical => some (count, pos, logical, 0)
  | chr :: rest, count, pos, logical =>
    if chr == ch '#' then
      if count ≥ 6 then none else findHeadingMarkerLoop rest (count + 1) (pos + 1) (logical + 1)
    else if chr == ch ' ' then some (count, pos + 1, logical + 1, 0)
    else if chr == ch '\t' then
      some (count, pos + 1, logical + 1, TAB_SIZE - logical % TAB_SIZE - 1)
    else none

/-- `LineHandler::findHeadingMarker`: the count and the scanner afterwards. -/
def findHeadingMarker (lh : LineHandler) : Nat × LineHandler :=
  match findHeadingMarkerLoop (lh.line.drop lh.physicalPosition) 0 lh.physicalPosition
      (lh.logicalPosition + lh.offset) with
  | none => (0, lh)
  | some (count, pos, logical, offset) =>
    if count > 0 then
      (count, { lh with physicalPosition := pos, logicalPosition := logical, offset := offset })
    else (count, lh)

/-- The local state of the loop of `matchBlockQuote`. -/
structure QuoteScan where
  physical : Nat
  logical : Nat
  indent : Int
  depth : Nat
  offset : Nat
  lastPhysical : Nat
  lastLogical : Nat
  lastIndent : Int
deriving DecidableEq, Repr

/-- The branch `if (indent_ > 3)` of `matchBlockQuote`: go back to the character after the
last marker. -/
def quoteBackUp (line_ : QString) (q : QuoteScan) : QuoteScan :=
  { q with
    offset := if line_[q.lastPhysical]? == some (ch '\t')
      then TAB_SIZE - q.lastLogical % TAB_SIZE - 1 else q.offset
    logical := q.lastLogical + 1
    physical := q.lastPhysical + 1
    indent := q.lastIndent }

/-- The loop of `matchBlockQuote` over the suffix that starts at `q.physical`. -/
def matchBlockQuoteLoop (line_ : QString) : QString → QuoteScan → QuoteScan
  | [], q => q
  | chr :: rest, q =>
    if chr == ch '\t' then
      let tabSize := TAB_SIZE - q.logical % TAB_SIZE
      let q1 := { q with indent := q.indent + tabSize }
      if q1.indent > 3 then quoteBackUp line_ q1
      else matchBlockQuoteLoop line_ rest
        { q1 with physical := q1.physical + 1, logical := q1.logical + tabSize }
    else if chr == ch ' ' then
      let q1 := { q with indent := q.indent + 1 }
      if q1.indent > 3 then quoteBackUp line_ q1
      else matchBlockQuoteLoop line_ rest
        { q1 with physical := q1.physical + 1, logical := q1.logical + 1 }
    else if chr == ch '>' then
      matchBlockQuoteLoop line_ rest
        { q with depth := q.depth + 1, indent := -1, physical := q.physical + 1,
                 logical := q.logical + 1, lastPhysical := q.physical + 1,
                 lastLogical := q.logical + 1, lastIndent := -1 }
    else q

/-- `LineHandler::matchBlockQuote`: the result and the scanner afterwards. -/
def matchBlockQuote (lh : LineHandler) : Bool × LineHandler :=
  match lh.line.drop lh.physicalPosition with
  | [] => (false, lh)
  | c :: rest =>
    if c != ch '>' then (false, lh)
    else
      let phys := lh.physicalPosition + 1
      let logical := lh.logicalPosition + (lh.offset + 1)
      let q := matchBlockQuoteLoop lh.line rest
        ⟨phys, logical, 0, lh.depth + 1, 0, phys, logical, 0⟩
      (true, ⟨lh.line, q.physical, q.logical, q.offset, q.depth,
        if q.indent < 0 then 0 else q.indent.toNat⟩)

/-- The loop of `skipFenceChar` over the suffix that starts at the cursor. -/
def skipFenceCharLoop (fenceChr : QChar) : QString → Nat → Nat
  | [], count => count
  | chr :: rest, count => if chr != fenceChr then count else skipFenceCharLoop fenceChr rest (count + 1)

/-- `LineHandler::skipFenceChar`: the count and the scanner afterwards. -/
def skipFenceChar (lh : LineHandler) (fenceChr : QChar) : Nat × LineHandler :=
  let count := skipFenceCharLoop fenceChr (lh.line.drop lh.physicalPosition) 0
  (count, { lh with physicalPosition := lh.physicalPosition + count,
                    logicalPosition := lh.logicalPosition + count })

/-- `LineHandler::firstWord`. -/
def firstWord (lh : LineHandler) : QString :=
  match (lh.line.drop lh.physicalPosition).dropWhile (fun c => c == ch ' ' || c == ch '\t') with
  | [] => []
  | c :: rest => c :: rest.takeWhile (fun c => !(c == ch ' ' || c == ch '\t'))

/-- The loop of `skipWhitespaceFollowedListMarker` over the suffix that starts at `pos`;
`none` stands for `return false`. -/
def listMarkerLoop (lh : LineHandler) (beginPos beginLogical : Nat) :
    QString → Nat → Nat → Nat → M (Option LineHandler)
  | [], pos, logical, _ =>
    pure (some { lh with physicalPosition := pos,
                         indent := lh.indent + (logical - lh.logicalPosition),
                         logicalPosition := logical })
  | chr :: rest, pos, logical, count =>
    if chr == ch ' ' then
      if count + 1 > 4 then
        pure (some { lh with physicalPosition := beginPos + 1,
                             indent := lh.indent + (beginLogical - lh.logicalPosition + 1),
                             logicalPosition := beginLogical + 1 })
      else listMarkerLoop lh beginPos beginLogical rest (pos + 1) (logical + 1) (count + 1)
    else if chr == ch '\t' then
      let diff := TAB_SIZE - logical % TAB_SIZE
      if count + diff > 4 then do
        let c ← charAt lh.line beginLogical
        pure (some { lh with offset := if c == ch '\t' then TAB_SIZE - beginLogical % TAB_SIZE - 1
                                       else 0,
                             physicalPosition := beginPos + 1,
                             indent := lh.indent + (beginLogical - lh.logicalPosition + 1),
                             logicalPosition := beginLogical + 1 })
      else listMarkerLoop lh beginPos beginLogical rest (pos + 1) (logical + diff) (count + diff)
    else if count == 0 then pure none
    else
      pure (some { lh with physicalPosition := pos,
                           indent := lh.indent + (logical - lh.logicalPosition),
                           logicalPosition := logical })

/-- `LineHandler::skipWhitespaceFollowedListMarker`. -/
def skipWhitespaceFollowedListMarker (lh : LineHandler) (beginPos beginLogical : Nat) :
    M (Option LineHandler) :=
  listMarkerLoop lh beginPos beginLogical (lh.line.drop beginPos) beginPos beginLogical 0

/-- The loop of `findBullet(bullet)` and of `findDigit` that skips white space, over the
suffix that starts at `pos`: the final `pos` and `logical`. -/
def skipToMarker : QString → Nat → Nat → Nat × Nat
  | [], pos, logical => (pos, logical)
  | chr :: rest, pos, logical =>
    if chr == ch ' ' then skipToMarker rest (pos + 1) (logical + 1)
    else if chr == ch '\t' then skipToMarker rest (pos + 1) (logical + (TAB_SIZE - pos % TAB_SIZE))
    else (pos, logical)

/-- `LineHandler::findBullet(QChar bullet)`; `none` stands for `return false`. -/
def findBulletChar (lh : LineHandler) (bullet : QChar) : M (Option LineHandler) :=
  let r := skipToMarker (lh.line.drop lh.physicalPosition) lh.physicalPosition lh.logicalPosition
  let pos1 := r.1
  let logical1 := r.2
  if lh.line[pos1]? != some bullet then pure none
  else if pos1 + 1 == lh.line.length then
    pure (some { lh with physicalPosition := lh.line.length,
                         indent := lh.indent + (logical1 - lh.logicalPosition + 2),
                         logicalPosition := logical1 + 1 })
  else skipWhitespaceFollowedListMarker lh (pos1 + 1) (logical1 + 1)

/-- `LineHandler::findBullet()`: the bullet (0 for none) and the scanner afterwards. -/
def findBullet (lh : LineHandler) : M (QChar × LineHandler) := do
  match ← findBulletChar lh (ch '-') with
  | some lh1 => pure (ch '-', lh1)
  | none =>
    match ← findBulletChar lh (ch '+') with
    | some lh1 => pure (ch '+', lh1)
    | none =>
      match ← findBulletChar lh (ch '*') with
      | some lh1 => pure (ch '*', lh1)
      | none => pure (0, lh)

/-- The loop of `findDigit` over the suffix that starts at `stop`, `begin` being the
position of the first digit: the reference and the scanner afterwards. -/
def findDigitLoop (lh : LineHandler) (begin : Nat) : QString → Nat → Nat → Nat →
    M (QString × LineHandler)
  | [], _, _, _ => pure ([], lh)
  | chr :: rest, stop, logical, count =>
    if QChar.isDigit chr then
      if count + 1 > 9 then pure ([], lh)
      else findDigitLoop lh begin rest (stop + 1) (logical + 1) (count + 1)
    else if chr == ch '.' || chr == ch ')' then do
      match ← skipWhitespaceFollowedListMarker lh (stop + 1) (logical + 1) with
      | some lh1 => pure ((lh.line.drop begin).take (stop - begin + 1), lh1)
      | none => pure ([], lh)
    else pure ([], lh)

/-- `LineHandler::findDigit`: the reference and the scanner afterwards. -/
def findDigit (lh : LineHandler) : M (QString × LineHandler) :=
  let r := skipToMarker (lh.line.drop lh.physicalPosition) lh.physicalPosition lh.logicalPosition
  let begin := r.1
  let logical := r.2
  match lh.line.drop begin with
  | c :: d :: rest =>
    if !QChar.isDigit c then pure ([], lh)
    else findDigitLoop lh begin (d :: rest) (begin + 1) (logical + 1) 1
  | _ => pure ([], lh)

/-- `LineHandler::isAutolink`. -/
def isAutolink (lh : LineHandler) : Bool := TextHandler.isAutolink lh.line

/-- `LineHandler::isHTMLTagType7`. -/
def isHTMLTagType7 (lh : LineHandler) : M Bool := do
  let begin := TextHandler.skipWhitespace lh.line 0
  let c ← charAt lh.line begin
  if c == ch '<' then do
    let begin1 := begin + 1
    let pos ← TextHandler.skipOpenTag lh.line begin1
    if begin1 != pos then pure (decide (TextHandler.skipWhitespace lh.line pos ≥ lh.line.length))
    else
      let pos1 := TextHandler.skipCloseTag lh.line begin1
      if begin1 != pos1 then
        pure (decide (TextHandler.skipWhitespace lh.line pos1 ≥ lh.line.length))
      else pure false
  else pure false

/-- `LineHandler::isBlank`. -/
def isBlank (lh : LineHandler) : Bool :=
  (lh.line.drop lh.physicalPosition).all fun chr => chr == ch ' ' || chr == ch '\t'

/-- `LineHandler::noWhitespace`. -/
def noWhitespace (lh : LineHandler) : QString :=
  (lh.line.drop lh.physicalPosition).filter fun chr => chr != ch ' ' && chr != ch '\t'

end LineHandler

/-! ## Emphasis state (`precedence.cpp`) -/

/-- A `Precedence`; the text it points to is the line of the inline parser and is passed
to the operations that read it. The null tag pointer is the empty string. -/
structure Precedence where
  delimiter : QChar
  count : Nat
  tag : QString
  begin_ : Int
  end_ : Int
deriving DecidableEq, Repr

namespace Precedence

/-- The constructor `Precedence(text)`. -/
def new : Precedence := ⟨0, 0, [], -1, -1⟩

/-- `Precedence::reset`. -/
def reset (_p : Precedence) : Precedence := ⟨0, 0, [], -1, -1⟩

/-- `Precedence::init`. -/
def init (_p : Precedence) (delimiter : QChar) (tag : QString) (begin : Nat) : Precedence :=
  ⟨delimiter, 1, tag, begin, -1⟩

/-- `Precedence::isEmpty`. -/
def isEmpty (p : Precedence) : Bool := p.begin_ < 0

/-- `Precedence::isIncomplete`. -/
def isIncomplete (p : Precedence) : Bool := p.end_ < 0

/-- `Precedence::isAheadOf`. -/
def isAheadOf (p : Precedence) (pos : Int) : Bool := pos > p.begin_

/-- `Precedence::isSameDelimiterAs`. -/
def isSameDelimiterAs (p : Precedence) (delimiter : QChar) : Bool := p.delimiter == delimiter

/-- `Precedence::isContinued(QChar, int)`. -/
def isContinuedAt (p : Precedence) (delimiter : QChar) (pos : Nat) : Bool :=
  p.delimiter == delimiter && p.begin_ + 1 == (pos : Int)

/-- `Precedence::isContinued(const Precedence&)`. -/
def isContinued (p other : Precedence) : Bool :=
  p.delimiter == other.delimiter && p.begin_ + 1 == other.begin_

/-- `Precedence::htmlLeftPart`: the text appended and the new last position. -/
def htmlLeftPart (p : Precedence) (text applied : QString) (lastPos : Int) : QString × Int :=
  (applied ++ QString.mid text lastPos.toNat (p.begin_ - lastPos) ++ [ch '<'] ++ p.tag ++ [ch '>'],
   p.begin_ + p.count)

/-- `Precedence::htmlRightPart`. -/
def htmlRightPart (p : Precedence) (text applied : QString) (lastPos : Int) : QString × Int :=
  (applied ++ QString.mid text lastPos.toNat (p.end_ - p.count - lastPos) ++ qs "</" ++ p.tag ++
    [ch '>'], p.end_)

/-- `Precedence::plainTextLeftPart`. -/
def plainTextLeftPart (p : Precedence) (text applied : QString) (lastPos : Int) : QString × Int :=
  (applied ++ QString.mid text lastPos.toNat (p.begin_ - lastPos), p.begin_ + p.count)

/-- `Precedence::plainTextRightPart`. -/
def plainTextRightPart (p : Precedence) (text applied : QString) (lastPos : Int) : QString × Int :=
  (applied ++ QString.mid text lastPos.toNat (p.end_ - p.count - lastPos), p.end_)

/-- `Precedence::isLeftFlankingDelimiterRun`. -/
def isLeftFlankingDelimiterRun (text : QString) (pos size : Nat) : M Bool :=
  if pos + size ≥ text.length then pure false
  else do
    let followed ← charAt text (pos + size)
    if QChar.isSpace followed then pure false
    else if !QChar.isPunct followed || pos == 0 then pure true
    else do
      let preceded ← charAt text (pos - 1)
      pure (QChar.isSpace preceded || QChar.isPunct preceded)

/-- `Precedence::isRightFlankingDelimiterRun`. -/
def isRightFlankingDelimiterRun (text : QString) (pos size : Nat) : M Bool :=
  if pos == 0 then pure false
  else do
    let preceded ← charAt text (pos - 1)
    if QChar.isSpace preceded then pure false
    else if !QChar.isPunct preceded || pos + size ≥ text.length then pure true
    else do
      let followed ← charAt text (pos + size)
      pure (QChar.isSpace followed || QChar.isPunct followed)

/-- The check of `close(int)` that a doubled delimiter is followed by delimiters only:
`false` stands for the `return false` inside the loop. -/
def restIsOnly (text : QString) (pos : Nat) (d : QChar) : Bool :=
  if text[pos + 1]? == some d then (text.drop (pos + 2)).all fun c => c == d else true

/-- `Precedence::close(int pos)`: the result and the record afterwards. -/
def close (p : Precedence) (text : QString) (pos : Nat) : M (Bool × Precedence) := do
  let c ← charAt text pos
  if c == ch '*' then
    if !restIsOnly text pos (ch '*') then pure (false, p)
    else if p.delimiter != c then pure (false, p)
    else do
      let r ← isRightFlankingDelimiterRun text pos 1
      if r then pure (true, { p with end_ := (pos : Int) + p.count }) else pure (false, p)
  else if c == ch '_' then
    if !restIsOnly text pos (ch '_') then pure (false, p)
    else if p.delimiter != c then pure (false, p)
    else do
      let r ← isRightFlankingDelimiterRun text pos 1
      if !r then pure (false, p)
      else do
        let l ← isLeftFlankingDelimiterRun text pos 1
        if !l then pure (true, { p with end_ := (pos : Int) + p.count })
        else if pos + 1 < text.length then do
          let n ← charAt text (pos + 1)
          if QChar.isPunct n then pure (true, { p with end_ := (pos : Int) + p.count })
          else pure (false, p)
        else pure (false, p)
  else pure (false, p)

/-- The effect of a successful `close(int* pos, Precedence* inner)` on the outer and the
inner record. -/
def closeBoth (outer inner : Precedence) (pos : Nat) : Precedence × Precedence :=
  ({ outer with count := outer.count + 1, end_ := (pos : Int) + 2, tag := qs "strong" },
   { inner with end_ := -1 })

/-- `Precedence::close(int* pos, Precedence* inner)`: the result, the new `*pos`, the
receiver and the inner record afterwards. -/
def closeWith (outer inner : Precedence) (text : QString) (pos : Nat) :
    M (Bool × Nat × Precedence × Precedence) := do
  let c ← charAt text pos
  if c == ch '*' then
    if pos + 1 < text.length && text[pos + 1]? == some (ch '*') && outer.delimiter == ch '*' &&
        inner.delimiter == ch '*' && outer.begin_ + 1 == inner.begin_ then do
      let r ← isRightFlankingDelimiterRun text pos 2
      if r then
        let b := closeBoth outer inner pos
        pure (true, pos + 1, b.1, b.2)
      else pure (false, pos, outer, inner)
    else pure (false, pos, outer, inner)
  else if c == ch '_' then
    if pos + 1 < text.length && text[pos + 1]? == some (ch '_') && outer.delimiter == ch '_' &&
        inner.delimiter == ch '_' && outer.begin_ + 1 == inner.begin_ then do
      let r ← isRightFlankingDelimiterRun text pos 2
      if !r then pure (false, pos, outer, inner)
      else do
        let l ← isLeftFlankingDelimiterRun text pos 2
        let b := closeBoth outer inner pos
        if !l then pure (true, pos + 1, b.1, b.2)
        else if pos + 1 < text.length then do
          let n ← charAt text (pos + 2)
          if QChar.isPunct n then pure (true, pos + 1, b.1, b.2)
          else pure (false, pos, outer, inner)
        else pure (false, pos, outer, inner)
    else pure (false, pos, outer, inner)
  else pure (false, pos, outer, inner)

/-- The condition under which `open` accepts an underscore run of the given size. -/
def openUnderscore (text : QString) (pos size : Nat) : M Bool := do
  let l ← isLeftFlankingDelimiterRun text pos size
  if !l then pure false
  else do
    let r ← isRightFlankingDelimiterRun text pos size
    if !r then pure true
    else if pos > 0 then do
      let c ← charAt text (pos - 1)
      pure (QChar.isPunct c)
    else pure false

/-- `Precedence::open(int* pos, Precedence* second)`: the result, the new `*pos`, the
receiver and the second record afterwards. -/
def «open» (first second : Precedence) (text : QString) (pos : Nat) :
    M (Bool × Nat × Precedence × Precedence) := do
  let c ← charAt text pos
  if c == ch '*' then do
    let n ← charAt text (pos + 1)
    if n == ch '*' then do
      let l ← isLeftFlankingDelimiterRun text pos 2
      if l then pure (true, pos + 1, first.init (ch '*') (qs "em") pos,
        second.init (ch '*') (qs "em") (pos + 1))
      else pure (false, pos + 1, first.reset, second.reset)
    else do
      let l ← isLeftFlankingDelimiterRun text pos 1
      if l then pure (true, pos, first.init (ch '*') (qs "em") pos, second.reset)
      else pure (false, pos, first.reset, second.reset)
  else if c == ch '_' then do
    let n ← charAt text (pos + 1)
    if n == ch '_' then do
      let ok ← openUnderscore text pos 2
      if ok then pure (true, pos + 1, first.init (ch '_') (qs "em") pos,
        second.init (ch '_') (qs "em") (pos + 1))
      else pure (false, pos + 1, first.reset, second.reset)
    else do
      let ok ← openUnderscore text pos 1
      if ok then pure (true, pos, first.init (ch '_') (qs "em") pos, second.reset)
      else pure (false, pos, first.reset, second.reset)
  else pure (false, pos, first.reset, second.reset)

end Precedence

/-! ## Link reference table and inline parser (`parser.cpp`, `inlineparser.cpp`) -/

/-- The table `linkList_`: lower-cased label, then destination and title. -/
abbrev LinkList := List (QString × (QString × QString))

/-- The inline parsers that an inline parser constructs for a nested text:
`InlineParser(text, parser_).textToHTML()` and `.textToPlain()`. -/
structure Nested where
  toHTML : QString → M QString
  toPlain : QString → M QString

namespace Parser

/-- `inlineLinkTemplate1.arg(label, reference)`. -/
def inlineLinkTemplate1 (label reference : QString) : QString :=
  qs "<a href=\"" ++ reference ++ qs "\">" ++ label ++ qs "</a>"

/-- `inlineLinkTemplate2.arg(label, reference, title)`. -/
def inlineLinkTemplate2 (label reference title : QString) : QString :=
  qs "<a href=\"" ++ reference ++ qs "\" title=\"" ++ title ++ qs "\">" ++ label ++ qs "</a>"

/-- `inlineImageTemplate1.arg(alt, reference)`. -/
def inlineImageTemplate1 (alt reference : QString) : QString :=
  qs "<img src=\"" ++ reference ++ qs "\" alt=\"" ++ alt ++ qs "\" />"

/-- `inlineImageTemplate2.arg(alt, reference, title)`. -/
def inlineImageTemplate2 (alt reference title : QString) : QString :=
  qs "<img src=\"" ++ reference ++ qs "\" alt=\"" ++ alt ++ qs "\" title=\"" ++ title ++ qs "\" />"

/-- `Parser::defineLink` on the table. -/
def defineLink (linkList : LinkList) (label reference title : QString) : LinkList :=
  let lowercaseLabel := QString.toLower label
  if (linkList.lookup lowercaseLabel).isSome then linkList
  else linkList ++ [(lowercaseLabel, (reference, title))]

/-- `Parser::getLinkText(label, text)`. -/
def getLinkTextWith (R : Nested) (linkList : LinkList) (label text : QString) : M QString :=
  match linkList.lookup (QString.toLower label) with
  | none => pure []
  | some (reference, title) => do
    let parsedLabel ← R.toHTML text
    pure (if title.isEmpty then inlineLinkTemplate1 parsedLabel reference
          else inlineLinkTemplate2 parsedLabel reference title)

/-- `Parser::getLinkText(label)`. -/
def getLinkText (R : Nested) (linkList : LinkList) (label : QString) : M QString :=
  getLinkTextWith R linkList label label

/-- `Parser::getImageText(label, description)`. -/
def getImageTextWith (R : Nested) (linkList : LinkList) (label description : QString) :
    M QString :=
  match linkList.lookup (QString.toLower label) with
  | none => pure []
  | some (reference, second) => do
    let title ← R.toHTML second
    let alt ← R.toPlain description
    pure (if title.isEmpty then inlineImageTemplate1 alt reference
          else inlineImageTemplate2 alt reference title)

/-- `Parser::getImageText(label)`. -/
def getImageText (R : Nested) (linkList : LinkList) (label : QString) : M QString :=
  getImageTextWith R linkList label label

end Parser

namespace InlineParser

/-- `InlineParser::skipWhitespace`. -/
def skipWhitespace (line_ : QString) (pos : Nat) : Nat :=
  pos + ((line_.drop pos).takeWhile QChar.isSpace).length

/-- `InlineParser::codeToHTML`: the loop replaces each of the four special characters by
its entity and steps over the inserted text. -/
def codeToHTML : QString → QString
  | [] => []
  | c :: rest => (if (EntityChar.get c).isEmpty then [c] else EntityChar.get c) ++ codeToHTML rest

/-- The loops of `applyAutolink` and `applyEmailAutolink` over the suffix that follows
`pos`: the position of the closing `>`; `none` stands for `return begin`. -/
def findAutolinkEnd : QString → Nat → Option Nat
  | [], _ => none
  | chr :: rest, pos =>
    if chr == ch '<' then none
    else if chr == ch '>' then some (pos + 1)
    else if QChar.isSpace chr then none
    else findAutolinkEnd rest (pos + 1)

/-- `InlineParser::applyAutolink`: the returned position and the line afterwards. -/
def applyAutolink (line_ : QString) (begin pos : Nat) : M (Nat × QString) :=
  match findAutolinkEnd (line_.drop (pos + 1)) pos with
  | none => pure (begin, line_)
  | some stop => do
    let inner := (line_.drop (begin + 1)).take (stop - begin - 1)
    let encoded := TextHandler.convertToPercentEncoding inner
    let shown ← TextHandler.convertEntityReferecence inner
    let uri := qs "<a href=\"" ++ encoded ++ qs "\">" ++ shown ++ qs "</a>"
    pure (begin + uri.length + 1, QString.replace line_ begin (stop - begin + 1) uri)

/-- `InlineParser::applyEmailAutolink`. -/
def applyEmailAutolink (line_ : QString) (begin pos : Nat) : M (Nat × QString) :=
  match findAutolinkEnd (line_.drop (pos + 1)) pos with
  | none => pure (begin, line_)
  | some stop =>
    let inner := (line_.drop (begin + 1)).take (stop - begin - 1)
    let address := qs "<a href=\"mailto:" ++ inner ++ qs "\">" ++ inner ++ qs "</a>"
    pure (begin + address.length + 1, QString.replace line_ begin (stop - begin + 1) address)

/-- What the `for` loop of `replaceAutolink` finds in the suffix that starts at `pos`:
the position of the colon or of the at sign. -/
inductive AutolinkMark where
  | colon (pos : Nat)
  | atSign (pos : Nat)
  | nothing
deriving DecidableEq, Repr

/-- The `for` loop of `replaceAutolink` over the suffix that starts at `pos`. -/
def findAutolinkMark : QString → Nat → AutolinkMark
  | [], _ => .nothing
  | chr :: rest, pos =>
    if chr == ch ':' then .colon pos
    else if chr == ch '@' then .atSign pos
    else if chr == ch '<' || chr == ch '>' ||
        (!QChar.isLetterOrNumber chr && chr != ch '-' && chr != ch '+') then .nothing
    else findAutolinkMark rest (pos + 1)

/-- `InlineParser::replaceAutolink`. -/
def replaceAutolink (line_ : QString) (begin : Nat) : M (Nat × QString) :=
  if line_[begin]? != some (ch '<') then pure (begin, line_)
  else do
    let c ← charAt line_ (begin + 1)
    if QChar.isSpace c then pure (begin, line_)
    else
      match findAutolinkMark (line_.drop (begin + 1)) (begin + 1) with
      | .colon pos => if pos ≤ 2 then pure (begin, line_) else applyAutolink line_ begin pos
      | .atSign pos => if pos ≤ 2 then pure (begin, line_) else applyEmailAutolink line_ begin pos
      | .nothing => pure (begin, line_)

/-- `InlineParser::replaceSquareBrackets`. -/
def replaceSquareBrackets : Nat → QString → Nat → M (Nat × QString)
  | 0, _, _ => throw Fault.outOfFuel
  | fuel + 1, line_, begin => do
    let (t1, line1) ← replaceAutolink line_ begin
    let (temp, line2) ← (if begin != t1 then (pure (t1, line1) : M (Nat × QString)) else do
      let t2 ← TextHandler.skipHTMLBlock line_ begin
      pure (t2, line1))
    if begin == temp then pure (begin, line2)
    else if line2[temp]? == some (ch '<') then replaceSquareBrackets fuel line2 temp
    else pure (temp, line2)

/-- Fuel for the loops of the inline parser over a line. -/
def lineFuel (line_ : QString) : Nat := 2 * line_.length + 8

/-- The backtick loop shared by `replaceImage` and the full reference scanners, over the
suffix that follows `pos`: the position of the closing backtick. -/
def skipCodeLoop : QString → Nat → Option Nat
  | [], _ => none
  | chr :: rest, pos =>
    if chr == ch '\\' then
      match rest with
      | [] => skipCodeLoop [] (pos + 2)
      | _ :: rest2 => skipCodeLoop rest2 (pos + 2)
    else if chr == chBacktick then some (pos + 1)
    else skipCodeLoop rest (pos + 1)

/-- `InlineParser::applyShortcutReferenceLink` and `applyShortcutReferenceImage` after the
lookup: the end of the text that is replaced, `pos` being the position of the bracket. The
loop runs over the suffix that follows `stop`. -/
def shortcutEnd (pos : Nat) : QString → Nat → Nat
  | [], stop => stop + 1
  | chr :: rest, stop =>
    if chr == ch '\n' then stop + 1
    else if chr != ch ' ' && chr != ch '\t' then pos + 1
    else shortcutEnd pos rest (stop + 1)

/-- `InlineParser::applyShortcutReferenceLink`: the returned length and the line. -/
def applyShortcutReferenceLink (R : Nested) (linkList : LinkList) (line_ : QString)
    (begin pos : Nat) (linkLabel : QString) (isHTML : Bool) : M (Nat × QString) := do
  let found ← Parser.getLinkText R linkList linkLabel
  if found.isEmpty then pure (0, line_)
  else
    let text := if !isHTML then linkLabel else found
    let stop := shortcutEnd pos (line_.drop (pos + 1)) pos
    pure (text.length, QString.replace line_ begin (stop - begin) text)

/-- `InlineParser::applyShortcutReferenceImage`. -/
def applyShortcutReferenceImage (R : Nested) (linkList : LinkList) (line_ : QString)
    (begin pos : Nat) (linkLabel : QString) (isHTML : Bool) : M (Nat × QString) := do
  let found ← Parser.getImageText R linkList linkLabel
  if found.isEmpty then pure (0, line_)
  else
    let text := if !isHTML then linkLabel else found
    let stop := shortcutEnd pos (line_.drop (pos + 1)) pos
    pure (text.length, QString.replace line_ begin (stop - begin) text)

/-- The first loop of `findLinkDestination`, over the suffix that follows `pos`: the
position of the first character that is neither space nor line feed. -/
def destinationStart : QString → Nat → Option Nat
  | [], _ => none
  | chr :: rest, pos =>
    if chr == ch ' ' || chr == ch '\n' then destinationStart rest (pos + 1) else some (pos + 1)

/-- The inner loop of `findLinkDestination` after a space, over the suffix that follows
`pos`. -/
def destinationGap : QString → Nat → Nat
  | [], pos => pos + 1
  | chr :: rest, pos =>
    if chr == ch ')' then pos + 1
    else if chr == ch ' ' || chr == ch '\n' then destinationGap rest (pos + 1)
    else pos + 1

/-- The main loop of `findLinkDestination`: the returned position (0 for failure) and the
destination. -/
def destinationLoop (line_ : QString) (requiredEndChr : QChar) :
    Nat → Nat → Int → QString → M (Nat × QString)
  | 0, _, _, _ => throw Fault.outOfFuel
  | fuel + 1, pos, count, destination => do
    let chr ← charAt line_ pos
    if chr == ch ' ' || chr == ch '\n' then
      pure (destinationGap (line_.drop (pos + 1)) pos, destination)
    else if chr == requiredEndChr then pure (pos + 1, destination)
    else if chr == ch ')' && count - 1 ≤ 0 then pure (pos, destination)
    else do
      let escape ← (if chr == ch ')' || chr == ch '(' then (pure EscapeChar.empty : M EscapeChar)
                    else EscapeChar.get (line_.drop pos))
      let count1 := if chr == ch ')' then count - 1 else if chr == ch '(' then count + 1 else count
      let pos1 := if !escape.isEmpty then pos + (escape.inputLength - 1) else pos
      let destination1 := if !escape.isEmpty then destination ++ escape.output
                          else destination ++ [chr]
      if pos1 + 1 < line_.length then
        destinationLoop line_ requiredEndChr fuel (pos1 + 1) count1 destination1
      else pure (0, destination1)

/-- `InlineParser::findLinkDestination`. -/
def findLinkDestination (line_ : QString) (pos : Nat) : M (Nat × QString) :=
  if line_[pos]? != some (ch '(') then pure (0, [])
  else
    match destinationStart (line_.drop (pos + 1)) pos with
    | none => pure (0, [])
    | some pos1 =>
      if line_[pos1]? == some (ch '<') then
        if pos1 + 1 ≥ line_.length then pure (0, [])
        else destinationLoop line_ (ch '>') (lineFuel line_) (pos1 + 1) 1 []
      else destinationLoop line_ 0 (lineFuel line_) pos1 1 []

/-- The loop of `findLinkTitle` after the closing quote, over the suffix that follows
`pos`. -/
def titleClose : QString → Nat → Nat
  | [], _ => 0
  | chr :: rest, pos =>
    if chr == ch ')' then pos + 1
    else if chr != ch ' ' && chr != ch '\n' then 0
    else titleClose rest (pos + 1)

/-- The `while` loop of `findLinkTitle`: the returned position (0 for failure) and the
title. -/
def titleLoop (line_ : QString) (requiredEndChr : QChar) : Nat → Nat → QString → M (Nat × QString)
  | 0, _, _ => throw Fault.outOfFuel
  | fuel + 1, pos, title =>
    match line_[pos + 1]? with
    | none => pure (0, title)
    | some chr =>
      if chr == chApostrophe || chr == chQuote then
        if chr == requiredEndChr then pure (titleClose (line_.drop (pos + 2)) (pos + 1), title)
        else titleLoop line_ requiredEndChr fuel (pos + 1) (title ++ qs "&quot;")
      else if chr == requiredEndChr then
        pure (if line_[pos + 2]? == some (ch ')') then pos + 2 else 0, title)
      else do
        let escape ← EscapeChar.get (line_.drop (pos + 1))
        if !escape.isEmpty then
          titleLoop line_ requiredEndChr fuel (pos + 1 + (escape.inputLength - 1))
            (title ++ escape.output)
        else titleLoop line_ requiredEndChr fuel (pos + 1) (title ++ [chr])

/-- `InlineParser::findLinkTitle`. -/
def findLinkTitle (line_ : QString) (pos : Nat) : M (Nat × QString) :=
  if pos + 1 ≥ line_.length then pure (0, [])
  else do
    let c ← charAt line_ pos
    if c != chQuote && c != chApostrophe then
      if c != ch '(' then pure (0, []) else titleLoop line_ (ch ')') (lineFuel line_) pos []
    else titleLoop line_ c (lineFuel line_) pos []

/-- `InlineParser::applyInlineLink` and `applyInlineImage`, which differ in the two
templates only: the returned length and the line afterwards. -/
def applyInline (template1 : QString → QString → QString)
    (template2 : QString → QString → QString → QString) (line_ : QString) (begin pos : Nat)
    (linkLabel : QString) (isHTML : Bool) : M (Nat × QString) := do
  let (pos1, destination) ← findLinkDestination line_ pos
  if pos1 == 0 then pure (0, line_)
  else do
    let c ← charAt line_ pos1
    if c == ch ')' then
      let html := if isHTML
        then template1 linkLabel (TextHandler.convertToPercentEncoding destination)
        else linkLabel
      pure (html.length, QString.replace line_ begin (pos1 - begin + 1) html)
    else do
      let (pos2, title) ← findLinkTitle line_ pos1
      if pos2 == 0 then pure (0, line_)
      else
        let html := template2 linkLabel (Url.toEncoded destination) title
        pure (html.length, QString.replace line_ begin (pos2 - begin + 1) html)

/-- `InlineParser::applyInlineLink`. -/
def applyInlineLink (line_ : QString) (begin pos : Nat) (linkLabel : QString) (isHTML : Bool) :
    M (Nat × QString) :=
  applyInline Parser.inlineLinkTemplate1 Parser.inlineLinkTemplate2 line_ begin pos linkLabel isHTML

/-- `InlineParser::applyInlineImage`. -/
def applyInlineImage (line_ : QString) (begin pos : Nat) (linkLabel : QString) (isHTML : Bool) :
    M (Nat × QString) :=
  applyInline Parser.inlineImageTemplate1 Parser.inlineImageTemplate2 line_ begin pos linkLabel
    isHTML

/-- What a scan for the closing bracket ends with. -/
inductive BracketScan where
  /-- The bracket that closes the outermost level, at `pos`. -/
  | close (pos : Nat)
  /-- `replaceSquareBrackets` moved the cursor: the value to return and the line. -/
  | jump (pos : Nat) (line_ : QString)
  /-- The statement `return begin`. -/
  | fail

/-- The loop shared by `replaceImage`, `applyFullReferenceLink` and
`applyFullReferenceImage`; `pos` is the position before the next increment. -/
def bracketLoop (line_ : QString) : Nat → Nat → Int → M BracketScan
  | 0, _, _ => throw Fault.outOfFuel
  | fuel + 1, pos, count =>
    match line_[pos + 1]? with
    | none => pure .fail
    | some chr =>
      if chr == ch '\\' then bracketLoop line_ fuel (pos + 2) count
      else if chr == ch '[' then bracketLoop line_ fuel (pos + 1) (count + 1)
      else if chr == ch ']' then
        if count - 1 ≤ 0 then pure (.close (pos + 1)) else bracketLoop line_ fuel (pos + 1) (count - 1)
      else if chr == ch '<' then do
        let (tempPos, line1) ← replaceSquareBrackets (lineFuel line_) line_ (pos + 1)
        if tempPos != pos + 1 then pure (.jump tempPos line1) else bracketLoop line_ fuel (pos + 1) count
      else if chr == chBacktick then
        match skipCodeLoop (line_.drop (pos + 2)) (pos + 1) with
        | none => pure .fail
        | some pos1 => bracketLoop line_ fuel pos1 count
      else bracketLoop line_ fuel (pos + 1) count

/-- `InlineParser::applyFullReferenceLink` and `applyFullReferenceImage`, which differ in
the lookup only. -/
def applyFullReference (lookup : QString → QString → M QString) (line_ : QString)
    (begin pos : Nat) (linkText : QString) (isHTML : Bool) : M (Nat × QString) :=
  if line_[pos]? != some (ch '[') then pure (begin, line_)
  else do
    match ← bracketLoop line_ (lineFuel line_) pos 1 with
    | .fail => pure (begin, line_)
    | .jump tempPos line1 => pure (tempPos, line1)
    | .close stop =>
      let labelBegin := pos + 1
      let trimmedLabel := QString.trimmed ((line_.drop labelBegin).take (stop - labelBegin))
      let linkLabel := if trimmedLabel.isEmpty then linkText else trimmedLabel
      let found ← lookup linkLabel linkText
      if found.isEmpty then pure (begin, line_)
      else
        let text := if !isHTML then linkLabel else found
        pure (begin + text.length, QString.replace line_ begin (stop + 1 - begin) text)

/-- `InlineParser::applyFullReferenceLink`. -/
def applyFullReferenceLink (R : Nested) (linkList : LinkList) (line_ : QString) (begin pos : Nat)
    (linkText : QString) (isHTML : Bool) : M (Nat × QString) :=
  applyFullReference (Parser.getLinkTextWith R linkList) line_ begin pos linkText isHTML

/-- `InlineParser::applyFullReferenceImage`. -/
def applyFullReferenceImage (R : Nested) (linkList : LinkList) (line_ : QString)
    (begin pos : Nat) (description : QString) (isHTML : Bool) : M (Nat × QString) :=
  applyFullReference (Parser.getImageTextWith R linkList) line_ begin pos description isHTML

/-- `InlineParser::applyLink`. -/
def applyLink (R : Nested) (linkList : LinkList) (line_ : QString) (begin pos : Nat)
    (linkLabel : QString) (isHTML : Bool) : M (Nat × QString) :=
  if pos + 1 < line_.length && line_[pos + 1]? == some (ch '[') then
    applyFullReferenceLink R linkList line_ begin (pos + 1) linkLabel isHTML
  else do
    let parsed ← R.toHTML linkLabel
    let (lengthOfText, line1) ← applyInlineLink line_ begin (pos + 1) parsed isHTML
    if lengthOfText > 0 then pure (begin + lengthOfText, line1)
    else do
      let (n, line2) ← applyShortcutReferenceLink R linkList line1 begin pos linkLabel isHTML
      pure (begin + n, line2)

/-- `InlineParser::applyImage`. -/
def applyImage (R : Nested) (linkList : LinkList) (line_ : QString) (begin pos : Nat)
    (isHTML : Bool) : M (Nat × QString) :=
  let labelBegin := begin + 2
  let linkLabel := QString.trimmed ((line_.drop labelBegin).take (pos - labelBegin))
  if pos + 1 < line_.length && line_[pos + 1]? == some (ch '[') then
    applyFullReferenceImage R linkList line_ begin (pos + 1) linkLabel isHTML
  else do
    let parsed ← R.toPlain linkLabel
    let (lengthOfText, line1) ← applyInlineImage line_ begin (pos + 1) parsed isHTML
    if lengthOfText > 0 then pure (begin + lengthOfText, line1)
    else do
      let (n, line2) ← applyShortcutReferenceImage R linkList line1 begin pos linkLabel isHTML
      pure (begin + n, line2)

/-- `InlineParser::replaceImage`. -/
def replaceImage (R : Nested) (linkList : LinkList) (line_ : QString) (begin : Nat)
    (isHTML : Bool) : M (Nat × QString) :=
  if (line_.drop begin).take 2 != qs "![" then pure (begin, line_)
  else do
    match ← bracketLoop line_ (lineFuel line_) (begin + 1) 1 with
    | .fail => pure (begin, line_)
    | .jump tempPos line1 => pure (tempPos, line1)
    | .close pos => applyImage R linkList line_ begin pos isHTML

/-- The backtick loop of `replaceLink`, bounded by the `lineEnd` that was read when
`replaceLink` started; `pos` is the position before the next increment. -/
def linkCodeLoop (line_ : QString) (lineEnd : Nat) : Nat → Nat → QString →
    M (Option (Nat × QString))
  | 0, _, _ => throw Fault.outOfFuel
  | fuel + 1, pos, label =>
    if pos + 1 ≥ lineEnd then pure none
    else do
      let chr ← charAt line_ (pos + 1)
      if chr == ch '\\' then do
        let d ← charAt line_ (pos + 2)
        linkCodeLoop line_ lineEnd fuel (pos + 2) (label ++ [chr, d])
      else if chr == chBacktick then pure (some (pos + 1, label ++ [chr]))
      else linkCodeLoop line_ lineEnd fuel (pos + 1) (label ++ [chr])

/-- The `for` loop of `replaceLink`. -/
def replaceLinkLoop (R : Nested) (linkList : LinkList) (isHTML : Bool) (begin lineEnd : Nat) :
    Nat → QString → Nat → Int → QString → M (Nat × QString)
  | 0, _, _, _, _ => throw Fault.outOfFuel
  | fuel + 1, line_, pos, count, linkLabel =>
    if pos < lineEnd then do
      let chr ← charAt line_ pos
      if chr == ch '\\' then do
        let d ← charAt line_ (pos + 1)
        replaceLinkLoop R linkList isHTML begin lineEnd fuel line_ (pos + 2) count (linkLabel ++ [chr, d])
      else if chr == ch '[' then
        replaceLinkLoop R linkList isHTML begin lineEnd fuel line_ (pos + 1) (count + 1) (linkLabel ++ [chr])
      else if chr == ch ']' then
        if count - 1 ≤ 0 then applyLink R linkList line_ begin pos linkLabel isHTML
        else if pos + 1 ≥ lineEnd then pure (begin, line_)
        else do
          let n ← charAt line_ (pos + 1)
          if n == ch '(' || n == ch '[' then pure (begin, line_)
          else replaceLinkLoop R linkList isHTML begin lineEnd fuel line_ (pos + 1) (count - 1) (linkLabel ++ [chr])
      else if chr == ch '!' then
        if pos + 1 ≥ lineEnd then pure (begin, line_)
        else do
          let (lengthOfText, line1) ← replaceImage R linkList line_ pos isHTML
          let label1 := QString.mid line1 (begin + 1) ((lengthOfText : Int) - 1)
          if lengthOfText > 0 && count - 1 ≤ 0 then
            applyLink R linkList line1 begin (begin + lengthOfText) label1 isHTML
          else
            let count1 := if lengthOfText > 0 then count - 1 else count
            replaceLinkLoop R linkList isHTML begin lineEnd fuel line1 (pos + 1) count1 label1
      else if chr == ch '<' then do
        let (tempPos, line1) ← replaceSquareBrackets (lineFuel line_) line_ pos
        if tempPos != pos then pure (tempPos, line1)
        else replaceLinkLoop R linkList isHTML begin lineEnd fuel line1 (pos + 1) count (linkLabel ++ [chr])
      else if chr == chBacktick then do
        match ← linkCodeLoop line_ lineEnd (lineFuel line_) pos (linkLabel ++ [chr]) with
        | none => pure (begin, line_)
        | some (pos1, label1) =>
          replaceLinkLoop R linkList isHTML begin lineEnd fuel line_ (pos1 + 1) count label1
      else replaceLinkLoop R linkList isHTML begin lineEnd fuel line_ (pos + 1) count (linkLabel ++ [chr])
    else pure (begin, line_)

/-- `InlineParser::replaceLink`. -/
def replaceLink (R : Nested) (linkList : LinkList) (line_ : QString) (begin : Nat)
    (isHTML : Bool) : M (Nat × QString) := do
  let c ← charAt line_ begin
  if c != ch '[' then pure (begin, line_)
  else replaceLinkLoop R linkList isHTML begin line_.length (lineFuel line_) line_ (begin + 1) 1 []

/-- The replacement of every match of the pattern `[ \n]+` by one space; `inRun` tells that
the preceding character was part of a match. -/
def collapseSpaces : Bool → QString → QString
  | _, [] => []
  | inRun, c :: rest =>
    if c == ch ' ' || c == ch '\n' then
      (if inRun then collapseSpaces true rest else ch ' ' :: collapseSpaces true rest)
    else c :: collapseSpaces false rest

/-- What the `do ... while` loop of `replaceCodeSpan` finds at a run of backticks. -/
inductive RunResult where
  /-- The run has the length of the opening run. -/
  | matched
  /-- The run is longer; `pos` is the position of the first backtick beyond the count. -/
  | tooMany (pos : Nat)
  /-- The line ends inside the run: `return end`. -/
  | hitEnd
  /-- The run is shorter; `pos` is the position of the character after it. -/
  | tooFew (pos : Nat)
deriving DecidableEq, Repr

/-- The `do ... while` loop of `replaceCodeSpan` over the suffix that follows the backtick at
`pos`, `tempCnt` backticks of the run having been counted before that backtick. -/
def codeRun (count : Nat) : QString → Nat → Nat → RunResult
  | [], _, tempCnt => if tempCnt + 1 == count then .matched else .hitEnd
  | c :: rest, pos, tempCnt =>
    if tempCnt + 1 == count then (if c == chBacktick then .tooMany (pos + 1) else .matched)
    else if c == chBacktick then codeRun count rest (pos + 1) (tempCnt + 1)
    else .tooFew (pos + 1)

/-- The `for` loop of `replaceCodeSpan`. -/
def codeSpanLoop (line_ : QString) (begin quoteBegin count : Nat) : Nat → Nat → M (Nat × QString)
  | 0, _ => throw Fault.outOfFuel
  | fuel + 1, pos =>
    match line_[pos]? with
    | none => pure (begin, line_)
    | some chr =>
      if chr == chBacktick then
        match codeRun count (line_.drop (pos + 1)) pos 0 with
        | .matched =>
          let size := pos - quoteBegin
          let code := QString.trimmed ((line_.drop quoteBegin).take size)
          let span := qs "<code>" ++ collapseSpaces false (codeToHTML code) ++ qs "</code>"
          pure (begin + span.length, QString.replace line_ begin (size + 2 * count) span)
        | .tooMany pos1 => codeSpanLoop line_ begin quoteBegin count fuel (pos1 + 1)
        | .hitEnd => pure (line_.length, line_)
        | .tooFew pos1 => codeSpanLoop line_ begin quoteBegin count fuel (pos1 + 1)
      else codeSpanLoop line_ begin quoteBegin count fuel (pos + 1)

/-- `InlineParser::replaceCodeSpan`. -/
def replaceCodeSpan (line_ : QString) (begin : Nat) : M (Nat × QString) := do
  let c ← charAt line_ begin
  if c != chBacktick then pure (begin, line_)
  else if begin + 1 ≥ line_.length then pure (begin, line_)
  else
    let more := ((line_.drop (begin + 1)).takeWhile fun c => c == chBacktick).length
    let quoteBegin := begin + 1 + more
    if quoteBegin ≥ line_.length then pure (line_.length, line_)
    else codeSpanLoop line_ begin quoteBegin (1 + more) (lineFuel line_) quoteBegin

/-- `InlineParser::replaceSpecialCharacter`. -/
def replaceSpecialCharacter (line_ : QString) (begin : Nat) : M (Nat × QString) := do
  let escape ← EscapeChar.get (line_.drop begin)
  if !escape.isEmpty then
    pure (begin + escape.output.length, QString.replace line_ begin escape.inputLength escape.output)
  else do
    let c ← charAt line_ begin
    let entity := EntityChar.get c
    if !entity.isEmpty then pure (begin + entity.length, QString.replace line_ begin 1 entity)
    else pure (begin, line_)

/-- How the run of spaces and tabs met by `replaceWhitespace` ends; `count` is the number
of characters of the run. -/
inductive WhitespaceEnd where
  | trailing (count : Nat)
  | linefeed (count : Nat)
  | other (count : Nat)
deriving DecidableEq, Repr

/-- The `for (;;)` loop of `replaceWhitespace` over the suffix that starts at `pos + count`. -/
def whitespaceRun : QString → Nat → WhitespaceEnd
  | [], count => .trailing count
  | chr :: rest, count =>
    if chr == ch ' ' || chr == ch '\t' then whitespaceRun rest (count + 1)
    else if chr == ch '\n' then .linefeed count
    else .other count

/-- `InlineParser::replaceWhitespace`. -/
def replaceWhitespace (line_ : QString) (begin : Nat) : M (Nat × QString) := do
  let c ← charAt line_ begin
  if c != ch ' ' then pure (begin, line_)
  else if begin + 1 < line_.length then
    match whitespaceRun (line_.drop (begin + 1)) 1 with
    | .trailing count =>
      let line1 := QString.chop line_ count
      pure (skipWhitespace line1 (begin + 1), line1)
    | .linefeed count =>
      if count < 2 then
        let line1 := QString.remove line_ begin count
        pure (skipWhitespace line1 (begin + 1), line1)
      else
        let line1 := QString.replace line_ begin count (qs "<br />")
        pure (skipWhitespace line1 (begin + 6), line1)
    | .other count => pure (skipWhitespace line_ (begin + count), line_)
  else pure (begin, QString.chop line_ 1)

/-- The list `split` of `parse` together with the stack `pending`, whose elements point
into the list: the stack holds indices, the top first. -/
structure Emphasis where
  split : List Precedence
  pending : List Nat
deriving DecidableEq, Repr

/-- The record a stack element points to. -/
def Emphasis.deref (e : Emphasis) (i : Nat) : Precedence := e.split.getD i Precedence.new

/-- `InlineParser::findSameDelimiter` on the stack `pending`: the result, the rest of
`pending` and the stack `stack`, the top first. -/
def findSameDelimiter (split : List Precedence) (chr : QChar) :
    List Nat → List Nat → Bool × List Nat × List Nat
  | [], stack => (false, [], stack)
  | i :: pending, stack =>
    if (split.getD i Precedence.new).isSameDelimiterAs chr then (true, pending, i :: stack)
    else findSameDelimiter split chr pending (i :: stack)

/-- `InlineParser::failToClosePrecedence`: the stack `pending` afterwards. -/
def failToClosePrecedence : List Nat → List Nat → List Nat
  | [], pending => pending
  | i :: stack, pending => failToClosePrecedence stack (i :: pending)

/-- `InlineParser::closePrecedence`: the result, the new `*pos` and the records. -/
def closePrecedence (line_ : QString) (pos : Nat) (e : Emphasis) : M (Bool × Nat × Emphasis) := do
  let chr ← charAt line_ pos
  let (found, pending1, stack) := findSameDelimiter e.split chr e.pending []
  let failed : Bool × Nat × Emphasis := (false, pos, ⟨e.split, failToClosePrecedence stack pending1⟩)
  if !found then pure failed
  else
    match stack with
    | [] => pure failed
    | innerIdx :: _ =>
      let inner := e.deref innerIdx
      let tryInner : M (Bool × Nat × Emphasis) := do
        let (ok, inner1) ← inner.close line_ pos
        if ok then pure (true, pos, ⟨e.split.set innerIdx inner1, pending1⟩) else pure failed
      match pending1 with
      | [] => tryInner
      | outerIdx :: pending2 =>
        let outer := e.deref outerIdx
        let tryOuter (otherwise : M (Bool × Nat × Emphasis)) : M (Bool × Nat × Emphasis) := do
          let (ok, pos1, outer1, inner1) ← outer.closeWith inner line_ pos
          if ok then pure (true, pos1, ⟨(e.split.set outerIdx outer1).set innerIdx inner1, pending2⟩)
          else otherwise
        if outer.isContinued inner then do
          let l ← Precedence.isLeftFlankingDelimiterRun line_ pos 1
          if !l then tryOuter tryInner
          else do
            let r ← Precedence.isRightFlankingDelimiterRun line_ pos 1
            if r then tryOuter (pure failed) else tryOuter tryInner
        else tryOuter tryInner

/-- `InlineParser::skipEmphasis`: the returned position and the records. -/
def skipEmphasis (line_ : QString) (pos : Nat) (e : Emphasis) : M (Nat × Emphasis) :=
  match line_[pos]? with
  | none => pure (pos, e)
  | some chr =>
    if chr == ch '*' || chr == ch '_' then do
      let continued := match e.pending with
        | [] => false
        | i :: _ => (e.deref i).isContinuedAt chr pos
      let (proceed, pos1, e1) ← (if continued then (pure (true, pos, e) : M (Bool × Nat × Emphasis))
        else do
          let (closed, p1, e1) ← closePrecedence line_ pos e
          pure (!closed, p1, e1))
      if proceed && pos1 + 1 < line_.length then do
        let (ok, pos2, first, second) ← Precedence.«open» Precedence.new Precedence.new line_ pos1
        if ok then
          if second.isEmpty then
            pure (pos2 + 1, ⟨e1.split ++ [first], e1.split.length :: e1.pending⟩)
          else
            pure (pos2 + 1, ⟨e1.split ++ [first, second],
              (e1.split.length + 1) :: e1.split.length :: e1.pending⟩)
        else pure (pos2 + 1, e1)
      else pure (pos1 + 1, e1)
    else pure (pos, e)

/-- The `while` loop of `parse`: the line and the records at the end. -/
def parseLoop (R : Nested) (linkList : LinkList) (isHTML : Bool) :
    Nat → QString → Nat → Emphasis → M (QString × Emphasis)
  | 0, _, _, _ => throw Fault.outOfFuel
  | fuel + 1, line_, pos, e =>
    if pos < line_.length then do
      let (t1, l1) ← replaceSquareBrackets (lineFuel line_) line_ pos
      if pos != t1 then parseLoop R linkList isHTML fuel l1 t1 e else
      let (t2, l2) ← replaceLink R linkList l1 pos isHTML
      if pos != t2 then parseLoop R linkList isHTML fuel l2 t2 e else
      let (t3, l3) ← replaceImage R linkList l2 pos isHTML
      if pos != t3 then parseLoop R linkList isHTML fuel l3 t3 e else
      let (t4, l4) ← replaceCodeSpan l3 pos
      if pos != t4 then parseLoop R linkList isHTML fuel l4 t4 e else
      let (t5, l5) ← replaceSpecialCharacter l4 pos
      if pos != t5 then parseLoop R linkList isHTML fuel l5 t5 e else
      let (t6, l6) ← replaceWhitespace l5 pos
      if pos != t6 then parseLoop R linkList isHTML fuel l6 t6 e else
      let (t7, e7) ← skipEmphasis l6 pos e
      if pos != t7 then parseLoop R linkList isHTML fuel l6 t7 e7
      else parseLoop R linkList isHTML fuel l6 (pos + 1) e7
    else pure (line_, e)

/-- Fuel for the loop of `parse`. -/
def parseFuel (line_ : QString) : Nat := 4 * line_.length + 16

/-- `InlineParser::parse`: the line afterwards and the list `split`. -/
def parse (R : Nested) (linkList : LinkList) (line_ : QString) (isHTML : Bool) :
    M (QString × List Precedence) := do
  let (line1, e) ← parseLoop R linkList isHTML (parseFuel line_) line_ (skipWhitespace line_ 0)
    ⟨[], []⟩
  pure (line1, e.split)

/-- The part of a record that a rendering appends. -/
abbrev Part := Precedence → QString → QString → Int → QString × Int

/-- The inner `while` loop of `textToHTML`: closes the pending records that end before
`current` begins. -/
def closeEnded (right : Part) (line_ : QString) (current : Precedence) :
    List Precedence → QString → Int → List Precedence × QString × Int
  | [], temp, lastPos => ([], temp, lastPos)
  | last :: pending, temp, lastPos =>
    if current.isAheadOf last.end_ then (last :: pending, temp, lastPos)
    else
      let r := right last line_ temp lastPos
      closeEnded right line_ current pending r.1 r.2

/-- The `for` loop of `textToHTML` over the list `split`. -/
def renderLoop (left right : Part) (line_ : QString) :
    List Precedence → List Precedence → QString → Int → List Precedence × QString × Int
  | [], pending, temp, lastPos => (pending, temp, lastPos)
  | current :: more, pending, temp, lastPos =>
    if current.isIncomplete then renderLoop left right line_ more pending temp lastPos
    else
      let c := closeEnded right line_ current pending temp lastPos
      let l := left current line_ c.2.1 c.2.2
      renderLoop left right line_ more (current :: c.1) l.1 l.2

/-- The final `while` loop of `textToHTML`. -/
def closeAll (right : Part) (line_ : QString) : List Precedence → QString → Int → QString × Int
  | [], temp, lastPos => (temp, lastPos)
  | last :: pending, temp, lastPos =>
    let r := right last line_ temp lastPos
    closeAll right line_ pending r.1 r.2

/-- `QString::right(n)` for a count that may be negative. -/
def right (s : QString) (n : Int) : QString :=
  if n < 0 || n ≥ (s.length : Int) then s else s.drop (s.length - n.toNat)

/-- The common body of `textToHTML` and `textToPlain`. -/
def render (left right_ : Part) (line_ : QString) (split : List Precedence) : QString :=
  if split.isEmpty then line_
  else
    let r := renderLoop left right_ line_ split [] [] 0
    let c := closeAll right_ line_ r.1 r.2.1 r.2.2
    c.1 ++ right line_ ((line_.length : Int) - c.2)

/-- `InlineParser::textToHTML` with the nested parsers given. -/
def textToHTMLWith (R : Nested) (linkList : LinkList) (line_ : QString) : M QString := do
  let (line1, split) ← parse R linkList line_ true
  pure (render Precedence.htmlLeftPart Precedence.htmlRightPart line1 split)

/-- `InlineParser::textToPlain` with the nested parsers given. -/
def textToPlainWith (R : Nested) (linkList : LinkList) (line_ : QString) : M QString := do
  let (line1, split) ← parse R linkList line_ false
  pure (render Precedence.plainTextLeftPart Precedence.plainTextRightPart line1 split)

/-- The nested parsers at a nesting budget: none is left at 0. -/
def nested (linkList : LinkList) : Nat → Nested
  | 0 => ⟨fun _ => throw Fault.outOfFuel, fun _ => throw Fault.outOfFuel⟩
  | n + 1 => ⟨textToHTMLWith (nested linkList n) linkList, textToPlainWith (nested linkList n) linkList⟩

/-- Nesting budget for the rendering of a text: every nested parser works on a label,
which is shorter than the text around it, or on a title of the table. -/
def nestingFuel (line_ : QString) : Nat := line_.length + 2

/-- `InlineParser(line, parser).textToHTML()`. -/
def textToHTML (linkList : LinkList) (line_ : QString) : M QString :=
  textToHTMLWith (nested linkList (nestingFuel line_)) linkList line_

/-- `InlineParser(line, parser).textToPlain()`. -/
def textToPlain (linkList : LinkList) (line_ : QString) : M QString :=
  textToPlainWith (nested linkList (nestingFuel line_)) linkList line_

end InlineParser

/-! ## Block tree (`block.cpp`, `containerblock.cpp`, `leafblock.cpp`) -/

/-- The classes of block nodes. -/
inductive Kind where
  | body
  | blockQuote
  | bulletList
  | orderedList
  | bulletItem
  | orderedItem
  | paragraph
  | indentedCode
  | fencedCode
  | heading
  | thematicBreak
  | htmlBlock
  | htmlBlockWithCloseTag
deriving DecidableEq, Repr

namespace Kind

/-- The subclasses of `ContainerBlock`. -/
def isContainer : Kind → Bool
  | body | blockQuote | bulletList | orderedList | bulletItem | orderedItem => true
  | _ => false

/-- The subclasses of `ListBlock`. -/
def isList : Kind → Bool
  | bulletList | orderedList => true
  | _ => false

/-- The subclasses of `ListItem`. -/
def isItem : Kind → Bool
  | bulletItem | orderedItem => true
  | _ => false

end Kind

/-- A block object: the members of `Block`, `ContainerBlock`, `LeafBlock` and of their
subclasses; a member that the class of the node does not have keeps its default. -/
structure Node where
  kind : Kind
  parent : Option Nat
  writable : Bool := true
  children : List Nat := []
  depth : Nat := 0
  indent : Nat := 0
  hasBlankline : Bool := false
  baseIndent : Nat := 0
  bullet : QChar := 0
  separator : QChar := 0
  markerLength : Nat := 0
  start : Nat := 0
  text : QString := []
  pending : QString := []
  fence : QChar := 0
  count : Nat := 0
  info : QString := []
  fenceIndent : Nat := 0
  level : Nat := 0
  closeTag : HtmlPattern := HtmlPattern.close1
deriving DecidableEq, Repr

/-- The parser: the arena of the block objects, the cursor `current_` and `linkList_`. -/
structure Parser where
  nodes : List Node
  current : Nat
  linkList : LinkList
deriving DecidableEq, Repr

namespace Parser

/-- The object behind a pointer. -/
def get (p : Parser) (i : Nat) : M Node :=
  match p.nodes[i]? with
  | some n => pure n
  | none => throw Fault.nullDeref

/-- Overwrite an object. -/
def put (p : Parser) (i : Nat) (n : Node) : Parser := { p with nodes := p.nodes.set i n }

/-- Change an object. -/
def update (p : Parser) (i : Nat) (f : Node → Node) : M Parser := do
  let n ← p.get i
  pure (p.put i (f n))

/-- The operator `new`: the pointer and the parser afterwards. -/
def alloc (p : Parser) (n : Node) : Nat × Parser := (p.nodes.length, { p with nodes := p.nodes ++ [n] })

/-- Budget for a recursion along the tree. -/
def treeFuel (p : Parser) : Nat := p.nodes.length + 2

/-- `ContainerBlock::last`. -/
def last (n : Node) : Option Nat := n.children.getLast?

/-- `ContainerBlock::first`. -/
def first (n : Node) : Option Nat := n.children.head?

/-- `Block::disable`. -/
def disable (p : Parser) (i : Nat) : M Parser := p.update i fun n => { n with writable := false }

/-- `ContainerBlock::removeLast`. -/
def removeLast (p : Parser) (i : Nat) : M Parser := do
  let n ← p.get i
  if n.children.isEmpty then throw Fault.outOfRange
  else pure (p.put i { n with children := n.children.dropLast })

/-- `setHasBlankline`: `ListBlock` and `ListItem` accumulate the flag, the other containers
do nothing. -/
def setHasBlankline (p : Parser) (i : Nat) (hasBlankline : Bool) : M Parser := do
  let n ← p.get i
  if n.kind.isList || n.kind.isItem then
    pure (p.put i { n with hasBlankline := n.hasBlankline || hasBlankline })
  else pure p

/-- `hasBlankline`: `true` for `ContainerBlock`, the flag for `ListBlock`, the answer of the
parent for `ListItem`. -/
def hasBlankline (p : Parser) : Nat → Nat → M Bool
  | 0, _ => throw Fault.outOfFuel
  | fuel + 1, i => do
    let n ← p.get i
    if n.kind.isList then pure n.hasBlankline
    else if n.kind.isItem then
      match n.parent with
      | none => throw Fault.nullDeref
      | some q => hasBlankline p fuel q
    else pure true

/-- `baseIndent`: 0 for `Block`, the answer of the first child for `ListBlock`, the member
for `ListItem`. -/
def baseIndent (p : Parser) : Nat → Nat → M Nat
  | 0, _ => throw Fault.outOfFuel
  | fuel + 1, i => do
    let n ← p.get i
    if n.kind.isList then
      match first n with
      | none => pure 0
      | some c => baseIndent p fuel c
    else if n.kind.isItem then pure n.baseIndent
    else pure 0

/-- `isIndentEnoughForChild`. -/
def isIndentEnoughForChild (n : Node) (indent : Nat) : Bool :=
  match n.kind with
  | .bulletItem => indent ≥ n.baseIndent + 2
  | .orderedItem => indent ≥ n.baseIndent + n.markerLength
  | _ => true

/-- `Parser::defineLink`. -/
def define (p : Parser) (label reference title : QString) : Parser :=
  { p with linkList := defineLink p.linkList label reference title }

/-- The body of `ParagraphBlock::close` for a writable paragraph; the call of `close()` on
the rest of the text is the recursion. -/
def paragraphClose : Nat → Parser → Nat → M Parser
  | 0, _, _ => throw Fault.outOfFuel
  | fuel + 1, p, i => do
    let n ← p.get i
    let temp := n.text
    let (label, pos1) ← TextHandler.findLinkLabelNext temp 0 (ch ':')
    if label.isEmpty then p.disable i
    else do
      let (reference, pos2) ← TextHandler.findLinkReference temp pos1
      if reference.isEmpty then p.disable i
      else do
        let (title, pos3, ok) ← TextHandler.findLinkTitle temp pos2
        if !ok then p.disable i
        else do
          let p1 := p.define label reference title
          let text := TextHandler.rest temp pos3
          let p2 := p1.put i { n with text := text }
          if text.isEmpty then
            match n.parent with
            | none => throw Fault.nullDeref
            | some q => do
              let p3 ← p2.removeLast q
              p3.disable i
          else do
            let p3 ← paragraphClose fuel p2 i
            p3.disable i

/-- The virtual `close`: `ParagraphBlock::close`, `ContainerBlock::close` and
`Block::close`. -/
def close : Nat → Parser → Nat → M Parser
  | 0, _, _ => throw Fault.outOfFuel
  | fuel + 1, p, i => do
    let n ← p.get i
    if n.kind == Kind.paragraph then
      (if !n.writable then pure p else paragraphClose (n.text.length + 1) p i)
    else if n.kind.isContainer then
      match last n with
      | none => p.disable i
      | some l => do
        let p1 ← close fuel p l
        p1.disable i
    else p.disable i

/-- `ContainerBlock::appendBlock`. -/
def appendBlock (p : Parser) (i : Nat) (block : Nat) : M Parser := do
  let n ← p.get i
  let p1 ← (match last n with
    | none => (pure p : M Parser)
    | some l => do
      let ln ← p.get l
      if ln.writable then close p.treeFuel p l else pure p)
  p1.update i fun n1 => { n1 with children := n1.children ++ [block] }

/-- The virtual `appendLeafBlock`: `ListItem` passes its flag to its parent first. -/
def appendLeafBlock (p : Parser) (i : Nat) (block : Nat) : M Parser := do
  let n ← p.get i
  if n.kind.isItem then
    match n.parent with
    | none => throw Fault.nullDeref
    | some q => do
      let p1 ← p.setHasBlankline q n.hasBlankline
      p1.appendBlock i block
  else p.appendBlock i block

/-- The virtual `appendContainerBlock`. -/
def appendContainerBlock (p : Parser) (i : Nat) (block : Nat) : M Parser := do
  let n ← p.get i
  let p1 ← (if n.kind.isItem then
      match n.parent with
      | none => (throw Fault.nullDeref : M Parser)
      | some q => p.setHasBlankline q n.hasBlankline
    else pure p)
  let p2 ← p1.appendBlock i block
  pure { p2 with current := block }

/-- `Parser::unwind`. -/
def unwind (p : Parser) : M (Bool × Parser) := do
  let n ← p.get p.current
  match n.parent with
  | none => pure (false, p)
  | some parent => do
    let p1 ← close p.treeFuel p p.current
    pure (true, { p1 with current := parent })

/-- `Parser::unwindUntil`. -/
def unwindUntil : Nat → Parser → Nat → M Parser
  | 0, _, _ => throw Fault.outOfFuel
  | fuel + 1, p, indent => do
    let n ← p.get p.current
    if indent < n.indent then do
      let (ok, p1) ← p.unwind
      if !ok then pure p1 else unwindUntil fuel p1 indent
    else pure p

/-- The loop `do parser()->unwind(); while (parser()->current()->depth() > depth);` that the
dispatch methods run when the line has left a block quote. -/
def unwindDeeper : Nat → Parser → Nat → M Parser
  | 0, _, _ => throw Fault.outOfFuel
  | fuel + 1, p, depth => do
    let (_, p1) ← p.unwind
    let n ← p1.get p1.current
    if n.depth > depth then unwindDeeper fuel p1 depth else pure p1

/-- `LeafBlock::appendLine`. -/
def appendLine (p : Parser) (i : Nat) (lh : LineHandler) : M Parser :=
  p.update i fun n => { n with text := n.text ++ lh.putLinebreakAtBOL }

/-- `LeafBlock::appendLine2`. -/
def appendLine2 (p : Parser) (i : Nat) (lh : LineHandler) : M Parser :=
  p.update i fun n => { n with text := n.text ++ lh.putLinebreakAtEOL }

/-- `new ParagraphBlock(parent, lineHandler)`. -/
def newParagraph (p : Parser) (parent : Nat) (lh : LineHandler) : Nat × Parser :=
  p.alloc { kind := Kind.paragraph, parent := some parent, text := lh.currentText }

/-- `appendLeafBlock(new ParagraphBlock(this, lineHandler))`. -/
def appendNewParagraph (p : Parser) (i : Nat) (lh : LineHandler) : M Parser :=
  let a := p.newParagraph i lh
  a.2.appendLeafBlock i a.1

/-- The two statements `parser()->unwind(); parser()->unwind();`. -/
def unwindTwice (p : Parser) : M Parser := do
  let (_, p1) ← p.unwind
  let (_, p2) ← p1.unwind
  pure p2

mutual

/-- The virtual `appendParagraphText`: `ParagraphBlock`, `LeafBlock` and `ContainerBlock`. -/
def appendParagraphText : Nat → Parser → Nat → LineHandler → M (Bool × Parser)
  | 0, _, _, _ => throw Fault.outOfFuel
  | fuel + 1, p, i, lh => do
    let n ← p.get i
    if n.kind == Kind.paragraph then
      if !n.writable then pure (false, p)
      else do
        let p1 ← p.appendLine i lh
        pure (true, p1)
    else if n.kind.isContainer then appendParagraph fuel p i lh
    else pure (false, p)

/-- The virtual `appendParagraph`: `BodyBlock`, `ListItem`, `BlockQuoteBlock` and
`ContainerBlock`. -/
def appendParagraph : Nat → Parser → Nat → LineHandler → M (Bool × Parser)
  | 0, _, _, _ => throw Fault.outOfFuel
  | fuel + 1, p, i, lh => do
    let n ← p.get i
    match n.kind with
    | Kind.body =>
      match last n with
      | none => do
        let p1 ← p.appendNewParagraph i lh
        pure (true, p1)
      | some l => do
        let (ok, p1) ← appendParagraphText fuel p l lh
        if ok then pure (true, p1)
        else do
          let p2 ← p1.appendNewParagraph i lh
          pure (true, p2)
    | Kind.blockQuote =>
      if !n.writable then pure (false, p)
      else do
        let (ok, p1) ← (match last n with
          | none => (pure (false, p) : M (Bool × Parser))
          | some l => appendParagraphText fuel p l lh)
        if ok then pure (true, p1)
        else if n.depth > lh.depth then do
          let p2 ← unwindDeeper p1.treeFuel p1 lh.depth
          let p3 ← p2.appendNewParagraph p2.current lh
          pure (true, p3)
        else do
          let p2 ← p1.appendNewParagraph i lh
          pure (true, p2)
    | Kind.bulletItem | Kind.orderedItem =>
      if !n.writable then do
        let p1 ← p.unwindTwice
        appendParagraph fuel p1 p1.current lh
      else
        match last n with
        | none =>
          if !lh.isBlank then do
            let p1 ← p.appendNewParagraph i lh
            pure (true, p1)
          else pure (true, p)
        | some l => do
          let ln ← p.get l
          if !ln.writable then do
            let p1 ← p.setHasBlankline i true
            let p2 ← p1.appendNewParagraph i lh
            pure (true, p2)
          else do
            let (ok, p1) ← appendParagraphText fuel p l lh
            if ok then pure (true, p1)
            else
              let removed := lh.removeIndent (4 + n.indent)
              if removed.indent < n.indent then do
                let p2 ← p1.unwindTwice
                let (_, p3) ← appendParagraph fuel p2 p2.current lh
                pure (true, p3)
              else do
                let p2 ← p1.appendNewParagraph i lh
                pure (true, p2)
    | _ =>
      if !n.kind.isContainer then throw Fault.nullDeref
      else if !n.writable then pure (false, p)
      else if !lh.isBlank then do
        let p1 ← p.appendNewParagraph i lh
        pure (true, p1)
      else pure (true, p)

end

/-- `HTMLBlock::appendHTMLBlockText`; `false` for the other classes. -/
def appendHTMLBlockText (p : Parser) (i : Nat) (lh : LineHandler) : M (Bool × Parser) := do
  let n ← p.get i
  if n.kind == Kind.htmlBlock || n.kind == Kind.htmlBlockWithCloseTag then
    match n.parent with
    | none => throw Fault.nullDeref
    | some q => do
      let qn ← p.get q
      if !n.writable || lh.indent < qn.indent then pure (false, p)
      else do
        let p1 ← p.appendLine i (lh.removeIndent qn.indent)
        pure (true, p1)
  else pure (false, p)

/-- `new IndentedCodeBlock(this, lineHandler)` appended by
`ContainerBlock::appendIndentedText`. -/
def appendNewIndentedCode (p : Parser) (i : Nat) (lh : LineHandler) : M Parser :=
  let a := p.alloc { kind := Kind.indentedCode, parent := some i, text := lh.currentText }
  a.2.appendLeafBlock i a.1

/-- The virtual `appendIndentedText`. -/
def appendIndentedText (p : Parser) (i : Nat) (lh : LineHandler) : M (Bool × Parser) := do
  let n ← p.get i
  match n.kind with
  | Kind.paragraph =>
    if !n.writable then pure (false, p)
    else do
      let p1 ← p.appendLine i lh.skipWhitespace
      pure (true, p1)
  | Kind.indentedCode =>
    if !n.writable then pure (false, p)
    else do
      let p1 := p.put i { n with text := n.text ++ n.pending, pending := [] }
      let p2 ← p1.appendLine i lh
      pure (true, p2)
  | Kind.fencedCode =>
    if !n.writable then pure (false, p)
    else do
      let p1 ← p.appendLine2 i (lh.removeIndent n.fenceIndent)
      pure (true, p1)
  | Kind.htmlBlock | Kind.htmlBlockWithCloseTag => p.appendHTMLBlockText i lh
  | Kind.heading | Kind.thematicBreak => pure (false, p)
  | _ =>
    if !n.writable then pure (false, p)
    else do
      let p1 ← p.appendNewIndentedCode i lh
      pure (true, p1)

/-- The virtual `appendFencedCodeText`: `ContainerBlock`, `BlockQuoteBlock` and
`FencedCodeBlock`; `false` for the other classes. -/
def appendFencedCodeText : Nat → Parser → Nat → LineHandler → M (Bool × Parser)
  | 0, _, _, _ => throw Fault.outOfFuel
  | fuel + 1, p, i, lh => do
    let n ← p.get i
    if n.kind.isContainer then
      match last n with
      | none => pure (false, p)
      | some l => if n.depth > lh.depth then pure (false, p) else appendFencedCodeText fuel p l lh
    else if n.kind == Kind.fencedCode then
      if !n.writable then pure (false, p)
      else do
        let p1 ← p.appendLine2 i (lh.removeIndent n.fenceIndent)
        pure (true, p1)
    else pure (false, p)

/-- `HTMLBlockWithCloseTag::closeHTMLBlock`; `false` for the other classes. -/
def closeHTMLBlock (p : Parser) (i : Nat) (lh : LineHandler) : M (Bool × Parser) := do
  let n ← p.get i
  if n.kind == Kind.htmlBlockWithCloseTag then
    if !lh.matchHTMLCloseTag n.closeTag then pure (false, p)
    else do
      let (_, p1) ← p.appendHTMLBlockText i lh
      let p2 ← p1.disable i
      pure (true, p2)
  else pure (false, p)

/-- The level that the loop of `convertToSetextHeading` over `markdownList` finds for the
trimmed line; `none` when no key matches. `markdownList` is a `std::unordered_map`, so the
order in which the loop meets the keys `=` and `-` is unspecified. When one key matches at
most, the order makes no difference. When both keys match, which happens for the empty
text, the level is the one of the key that comes first: the source does not determine it
and the model stops with `Fault.unspecified`. -/
def setextLevel (text : QString) : M (Option Nat) :=
  let equals := QString.count text (ch '=') == text.length
  let dashes := QString.count text (ch '-') == text.length
  if equals && dashes then throw Fault.unspecified
  else if equals then pure (some 1)
  else if dashes then pure (some 2)
  else pure none

/-- `ParagraphBlock::convertToSetextHeading` and `HTMLBlock::convertToSetextHeading`: the
new heading, not yet a child of any block; `none` is the null pointer. -/
def convertToSetextHeading (p : Parser) (i : Nat) (lh : LineHandler) : M (Option Nat × Parser) := do
  let n ← p.get i
  if n.kind == Kind.paragraph || n.kind == Kind.htmlBlock ||
      n.kind == Kind.htmlBlockWithCloseTag then
    if !n.writable then pure (none, p)
    else do
      match ← setextLevel lh.trimmed with
      | none => pure (none, p)
      | some level =>
        let a := p.alloc { kind := Kind.heading, parent := n.parent,
                           text := QString.trimmed n.text, level := level }
        pure (some a.1, a.2)
  else pure (none, p)

/-- The virtual `handleBlankLine`. -/
def handleBlankLine (p : Parser) (i : Nat) (lh : LineHandler) : M Parser := do
  let n ← p.get i
  match n.kind with
  | Kind.paragraph =>
    match n.parent with
    | none => throw Fault.nullDeref
    | some q => do
      let p1 ← p.setHasBlankline q true
      close p1.treeFuel p1 i
  | Kind.indentedCode =>
    match n.parent with
    | none => throw Fault.nullDeref
    | some q => do
      let qn ← p.get q
      let indent := 4 + qn.indent
      let removed := lh.removeIndent indent
      let pending := n.pending ++ [ch '\n'] ++
        (if removed.indent ≥ indent then removed.currentText else [])
      pure (p.put i { n with pending := pending })
  | Kind.fencedCode =>
    if n.writable then p.appendLine2 i (lh.removeIndent n.fenceIndent)
    else
      match n.parent with
      | none => throw Fault.nullDeref
      | some q => p.setHasBlankline q true
  | Kind.heading | Kind.htmlBlock => p.disable i
  | Kind.htmlBlockWithCloseTag => if n.writable then p.appendLine i lh else pure p
  | Kind.blockQuote => close p.treeFuel p i
  | _ => pure p

/-- `new FencedCodeBlock(parent, fence, count, rest, indent)` appended to `parent`. -/
def appendNewFencedCode (p : Parser) (parent : Nat) (fence : QChar) (count : Nat)
    (info : QString) (indent : Nat) : M Parser :=
  let a := p.alloc { kind := Kind.fencedCode, parent := some parent, fence := fence,
                     count := count, info := info, fenceIndent := indent }
  a.2.appendLeafBlock parent a.1

/-- The virtual `toggleFencedCodeBlock`: `FencedCodeBlock` and `Block`. -/
def toggleFencedCodeBlock (p : Parser) (i : Nat) (fenceChar : QChar) (count : Nat)
    (rest : LineHandler) (indent : Nat) : M (Bool × Parser) := do
  let n ← p.get i
  match n.parent with
  | none => throw Fault.nullDeref
  | some q =>
    if n.kind == Kind.fencedCode then
      if n.writable then
        if count < n.count || fenceChar != n.fence || !rest.isBlank then pure (false, p)
        else do
          let p1 ← p.disable i
          pure (true, p1)
      else do
        let p1 ← p.appendNewFencedCode q fenceChar count rest.firstWord indent
        pure (true, p1)
    else do
      let p1 ← p.appendNewFencedCode q fenceChar count [] indent
      pure (true, p1)

/-- The virtual `dispatchBlankLine`: `ContainerBlock`, `ListItem` and `BlockQuoteBlock`. -/
def dispatchBlankLine (p : Parser) (i : Nat) (lh : LineHandler) : M (Bool × Parser) := do
  let n ← p.get i
  if !lh.isBlank then pure (false, p)
  else if n.kind == Kind.blockQuote then do
    let (_, p1) ← p.unwind
    pure (true, p1)
  else
    match last n with
    | none =>
      if n.kind.isItem then do
        let p1 ← p.setHasBlankline i true
        let p2 ← close p1.treeFuel p1 i
        pure (true, p2)
      else pure (true, p)
    | some l => do
      let p1 ← p.handleBlankLine l lh
      pure (true, p1)

/-- The tail shared by the three bodies of `dispatchIndentedCode`: where the indented text
goes once the indent is known to suffice. -/
def placeIndentedText (p : Parser) (i : Nat) (lh removed : LineHandler) : M Parser := do
  let n ← p.get i
  if n.depth > lh.depth then do
    let p1 ← unwindDeeper p.treeFuel p lh.depth
    let (_, p2) ← p1.appendIndentedText p1.current removed
    pure p2
  else do
    let (ok, p1) ← (match last n with
      | none => (pure (false, p) : M (Bool × Parser))
      | some l => p.appendIndentedText l removed)
    if ok then pure p1
    else do
      let (_, p2) ← p1.appendIndentedText i removed
      pure p2

/-- `BulletListItem::isFollowedBy` and `OrderedListItem::isFollowedBy`: the result and the
scanner afterwards. -/
def isFollowedBy (n : Node) (lh : LineHandler) (indent : Nat) : M (Bool × LineHandler) := do
  if n.kind == Kind.bulletItem then do
    let (bullet, lh1) ← lh.findBullet
    pure (bullet != 0 && bullet == n.bullet && indent < n.baseIndent + 1, lh1)
  else do
    let (digit, lh1) ← lh.findDigit
    match digit.getLast? with
    | none => pure (false, lh1)
    | some separator => pure (separator == n.separator && indent < n.baseIndent + digit.length, lh1)

/-- The virtual `dispatchIndentedCode`: `ContainerBlock`, `ListBlock`, `ListItem` and
`BlockQuoteBlock`. -/
def dispatchIndentedCode : Nat → Parser → Nat → LineHandler → M (Bool × Parser)
  | 0, _, _, _ => throw Fault.outOfFuel
  | fuel + 1, p, i, lh => do
    let n ← p.get i
    if n.kind.isList then do
      let (ok, p1) ← p.unwind
      if !ok then pure (false, p1) else dispatchIndentedCode fuel p1 p1.current lh
    else if n.kind.isItem then
      if !n.writable then pure (false, p)
      else
        let indent := 4 + n.indent
        let removed := lh.removeIndent indent
        if n.depth != lh.depth then pure (false, p)
        else if removed.indent < indent then
          match last n with
          | none => pure (false, p)
          | some l => do
            let ln ← p.get l
            if ln.writable then pure (false, p)
            else
              let copy := lh.skipWhitespace
              if copy.indent < n.indent then do
                let (followed, copy1) ← isFollowedBy n copy copy.indent
                if followed then pure (false, p)
                else do
                  let _ ← copy1.findDigit
                  let p1 ← p.unwindTwice
                  dispatchIndentedCode fuel p1 p1.current lh
              else pure (false, p)
        else do
          let p1 ← p.placeIndentedText i lh removed
          pure (true, p1)
    else if n.kind == Kind.blockQuote then
      if !n.writable then pure (false, p)
      else
        let requirement := 4 + n.indent
        let removed := lh.removeIndent requirement
        if removed.indent < requirement then
          if removed.indent ≥ 4 && lh.depth == 0 then
            match last n with
            | none => pure (false, p)
            | some l => appendParagraphText p.treeFuel p l lh.skipWhitespace
          else pure (false, p)
        else do
          let p1 ← p.placeIndentedText i lh removed
          pure (true, p1)
    else
      let requirement := 4 + n.indent
      let removed := lh.removeIndent requirement
      if removed.indent < requirement then pure (false, p)
      else do
        let p1 ← p.placeIndentedText i lh removed
        pure (true, p1)

/-- `appendLeafBlock(new HTMLBlock(this, lineHandler))`. -/
def appendNewHTMLBlock (p : Parser) (i : Nat) (lh : LineHandler) : M Parser :=
  let a := p.alloc { kind := Kind.htmlBlock, parent := some i, text := lh.currentText }
  a.2.appendLeafBlock i a.1

/-- The loop of `dispatchHTMLBlock` over `type12345List`; `none` when no opener matches. -/
def dispatchHTMLType12345 (p : Parser) (i : Nat) (lh : LineHandler) :
    List (HtmlPattern × HtmlPattern) → M (Option Parser)
  | [] => pure none
  | pair :: more =>
    if lh.matchHTMLOpenTag pair.1 then do
      let a := p.alloc { kind := Kind.htmlBlockWithCloseTag, parent := some i,
                         text := lh.currentText, closeTag := pair.2 }
      let p1 ← a.2.appendLeafBlock i a.1
      if lh.matchHTMLCloseTag pair.2 then do
        let p2 ← p1.disable a.1
        pure (some p2)
      else pure (some p1)
    else dispatchHTMLType12345 p i lh more

/-- `ContainerBlock::dispatchHTMLBlock`. -/
def dispatchHTMLBlock (p : Parser) (i : Nat) (lh : LineHandler) : M (Bool × Parser) := do
  let n ← p.get i
  let (done, p1) ← (match last n with
    | none => (pure (false, p) : M (Bool × Parser))
    | some l => do
      let (closed, p1) ← p.closeHTMLBlock l lh
      if closed then pure (true, p1) else p1.appendHTMLBlockText l lh)
  if done then pure (true, p1)
  else if lh.isAutolink then pure (false, p1)
  else do
    match ← dispatchHTMLType12345 p1 i lh HTMLTag.type12345List with
    | some p2 => pure (true, p2)
    | none =>
      if lh.matchHTMLTag HTMLTag.type6List then do
        let p2 ← p1.appendNewHTMLBlock i lh
        pure (true, p2)
      else do
        let n1 ← p1.get i
        let free ← (match last n1 with
          | none => (pure true : M Bool)
          | some l => do
            let ln ← p1.get l
            pure (!ln.writable))
        if free && !lh.matchHTMLCloseTag HTMLTag.type1CloseTag then do
          let seven ← lh.isHTMLTagType7
          if seven then do
            let p2 ← p1.appendNewHTMLBlock i lh
            pure (true, p2)
          else pure (false, p1)
        else pure (false, p1)

/-- The body of the loop of `dispatchFencedCodeBlock` once a fence of three or more
characters has been counted. -/
def dispatchFence (p : Parser) (i : Nat) (lh copy : LineHandler) (fenceChar : QChar)
    (count indent : Nat) : M (Bool × Parser) := do
  let n ← p.get i
  match last n with
  | none => do
    let p1 ← p.appendNewFencedCode i fenceChar count copy.firstWord indent
    pure (true, p1)
  | some l => do
    let (ok, p1) ← p.appendHTMLBlockText l lh
    if ok then pure (true, p1) else p1.toggleFencedCodeBlock l fenceChar count copy indent

/-- `ContainerBlock::dispatchFencedCodeBlock`. -/
def dispatchFencedCodeBlock : Nat → Parser → Nat → LineHandler → M (Bool × Parser)
  | 0, _, _, _ => throw Fault.outOfFuel
  | fuel + 1, p, i, lh => do
    let n ← p.get i
    let copy := lh.skipWhitespace
    let indent := copy.indent
    if indent < n.indent + 4 then
      let r1 := copy.skipFenceChar chBacktick
      let r2 := r1.2.skipFenceChar (ch '~')
      let hit : Option (QChar × Nat × LineHandler) :=
        if r1.1 ≥ 3 then some (chBacktick, r1.1, r1.2)
        else if r1.1 > 0 then none
        else if r2.1 ≥ 3 then some (ch '~', r2.1, r2.2)
        else none
      match hit with
      | none => pure (false, p)
      | some (fenceChar, count, copy1) =>
        if copy1.indexOf chBacktick ≥ 0 then pure (false, p)
        else if n.depth > copy1.depth then do
          let p1 ← unwindDeeper p.treeFuel p copy1.depth
          dispatchFencedCodeBlock fuel p1 p1.current lh
        else p.dispatchFence i lh copy1 fenceChar count indent
    else pure (false, p)

/-- `ContainerBlock::dispatchSetextHeading`. -/
def containerSetextHeading (p : Parser) (i : Nat) (lh : LineHandler) : M (Bool × Parser) := do
  let n ← p.get i
  match last n with
  | none => pure (false, p)
  | some l => do
    match ← p.convertToSetextHeading l lh with
    | (none, p1) => pure (false, p1)
    | (some heading, p1) => do
      let p2 ← p1.removeLast i
      let p3 ← p2.appendLeafBlock i heading
      pure (true, p3)

/-- The virtual `dispatchSetextHeading`: `ContainerBlock`, `ListItem` and
`BlockQuoteBlock`. -/
def dispatchSetextHeading (p : Parser) (i : Nat) (lh : LineHandler) : M (Bool × Parser) := do
  let n ← p.get i
  if n.kind == Kind.blockQuote then pure (false, p)
  else if n.kind.isItem then
    if lh.skipWhitespace.indent ≥ n.indent then p.containerSetextHeading i lh else pure (false, p)
  else p.containerSetextHeading i lh

/-- `ContainerBlock::appendThematicBreak`. -/
def appendThematicBreak (p : Parser) (i : Nat) : M Parser :=
  let a := p.alloc { kind := Kind.thematicBreak, parent := some i, writable := false }
  a.2.appendLeafBlock i a.1

/-- `ContainerBlock::dispatchThematicBreak`. -/
def dispatchThematicBreak (p : Parser) (i : Nat) (lh : LineHandler) : M (Bool × Parser) := do
  let n ← p.get i
  if lh.countIndent > n.indent + 3 then pure (false, p)
  else
    let text := lh.noWhitespace
    let length := text.length
    if length < 3 then pure (false, p)
    else if QString.count text (ch '-') == length || QString.count text (ch '*') == length ||
        QString.count text (ch '_') == length then do
      let p1 ← unwindUntil p.treeFuel p lh.position
      let p2 ← p1.appendThematicBreak p1.current
      pure (true, p2)
    else pure (false, p)

/-- `ContainerBlock::dispatchLeafBlock`. -/
def dispatchLeafBlock (p : Parser) (i : Nat) (lh : LineHandler) : M (Bool × Parser) := do
  let (r1, p1) ← p.dispatchHTMLBlock i lh
  if r1 then pure (true, p1) else
  let (r2, p2) ← dispatchFencedCodeBlock p1.treeFuel p1 i lh
  if r2 then pure (true, p2) else
  let (r3, p3) ← p2.dispatchSetextHeading i lh
  if r3 then pure (true, p3) else
  let (r4, p4) ← p3.dispatchThematicBreak i lh
  if r4 then pure (true, p4) else
  let (r5, p5) ← appendFencedCodeText p4.treeFuel p4 i lh
  if r5 then pure (true, p5) else
  let n ← p5.get i
  match last n with
  | none => pure (false, p5)
  | some l => p5.appendHTMLBlockText l lh

/-- `new BlockQuoteBlock(parent, indent)`. -/
def newBlockQuote (p : Parser) (parent : Nat) (indent : Nat) : M (Nat × Parser) := do
  let n ← p.get parent
  pure (p.alloc { kind := Kind.blockQuote, parent := some parent, depth := n.depth + 1,
                  indent := indent })

/-- The virtual `appendBlockQuote`: `ContainerBlock` and `BlockQuoteBlock`. -/
def appendBlockQuote : Nat → Parser → Nat → LineHandler → M Parser
  | 0, _, _, _ => throw Fault.outOfFuel
  | fuel + 1, p, i, lh => do
    let n ← p.get i
    if n.kind == Kind.blockQuote && n.depth ≥ lh.depth then pure p
    else do
      let (b, p1) ← p.newBlockQuote i lh.indent
      let p2 ← p1.appendContainerBlock i b
      appendBlockQuote fuel p2 p2.current lh

/-- `ContainerBlock::dispatchBlockQuote` and `BlockQuoteBlock::dispatchBlockQuote`. -/
def dispatchBlockQuote (p : Parser) (i : Nat) (lh : LineHandler) :
    M (Bool × LineHandler × Parser) := do
  let n ← p.get i
  if n.kind == Kind.blockQuote && !n.writable then pure (false, lh, p)
  else
    let r := lh.matchBlockQuote
    if !r.1 then pure (false, r.2, p)
    else if n.depth < r.2.depth then do
      let p1 ← appendBlockQuote (r.2.depth + 2) p i r.2
      pure (true, r.2, p1)
    else pure (true, r.2, p)

/-- The virtual `appendFirstBulletList`: `ContainerBlock` and `ListBlock`. -/
def appendFirstBulletList : Nat → Parser → Nat → LineHandler → QChar → Nat → M Parser
  | 0, _, _, _, _, _ => throw Fault.outOfFuel
  | fuel + 1, p, i, lh, bullet, baseIndent => do
    let n ← p.get i
    if n.kind.isList then do
      let (ok, p1) ← p.unwind
      if ok then appendFirstBulletList fuel p1 p1.current lh bullet baseIndent else pure p1
    else
      let indent := if baseIndent + 1 == lh.indent then lh.indent + 1 else lh.indent
      let a := p.alloc { kind := Kind.bulletList, parent := some i, depth := n.depth,
                         indent := indent }
      do
        let p1 ← a.2.appendContainerBlock i a.1
        let b := p1.alloc { kind := Kind.bulletItem, parent := some a.1, depth := n.depth,
                            indent := indent, bullet := bullet, baseIndent := baseIndent }
        b.2.appendContainerBlock a.1 b.1

/-- The virtual `appendFirstOrderedList`: `ContainerBlock` and `ListBlock`. -/
def appendFirstOrderedList : Nat → Parser → Nat → LineHandler → Nat → QChar → Nat → Nat → M Parser
  | 0, _, _, _, _, _, _, _ => throw Fault.outOfFuel
  | fuel + 1, p, i, lh, start, separator, baseIndent, markerLength => do
    let n ← p.get i
    if n.kind.isList then do
      let (ok, p1) ← p.unwind
      if ok then appendFirstOrderedList fuel p1 p1.current lh start separator baseIndent markerLength
      else pure p1
    else
      let a := p.alloc { kind := Kind.orderedList, parent := some i, depth := n.depth,
                         indent := lh.indent, start := start }
      do
        let p1 ← a.2.appendContainerBlock i a.1
        let b := p1.alloc { kind := Kind.orderedItem, parent := some a.1, depth := n.depth,
                            indent := lh.indent, separator := separator,
                            baseIndent := baseIndent, markerLength := markerLength }
        b.2.appendContainerBlock a.1 b.1

/-- The virtual `appendBulletList`: `BulletListBlock`; the assertion of `ContainerBlock`
for the other classes. -/
def appendBulletList (p : Parser) (i : Nat) (bullet : QChar) (baseIndent indent : Nat)
    (hasBlankline : Bool) : M Parser := do
  let n ← p.get i
  if n.kind == Kind.bulletList then do
    let a := p.alloc { kind := Kind.bulletItem, parent := some i, depth := n.depth,
                       indent := indent, bullet := bullet, baseIndent := baseIndent }
    let p1 ← a.2.appendContainerBlock i a.1
    p1.setHasBlankline i hasBlankline
  else throw Fault.assertFailed

/-- The virtual `appendOrderedList`: `OrderedListBlock`; the assertion of `ContainerBlock`
for the other classes. -/
def appendOrderedList (p : Parser) (i : Nat) (separator : QChar)
    (baseIndent indent markerLength : Nat) (hasBlankline : Bool) : M Parser := do
  let n ← p.get i
  if n.kind == Kind.orderedList then do
    let a := p.alloc { kind := Kind.orderedItem, parent := some i, depth := n.depth,
                       indent := indent, separator := separator, baseIndent := baseIndent,
                       markerLength := markerLength }
    let p1 ← a.2.appendContainerBlock i a.1
    p1.setHasBlankline i hasBlankline
  else throw Fault.assertFailed

/-- The writable flag that the list items read before they leave their list:
`isEmpty() ? this->writable() : last()->writable()`. -/
def tailWritable (p : Parser) (n : Node) : M Bool :=
  match last n with
  | none => pure n.writable
  | some l => do
    let ln ← p.get l
    pure ln.writable

/-- `ContainerBlock::dispatchBulletList` once the bullet has been found. -/
def containerBulletList (recur : Parser → Nat → LineHandler → M (Bool × LineHandler × Parser))
    (p : Parser) (i : Nat) (lh copy : LineHandler) (bullet : QChar) (baseIndent : Nat) :
    M (Bool × LineHandler × Parser) := do
  let n ← p.get i
  if n.depth > copy.depth then do
    let p1 ← unwindDeeper p.treeFuel p copy.depth
    recur p1 p1.current lh
  else do
    let (stop, blocked, p1) ← (if copy.isBlank then
        match last n with
        | none => (pure (false, false, p) : M (Bool × Bool × Parser))
        | some l => do
          let (ok, p1) ← appendParagraphText p.treeFuel p l lh
          pure (ok, false, p1)
      else pure (false, !isIndentEnoughForChild n baseIndent, p))
    if stop then pure (false, copy, p1)
    else if blocked then do
      let (ok, p2) ← p1.unwind
      if !ok then pure (false, lh, p2) else recur p2 p2.current lh
    else do
      let p2 ← appendFirstBulletList p1.treeFuel p1 i copy bullet baseIndent
      pure (true, copy, p2)

/-- The virtual `dispatchBulletList`: `ContainerBlock`, `ListBlock` and `BulletListItem`. -/
def dispatchBulletList : Nat → Parser → Nat → LineHandler → M (Bool × LineHandler × Parser)
  | 0, _, _, _ => throw Fault.outOfFuel
  | fuel + 1, p, i, lh => do
    let n ← p.get i
    if n.kind.isList then do
      let (ok, p1) ← p.unwind
      if !ok then pure (false, lh, p1) else dispatchBulletList fuel p1 p1.current lh
    else do
      let baseIndent := lh.indent
      let (bullet, copy) ← lh.findBullet
      if n.kind == Kind.bulletItem && bullet == n.bullet then
        if n.depth > copy.depth then do
          let p1 ← unwindDeeper p.treeFuel p copy.depth
          dispatchBulletList fuel p1 p1.current lh
        else
          match n.parent with
          | none => throw Fault.nullDeref
          | some q => do
            let parentBase ← p.baseIndent p.treeFuel q
            if baseIndent < parentBase then do
              let writable ← p.tailWritable n
              let p1 ← p.unwindTwice
              let p2 ← p1.setHasBlankline p1.current (!writable)
              dispatchBulletList fuel p2 p2.current lh
            else if baseIndent ≤ n.baseIndent + 1 then do
              let p1 ← p.appendBulletList q bullet baseIndent copy.indent n.hasBlankline
              pure (true, copy, p1)
            else do
              let p1 ← appendFirstBulletList p.treeFuel p i copy n.bullet baseIndent
              pure (true, copy, p1)
      else if n.kind == Kind.bulletItem then do
        let (bullet2, copy2) ← lh.findBullet
        if bullet2 == 0 then pure (false, lh, p)
        else containerBulletList (dispatchBulletList fuel) p i lh copy2 bullet2 baseIndent
      else if bullet == 0 then pure (false, lh, p)
      else containerBulletList (dispatchBulletList fuel) p i lh copy bullet baseIndent

/-- `ContainerBlock::dispatchOrderedList` once the marker has been found. -/
def containerOrderedList (recur : Parser → Nat → LineHandler → M (Bool × LineHandler × Parser))
    (p : Parser) (i : Nat) (lh copy : LineHandler) (digit : QString) (baseIndent : Nat) :
    M (Bool × LineHandler × Parser) := do
  let n ← p.get i
  if n.depth > copy.depth then do
    let p1 ← unwindDeeper p.treeFuel p copy.depth
    recur p1 p1.current lh
  else do
    let (stop, blocked, p1) ← (if copy.isBlank then
        match last n with
        | none => (pure (false, false, p) : M (Bool × Bool × Parser))
        | some l => do
          let (ok, p1) ← appendParagraphText p.treeFuel p l lh
          pure (ok, false, p1)
      else pure (false, !isIndentEnoughForChild n baseIndent, p))
    if stop then pure (false, copy, p1)
    else if blocked then do
      let (ok, p2) ← p1.unwind
      if !ok then pure (false, lh, p2) else recur p2 p2.current lh
    else do
      let n1 ← p1.get i
      let afterParagraph ← (match last n1 with
        | none => (pure false : M Bool)
        | some l => do
          let ln ← p1.get l
          pure (ln.kind == Kind.paragraph))
      if afterParagraph && digit != qs "1." then pure (false, lh, p1)
      else do
        let start := QString.decimalValue digit.dropLast 0
        let separator ← charAt digit (digit.length - 1)
        let p2 ← appendFirstOrderedList p1.treeFuel p1 i copy start separator baseIndent
          (digit.length + 1)
        pure (true, copy, p2)

/-- The virtual `dispatchOrderedList`: `ContainerBlock`, `ListBlock` and
`OrderedListItem`. -/
def dispatchOrderedList : Nat → Parser → Nat → LineHandler → M (Bool × LineHandler × Parser)
  | 0, _, _, _ => throw Fault.outOfFuel
  | fuel + 1, p, i, lh => do
    let n ← p.get i
    if n.kind.isList then do
      let (ok, p1) ← p.unwind
      if !ok then pure (false, lh, p1) else dispatchOrderedList fuel p1 p1.current lh
    else do
      let baseIndent := lh.indent
      let (digit, copy) ← lh.findDigit
      if digit.isEmpty then pure (false, lh, p)
      else if n.kind == Kind.orderedItem && digit.getLast? == some n.separator then
        if n.depth > copy.depth then do
          let p1 ← unwindDeeper p.treeFuel p copy.depth
          dispatchOrderedList fuel p1 p1.current lh
        else
          match n.parent with
          | none => throw Fault.nullDeref
          | some q => do
            let parentBase ← p.baseIndent p.treeFuel q
            if baseIndent < parentBase then do
              let writable ← p.tailWritable n
              let p1 ← p.unwindTwice
              let p2 ← p1.setHasBlankline p1.current (!writable)
              dispatchOrderedList fuel p2 p2.current lh
            else if baseIndent ≤ n.baseIndent + n.markerLength then do
              let separator ← charAt digit (digit.length - 1)
              let p1 ← p.appendOrderedList q separator baseIndent copy.indent (digit.length + 1)
                n.hasBlankline
              pure (true, copy, p1)
            else do
              let start := QString.decimalValue digit.dropLast 0
              let separator ← charAt digit (digit.length - 1)
              let p1 ← appendFirstOrderedList p.treeFuel p i copy start separator baseIndent
                (digit.length + 1)
              pure (true, copy, p1)
      else if n.kind == Kind.orderedItem then do
        let (digit2, copy2) ← lh.findDigit
        if digit2.isEmpty then pure (false, lh, p)
        else containerOrderedList (dispatchOrderedList fuel) p i lh copy2 digit2 baseIndent
      else containerOrderedList (dispatchOrderedList fuel) p i lh copy digit baseIndent

/-- The virtual `dispatchContainerBlock`: the block quote first, then the two kinds of
list, the ordered one first in `OrderedListItem`. -/
def dispatchContainerBlock (p : Parser) (i : Nat) (lh : LineHandler) :
    M (Bool × LineHandler × Parser) := do
  let n ← p.get i
  let (r1, lh1, p1) ← p.dispatchBlockQuote i lh
  if r1 then pure (true, lh1, p1)
  else if n.kind == Kind.orderedItem then do
    let (r2, lh2, p2) ← dispatchOrderedList p1.treeFuel p1 i lh1
    if r2 then pure (true, lh2, p2) else dispatchBulletList p2.treeFuel p2 i lh2
  else do
    let (r2, lh2, p2) ← dispatchBulletList p1.treeFuel p1 i lh1
    if r2 then pure (true, lh2, p2) else dispatchOrderedList p2.treeFuel p2 i lh2

/-- `ContainerBlock::dispatchNoText`. -/
def dispatchNoText (p : Parser) (i : Nat) (lh : LineHandler) : M (Bool × Parser) := do
  let n ← p.get i
  if !lh.isBlank then pure (false, p)
  else
    match last n with
    | none => pure (true, p)
    | some l => do
      let p1 ← p.handleBlankLine l lh
      pure (true, p1)

/-- `ContainerBlock::dispatchHeadingBlock`. -/
def dispatchHeadingBlock (p : Parser) (lh : LineHandler) : M (Bool × Parser) := do
  let r := lh.findHeadingMarker
  let count := r.1
  let currentIndent := r.2.indent
  if count == 0 then pure (false, p)
  else do
    let lh1 := r.2.removeLastSequence (ch '#')
    let p1 ← unwindUntil p.treeFuel p currentIndent
    let a := p1.alloc { kind := Kind.heading, parent := some p1.current, text := lh1.trimmed,
                        level := count }
    let p2 ← a.2.appendLeafBlock p1.current a.1
    pure (true, p2)

/-- `ContainerBlock::dispatchHeadingAndParagraph`. -/
def dispatchHeadingAndParagraph (p : Parser) (i : Nat) (lh : LineHandler) : M Parser := do
  let (r1, p1) ← p.dispatchNoText i lh
  if r1 then pure p1 else
  let (r2, p2) ← p1.dispatchHeadingBlock lh
  if r2 then pure p2 else
  let (_, p3) ← appendParagraph p2.treeFuel p2 i lh
  pure p3

/-- `BulletListItem::html` and `OrderedListItem::html` on the joined text of the children. -/
def itemHtml (text : QString) : QString :=
  match text.head?, text.getLast? with
  | some f, some l =>
    qs "<li>" ++ (if f == ch '<' then [ch '\n'] else []) ++ text ++
      (if l == ch '>' then [ch '\n'] else []) ++ qs "</li>"
  | _, _ => qs "<li></li>"

/-- The results of a rendering function on the children of a container, in order. -/
def collect (f : Nat → M QString) : List Nat → M (List QString)
  | [] => pure []
  | c :: more => do
    let t ← f c
    let ts ← collect f more
    pure (t :: ts)

/-- The virtual `html`. -/
def html (p : Parser) : Nat → Nat → M QString
  | 0, _ => throw Fault.outOfFuel
  | fuel + 1, i => do
    let n ← p.get i
    match n.kind with
    | Kind.body => do
      let parts ← collect (html p fuel) n.children
      pure (QString.join [ch '\n'] parts)
    | Kind.bulletItem | Kind.orderedItem => do
      let parts ← collect (html p fuel) n.children
      pure (itemHtml (QString.join [ch '\n'] parts))
    | Kind.bulletList => do
      let parts ← collect (html p fuel) n.children
      pure (qs "<ul>\n" ++ (parts.map fun t => t ++ [ch '\n']).flatten ++ qs "</ul>")
    | Kind.orderedList => do
      let parts ← collect (html p fuel) n.children
      let text := (parts.map fun t => t ++ [ch '\n']).flatten
      if n.start == 1 then pure (qs "<ol>\n" ++ text ++ qs "</ol>")
      else pure (qs "<ol start=\"" ++ QString.number n.start ++ qs "\">\n" ++ text ++ qs "</ol>")
    | Kind.blockQuote => do
      let parts ← collect (html p fuel) n.children
      pure (qs "<blockquote>\n" ++ (parts.map fun t => t ++ [ch '\n']).flatten ++ qs "</blockquote>")
    | Kind.paragraph =>
      match n.parent with
      | none => throw Fault.nullDeref
      | some q => do
        let loose ← p.hasBlankline p.treeFuel q
        let inner ← InlineParser.textToHTML p.linkList n.text
        pure (if loose then qs "<p>" ++ inner ++ qs "</p>" else inner)
    | Kind.indentedCode =>
      pure (qs "<pre><code>" ++ InlineParser.codeToHTML n.text ++ qs "\n</code></pre>")
    | Kind.fencedCode =>
      let temp := InlineParser.codeToHTML n.text
      if n.info.isEmpty then pure (qs "<pre><code>" ++ temp ++ qs "</code></pre>")
      else do
        let language ← InlineParser.textToHTML p.linkList n.info
        pure (qs "<pre><code class=\"language-" ++ language ++ qs "\">" ++ temp ++
          qs "</code></pre>")
    | Kind.heading => do
      let inner ← InlineParser.textToHTML p.linkList n.text
      pure (qs "<h" ++ QString.number n.level ++ qs ">" ++ inner ++ qs "</h" ++
        QString.number n.level ++ qs ">")
    | Kind.thematicBreak => pure (qs "<hr />")
    | Kind.htmlBlock | Kind.htmlBlockWithCloseTag => pure n.text

/-- The empty `BodyBlock root`. -/
def rootNode : Node := { kind := Kind.body, parent := none }

/-- The body of the `for` loop of `getHTMLText` after `dispatchBlankLine` has failed:
the inner `while` loop. -/
def dispatchLine : Nat → Parser → LineHandler → M Parser
  | 0, _, _ => throw Fault.outOfFuel
  | fuel + 1, p, lh => do
    let (r1, p1) ← dispatchIndentedCode p.treeFuel p p.current lh
    if r1 then pure p1 else
    let (r2, p2) ← p1.dispatchLeafBlock p1.current lh
    if r2 then pure p2 else
    let lh1 := lh.skipWhitespace
    let (r3, lh2, p3) ← p2.dispatchContainerBlock p2.current lh1
    if r3 then dispatchLine fuel p3 lh2
    else p3.dispatchHeadingAndParagraph p3.current lh2

/-- One turn of the `for` loop of `getHTMLText`. -/
def feedLine (p : Parser) (line_ : QString) : M Parser := do
  let lh := LineHandler.new line_
  let (blank, p1) ← p.dispatchBlankLine p.current lh
  if blank then pure p1 else dispatchLine (line_.length + 2) p1 lh

/-- The `for` loop of `getHTMLText` over the lines. -/
def feedLines (p : Parser) : List QString → M Parser
  | [] => pure p
  | line_ :: more => do
    let p1 ← p.feedLine line_
    feedLines p1 more

/-- The loop `while (unwind()) {}`. -/
def unwindAll : Nat → Parser → M Parser
  | 0, _ => throw Fault.outOfFuel
  | fuel + 1, p => do
    let (ok, p1) ← p.unwind
    if ok then unwindAll fuel p1 else pure p1

/-- The block tree at the end of the `for` loop of `getHTMLText`. -/
def parseBlocks (p : Parser) (mdText : QString) : M Parser :=
  feedLines { p with nodes := [rootNode], current := 0, linkList := [] }
    (QString.splitRef mdText (ch '\n'))

/-- The statements of `getHTMLText` after the `for` loop. -/
def finish (p : Parser) : M (QString × Parser) := do
  let p1 ← unwindAll p.treeFuel p
  let p2 ← close p1.treeFuel p1 0
  let text ← html p2 p2.treeFuel 0
  pure (text, p2)

/-- `Parser::getHTMLText`: the result and the parser afterwards. The block objects of an
earlier call are gone, the new root is the only object at the start. -/
def getHTMLText (p : Parser) (mdText : QString) : M (QString × Parser) := do
  let p1 ← p.parseBlocks mdText
  p1.finish

/-- The constructor `Parser()`. -/
def new : Parser := { nodes := [], current := 0, linkList := [] }

end Parser

/-- The HTML text that a freshly constructed parser returns for `mdText`. -/
def htmlOf (mdText : QString) : M QString := do
  let r ← Parser.new.getHTMLText mdText
  pure r.1

/-! ## Classes of texts used in the statements -/

/-- An ASCII letter. -/
def isAsciiLetter (c : QChar) : Bool := (65 ≤ c && c ≤ 90) || (97 ≤ c && c ≤ 122)

/-- A non-empty text of ASCII letters. -/
def isLetters (t : QString) : Bool := !t.isEmpty && t.all isAsciiLetter

/-- A non-empty text of ASCII letters with single spaces between them: words separated by
one space each. -/
def isWords : QString → Bool
  | [] => false
  | [c] => isAsciiLetter c
  | c :: d :: rest => isAsciiLetter c && (if d == 32 then isWords rest else isWords (d :: rest))

/-- A line made only of spaces and tabs. -/
def isBlankLine (w : QString) : Bool := w.all fun c => c == 32 || c == 9

/-- A character at which no step of the inline scan does anything: none of the characters
that start a tag, a link, an image, a code span, an escape, an entity, a run of white space
or an emphasis. -/
def inertChar (c : QChar) : Bool :=
  c != 60 && c != 91 && c != 33 && c != 96 && c != 92 && c != 38 && c != 34 && c != 62 &&
  c != 32 && c != 42 && c != 95

/-- A text that the inline scan leaves as it is: inert characters, and single spaces each
followed by a character that is no white space. -/
def calm : QString → Bool
  | [] => true
  | c :: rest =>
    if c == 32 then
      match rest with
      | [] => false
      | d :: _ => !QChar.isSpace d && calm rest
    else inertChar c && calm rest

/-! ## States and predicates used in the proofs -/

/-- White space of the text scanner. -/
def isWs (c : Nat) : Prop := c = 9 ∨ c = 32 ∨ c = 10

/-- The last child of a container is absent or a paragraph. -/
def LastPlain (p : Parser) (n : Node) : Prop :=
  Parser.last n = none ∨ ∃ l ln, Parser.last n = some l ∧ p.nodes[l]? = some ln ∧ ln.kind = Kind.paragraph

/-- The last child of a container is absent or a writable paragraph. -/
def LastOpen (p : Parser) (n : Node) : Prop :=
  Parser.last n = none ∨
    ∃ l ln, Parser.last n = some l ∧ p.nodes[l]? = some ln ∧ ln.kind = Kind.paragraph ∧ ln.writable = true

/-- The parser at the start of the loop of `getHTMLText`: the empty root alone. -/
def Parser.start : Parser := { nodes := [Parser.rootNode], current := 0, linkList := [] }

/-- The block quote of the tree of `> a`. -/
def quoteNode (children : List Nat) : Node :=
  { kind := Kind.blockQuote, parent := some 0, depth := 1, indent := 1, children := children }

/-- The tree after the marker of `> a` has been read: the root and an empty block quote,
which is the current container. -/
def quoteEmpty : Parser :=
  Parser.mk [{ kind := Kind.body, parent := none, children := [1] }, quoteNode []] 1 []

/-- The tree after the lines of a block quote with one paragraph have been read. -/
def quoteDoc (text : QString) : Parser :=
  Parser.mk [{ kind := Kind.body, parent := none, children := [1] }, quoteNode [2],
    { kind := Kind.paragraph, parent := some 1, text := text }] 1 []

/-- The bullet list of the tree of `- a`. -/
def bulletListNode (children : List Nat) (writable : Bool) : Node :=
  { kind := Kind.bulletList, parent := some 0, indent := 2, children := children, writable := writable }

/-- An item of the bullet list of the tree of `- a`. -/
def bulletItemNode (children : List Nat) (writable : Bool) : Node :=
  { kind := Kind.bulletItem, parent := some 1, indent := 2, bullet := 45, children := children,
    writable := writable }

/-- The tree after the marker of `- a` has been read: the list and its empty first item,
which is the current container. -/
def listEmpty : Parser :=
  Parser.mk [{ kind := Kind.body, parent := none, children := [1] }, bulletListNode [2] true,
    bulletItemNode [] true] 2 []

/-- The tree after the line `- a` has been read. -/
def listOne (a : QString) : Parser :=
  Parser.mk [{ kind := Kind.body, parent := none, children := [1] }, bulletListNode [2] true,
    bulletItemNode [3] true, { kind := Kind.paragraph, parent := some 2, text := a }] 2 []

/-- The tree after the marker of the second line of `- a`, `- b` has been read: the first
item is closed and the empty second item is the current container. -/
def listTwoEmpty (a : QString) : Parser :=
  Parser.mk [{ kind := Kind.body, parent := none, children := [1] }, bulletListNode [2, 4] true,
    bulletItemNode [3] false, { kind := Kind.paragraph, parent := some 2, text := a, writable := false },
    bulletItemNode [] true] 4 []

/-- The tree after the two lines `- a`, `- b` have been read. -/
def listTwo (a b : QString) : Parser :=
  Parser.mk [{ kind := Kind.body, parent := none, children := [1] }, bulletListNode [2, 4] true,
    bulletItemNode [3] false, { kind := Kind.paragraph, parent := some 2, text := a, writable := false },
    bulletItemNode [5] true, { kind := Kind.paragraph, parent := some 4, text := b }] 4 []

/-- The tree of `- a`, `- b` after every block has been closed. -/
def listDone (a b : QString) : Parser :=
  Parser.mk [{ kind := Kind.body, parent := none, children := [1], writable := false },
    bulletListNode [2, 4] false,
    bulletItemNode [3] false, { kind := Kind.paragraph, parent := some 2, text := a, writable := false },
    bulletItemNode [5] false,
    { kind := Kind.paragraph, parent := some 4, text := b, writable := false }] 0 []

/-- The tree of a document that is one paragraph; `writable` tells whether the paragraph is
still open. -/
def paragraphDoc (text : QString) (writable : Bool) : Parser :=
  Parser.mk [{ kind := Kind.body, parent := none, children := [1] },
    { kind := Kind.paragraph, parent := some 0, text := text, writable := writable }] 0 []

/-- An ASCII punctuation character. -/
def isAsciiPunctuation (c : QChar) : Bool :=
  (33 ≤ c && c ≤ 47) || (58 ≤ c && c ≤ 64) || (91 ≤ c && c ≤ 96) || (123 ≤ c && c ≤ 126)

/-- The output that stands for an escaped character: the line break for a newline, the named
entity for the four HTML-special characters, the character itself otherwise. -/
def escapedText (c : QChar) : QString :=
  if c = 10 then qs "<br />\n"
  else if c = 34 then qs "&quot;"
  else if c = 38 then qs "&amp;"
  else if c = 60 then qs "&lt;"
  else if c = 62 then qs "&gt;"
  else [c]

/-- The heading that `convertToSetextHeading` allocates for the paragraph `ln`. -/
def setextNode (ln : Node) (level : Nat) : Node :=
  { kind := Kind.heading, parent := ln.parent, text := QString.trimmed ln.text, level := level }

/-- The tree in which the container `i` has lost its last child and the new heading is allocated. -/
def setextTree (p : Parser) (i : Nat) (n ln : Node) (pre : List Nat) (level : Nat) : Parser :=
  Parser.mk ((p.nodes ++ [setextNode ln level]).set i { n with children := pre }) p.current p.linkList

/-- A body whose only child is an open paragraph. -/
def setextDemo : Parser :=
  Parser.mk [{ kind := Kind.body, parent := none, children := [1] },
             { kind := Kind.paragraph, parent := some 0, text := qs " Foo " }] 0 []

/-- A bullet list with one empty item. -/
def listDemo : Parser :=
  Parser.mk [{ kind := Kind.bulletList, parent := none, children := [1] },
             { kind := Kind.bulletItem, parent := some 0 }] 0 []

/-- The body in which the paragraph `t` has been replaced by a heading. -/
def headingDoc (t : QString) (level : Nat) (w : Bool) : Parser :=
  Parser.mk [{ kind := Kind.body, parent := none, children := [2] },
    { kind := Kind.paragraph, parent := some 0, text := t },
    { kind := Kind.heading, parent := some 0, text := t, level := level, writable := w }] 0 []

/-- Space or tab. -/
def isBlankChar (c : QChar) : Bool := c == ch ' ' || c == ch '\t'

/-- The first character at or after the cursor that is neither space nor tab is `c`, and
`c` is the last character of the line or is followed by a space or a tab. -/
def markerAhead (lh : LineHandler) (c : QChar) : Bool :=
  match (lh.line.drop lh.physicalPosition).dropWhile isBlankChar with
  | [] => false
  | d :: rest => d == c &&
    (match rest with
     | [] => true
     | e :: _ => isBlankChar e)

/-- The logical column behind a run of spaces and tabs that starts at the column `logical`. -/
def columns : QString → Nat → Nat
  | [], logical => logical
  | c :: rest, logical =>
    if c == ch '\t' then columns rest (logical + (LineHandler.TAB_SIZE - logical % LineHandler.TAB_SIZE))
    else columns rest (logical + 1)

/-- The named entity that stands for a character in a code span. -/
def namedEntity (c : QChar) : QString :=
  if c = chQuote then qs "&quot;"
  else if c = ch '&' then qs "&amp;"
  else if c = ch '<' then qs "&lt;"
  else if c = ch '>' then qs "&gt;"
  else [c]

/-- The text of a code span: `s` trimmed, every special character replaced by its named
entity, every run of spaces and newlines collapsed to one space. -/
def codeText (s : QString) : QString :=
  InlineParser.collapseSpaces false ((QString.trimmed s).flatMap namedEntity)

/-- The parent pointers of the objects, in the order of the objects. -/
def parents (p : Parser) : List (Option Nat) := p.nodes.map fun n => n.parent

/-- The object `a` is the object `b` or is reached from `b` by at most `fuel` parent pointers. -/
def ancestorOrSelf (p : Parser) : Nat → Nat → Nat → Bool
  | 0, a, b => a == b
  | fuel + 1, a, b =>
    a == b ||
      (match (parents p)[b]? with
       | some (some q) => ancestorOrSelf p fuel a q
       | _ => false)

/-- A body with an empty block quote of indent 2 that is the current container. -/
def unwindDemo : Parser :=
  Parser.mk [{ kind := Kind.body, parent := none, children := [1] },
             { kind := Kind.blockQuote, parent := some 0, depth := 1, indent := 2 }] 1 []

/-- The tree of `unwindDemo` after `unwind`. -/
def unwindDone : Parser :=
  Parser.mk [{ kind := Kind.body, parent := none, children := [1] },
             { kind := Kind.blockQuote, parent := some 0, depth := 1, indent := 2, writable := false }] 0 []

/-- A reference table whose only entry has a title that refers to the entry itself. -/
def loopTable : LinkList := [(qs "a", (qs "/u", qs "![a]"))]

/-- The calls of `appendParagraphText` on the block `i`, one for every scanner of the list. -/
def appendLines (p : Parser) (i : Nat) : List LineHandler → M Parser
  | [] => pure p
  | lh :: more => do
    let r ← Parser.appendParagraphText 1 p i lh
    appendLines r.2 i more

/-- The block `n` with the raw text `t`. -/
def withText (n : Node) (t : QString) : Node := { n with text := t }

/-- The mark that stands for the opening tag of a record in a list of marks. -/
def openMark (p : Precedence) : Nat := 2 * Encodable.encode p.tag

/-- The mark that stands for the closing tag of a record. -/
def closeMark (p : Precedence) : Nat := 2 * Encodable.encode p.tag + 1

/-- A left part that appends the opening mark of the record and nothing else. -/
def markLeft : InlineParser.Part := fun p _ applied lastPos => (applied ++ [openMark p], lastPos)

/-- A right part that appends the closing mark of the record and nothing else. -/
def markRight : InlineParser.Part := fun p _ applied lastPos => (applied ++ [closeMark p], lastPos)

/-- The stack of the tags that are open behind a list of marks; `none` when a closing mark
does not match the tag that was opened last. -/
def nesting : List Nat → List Nat → Option (List Nat)
  | stack, [] => some stack
  | stack, m :: more =>
    if m % 2 = 0 then nesting (m / 2 :: stack) more
    else
      match stack with
      | [] => none
      | t :: below => if t = m / 2 then nesting below more else none

/-- A list of marks in which every opening mark has its closing mark and the pairs do not
cross. -/
def wellNested (marks : List Nat) : Bool := nesting [] marks == some []

/-- The record of an emphasis that `open` makes at `begin`, with the end `stop` (-1 while the
record is incomplete). -/
def emRecord (begin : Nat) (stop : Int) : Precedence := ⟨42, 1, qs "em", begin, stop⟩

/-- The record of a strong emphasis after `closeBoth`: two delimiters from `begin` on. -/
def strongRecord (begin : Nat) (stop : Int) : Precedence := ⟨42, 2, qs "strong", begin, stop⟩

/-- The further markers of a block quote line: each group is a number of spaces followed by
one `>`. -/
def quoteMarkers : List Nat → QString
  | [] => []
  | j :: more => List.replicate j (ch ' ') ++ ch '>' :: quoteMarkers more

/-- A text that is empty or starts with a character other than a space, a tab and `>`. -/
def endsMarkers (tail : QString) : Bool :=
  match tail with
  | [] => true
  | c :: _ => c != ch ' ' && c != ch '\t' && c != ch '>'

/-- What closing and rendering read of a block: the buffer `pending` of an indented code
block and the flag `hasBlankline` of a list item are written by a blank line and read by
neither of them. -/
def eraseNode (n : Node) : Node :=
  { n with pending := [], hasBlankline := !n.kind.isItem && n.hasBlankline }

/-- The block tree with the members that closing and rendering do not read removed. -/
def erase (p : Parser) : Parser := Parser.mk (p.nodes.map eraseNode) p.current p.linkList

/-- The block `x` is closed together with the last children below it: `x` is not writable
and, when it is a container, its last child was created after it and is closed in the same
way. -/
def closedSub (p : Parser) : Nat → Nat → Bool
  | 0, _ => false
  | fuel + 1, x =>
    match p.nodes[x]? with
    | none => false
    | some n =>
      !n.writable &&
        (if n.kind == Kind.paragraph then true
         else if n.kind.isContainer then
           match Parser.last n with
           | none => true
           | some l => decide (x < l) && closedSub p fuel l
         else true)

/-- The block `x` is closed: `closedSub` with the budget that the blocks created after `x`
allow. -/
def closedAt (p : Parser) (x : Nat) : Bool := closedSub p (p.nodes.length - x) x

/-- The path from the container `c` up to the root: every block on it is a container, was
created after its parent and is the last child of its parent, and the path ends at the
root, the block 0. -/
def openChain (p : Parser) : Nat → Nat → Bool
  | 0, _ => false
  | fuel + 1, c =>
    match p.nodes[c]? with
    | none => false
    | some n =>
      n.kind.isContainer &&
        match n.parent with
        | none => c == 0
        | some q =>
          decide (q < c) &&
            (match p.nodes[q]? with
             | some qn => Parser.last qn == some c
             | none => false) &&
            openChain p fuel q

/-- The kinds of leaf block that a blank line closes or leaves as they are while they are
open: paragraph, heading, thematic break, HTML block without an end condition and indented
code block. The fenced code block and the HTML block with an end condition take the blank
line as a line of their text. -/
def quietKind (k : Kind) : Bool :=
  k == Kind.paragraph || k == Kind.heading || k == Kind.thematicBreak || k == Kind.htmlBlock ||
    k == Kind.indentedCode

/-- The child before the last one, if there is one, is closed, was created after the
container `c` and, when it is a leaf block, has `c` as its parent. -/
def beforeLastClosed (p : Parser) (c : Nat) (cn : Node) : Bool :=
  match cn.children.dropLast.getLast? with
  | none => true
  | some x =>
    decide (c < x) && closedAt p x &&
      (match p.nodes[x]? with
       | none => false
       | some xn => xn.kind.isContainer || xn.parent == some c)

/-- The last child `l` of the current container `c` is in a state that a blank line leaves
or closes. A container is closed. A leaf block has `c` as its parent, `c` is no list, and
the leaf is closed or is open and of a quiet kind, or of any kind when `c` is a block quote,
which a blank line closes as a whole; below an open paragraph, which closing may remove, the
child before it is closed. -/
def lastSettled (p : Parser) (c : Nat) (cn : Node) (l : Nat) : Bool :=
  match p.nodes[l]? with
  | none => false
  | some ln =>
    decide (c < l) &&
      (if ln.kind.isContainer then closedAt p l
       else
         ln.parent == some c && !cn.kind.isList &&
           (if ln.writable then
              (quietKind ln.kind || cn.kind == Kind.blockQuote) &&
                (ln.kind != Kind.paragraph || beforeLastClosed p c cn)
            else true))

/-- The block tree is settled: the path from the current container to the root is the open
path of the tree, and the last child of the current container is closed or an open leaf
block of a quiet kind. -/
def settled (p : Parser) : Bool :=
  match p.nodes[p.current]? with
  | none => false
  | some cn =>
    openChain p p.nodes.length p.current &&
      (match Parser.last cn with
       | none => true
       | some l => lastSettled p p.current cn l)

/-- The paragraph `ln` after `close`: no longer writable, with the text that is left. -/
def closedPara (ln : Node) (t : QString) : Node := { ln with text := t, writable := false }

/-- The container `cn` without its last child. -/
def withoutLast (cn : Node) : Node := { cn with children := cn.children.dropLast }

/-- The statements of `getHTMLText` after the `for` loop, with the budget of the loop
`while (unwind())` given: the HTML text. -/
def finWith (f : Nat) (p : Parser) : M QString := do
  let p1 ← Parser.unwindAll f p
  let p2 ← Parser.close p1.treeFuel p1 0
  Parser.html p2 p2.treeFuel 0

/-! ## Lemmas -/

@[simp] theorem ch_tab : ch '\t' = 9 := rfl
@[simp] theorem ch_nl : ch '\n' = 10 := rfl
@[simp] theorem ch_lt : ch '<' = 60 := rfl
@[simp] theorem ch_lb : ch '[' = 91 := rfl
@[simp] theorem ch_bang : ch '!' = 33 := rfl
@[simp] theorem ch_bs : ch '\\' = 92 := rfl
@[simp] theorem ch_amp : ch '&' = 38 := rfl
@[simp] theorem ch_gt : ch '>' = 62 := rfl
@[simp] theorem ch_sp : ch ' ' = 32 := rfl
@[simp] theorem ch_star : ch '*' = 42 := rfl
@[simp] theorem ch_us : ch '_' = 95 := rfl
@[simp] theorem chBacktick_eq : chBacktick = 96 := rfl
@[simp] theorem chQuote_eq : chQuote = 34 := rfl

@[simp] theorem pure_eq_ok {α : Type} (a : α) : (pure a : M α) = Except.ok a := rfl
@[simp] theorem ok_bind {α β : Type} (a : α) (f : α → M β) : (Except.ok a >>= f) = f a := rfl
@[simp] theorem error_bind {α β : Type} (e : Fault) (f : α → M β) : ((Except.error e : M α) >>= f) = Except.error e := rfl

theorem getElem?_of_drop {l : List Nat} {pos c rest} (h : l.drop pos = c :: rest) : l[pos]? = some c := by
  have := congrArg List.head? h
  simpa [List.head?_drop] using this

theorem lt_of_drop {l : List Nat} {pos c rest} (h : l.drop pos = c :: rest) : pos < l.length := by
  by_contra hn
  rw [List.drop_of_length_le (by omega)] at h
  cases h

theorem charAt_of_drop {l : List Nat} {pos c rest} (h : l.drop pos = c :: rest) : charAt l pos = .ok c := by
  simp [charAt, getElem?_of_drop h]

theorem replaceSquareBrackets_inert (fuel : Nat) {line : QString} {pos c : Nat} {rest : QString}
    (h : line.drop pos = c :: rest) (hc : c ≠ 60) :
    InlineParser.replaceSquareBrackets (fuel + 1) line pos = .ok (pos, line) := by
  have h1 := getElem?_of_drop h
  simp [InlineParser.replaceSquareBrackets, InlineParser.replaceAutolink, TextHandler.skipHTMLBlock, h1, hc]

theorem replaceLink_inert (R : Nested) (links : LinkList) (isHTML : Bool) {line : QString} {pos c : Nat} {rest : QString}
    (h : line.drop pos = c :: rest) (hc : c ≠ 91) :
    InlineParser.replaceLink R links line pos isHTML = .ok (pos, line) := by
  simp [InlineParser.replaceLink, charAt_of_drop h, hc]

theorem replaceImage_inert (R : Nested) (links : LinkList) (isHTML : Bool) {line : QString} {pos c : Nat} {rest : QString}
    (h : line.drop pos = c :: rest) (hc : c ≠ 33) :
    InlineParser.replaceImage R links line pos isHTML = .ok (pos, line) := by
  have : qs "![" = [33, 91] := by decide
  simp [InlineParser.replaceImage, h, this]
  intro h1; cases rest <;> simp_all

theorem replaceCodeSpan_inert {line : QString} {pos c : Nat} {rest : QString}
    (h : line.drop pos = c :: rest) (hc : c ≠ 96) :
    InlineParser.replaceCodeSpan line pos = .ok (pos, line) := by
  simp [InlineParser.replaceCodeSpan, charAt_of_drop h, hc]

theorem escapeGet_inert {c : Nat} {rest : QString} (h1 : c ≠ 92) (h2 : c ≠ 38) :
    EscapeChar.get (c :: rest) = .ok EscapeChar.empty := by
  cases rest <;> simp [EscapeChar.get, EscapeChar.getBackslashEscaped, h1, h2, EscapeChar.isEmpty, EscapeChar.empty]

theorem replaceSpecialCharacter_inert {line : QString} {pos c : Nat} {rest : QString}
    (h : line.drop pos = c :: rest) (h1 : c ≠ 92) (h2 : c ≠ 38) (h3 : c ≠ 34) (h4 : c ≠ 60) (h5 : c ≠ 62) :
    InlineParser.replaceSpecialCharacter line pos = .ok (pos, line) := by
  simp [InlineParser.replaceSpecialCharacter, h, escapeGet_inert h1 h2, charAt_of_drop h, EntityChar.get, *, EscapeChar.isEmpty, EscapeChar.empty]

theorem replaceWhitespace_inert {line : QString} {pos c : Nat} {rest : QString}
    (h : line.drop pos = c :: rest) (hc : c ≠ 32) :
    InlineParser.replaceWhitespace line pos = .ok (pos, line) := by
  simp [InlineParser.replaceWhitespace, charAt_of_drop h, hc]

theorem skipEmphasis_inert {line : QString} {pos c : Nat} {rest : QString} (e : InlineParser.Emphasis)
    (h : line.drop pos = c :: rest) (h1 : c ≠ 42) (h2 : c ≠ 95) :
    InlineParser.skipEmphasis line pos e = .ok (pos, e) := by
  simp [InlineParser.skipEmphasis, getElem?_of_drop h, h1, h2]

theorem calm_tail {c : Nat} {rest : QString} (h : calm (c :: rest) = true) : calm rest = true := by
  unfold calm at h
  split at h
  · cases rest with
    | nil => simp at h
    | cons d r => simp at h; exact h.2
  · simp at h; exact h.2

theorem calm_drop (k : Nat) : ∀ (l : QString), calm l = true → calm (l.drop k) = true := by
  induction k with
  | zero => intro l h; simpa using h
  | succ k ih =>
    intro l h
    cases l with
    | nil => simpa using h
    | cons c rest => simpa using ih rest (calm_tail h)

theorem replaceWhitespace_space {line : QString} {pos d : Nat} {rest : QString}
    (h : line.drop pos = 32 :: d :: rest) (hd : QChar.isSpace d = false) :
    InlineParser.replaceWhitespace line pos = .ok (pos + 1, line) := by
  have hlt : pos + 1 < line.length := by
    have h1 : (line.drop pos).length = rest.length + 2 := by rw [h]; simp
    simp at h1; omega
  have h2 : line.drop (pos + 1) = d :: rest := by
    have := congrArg (List.drop 1) h
    simpa [List.drop_drop, Nat.add_comm] using this
  have hd9 : d ≠ 9 := by intro h9; subst h9; simp [QChar.isSpace] at hd
  have hd10 : d ≠ 10 := by intro h9; subst h9; simp [QChar.isSpace] at hd
  have hd32 : d ≠ 32 := by intro h9; subst h9; simp [QChar.isSpace] at hd
  simp [InlineParser.replaceWhitespace, charAt_of_drop h, hlt, h2, InlineParser.whitespaceRun, hd9, hd10, hd32,
    InlineParser.skipWhitespace, hd]

theorem parseLoop_calm (R : Nested) (links : LinkList) (isHTML : Bool) :
    ∀ (n : Nat) (line : QString) (pos : Nat) (e : InlineParser.Emphasis),
      calm (line.drop pos) = true → line.length - pos < n →
      InlineParser.parseLoop R links isHTML n line pos e = .ok (line, e) := by
  intro n
  induction n with
  | zero => intro line pos e _ h; omega
  | succ n ih =>
    intro line pos e hc hn
    cases hd : line.drop pos with
    | nil =>
      have : ¬ pos < line.length := by
        intro hlt
        have : (line.drop pos).length = line.length - pos := by simp
        rw [hd] at this; simp at this; omega
      simp [InlineParser.parseLoop, this]
    | cons c rest =>
      have hlt := lt_of_drop hd
      have hnext : line.drop (pos + 1) = rest := by
        have := congrArg (List.drop 1) hd
        simpa [List.drop_drop, Nat.add_comm] using this
      rw [hd] at hc
      have hrest : calm (line.drop (pos + 1)) = true := by rw [hnext]; exact calm_tail hc
      have hrec := ih line (pos + 1) e hrest (by omega)
      by_cases h32 : c = 32
      · subst h32
        cases rest with
        | nil => simp [calm] at hc
        | cons d r =>
          simp [calm] at hc
          have hw := replaceWhitespace_space hd hc.1
          simp [InlineParser.parseLoop, hlt, replaceSquareBrackets_inert _ hd (by decide),
            replaceLink_inert R links isHTML hd (by decide), replaceImage_inert R links isHTML hd (by decide),
            replaceCodeSpan_inert hd (by decide),
            replaceSpecialCharacter_inert hd (by decide) (by decide) (by decide) (by decide) (by decide), hw, hrec,
            InlineParser.lineFuel]
      · simp [calm, h32, inertChar] at hc
        simp only [and_assoc] at hc
        obtain ⟨h60, h91, h33, h96, h92, h38, h34, h62, h42, h95, _⟩ := hc
        simp [InlineParser.parseLoop, hlt, replaceSquareBrackets_inert _ hd h60,
            replaceLink_inert R links isHTML hd h91, replaceImage_inert R links isHTML hd h33,
            replaceCodeSpan_inert hd h96,
            replaceSpecialCharacter_inert hd h92 h38 h34 h60 h62, replaceWhitespace_inert hd h32,
            skipEmphasis_inert e hd h42 h95, hrec, InlineParser.lineFuel]

theorem textToHTML_calm (links : LinkList) (line : QString) (h : calm line = true) :
    InlineParser.textToHTML links line = .ok line := by
  have := parseLoop_calm (InlineParser.nested links (InlineParser.nestingFuel line)) links true
    (InlineParser.parseFuel line) line (InlineParser.skipWhitespace line 0) ⟨[], []⟩
    (calm_drop _ line h) (by simp [InlineParser.parseFuel]; omega)
  simp [InlineParser.textToHTML, InlineParser.textToHTMLWith, InlineParser.parse, this, InlineParser.render]

theorem letter_range {c : Nat} (h : isAsciiLetter c = true) : (65 ≤ c ∧ c ≤ 90) ∨ (97 ≤ c ∧ c ≤ 122) := by
  simpa [isAsciiLetter] using h

@[simp] theorem letter_ne_9 {c : Nat} (h : isAsciiLetter c = true) : (c = 9) = False := by
  have := letter_range h
  simp; omega

@[simp] theorem letter_ne_10 {c : Nat} (h : isAsciiLetter c = true) : (c = 10) = False := by
  have := letter_range h
  simp; omega

@[simp] theorem letter_ne_32 {c : Nat} (h : isAsciiLetter c = true) : (c = 32) = False := by
  have := letter_range h
  simp; omega

@[simp] theorem letter_ne_33 {c : Nat} (h : isAsciiLetter c = true) : (c = 33) = False := by
  have := letter_range h
  simp; omega

@[simp] theorem letter_ne_34 {c : Nat} (h : isAsciiLetter c = true) : (c = 34) = False := by
  have := letter_range h
  simp; omega

@[simp] theorem letter_ne_35 {c : Nat} (h : isAsciiLetter c = true) : (c = 35) = False := by
  have := letter_range h
  simp; omega

@[simp] theorem letter_ne_38 {c : Nat} (h : isAsciiLetter c = true) : (c = 38) = False := by
  have := letter_range h
  simp; omega

@[simp] theorem letter_ne_39 {c : Nat} (h : isAsciiLetter c = true) : (c = 39) = False := by
  have := letter_range h
  simp; omega

@[simp] theorem letter_ne_40 {c : Nat} (h : isAsciiLetter c = true) : (c = 40) = False := by
  have := letter_range h
  simp; omega

@[simp] theorem letter_ne_41 {c : Nat} (h : isAsciiLetter c = true) : (c = 41) = False := by
  have := letter_range h
  simp; omega

@[simp] theorem letter_ne_42 {c : Nat} (h : isAsciiLetter c = true) : (c = 42) = False := by
  have := letter_range h
  simp; omega

@[simp] theorem letter_ne_43 {c : Nat} (h : isAsciiLetter c = true) : (c = 43) = False := by
  have := letter_range h
  simp; omega

@[simp] theorem letter_ne_45 {c : Nat} (h : isAsciiLetter c = true) : (c = 45) = False := by
  have := letter_range h
  simp; omega

@[simp] theorem letter_ne_46 {c : Nat} (h : isAsciiLetter c = true) : (c = 46) = False := by
  have := letter_range h
  simp; omega

@[simp] theorem letter_ne_47 {c : Nat} (h : isAsciiLetter c = true) : (c = 47) = False := by
  have := letter_range h
  simp; omega

@[simp] theorem letter_ne_58 {c : Nat} (h : isAsciiLetter c = true) : (c = 58) = False := by
  have := letter_range h
  simp; omega

@[simp] theorem letter_ne_59 {c : Nat} (h : isAsciiLetter c = true) : (c = 59) = False := by
  have := letter_range h
  simp; omega

@[simp] theorem letter_ne_60 {c : Nat} (h : isAsciiLetter c = true) : (c = 60) = False := by
  have := letter_range h
  simp; omega

@[simp] theorem letter_ne_61 {c : Nat} (h : isAsciiLetter c = true) : (c = 61) = False := by
  have := letter_range h
  simp; omega

@[simp] theorem letter_ne_62 {c : Nat} (h : isAsciiLetter c = true) : (c = 62) = False := by
  have := letter_range h
  simp; omega

@[simp] theorem letter_ne_63 {c : Nat} (h : isAsciiLetter c = true) : (c = 63) = False := by
  have := letter_range h
  simp; omega

@[simp] theorem letter_ne_64 {c : Nat} (h : isAsciiLetter c = true) : (c = 64) = False := by
  have := letter_range h
  simp; omega

@[simp] theorem letter_ne_91 {c : Nat} (h : isAsciiLetter c = true) : (c = 91) = False := by
  have := letter_range h
  simp; omega

@[simp] theorem letter_ne_92 {c : Nat} (h : isAsciiLetter c = true) : (c = 92) = False := by
  have := letter_range h
  simp; omega

@[simp] theorem letter_ne_93 {c : Nat} (h : isAsciiLetter c = true) : (c = 93) = False := by
  have := letter_range h
  simp; omega

@[simp] theorem letter_ne_94 {c : Nat} (h : isAsciiLetter c = true) : (c = 94) = False := by
  have := letter_range h
  simp; omega

@[simp] theorem letter_ne_95 {c : Nat} (h : isAsciiLetter c = true) : (c = 95) = False := by
  have := letter_range h
  simp; omega

@[simp] theorem letter_ne_96 {c : Nat} (h : isAsciiLetter c = true) : (c = 96) = False := by
  have := letter_range h
  simp; omega

@[simp] theorem letter_ne_123 {c : Nat} (h : isAsciiLetter c = true) : (c = 123) = False := by
  have := letter_range h
  simp; omega

@[simp] theorem letter_ne_124 {c : Nat} (h : isAsciiLetter c = true) : (c = 124) = False := by
  have := letter_range h
  simp; omega

@[simp] theorem letter_ne_125 {c : Nat} (h : isAsciiLetter c = true) : (c = 125) = False := by
  have := letter_range h
  simp; omega

@[simp] theorem letter_ne_126 {c : Nat} (h : isAsciiLetter c = true) : (c = 126) = False := by
  have := letter_range h
  simp; omega

@[simp] theorem letter_not_space {c : Nat} (h : isAsciiLetter c = true) : QChar.isSpace c = false := by
  rcases letter_range h with ⟨h1, h2⟩ | ⟨h1, h2⟩ <;> interval_cases c <;> rfl

@[simp] theorem letter_not_digit {c : Nat} (h : isAsciiLetter c = true) : QChar.isDigit c = false := by
  rcases letter_range h with ⟨h1, h2⟩ | ⟨h1, h2⟩ <;> interval_cases c <;> rfl

@[simp] theorem letter_not_respace {c : Nat} (h : isAsciiLetter c = true) : HtmlPattern.isReSpace c = false := by
  rcases letter_range h with ⟨h1, h2⟩ | ⟨h1, h2⟩ <;> interval_cases c <;> rfl

theorem letter_inert {c : Nat} (h : isAsciiLetter c = true) : inertChar c = true := by
  rcases letter_range h with ⟨h1, h2⟩ | ⟨h1, h2⟩ <;> interval_cases c <;> rfl

@[simp] theorem ch_hash : ch '#' = 35 := rfl
@[simp] theorem ch_minus : ch '-' = 45 := rfl
@[simp] theorem ch_plus : ch '+' = 43 := rfl
@[simp] theorem ch_tilde : ch '~' = 126 := rfl
@[simp] theorem ch_dot : ch '.' = 46 := rfl
@[simp] theorem ch_rparen : ch ')' = 41 := rfl
@[simp] theorem ch_lparen : ch '(' = 40 := rfl
@[simp] theorem ch_slash : ch '/' = 47 := rfl
@[simp] theorem ch_colon : ch ':' = 58 := rfl
@[simp] theorem ch_at : ch '@' = 64 := rfl
@[simp] theorem ch_eq : ch '=' = 61 := rfl
@[simp] theorem ch_rb : ch ']' = 93 := rfl

/-! ### Lines without an opening angle bracket -/

theorem searchAny_no_lt (alts : List QString) (halts : ∀ p ∈ alts, ∃ r, p = 60 :: r) :
    ∀ (s : QString), (∀ c ∈ s, c ≠ 60) → HtmlPattern.searchAny alts s = false := by
  intro s
  induction s with
  | nil =>
    intro _
    simp [HtmlPattern.searchAny]
    intro p hp
    obtain ⟨r, rfl⟩ := halts p hp
    simp
  | cons c s ih =>
    intro h
    simp [HtmlPattern.searchAny]
    refine ⟨?_, ih (fun x hx => h x (List.mem_cons_of_mem _ hx))⟩
    intro p hp
    obtain ⟨r, rfl⟩ := halts p hp
    have := h c (List.mem_cons_self _ _)
    simp [QString.startsWith]
    intro hc; exact absurd hc this

theorem close1_no_lt (s : QString) (h : ∀ c ∈ s, c ≠ 60) :
    HtmlPattern.searchAny [qs "</script>", qs "</pre>", qs "</style>"] s = false := by
  apply searchAny_no_lt _ _ _ h
  intro p hp
  simp at hp
  rcases hp with rfl | rfl | rfl <;> exact ⟨_, rfl⟩

theorem startsWith_lt_false (s r : QString) (h : ∀ c ∈ s, c ≠ 60) :
    QString.startsWith s (60 :: r) = false := by
  cases s with
  | nil => simp [QString.startsWith]
  | cons c s =>
    have := h c (List.mem_cons_self _ _)
    simp [QString.startsWith, this]

theorem mem_of_mem_dropWhile {p : Nat → Bool} {l : List Nat} {x : Nat} (h : x ∈ l.dropWhile p) : x ∈ l :=
  (List.dropWhile_suffix p).subset h

theorem hasMatch_open_no_lt (line_ : QString) (offset : Nat) (h : ∀ c ∈ line_, c ≠ 60) (pat : HtmlPattern)
    (hp : pat = .open1 ∨ pat = .open2 ∨ pat = .open3 ∨ pat = .open4 ∨ pat = .open5) :
    pat.hasMatch line_ offset = false := by
  have hs : ∀ c ∈ HtmlPattern.skipReSpace line_, c ≠ 60 := fun c hc => h c (mem_of_mem_dropWhile hc)
  have e1 : qs "<script" = 60 :: qs "script" := by decide
  have e2 : qs "<pre" = 60 :: qs "pre" := by decide
  have e3 : qs "<style" = 60 :: qs "style" := by decide
  have e4 : qs "<!--" = 60 :: qs "!--" := by decide
  have e5 : qs "<?" = 60 :: qs "?" := by decide
  have e6 : qs "<![CDATA[" = 60 :: qs "![CDATA[" := by decide
  rcases hp with rfl | rfl | rfl | rfl | rfl
  · simp [HtmlPattern.hasMatch, HtmlPattern.matchOpen1, e1, e2, e3, startsWith_lt_false _ _ hs]
  · simp [HtmlPattern.hasMatch, e4, startsWith_lt_false _ _ hs]
  · simp [HtmlPattern.hasMatch, e5, startsWith_lt_false _ _ hs]
  · simp only [HtmlPattern.hasMatch, HtmlPattern.matchOpen4]
    cases hq : HtmlPattern.skipReSpace line_ with
    | nil => simp
    | cons c0 r =>
      have : c0 ≠ 60 := hs c0 (by rw [hq]; exact List.mem_cons_self _ _)
      rcases r with _ | ⟨c1, _ | ⟨c2, r⟩⟩ <;> simp [this]
  · simp [HtmlPattern.hasMatch, e6, startsWith_lt_false _ _ hs]

theorem type12345_no_lt (p : Parser) (i : Nat) (lh : LineHandler) (h : ∀ c ∈ lh.line, c ≠ 60) :
    Parser.dispatchHTMLType12345 p i lh HTMLTag.type12345List = .ok none := by
  simp [HTMLTag.type12345List, Parser.dispatchHTMLType12345, LineHandler.matchHTMLOpenTag,
    hasMatch_open_no_lt lh.line lh.physicalPosition h]

theorem isAutolink_no_lt (text : QString) (h : ∀ c ∈ text, c ≠ 60) : TextHandler.isAutolink text = false := by
  rcases text with _ | ⟨c0, _ | ⟨c1, r⟩⟩
  · simp [TextHandler.isAutolink]
  · simp [TextHandler.isAutolink]
  · have := h c0 (List.mem_cons_self _ _)
    simp [TextHandler.isAutolink, this]

theorem matchHTMLTagLoop_no_lt (tags : List QString) (len : Nat) :
    ∀ (s : QString) (pos : Nat), (∀ c ∈ s, c ≠ 60) → LineHandler.matchHTMLTagLoop tags len s pos = false := by
  intro s
  induction s with
  | nil => intro pos _; simp [LineHandler.matchHTMLTagLoop]
  | cons c s ih =>
    intro pos h
    have hc := h c (List.mem_cons_self _ _)
    have := ih (pos + 1) (fun x hx => h x (List.mem_cons_of_mem _ hx))
    simp [LineHandler.matchHTMLTagLoop, hc, this]

theorem mem_of_mem_drop {l : List Nat} {k x : Nat} (h : x ∈ l.drop k) : x ∈ l :=
  (List.drop_suffix k l).subset h

theorem matchHTMLTag_no_lt (lh : LineHandler) (tags : List QString) (h : ∀ c ∈ lh.line, c ≠ 60) :
    lh.matchHTMLTag tags = false := by
  simp [LineHandler.matchHTMLTag]
  exact matchHTMLTagLoop_no_lt _ _ _ _ (fun c hc => h c (mem_of_mem_drop hc))

theorem matchClose1_no_lt (lh : LineHandler) (h : ∀ c ∈ lh.line, c ≠ 60) :
    lh.matchHTMLCloseTag HTMLTag.type1CloseTag = false := by
  simp [LineHandler.matchHTMLCloseTag, LineHandler.matchHTMLOpenTag, HTMLTag.type1CloseTag, HtmlPattern.hasMatch]
  exact close1_no_lt _ (fun c hc => h c (mem_of_mem_drop hc))

theorem textSkipWhitespaceLoop_spec :
    ∀ (s : QString) (pos nl : Nat), (∃ x ∈ s, ¬ isWs x) →
      ∃ j c r, (TextHandler.skipWhitespaceLoop s pos nl).1 = pos + j ∧ s.drop j = c :: r ∧ ¬ isWs c := by
  intro s
  induction s with
  | nil => intro pos nl h; obtain ⟨x, hx, _⟩ := h; cases hx
  | cons c s ih =>
    intro pos nl h
    by_cases hc : isWs c
    · have hrest : ∃ x ∈ s, ¬ isWs x := by
        obtain ⟨x, hx, hnx⟩ := h
        rcases List.mem_cons.mp hx with rfl | hx
        · exact absurd hc hnx
        · exact ⟨x, hx, hnx⟩
      rcases hc with rfl | rfl | rfl
      · obtain ⟨j, c', r, h1, h2, h3⟩ := ih (pos + 1) nl hrest
        exact ⟨j + 1, c', r, by simp [TextHandler.skipWhitespaceLoop, h1]; omega, by simpa using h2, h3⟩
      · obtain ⟨j, c', r, h1, h2, h3⟩ := ih (pos + 1) nl hrest
        exact ⟨j + 1, c', r, by simp [TextHandler.skipWhitespaceLoop, h1]; omega, by simpa using h2, h3⟩
      · obtain ⟨j, c', r, h1, h2, h3⟩ := ih (pos + 1) (nl + 1) hrest
        exact ⟨j + 1, c', r, by simp [TextHandler.skipWhitespaceLoop, h1]; omega, by simpa using h2, h3⟩
    · have h9 : c ≠ 9 := fun e => hc (Or.inl e)
      have h32 : c ≠ 32 := fun e => hc (Or.inr (Or.inl e))
      have h10 : c ≠ 10 := fun e => hc (Or.inr (Or.inr e))
      exact ⟨0, c, s, by simp [TextHandler.skipWhitespaceLoop, h9, h32, h10], rfl, hc⟩

theorem isHTMLTagType7_no_lt (lh : LineHandler) (h : ∀ c ∈ lh.line, c ≠ 60) (hn : ∃ x ∈ lh.line, ¬ isWs x) :
    lh.isHTMLTagType7 = .ok false := by
  obtain ⟨j, c, r, h1, h2, _⟩ := textSkipWhitespaceLoop_spec lh.line 0 0 hn
  have hc : c ≠ 60 := h c (mem_of_mem_drop (k := j) (by rw [h2]; exact List.mem_cons_self _ _))
  have hpos : TextHandler.skipWhitespace lh.line 0 = j := by simp [TextHandler.skipWhitespace, h1]
  simp [LineHandler.isHTMLTagType7, hpos, charAt_of_drop h2, hc]

theorem get_of_getElem? {p : Parser} {i : Nat} {n : Node} (h : p.nodes[i]? = some n) : p.get i = .ok n := by
  simp [Parser.get, h]

theorem lh_skipWhitespace_at {lh : LineHandler} {c : Nat} {rest : QString}
    (h : lh.line.drop lh.physicalPosition = c :: rest) (h32 : c ≠ 32) (h9 : c ≠ 9) :
    lh.skipWhitespace = lh := by
  simp [LineHandler.skipWhitespace, h, LineHandler.skipWhitespaceLoop, h32, h9]

theorem count_ne_length {t : QString} {x k : Nat} (hx : x ∈ t) (hk : x ≠ k) : (List.count k t == t.length) = false := by
  simp
  intro h
  rw [List.count_eq_length] at h
  exact hk (h x hx).symm

theorem mem_dropWhile_of_not {p : Nat → Bool} {x : Nat} (hp : p x = false) :
    ∀ {l : List Nat}, x ∈ l → x ∈ l.dropWhile p := by
  intro l
  induction l with
  | nil => intro h; cases h
  | cons a l ih =>
    intro h
    by_cases ha : p a = true
    · rw [List.dropWhile_cons_of_pos ha]
      rcases List.mem_cons.mp h with rfl | h
      · rw [hp] at ha; cases ha
      · exact ih h
    · rw [List.dropWhile_cons_of_neg ha]; exact h

theorem mem_trimmed {s : QString} {x : Nat} (hx : x ∈ s) (hp : QChar.isSpace x = false) : x ∈ QString.trimmed s := by
  simp only [QString.trimmed, QString.trimLeft, List.mem_reverse]
  exact mem_dropWhile_of_not hp (List.mem_reverse.mpr (mem_dropWhile_of_not hp hx))

theorem setextLevel_letter {t : QString} {x : Nat} (hx : x ∈ t) (hl : isAsciiLetter x = true) :
    Parser.setextLevel t = .ok none := by
  have h1 : x ≠ 61 := by have := letter_ne_61 hl; simpa using this
  have h2 : x ≠ 45 := by have := letter_ne_45 hl; simpa using this
  simp only [Parser.setextLevel, QString.count, ch_eq, ch_minus, count_ne_length hx h1, count_ne_length hx h2]
  simp

theorem mem_filter_letter {s : QString} {x : Nat} (hx : x ∈ s) (hl : isAsciiLetter x = true) :
    x ∈ List.filter (fun chr => chr != ch ' ' && chr != ch '\t') s := by
  have h1 := letter_ne_32 hl
  have h2 := letter_ne_9 hl
  simp [List.mem_filter, hx]
  simp_all

theorem dispatchThematicBreak_letter (p : Parser) (i : Nat) (n : Node) (lh : LineHandler)
    (hn : p.nodes[i]? = some n)
    (hl : ∃ x ∈ lh.line.drop lh.physicalPosition, isAsciiLetter x = true) :
    p.dispatchThematicBreak i lh = .ok (false, p) := by
  obtain ⟨x, hx, hl⟩ := hl
  have hm := mem_filter_letter hx hl
  have h45 : x ≠ 45 := by have := letter_ne_45 hl; simpa using this
  have h42 : x ≠ 42 := by have := letter_ne_42 hl; simpa using this
  have h95 : x ≠ 95 := by have := letter_ne_95 hl; simpa using this
  have c45 := count_ne_length hm h45
  have c42 := count_ne_length hm h42
  have c95 := count_ne_length hm h95
  simp only [Parser.dispatchThematicBreak, get_of_getElem? hn, ok_bind, LineHandler.noWhitespace, QString.count,
    ch_minus, ch_star, ch_us, c45, c42, c95]
  simp

theorem closeHTMLBlock_paragraph (p : Parser) (l : Nat) (ln : Node) (lh : LineHandler)
    (h : p.nodes[l]? = some ln) (hk : ln.kind = Kind.paragraph) :
    p.closeHTMLBlock l lh = .ok (false, p) := by
  simp [Parser.closeHTMLBlock, get_of_getElem? h, hk]

theorem appendHTMLBlockText_paragraph (p : Parser) (l : Nat) (ln : Node) (lh : LineHandler)
    (h : p.nodes[l]? = some ln) (hk : ln.kind = Kind.paragraph) :
    p.appendHTMLBlockText l lh = .ok (false, p) := by
  simp [Parser.appendHTMLBlockText, get_of_getElem? h, hk]

theorem dispatchHTMLBlock_plain (p : Parser) (i : Nat) (n : Node) (lh : LineHandler)
    (hn : p.nodes[i]? = some n) (hlast : LastPlain p n)
    (hlt : ∀ x ∈ lh.line, x ≠ 60) (hnb : ∃ x ∈ lh.line, ¬ isWs x) :
    p.dispatchHTMLBlock i lh = .ok (false, p) := by
  rcases hlast with h0 | ⟨l, ln, h1, h2, h3⟩
  · simp [Parser.dispatchHTMLBlock, get_of_getElem? hn, h0, LineHandler.isAutolink, isAutolink_no_lt _ hlt,
      type12345_no_lt p i lh hlt, matchHTMLTag_no_lt lh _ hlt, matchClose1_no_lt lh hlt,
      isHTMLTagType7_no_lt lh hlt hnb]
  · simp [Parser.dispatchHTMLBlock, get_of_getElem? hn, h1, closeHTMLBlock_paragraph p l ln lh h2 h3,
      appendHTMLBlockText_paragraph p l ln lh h2 h3, get_of_getElem? h2,
      LineHandler.isAutolink, isAutolink_no_lt _ hlt,
      type12345_no_lt p i lh hlt, matchHTMLTag_no_lt lh _ hlt, matchClose1_no_lt lh hlt,
      isHTMLTagType7_no_lt lh hlt hnb]

theorem dispatchFencedCodeBlock_plain (p : Parser) (i : Nat) (n : Node) (lh : LineHandler) (fuel : Nat)
    (hn : p.nodes[i]? = some n) {c : Nat} {rest : QString}
    (hd : lh.line.drop lh.physicalPosition = c :: rest)
    (h32 : c ≠ 32) (h9 : c ≠ 9) (h96 : c ≠ 96) (h126 : c ≠ 126) :
    Parser.dispatchFencedCodeBlock (fuel + 1) p i lh = .ok (false, p) := by
  simp [Parser.dispatchFencedCodeBlock, get_of_getElem? hn, lh_skipWhitespace_at hd h32 h9,
    LineHandler.skipFenceChar, hd, LineHandler.skipFenceCharLoop, h96, h126]

theorem dispatchSetextHeading_plain (p : Parser) (i : Nat) (n : Node) (lh : LineHandler)
    (hn : p.nodes[i]? = some n) (hlast : LastPlain p n)
    (hl : ∃ x ∈ lh.line.drop lh.physicalPosition, isAsciiLetter x = true) :
    p.dispatchSetextHeading i lh = .ok (false, p) := by
  obtain ⟨x, hx, hl⟩ := hl
  have hs : Parser.setextLevel lh.trimmed = .ok none :=
    setextLevel_letter (mem_trimmed hx (letter_not_space hl)) hl
  have hc : p.containerSetextHeading i lh = .ok (false, p) := by
    rcases hlast with h0 | ⟨l, ln, h1, h2, h3⟩
    · simp [Parser.containerSetextHeading, get_of_getElem? hn, h0]
    · simp [Parser.containerSetextHeading, get_of_getElem? hn, h1, Parser.convertToSetextHeading,
        get_of_getElem? h2, h3, hs]
  simp only [Parser.dispatchSetextHeading, get_of_getElem? hn, ok_bind, hc]
  split
  · rfl
  · split
    · split <;> rfl
    · rfl

theorem appendFencedCodeText_plain (p : Parser) (i : Nat) (n : Node) (lh : LineHandler) (fuel : Nat)
    (hn : p.nodes[i]? = some n) (hk : n.kind.isContainer = true) (hlast : LastPlain p n) :
    Parser.appendFencedCodeText (fuel + 2) p i lh = .ok (false, p) := by
  rcases hlast with h0 | ⟨l, ln, h1, h2, h3⟩
  · simp [Parser.appendFencedCodeText, get_of_getElem? hn, h0, hk]
  · simp only [Parser.appendFencedCodeText, get_of_getElem? hn, ok_bind, h1, get_of_getElem? h2, h3, hk]
    simp [Kind.isContainer]

theorem dispatchLeafBlock_plain (p : Parser) (i : Nat) (n : Node) (lh : LineHandler)
    (hn : p.nodes[i]? = some n) (hk : n.kind.isContainer = true) (hlast : LastPlain p n)
    (hlt : ∀ x ∈ lh.line, x ≠ 60) {c : Nat} {rest : QString}
    (hd : lh.line.drop lh.physicalPosition = c :: rest)
    (h32 : c ≠ 32) (h9 : c ≠ 9) (h96 : c ≠ 96) (h126 : c ≠ 126)
    (hl : ∃ x ∈ lh.line.drop lh.physicalPosition, isAsciiLetter x = true) :
    p.dispatchLeafBlock i lh = .ok (false, p) := by
  have hnb : ∃ x ∈ lh.line, ¬ isWs x := by
    obtain ⟨x, hx, hl⟩ := hl
    refine ⟨x, mem_of_mem_drop hx, ?_⟩
    have := letter_range hl
    simp [isWs]; omega
  have e1 := dispatchHTMLBlock_plain p i n lh hn hlast hlt hnb
  have e2 := dispatchFencedCodeBlock_plain p i n lh (p.nodes.length + 1) hn hd h32 h9 h96 h126
  have e3 := dispatchSetextHeading_plain p i n lh hn hlast hl
  have e4 := dispatchThematicBreak_letter p i n lh hn hl
  have e5 := appendFencedCodeText_plain p i n lh p.nodes.length hn hk hlast
  simp only [Parser.dispatchLeafBlock, e1, ok_bind, Parser.treeFuel, e2, e3, e4, e5, get_of_getElem? hn]
  rcases hlast with h0 | ⟨l, ln, h1, h2, h3⟩
  · simp [h0]
  · simp [h1, appendHTMLBlockText_paragraph p l ln lh h2 h3]

theorem LastOpen.plain {p : Parser} {n : Node} (h : LastOpen p n) : LastPlain p n := by
  rcases h with h | ⟨l, ln, h1, h2, h3, _⟩
  · exact Or.inl h
  · exact Or.inr ⟨l, ln, h1, h2, h3⟩

theorem removeIndent_at {lh : LineHandler} {c : Nat} {rest : QString} (req : Nat)
    (hd : lh.line.drop lh.physicalPosition = c :: rest) (h32 : c ≠ 32) (h9 : c ≠ 9)
    (hoff : lh.offset = 0) (hreq : lh.indent < req) :
    (lh.removeIndent req).indent = lh.indent := by
  have h1 : ¬ req = lh.indent := by omega
  have h2 : ¬ req < lh.indent := by omega
  have h3 : ¬ (lh.logicalPosition + req - lh.indent ≤ lh.logicalPosition) := by omega
  simp [LineHandler.removeIndent, h1, h2, LineHandler.removeIndentFrom, hd, LineHandler.removeIndentLoop, hoff,
    h3, h32, h9]

theorem dispatchIndentedCode_plain (p : Parser) (i : Nat) (n : Node) (lh : LineHandler) (fuel : Nat)
    (hn : p.nodes[i]? = some n)
    (hkind : n.kind = Kind.body ∨ n.kind = Kind.blockQuote ∨ n.kind = Kind.bulletItem)
    (hlast : LastOpen p n) {c : Nat} {rest : QString}
    (hd : lh.line.drop lh.physicalPosition = c :: rest) (h32 : c ≠ 32) (h9 : c ≠ 9)
    (hoff : lh.offset = 0) (hind : lh.indent < 4) :
    Parser.dispatchIndentedCode (fuel + 1) p i lh = .ok (false, p) := by
  have hr := removeIndent_at (4 + n.indent) hd h32 h9 hoff (by omega)
  have hlt : lh.indent < 4 + n.indent := by omega
  have hge : ¬ (4 ≤ lh.indent) := by omega
  rcases hkind with hk | hk | hk
  · simp [Parser.dispatchIndentedCode, get_of_getElem? hn, hk, Kind.isList, Kind.isItem, hr, hlt]
  · simp [Parser.dispatchIndentedCode, get_of_getElem? hn, hk, Kind.isList, Kind.isItem, hr, hlt, hge]
  · rcases hlast with h0 | ⟨l, ln, h1, h2, _, h4⟩
    · simp [Parser.dispatchIndentedCode, get_of_getElem? hn, hk, Kind.isList, Kind.isItem, hr, hlt, h0]
    · simp [Parser.dispatchIndentedCode, get_of_getElem? hn, hk, Kind.isList, Kind.isItem, hr, hlt, h1,
        get_of_getElem? h2, h4]

theorem findBulletChar_at {lh : LineHandler} {c : Nat} {rest : QString} (bullet : Nat)
    (hd : lh.line.drop lh.physicalPosition = c :: rest) (h32 : c ≠ 32) (h9 : c ≠ 9) (hb : c ≠ bullet) :
    lh.findBulletChar bullet = .ok none := by
  simp [LineHandler.findBulletChar, hd, LineHandler.skipToMarker, h32, h9, getElem?_of_drop hd, hb]

theorem findBullet_at {lh : LineHandler} {c : Nat} {rest : QString}
    (hd : lh.line.drop lh.physicalPosition = c :: rest) (h32 : c ≠ 32) (h9 : c ≠ 9)
    (h45 : c ≠ 45) (h43 : c ≠ 43) (h42 : c ≠ 42) :
    lh.findBullet = .ok (0, lh) := by
  simp [LineHandler.findBullet, findBulletChar_at _ hd h32 h9, h45, h43, h42]

theorem findDigit_at {lh : LineHandler} {c : Nat} {rest : QString}
    (hd : lh.line.drop lh.physicalPosition = c :: rest) (h32 : c ≠ 32) (h9 : c ≠ 9)
    (hdig : QChar.isDigit c = false) :
    lh.findDigit = .ok ([], lh) := by
  cases rest <;> simp [LineHandler.findDigit, hd, LineHandler.skipToMarker, h32, h9, hdig]

theorem matchBlockQuote_at {lh : LineHandler} {c : Nat} {rest : QString}
    (hd : lh.line.drop lh.physicalPosition = c :: rest) (h62 : c ≠ 62) :
    lh.matchBlockQuote = (false, lh) := by
  simp [LineHandler.matchBlockQuote, hd, h62]

theorem dispatchContainerBlock_at (p : Parser) (i : Nat) (n : Node) (lh : LineHandler)
    (hn : p.nodes[i]? = some n)
    (hkind : n.kind = Kind.body ∨ n.kind = Kind.blockQuote ∨ (n.kind = Kind.bulletItem ∧ n.bullet ≠ 0))
    {c : Nat} {rest : QString}
    (hd : lh.line.drop lh.physicalPosition = c :: rest)
    (h32 : c ≠ 32) (h9 : c ≠ 9) (h45 : c ≠ 45) (h43 : c ≠ 43) (h42 : c ≠ 42) (h62 : c ≠ 62)
    (hdig : QChar.isDigit c = false) :
    p.dispatchContainerBlock i lh = .ok (false, lh, p) := by
  have eb := findBullet_at hd h32 h9 h45 h43 h42
  have ed := findDigit_at hd h32 h9 hdig
  have eq := matchBlockQuote_at hd h62
  have hs : (p.nodes[i]?).isSome = true := by simp [hn]
  have e1 : p.dispatchBlockQuote i lh = .ok (false, lh, p) := by
    rcases hkind with hk | hk | ⟨hk, hb⟩ <;>
      simp [Parser.dispatchBlockQuote, get_of_getElem? hn, hk, eq]
  have e2 : ∀ fuel, Parser.dispatchBulletList (fuel + 1) p i lh = .ok (false, lh, p) := by
    intro fuel
    rw [Parser.dispatchBulletList.eq_2]
    rcases hkind with hk | hk | ⟨hk, hb⟩
    · simp [get_of_getElem? hn, hk, Kind.isList, eb]
    · simp [get_of_getElem? hn, hk, Kind.isList, eb]
    · have hb' : ¬ (0 = n.bullet) := fun h => hb h.symm
      simp [get_of_getElem? hn, hk, Kind.isList, eb, hb']
  have e3 : ∀ fuel, Parser.dispatchOrderedList (fuel + 1) p i lh = .ok (false, lh, p) := by
    intro fuel
    rw [Parser.dispatchOrderedList.eq_2]
    rcases hkind with hk | hk | ⟨hk, hb⟩ <;>
      simp [get_of_getElem? hn, hk, Kind.isList, ed]
  have hno : (n.kind == Kind.orderedItem) = false := by
    rcases hkind with hk | hk | ⟨hk, hb⟩ <;> simp [hk]
  simp only [Parser.dispatchContainerBlock, get_of_getElem? hn, e1, ok_bind, Parser.treeFuel, e2, e3, hno]
  simp

theorem dispatchHeadingAndParagraph_plain (p : Parser) (i : Nat) (n : Node) (lh : LineHandler)
    (hn : p.nodes[i]? = some n) {c : Nat} {rest : QString}
    (hd : lh.line.drop lh.physicalPosition = c :: rest) (hc : isAsciiLetter c = true) :
    p.dispatchHeadingAndParagraph i lh =
      (Parser.appendParagraph p.treeFuel p i lh >>= fun r => Except.ok r.2) := by
  have h32 := letter_ne_32 hc
  have h9 := letter_ne_9 hc
  have h35 := letter_ne_35 hc
  simp [Parser.dispatchHeadingAndParagraph, Parser.dispatchNoText, get_of_getElem? hn, LineHandler.isBlank, hd,
    h32, h9, Parser.dispatchHeadingBlock, LineHandler.findHeadingMarker, LineHandler.findHeadingMarkerLoop, h35]

theorem dispatchLine_at (p : Parser) (n : Node) (lh : LineHandler) (fuel : Nat)
    (hn : p.nodes[p.current]? = some n)
    (hkind : n.kind = Kind.body ∨ n.kind = Kind.blockQuote ∨ (n.kind = Kind.bulletItem ∧ n.bullet ≠ 0))
    (hlast : LastOpen p n)
    (hlt : ∀ x ∈ lh.line, x ≠ 60) {c : Nat} {rest : QString}
    (hd : lh.line.drop lh.physicalPosition = c :: rest)
    (h32 : c ≠ 32) (h9 : c ≠ 9) (h96 : c ≠ 96) (h126 : c ≠ 126)
    (h45 : c ≠ 45) (h43 : c ≠ 43) (h42 : c ≠ 42) (h62 : c ≠ 62) (hdig : QChar.isDigit c = false)
    (hl : ∃ x ∈ lh.line.drop lh.physicalPosition, isAsciiLetter x = true)
    (hoff : lh.offset = 0) (hind : lh.indent < 4) :
    Parser.dispatchLine (fuel + 1) p lh = p.dispatchHeadingAndParagraph p.current lh := by
  have hk : n.kind.isContainer = true := by
    rcases hkind with hk | hk | ⟨hk, _⟩ <;> simp [hk, Kind.isContainer]
  have hk' : n.kind = Kind.body ∨ n.kind = Kind.blockQuote ∨ n.kind = Kind.bulletItem := by
    rcases hkind with hk | hk | ⟨hk, _⟩ <;> simp [hk]
  have e1 := dispatchIndentedCode_plain p p.current n lh (p.nodes.length + 1) hn hk' hlast hd h32 h9 hoff hind
  have e2 := dispatchLeafBlock_plain p p.current n lh hn hk hlast.plain hlt hd h32 h9 h96 h126 hl
  have e3 := dispatchContainerBlock_at p p.current n lh hn hkind hd h32 h9 h45 h43 h42 h62 hdig
  simp only [Parser.dispatchLine, Parser.treeFuel, e1, ok_bind, e2, lh_skipWhitespace_at hd h32 h9, e3]
  simp

theorem dispatchLine_plain (p : Parser) (n : Node) (lh : LineHandler) (fuel : Nat)
    (hn : p.nodes[p.current]? = some n)
    (hkind : n.kind = Kind.body ∨ n.kind = Kind.blockQuote ∨ (n.kind = Kind.bulletItem ∧ n.bullet ≠ 0))
    (hlast : LastOpen p n)
    (hlt : ∀ x ∈ lh.line, x ≠ 60) {c : Nat} {rest : QString}
    (hd : lh.line.drop lh.physicalPosition = c :: rest) (hc : isAsciiLetter c = true)
    (hoff : lh.offset = 0) (hind : lh.indent < 4) :
    Parser.dispatchLine (fuel + 1) p lh =
      (Parser.appendParagraph p.treeFuel p p.current lh >>= fun r => Except.ok r.2) := by
  rw [dispatchLine_at p n lh fuel hn hkind hlast hlt hd (by simpa using letter_ne_32 hc)
    (by simpa using letter_ne_9 hc) (by simpa using letter_ne_96 hc) (by simpa using letter_ne_126 hc)
    (by simpa using letter_ne_45 hc) (by simpa using letter_ne_43 hc) (by simpa using letter_ne_42 hc)
    (by simpa using letter_ne_62 hc) (letter_not_digit hc)
    ⟨c, by rw [hd]; exact List.mem_cons_self _ _, hc⟩ hoff hind]
  exact dispatchHeadingAndParagraph_plain p p.current n lh hn hd hc

theorem treeFuel_mk (ns : List Node) (c : Nat) (l : LinkList) :
    (Parser.mk ns c l).treeFuel = ns.length + 2 := rfl

theorem parseBlocks_eq (p : Parser) (t : QString) :
    p.parseBlocks t = Parser.start.feedLines (QString.splitRef t 10) := rfl

theorem splitLoop_no_sep (sep : Nat) : ∀ (t cur : QString), (∀ x ∈ t, x ≠ sep) →
    QString.splitLoop sep t cur = [cur.reverse ++ t] := by
  intro t
  induction t with
  | nil => intro cur _; simp [QString.splitLoop]
  | cons c t ih =>
    intro cur h
    have hc : c ≠ sep := h c (List.mem_cons_self _ _)
    simp [QString.splitLoop, hc, ih (c :: cur) (fun x hx => h x (List.mem_cons_of_mem _ hx))]

theorem splitRef_no_sep {t : QString} {sep : Nat} (h : ∀ x ∈ t, x ≠ sep) : QString.splitRef t sep = [t] := by
  simp [QString.splitRef, splitLoop_no_sep sep t [] h]

theorem findLinkLabelNext_plain {text : QString} {c : Nat} {rest : QString} (k : Nat)
    (h : text = c :: rest) (h91 : c ≠ 91) (h9 : c ≠ 9) (h32 : c ≠ 32) (h10 : c ≠ 10) :
    TextHandler.findLinkLabelNext text 0 k = .ok ([], 0) := by
  subst h
  simp [TextHandler.findLinkLabelNext, TextHandler.labelFuel, TextHandler.findLinkLabel,
    TextHandler.skipWhitespace, TextHandler.skipWhitespaceLoop, h9, h32, h10, charAt, h91]

theorem paragraphClose_plain (p : Parser) (i : Nat) (n : Node) (fuel : Nat) {c : Nat} {rest : QString}
    (hn : p.nodes[i]? = some n) (ht : n.text = c :: rest)
    (h91 : c ≠ 91) (h9 : c ≠ 9) (h32 : c ≠ 32) (h10 : c ≠ 10) :
    Parser.paragraphClose (fuel + 1) p i = p.disable i := by
  simp [Parser.paragraphClose, get_of_getElem? hn, findLinkLabelNext_plain 58 ht h91 h9 h32 h10]

theorem words_head {t : QString} (h : isWords t = true) :
    ∃ c rest, t = c :: rest ∧ isAsciiLetter c = true := by
  match t, h with
  | [c], h => exact ⟨c, [], rfl, by simpa [isWords] using h⟩
  | c :: d :: rest, h =>
    refine ⟨c, d :: rest, rfl, ?_⟩
    simp [isWords] at h
    exact h.1

theorem words_mem : ∀ {t : QString}, isWords t = true → ∀ x ∈ t, isAsciiLetter x = true ∨ x = 32
  | [c], h, x, hx => by
    simp [isWords] at h
    simp at hx
    subst hx
    exact Or.inl h
  | c :: d :: rest, h, x, hx => by
    simp only [isWords, Bool.and_eq_true] at h
    rcases List.mem_cons.mp hx with rfl | hx
    · exact Or.inl h.1
    · by_cases hd : d = 32
      · subst hd
        simp at h
        rcases List.mem_cons.mp hx with rfl | hx
        · exact Or.inr rfl
        · exact words_mem h.2 x hx
      · have h2 : isWords (d :: rest) = true := by simpa [hd] using h.2
        exact words_mem h2 x hx

theorem calm_cons_letter {c : Nat} (rest : QString) (hc : isAsciiLetter c = true) :
    calm (c :: rest) = calm rest := by
  rw [calm.eq_def]
  simp [letter_ne_32 hc, letter_inert hc]

theorem calm_space_cons {d : Nat} (rest : QString) (hd : QChar.isSpace d = false) :
    calm (32 :: d :: rest) = calm (d :: rest) := by
  rw [calm.eq_def]
  simp [hd]

theorem words_calm : ∀ {t : QString}, isWords t = true → calm t = true
  | [c], h => by
    have hc : isAsciiLetter c = true := by simpa [isWords] using h
    simp [calm, letter_ne_32 hc, letter_inert hc]
  | c :: d :: rest, h => by
    simp only [isWords, Bool.and_eq_true] at h
    have hc := h.1
    by_cases hd : d = 32
    · subst hd
      simp at h
      obtain ⟨e, rest', he, hl⟩ := words_head h.2
      subst he
      rw [calm_cons_letter _ hc, calm_space_cons _ (letter_not_space hl)]
      exact words_calm h.2
    · have h2 : isWords (d :: rest) = true := by simpa [hd] using h.2
      rw [calm_cons_letter _ hc]
      exact words_calm h2

theorem letters_head {t : QString} (h : isLetters t = true) :
    ∃ c rest, t = c :: rest ∧ isAsciiLetter c = true := by
  cases t with
  | nil => simp [isLetters] at h
  | cons c rest => exact ⟨c, rest, rfl, by simp [isLetters] at h; exact h.1⟩

theorem letters_mem {t : QString} (h : isLetters t = true) : ∀ x ∈ t, isAsciiLetter x = true := by
  simp [isLetters] at h
  exact h.2

theorem letters_calm_aux : ∀ (t : QString), (∀ x ∈ t, isAsciiLetter x = true) → calm t = true
  | [], _ => by simp [calm]
  | c :: rest, h => by
    have hc := h c (List.mem_cons_self _ _)
    rw [calm_cons_letter _ hc]
    exact letters_calm_aux rest (fun x hx => h x (List.mem_cons_of_mem _ hx))

theorem letters_calm {t : QString} (h : isLetters t = true) : calm t = true :=
  letters_calm_aux t (letters_mem h)

theorem feedLine_plain (p : Parser) (n : Node) (line_ : QString)
    (hn : p.nodes[p.current]? = some n)
    (hkind : n.kind = Kind.body ∨ n.kind = Kind.blockQuote ∨ (n.kind = Kind.bulletItem ∧ n.bullet ≠ 0))
    (hlast : LastOpen p n)
    (hlt : ∀ x ∈ line_, x ≠ 60) {c : Nat} {rest : QString}
    (hd : line_ = c :: rest) (hc : isAsciiLetter c = true) :
    p.feedLine line_ =
      (Parser.appendParagraph p.treeFuel p p.current (LineHandler.new line_) >>= fun r => Except.ok r.2) := by
  have h32 : c ≠ 32 := by simpa using letter_ne_32 hc
  have h9 : c ≠ 9 := by simpa using letter_ne_9 hc
  have hb : (LineHandler.new line_).isBlank = false := by
    simp [LineHandler.isBlank, LineHandler.new, hd, h32, h9]
  have e := dispatchLine_plain p n (LineHandler.new line_) (line_.length + 1) hn hkind hlast hlt
    (by simpa [LineHandler.new] using hd) hc rfl (by simp [LineHandler.new])
  simp only [Parser.feedLine, Parser.dispatchBlankLine, hb, get_of_getElem? hn, ok_bind]
  simpa using e

theorem htmlOf_words_aux (t : QString) (h : isWords t = true) :
    htmlOf t = .ok (qs "<p>" ++ t ++ qs "</p>") := by
  obtain ⟨c, rest, ht, hc⟩ := words_head h
  have hmem := words_mem h
  have hnl : ∀ x ∈ t, x ≠ 10 := by
    intro x hx
    rcases hmem x hx with h1 | h1
    · simpa using letter_ne_10 h1
    · omega
  have hlt : ∀ x ∈ t, x ≠ 60 := by
    intro x hx
    rcases hmem x hx with h1 | h1
    · simpa using letter_ne_60 h1
    · omega
  have h32 : c ≠ 32 := by simpa using letter_ne_32 hc
  have h9 : c ≠ 9 := by simpa using letter_ne_9 hc
  have h10 : c ≠ 10 := by simpa using letter_ne_10 hc
  have h91 : c ≠ 91 := by simpa using letter_ne_91 hc
  have e1 : Parser.start.feedLine t = .ok
      (Parser.mk [{ kind := Kind.body, parent := none, children := [1] },
                  { kind := Kind.paragraph, parent := some 0, text := t }] 0 []) := by
    have g_appendParagraph := fun (p : Parser) (i : Nat) (lh : LineHandler) (fuel : Nat) (_ : (p.nodes[i]?).isSome = true) =>
      Parser.appendParagraph.eq_2 p i lh fuel
    have g_appendParagraphText := fun (p : Parser) (i : Nat) (lh : LineHandler) (fuel : Nat) (_ : (p.nodes[i]?).isSome = true) =>
      Parser.appendParagraphText.eq_2 p i lh fuel
    have g_appendNewParagraph := fun (p : Parser) (i : Nat) (lh : LineHandler) (_ : (p.nodes[i]?).isSome = true) =>
      Parser.appendNewParagraph.eq_1 p i lh
    have g_appendLeafBlock := fun (p : Parser) (i : Nat) (b : Nat) (_ : (p.nodes[i]?).isSome = true) =>
      Parser.appendLeafBlock.eq_1 p i b
    have g_appendBlock := fun (p : Parser) (i : Nat) (b : Nat) (_ : (p.nodes[i]?).isSome = true) =>
      Parser.appendBlock.eq_1 p i b
    have g_close := fun (p : Parser) (i : Nat) (fuel : Nat) (_ : (p.nodes[i]?).isSome = true) =>
      Parser.close.eq_2 p i fuel
    rw [feedLine_plain Parser.start Parser.rootNode t (by simp [Parser.start]) (Or.inl rfl) (Or.inl rfl) hlt ht hc]
    simp [Parser.start, treeFuel_mk, g_appendParagraph, g_appendParagraphText, g_appendNewParagraph, g_appendLeafBlock, g_appendBlock, g_close, Parser.get, Parser.rootNode, Parser.last,
      Parser.newParagraph, Parser.alloc, Kind.isItem,
      Parser.update, Parser.put, LineHandler.currentText, LineHandler.new,
      LineHandler.currentTextRef, LineHandler.spaces]
  have e2 : Parser.finish (Parser.mk [{ kind := Kind.body, parent := none, children := [1] },
                  { kind := Kind.paragraph, parent := some 0, text := t }] 0 []) =
      .ok (qs "<p>" ++ t ++ qs "</p>",
        Parser.mk [{ kind := Kind.body, parent := none, children := [1], writable := false },
                  { kind := Kind.paragraph, parent := some 0, text := t, writable := false }] 0 []) := by
    have g_unwindAll := fun (p : Parser) (fuel : Nat) (_ : (p.nodes[p.current]?).isSome = true) =>
      Parser.unwindAll.eq_2 p fuel
    have g_unwind := fun (p : Parser)  (_ : (p.nodes[p.current]?).isSome = true) =>
      Parser.unwind.eq_1 p 
    have g_close := fun (p : Parser) (i : Nat) (fuel : Nat) (_ : (p.nodes[i]?).isSome = true) =>
      Parser.close.eq_2 p i fuel
    have g_disable := fun (p : Parser) (i : Nat) (_ : (p.nodes[i]?).isSome = true) =>
      Parser.disable.eq_1 p i
    have g_html := fun (p : Parser) (i : Nat) (fuel : Nat) (_ : (p.nodes[i]?).isSome = true) =>
      Parser.html.eq_2 p i fuel
    have g_hasBlankline := fun (p : Parser) (i : Nat) (fuel : Nat) (_ : (p.nodes[i]?).isSome = true) =>
      Parser.hasBlankline.eq_2 p i fuel
    have pc := paragraphClose_plain (Parser.mk [{ kind := Kind.body, parent := none, children := [1] },
                  { kind := Kind.paragraph, parent := some 0, text := t }] 0 []) 1
      { kind := Kind.paragraph, parent := some 0, text := t } t.length rfl ht h91 h9 h32 h10
    simp [Parser.finish, treeFuel_mk, g_unwindAll, g_unwind, g_close, g_disable, g_html, g_hasBlankline, Parser.get, Kind.isContainer, Parser.last, pc,
      Parser.update, Parser.put, Parser.collect, Kind.isList, Kind.isItem,
      textToHTML_calm [] t (words_calm h), QString.join]
  simp [htmlOf, Parser.getHTMLText, parseBlocks_eq, splitRef_no_sep hnl, Parser.feedLines, e1, e2]

theorem findHeadingMarkerLoop_hashes (t : QString) : ∀ (m count pos logical : Nat), count + m ≤ 6 →
    LineHandler.findHeadingMarkerLoop (List.replicate m 35 ++ 32 :: t) count pos logical =
      some (count + m, pos + m + 1, logical + m + 1, 0) := by
  intro m
  induction m with
  | zero => intro count pos logical _; simp [LineHandler.findHeadingMarkerLoop]
  | succ m ih =>
    intro count pos logical h
    have h6 : ¬ (6 ≤ count) := by omega
    simp only [List.replicate_succ, List.cons_append, LineHandler.findHeadingMarkerLoop, ch_hash]
    simp [h6, ih (count + 1) (pos + 1) (logical + 1) (by omega)]
    omega

theorem scanBack_last (init : QString) (z phys : Nat) (stop : QChar → Bool) (hz : stop z = true) :
    LineHandler.scanBack (init ++ [z]) phys stop (init ++ [z]).length = (init.length : Int) := by
  simp [LineHandler.scanBack, hz]

theorem removeLastSequence_last (lh : LineHandler) (chr : QChar) (init : QString) (z : Nat)
    (hl : lh.line = init ++ [z]) (h32 : z ≠ 32) (h9 : z ≠ 9) (hz : z ≠ chr) :
    lh.removeLastSequence chr = lh := by
  have hs : LineHandler.notBlankChar z = true := by simp [LineHandler.notBlankChar, h32, h9]
  have e := scanBack_last init z lh.physicalPosition LineHandler.notBlankChar hs
  simp only [LineHandler.removeLastSequence, hl, e]
  simp [hz]

theorem trimLeft_cons {c : Nat} (rest : QString) (hc : QChar.isSpace c = false) :
    QString.trimLeft (c :: rest) = c :: rest := by
  simp [QString.trimLeft, hc]

theorem trimmed_ends (init : QString) {c z : Nat} (rest : QString) (t : QString)
    (h1 : t = c :: rest) (h2 : t = init ++ [z])
    (hc : QChar.isSpace c = false) (hz : QChar.isSpace z = false) : QString.trimmed t = t := by
  have e1 : QString.trimLeft t = t := by rw [h1]; exact trimLeft_cons rest hc
  have e2 : QString.trimLeft t.reverse = t.reverse := by
    rw [h2, List.reverse_append]; exact trimLeft_cons _ hz
  simp [QString.trimmed, e1, e2]

theorem exists_init {t : QString} (h : t ≠ []) : ∃ init z, t = init ++ [z] ∧ z ∈ t :=
  ⟨t.dropLast, t.getLast h, (List.dropLast_append_getLast h).symm, List.getLast_mem h⟩

theorem trimmed_letters {t : QString} (h : isLetters t = true) : QString.trimmed t = t := by
  obtain ⟨c, rest, ht, hc⟩ := letters_head h
  obtain ⟨init, z, hi, hz⟩ := exists_init (t := t) (by rw [ht]; simp)
  exact trimmed_ends init rest t ht hi (letter_not_space hc) (letter_not_space (letters_mem h z hz))

theorem number_digit {n : Nat} (h1 : 1 ≤ n) (h6 : n ≤ 6) : QString.number n = [48 + n] := by
  interval_cases n <;> rfl

theorem htmlOf_heading_aux (m : Nat) (t : QString) (hm : m + 1 ≤ 6) (h : isLetters t = true) :
    htmlOf (List.replicate (m + 1) 35 ++ 32 :: t) =
      .ok (qs "<h" ++ [48 + (m + 1)] ++ qs ">" ++ t ++ qs "</h" ++ [48 + (m + 1)] ++ qs ">") := by
  have hmem := letters_mem h
  obtain ⟨c, rest, ht, hc⟩ := letters_head h
  obtain ⟨init, z, hi, hz⟩ := exists_init (t := t) (by rw [ht]; simp)
  have hzl := hmem z hz
  generalize hline : List.replicate (m + 1) 35 ++ 32 :: t = line_
  have hline' : line_ = 35 :: (List.replicate m 35 ++ 32 :: t) := by
    rw [← hline]; simp [List.replicate_succ]
  have hmem' : ∀ x ∈ line_, x = 35 ∨ x = 32 ∨ isAsciiLetter x = true := by
    intro x hx
    rw [← hline] at hx
    rcases List.mem_append.mp hx with h1 | h1
    · exact Or.inl (List.eq_of_mem_replicate h1)
    · rcases List.mem_cons.mp h1 with h2 | h2
      · exact Or.inr (Or.inl h2)
      · exact Or.inr (Or.inr (hmem x h2))
  have hnl : ∀ x ∈ line_, x ≠ 10 := by
    intro x hx
    rcases hmem' x hx with h1 | h1 | h1
    · omega
    · omega
    · simpa using letter_ne_10 h1
  have hlt : ∀ x ∈ line_, x ≠ 60 := by
    intro x hx
    rcases hmem' x hx with h1 | h1 | h1
    · omega
    · omega
    · simpa using letter_ne_60 h1
  have hlet : ∃ x ∈ (LineHandler.new line_).line.drop (LineHandler.new line_).physicalPosition,
      isAsciiLetter x = true := by
    refine ⟨c, ?_, hc⟩
    simp [LineHandler.new, ← hline, ht]
  have hd : (LineHandler.new line_).line.drop (LineHandler.new line_).physicalPosition =
      35 :: (List.replicate m 35 ++ 32 :: t) := by
    simp [LineHandler.new, hline']
  have hb : (LineHandler.new line_).isBlank = false := by
    simp [LineHandler.isBlank, LineHandler.new, hline']
  have e0 := dispatchLine_at Parser.start Parser.rootNode (LineHandler.new line_) (line_.length + 1)
    (by simp [Parser.start]) (Or.inl rfl) (Or.inl rfl) hlt hd (by decide) (by decide) (by decide) (by decide)
    (by decide) (by decide) (by decide) (by decide) (by rfl) hlet rfl (by simp [LineHandler.new])
  have ef : (LineHandler.new line_).findHeadingMarker =
      (m + 1, ⟨line_, m + 2, m + 2, 0, 0, 0⟩) := by
    have := findHeadingMarkerLoop_hashes t (m + 1) 0 0 0 (by omega)
    rw [hline] at this
    simp [LineHandler.findHeadingMarker, LineHandler.new, this]
  have er : (LineHandler.mk line_ (m + 2) (m + 2) 0 0 0).removeLastSequence 35 =
      LineHandler.mk line_ (m + 2) (m + 2) 0 0 0 := by
    apply removeLastSequence_last _ 35 (List.replicate (m + 1) 35 ++ 32 :: init) z
    · simp [← hline, hi]
    · simpa using letter_ne_32 hzl
    · simpa using letter_ne_9 hzl
    · simpa using letter_ne_35 hzl
  have et : (LineHandler.mk line_ (m + 2) (m + 2) 0 0 0).trimmed = t := by
    have : List.drop (m + 2) line_ = t := by
      rw [← hline]
      have : m + 2 = (List.replicate (m + 1) 35 ++ [32]).length := by simp
      rw [this, show List.replicate (m + 1) 35 ++ 32 :: t = (List.replicate (m + 1) 35 ++ [32]) ++ t by simp]
      exact List.drop_left _ _
    simp [LineHandler.trimmed, this, trimmed_letters h]
  have e1 : Parser.start.feedLine line_ = .ok
      (Parser.mk [{ kind := Kind.body, parent := none, children := [1] },
                  { kind := Kind.heading, parent := some 0, text := t, level := m + 1 }] 0 []) := by
    simp only [Parser.feedLine, Parser.dispatchBlankLine, hb]
    simp only [show line_.length + 2 = (line_.length + 1) + 1 from rfl, Parser.start, Parser.get] at e0 ⊢
    simp only [List.getElem?_cons_zero, pure_eq_ok, ok_bind, Bool.not_false, if_true, Bool.false_eq_true, if_false]
    rw [e0]
    have g_unwindUntil := fun (p : Parser) (k : Nat) (fuel : Nat) (_ : (p.nodes[p.current]?).isSome = true) =>
      Parser.unwindUntil.eq_2 p k fuel
    have g_appendLeafBlock := fun (p : Parser) (i : Nat) (b : Nat) (_ : (p.nodes[i]?).isSome = true) =>
      Parser.appendLeafBlock.eq_1 p i b
    have g_appendBlock := fun (p : Parser) (i : Nat) (b : Nat) (_ : (p.nodes[i]?).isSome = true) =>
      Parser.appendBlock.eq_1 p i b
    have g_close := fun (p : Parser) (i : Nat) (fuel : Nat) (_ : (p.nodes[i]?).isSome = true) =>
      Parser.close.eq_2 p i fuel
    simp [Parser.dispatchHeadingAndParagraph, Parser.dispatchNoText, Parser.get, hb, Parser.dispatchHeadingBlock,
      ef, er, et, treeFuel_mk, Parser.rootNode, Parser.alloc, g_unwindUntil, g_appendLeafBlock, g_appendBlock, g_close,
      Kind.isItem, Parser.last, Parser.update, Parser.put]
  have e2 : Parser.finish (Parser.mk [{ kind := Kind.body, parent := none, children := [1] },
                  { kind := Kind.heading, parent := some 0, text := t, level := m + 1 }] 0 []) =
      .ok (qs "<h" ++ [48 + (m + 1)] ++ qs ">" ++ t ++ qs "</h" ++ [48 + (m + 1)] ++ qs ">",
        Parser.mk [{ kind := Kind.body, parent := none, children := [1], writable := false },
          { kind := Kind.heading, parent := some 0, text := t, level := m + 1, writable := false }] 0 []) := by
    have g_unwindAll := fun (p : Parser) (fuel : Nat) (_ : (p.nodes[p.current]?).isSome = true) =>
      Parser.unwindAll.eq_2 p fuel
    have g_unwind := fun (p : Parser)  (_ : (p.nodes[p.current]?).isSome = true) =>
      Parser.unwind.eq_1 p 
    have g_close := fun (p : Parser) (i : Nat) (fuel : Nat) (_ : (p.nodes[i]?).isSome = true) =>
      Parser.close.eq_2 p i fuel
    have g_disable := fun (p : Parser) (i : Nat) (_ : (p.nodes[i]?).isSome = true) =>
      Parser.disable.eq_1 p i
    have g_html := fun (p : Parser) (i : Nat) (fuel : Nat) (_ : (p.nodes[i]?).isSome = true) =>
      Parser.html.eq_2 p i fuel
    have g_hasBlankline := fun (p : Parser) (i : Nat) (fuel : Nat) (_ : (p.nodes[i]?).isSome = true) =>
      Parser.hasBlankline.eq_2 p i fuel
    simp [Parser.finish, treeFuel_mk, g_unwindAll, g_unwind, g_close, g_disable, g_html, g_hasBlankline, Parser.get,
      Kind.isContainer, Parser.last, Parser.update, Parser.put,
      Parser.collect, textToHTML_calm [] t (letters_calm h), QString.join,
      number_digit (show 1 ≤ m + 1 by omega) hm]
  simp [htmlOf, Parser.getHTMLText, parseBlocks_eq, splitRef_no_sep hnl, Parser.feedLines, e1, e2]

theorem splitLoop_append (sep : Nat) (b : QString) : ∀ (a cur : QString), (∀ x ∈ a, x ≠ sep) →
    QString.splitLoop sep (a ++ sep :: b) cur = (cur.reverse ++ a) :: QString.splitLoop sep b [] := by
  intro a
  induction a with
  | nil => intro cur _; simp [QString.splitLoop]
  | cons c a ih =>
    intro cur h
    have hc : c ≠ sep := h c (List.mem_cons_self _ _)
    simp [QString.splitLoop, hc, ih (c :: cur) (fun x hx => h x (List.mem_cons_of_mem _ hx))]

theorem splitRef_append {a : QString} (b : QString) {sep : Nat} (h : ∀ x ∈ a, x ≠ sep) :
    QString.splitRef (a ++ sep :: b) sep = a :: QString.splitRef b sep := by
  simp [QString.splitRef, splitLoop_append sep b a [] h]

theorem codeToHTML_letters : ∀ (t : QString), (∀ x ∈ t, isAsciiLetter x = true) → InlineParser.codeToHTML t = t
  | [], _ => rfl
  | c :: rest, h => by
    have hc := h c (List.mem_cons_self _ _)
    have ih := codeToHTML_letters rest (fun x hx => h x (List.mem_cons_of_mem _ hx))
    have e : (EntityChar.get c).isEmpty = true := by
      simp [EntityChar.get, letter_ne_60 hc, letter_ne_62 hc, letter_ne_38 hc, letter_ne_34 hc]
    simp [InlineParser.codeToHTML, e, ih]

theorem feedLine_nonblank (p : Parser) (n : Node) (line_ : QString)
    (hn : p.nodes[p.current]? = some n) (hb : (LineHandler.new line_).isBlank = false) :
    p.feedLine line_ = Parser.dispatchLine (line_.length + 1 + 1) p (LineHandler.new line_) := by
  simp [Parser.feedLine, Parser.dispatchBlankLine, get_of_getElem? hn, hb]

theorem dispatchLine_of_indented (p p1 : Parser) (lh : LineHandler) (fuel : Nat)
    (h : Parser.dispatchIndentedCode p.treeFuel p p.current lh = .ok (true, p1)) :
    Parser.dispatchLine (fuel + 1) p lh = .ok p1 := by
  simp [Parser.dispatchLine, h]

theorem dispatchLine_of_leaf (p p1 : Parser) (lh : LineHandler) (fuel : Nat)
    (h1 : Parser.dispatchIndentedCode p.treeFuel p p.current lh = .ok (false, p))
    (h2 : p.dispatchLeafBlock p.current lh = .ok (true, p1)) :
    Parser.dispatchLine (fuel + 1) p lh = .ok p1 := by
  simp [Parser.dispatchLine, h1, h2]

theorem dispatchLine_of_container (p p3 : Parser) (lh lh2 : LineHandler) (fuel : Nat)
    (h1 : Parser.dispatchIndentedCode p.treeFuel p p.current lh = .ok (false, p))
    (h2 : p.dispatchLeafBlock p.current lh = .ok (false, p))
    (h3 : p.dispatchContainerBlock p.current lh.skipWhitespace = .ok (true, lh2, p3)) :
    Parser.dispatchLine (fuel + 1) p lh = Parser.dispatchLine fuel p3 lh2 := by
  simp [Parser.dispatchLine, h1, h2, h3]

theorem dispatchIndentedCode_code (c : Nat) (rest : QString) (fuel : Nat) (h32 : c ≠ 32) (h9 : c ≠ 9) :
    Parser.dispatchIndentedCode (fuel + 1) Parser.start 0 (LineHandler.new (32 :: 32 :: 32 :: 32 :: c :: rest)) =
      .ok (true, Parser.mk [{ kind := Kind.body, parent := none, children := [1] },
                  { kind := Kind.indentedCode, parent := some 0, text := c :: rest }] 0 []) := by
  have g_dispatchIndentedCode := fun (p : Parser) (i : Nat) (lh : LineHandler) (fuel : Nat) (_ : (p.nodes[i]?).isSome = true) =>
    Parser.dispatchIndentedCode.eq_2 p i lh fuel
  have g_placeIndentedText := fun (p : Parser) (i : Nat) (lh : LineHandler) (lh2 : LineHandler) (_ : (p.nodes[i]?).isSome = true) =>
    Parser.placeIndentedText.eq_1 p i lh lh2
  have g_appendIndentedText := fun (p : Parser) (i : Nat) (lh : LineHandler) (_ : (p.nodes[i]?).isSome = true) =>
    Parser.appendIndentedText.eq_1 p i lh
  have g_appendNewIndentedCode := fun (p : Parser) (i : Nat) (lh : LineHandler) (_ : (p.nodes[i]?).isSome = true) =>
    Parser.appendNewIndentedCode.eq_1 p i lh
  have g_appendLeafBlock := fun (p : Parser) (i : Nat) (b : Nat) (_ : (p.nodes[i]?).isSome = true) =>
    Parser.appendLeafBlock.eq_1 p i b
  have g_appendBlock := fun (p : Parser) (i : Nat) (b : Nat) (_ : (p.nodes[i]?).isSome = true) =>
    Parser.appendBlock.eq_1 p i b
  have g_close := fun (p : Parser) (i : Nat) (fuel : Nat) (_ : (p.nodes[i]?).isSome = true) =>
    Parser.close.eq_2 p i fuel
  simp [Parser.start, Parser.get, Parser.rootNode,
      LineHandler.new, h32, h9, g_dispatchIndentedCode, g_placeIndentedText, g_appendIndentedText, g_appendNewIndentedCode, g_appendLeafBlock, g_appendBlock, g_close,
      Kind.isList, Kind.isItem, LineHandler.removeIndent, LineHandler.removeIndentFrom,
      LineHandler.removeIndentLoop, Parser.last,
      Parser.alloc, Parser.update,
      Parser.put, LineHandler.currentText, LineHandler.currentTextRef, LineHandler.spaces]

theorem htmlOf_indented_aux (t : QString) (h : isLetters t = true) :
    htmlOf (32 :: 32 :: 32 :: 32 :: t ++ [10]) = .ok (qs "<pre><code>" ++ t ++ qs "\n</code></pre>") := by
  have hmem := letters_mem h
  obtain ⟨c, rest, ht, hc⟩ := letters_head h
  have h32 : c ≠ 32 := by simpa using letter_ne_32 hc
  have h9 : c ≠ 9 := by simpa using letter_ne_9 hc
  have hnl : ∀ x ∈ 32 :: 32 :: 32 :: 32 :: t, x ≠ 10 := by
    intro x hx
    simp at hx
    rcases hx with h1 | h1
    · omega
    · simpa using letter_ne_10 (hmem x h1)
  have es : QString.splitRef (32 :: 32 :: 32 :: 32 :: t ++ [10]) 10 = [32 :: 32 :: 32 :: 32 :: t, []] := by
    have := splitRef_append [] hnl
    simpa [QString.splitRef, QString.splitLoop] using this
  have e1 : Parser.start.feedLine (32 :: 32 :: 32 :: 32 :: t) = .ok
      (Parser.mk [{ kind := Kind.body, parent := none, children := [1] },
                  { kind := Kind.indentedCode, parent := some 0, text := t }] 0 []) := by
    rw [feedLine_nonblank Parser.start Parser.rootNode _ rfl (by simp [LineHandler.isBlank, LineHandler.new, ht, h32, h9])]
    apply dispatchLine_of_indented
    rw [ht]
    exact dispatchIndentedCode_code c rest _ h32 h9
  have e2 : Parser.feedLine (Parser.mk [{ kind := Kind.body, parent := none, children := [1] },
                  { kind := Kind.indentedCode, parent := some 0, text := t }] 0 []) [] = .ok
      (Parser.mk [{ kind := Kind.body, parent := none, children := [1] },
                  { kind := Kind.indentedCode, parent := some 0, text := t, pending := [10] }] 0 []) := by
    have g_feedLine := fun (p : Parser) (s : QString) (_ : (p.nodes[p.current]?).isSome = true) =>
      Parser.feedLine.eq_1 p s
    have g_dispatchBlankLine := fun (p : Parser) (i : Nat) (lh : LineHandler) (_ : (p.nodes[i]?).isSome = true) =>
      Parser.dispatchBlankLine.eq_1 p i lh
    have g_handleBlankLine := fun (p : Parser) (i : Nat) (lh : LineHandler) (_ : (p.nodes[i]?).isSome = true) =>
      Parser.handleBlankLine.eq_1 p i lh
    simp [Parser.get, LineHandler.isBlank, LineHandler.new, g_feedLine, g_dispatchBlankLine, g_handleBlankLine,
      Parser.last, LineHandler.removeIndent, LineHandler.removeIndentFrom,
      LineHandler.removeIndentLoop, Parser.put]
  have e3 : Parser.finish (Parser.mk [{ kind := Kind.body, parent := none, children := [1] },
                  { kind := Kind.indentedCode, parent := some 0, text := t, pending := [10] }] 0 []) =
      .ok (qs "<pre><code>" ++ t ++ qs "\n</code></pre>",
        Parser.mk [{ kind := Kind.body, parent := none, children := [1], writable := false },
          { kind := Kind.indentedCode, parent := some 0, text := t, pending := [10], writable := false }] 0 []) := by
    have g_unwindAll := fun (p : Parser) (fuel : Nat) (_ : (p.nodes[p.current]?).isSome = true) =>
      Parser.unwindAll.eq_2 p fuel
    have g_unwind := fun (p : Parser)  (_ : (p.nodes[p.current]?).isSome = true) =>
      Parser.unwind.eq_1 p 
    have g_close := fun (p : Parser) (i : Nat) (fuel : Nat) (_ : (p.nodes[i]?).isSome = true) =>
      Parser.close.eq_2 p i fuel
    have g_disable := fun (p : Parser) (i : Nat) (_ : (p.nodes[i]?).isSome = true) =>
      Parser.disable.eq_1 p i
    have g_html := fun (p : Parser) (i : Nat) (fuel : Nat) (_ : (p.nodes[i]?).isSome = true) =>
      Parser.html.eq_2 p i fuel
    have g_hasBlankline := fun (p : Parser) (i : Nat) (fuel : Nat) (_ : (p.nodes[i]?).isSome = true) =>
      Parser.hasBlankline.eq_2 p i fuel
    simp [Parser.finish, treeFuel_mk, g_unwindAll, g_unwind, g_close, g_disable, g_html, g_hasBlankline, Parser.get,
      Kind.isContainer, Parser.last, Parser.update, Parser.put,
      Parser.collect, QString.join, codeToHTML_letters t hmem]
  simp only [htmlOf, Parser.getHTMLText, parseBlocks_eq, es, Parser.feedLines, e1, e2, e3, ok_bind, pure_eq_ok]

theorem dispatchContainerBlock_of_quote (p p1 : Parser) (i : Nat) (n : Node) (lh lh1 : LineHandler)
    (hn : p.nodes[i]? = some n) (h : p.dispatchBlockQuote i lh = .ok (true, lh1, p1)) :
    p.dispatchContainerBlock i lh = .ok (true, lh1, p1) := by
  simp [Parser.dispatchContainerBlock, get_of_getElem? hn, h]

theorem calm_append_letters (r : QString) : ∀ (a : QString), (∀ x ∈ a, isAsciiLetter x = true) →
    calm (a ++ r) = calm r
  | [], _ => rfl
  | c :: a, h => by
    rw [List.cons_append, calm_cons_letter _ (h c (List.mem_cons_self _ _))]
    exact calm_append_letters r a (fun x hx => h x (List.mem_cons_of_mem _ hx))

theorem calm_nl (r : QString) : calm (10 :: r) = calm r := by
  rw [calm.eq_def]
  simp [inertChar]

theorem calm_two_lines {a b : QString} (ha : isLetters a = true) (hb : isLetters b = true) :
    calm (a ++ 10 :: b) = true := by
  rw [calm_append_letters _ a (letters_mem ha), calm_nl]
  exact letters_calm hb

theorem matchBlockQuote_marker (c : Nat) (rest : QString) (h32 : c ≠ 32) (h9 : c ≠ 9) (h62 : c ≠ 62) :
    (LineHandler.new (62 :: 32 :: c :: rest)).matchBlockQuote =
      (true, LineHandler.mk (62 :: 32 :: c :: rest) 2 2 0 1 1) := by
  simp [LineHandler.matchBlockQuote, LineHandler.new, LineHandler.matchBlockQuoteLoop, h32, h9, h62]

theorem quote_line_facts {a : QString} (ha : isLetters a = true) :
    (∀ x ∈ (62 :: 32 :: a : QString), x ≠ 60) ∧ (∀ x ∈ (62 :: 32 :: a : QString), x ≠ 10) ∧
    (∃ x ∈ (62 :: 32 :: a : QString), isAsciiLetter x = true) := by
  obtain ⟨c, rest, ht, hc⟩ := letters_head ha
  refine ⟨?_, ?_, ⟨c, by simp [ht], hc⟩⟩
  · intro x hx
    simp at hx
    rcases hx with h1 | h1 | h1
    · omega
    · omega
    · simpa using letter_ne_60 (letters_mem ha x h1)
  · intro x hx
    simp at hx
    rcases hx with h1 | h1 | h1
    · omega
    · omega
    · simpa using letter_ne_10 (letters_mem ha x h1)

theorem feedLine_quote_first (a : QString) (ha : isLetters a = true) :
    Parser.start.feedLine (62 :: 32 :: a) = .ok (quoteDoc a) := by
  obtain ⟨c, rest, ht, hc⟩ := letters_head ha
  obtain ⟨hlt, _, hlet⟩ := quote_line_facts ha
  have h32 : c ≠ 32 := by simpa using letter_ne_32 hc
  have h9 : c ≠ 9 := by simpa using letter_ne_9 hc
  have h62 : c ≠ 62 := by simpa using letter_ne_62 hc
  have hd : (LineHandler.new (62 :: 32 :: a)).line.drop (LineHandler.new (62 :: 32 :: a)).physicalPosition =
      62 :: 32 :: a := rfl
  have h3 : Parser.start.dispatchBlockQuote 0 (LineHandler.new (62 :: 32 :: a)) = .ok (true,
      LineHandler.mk (62 :: 32 :: a) 2 2 0 1 1, quoteEmpty) := by
    subst ht
    have g_dispatchBlockQuote := fun (p : Parser) (i : Nat) (lh : LineHandler) (_ : (p.nodes[i]?).isSome = true) =>
      Parser.dispatchBlockQuote.eq_1 p i lh
    have g_appendBlockQuote := fun (p : Parser) (i : Nat) (lh : LineHandler) (fuel : Nat) (_ : (p.nodes[i]?).isSome = true) =>
      Parser.appendBlockQuote.eq_2 p i lh fuel
    have g_newBlockQuote := fun (p : Parser) (i : Nat) (k : Nat) (_ : (p.nodes[i]?).isSome = true) =>
      Parser.newBlockQuote.eq_1 p i k
    have g_appendContainerBlock := fun (p : Parser) (i : Nat) (b : Nat) (_ : (p.nodes[i]?).isSome = true) =>
      Parser.appendContainerBlock.eq_1 p i b
    have g_appendBlock := fun (p : Parser) (i : Nat) (b : Nat) (_ : (p.nodes[i]?).isSome = true) =>
      Parser.appendBlock.eq_1 p i b
    have g_close := fun (p : Parser) (i : Nat) (fuel : Nat) (_ : (p.nodes[i]?).isSome = true) =>
      Parser.close.eq_2 p i fuel
    simp [Parser.start, Parser.get, Parser.rootNode, g_dispatchBlockQuote, g_appendBlockQuote, g_newBlockQuote, g_appendContainerBlock, g_appendBlock, g_close,
      matchBlockQuote_marker c rest h32 h9 h62, Parser.alloc,
      Kind.isItem, Parser.last, Parser.update, Parser.put, quoteEmpty, quoteNode]
  rw [feedLine_nonblank Parser.start Parser.rootNode _ rfl (by simp [LineHandler.isBlank, LineHandler.new])]
  rw [dispatchLine_of_container Parser.start _ _ _ _
    (dispatchIndentedCode_plain Parser.start 0 Parser.rootNode _ _ rfl (Or.inl rfl) (Or.inl rfl) hd
      (by decide) (by decide) rfl (by simp [LineHandler.new]))
    (dispatchLeafBlock_plain Parser.start 0 Parser.rootNode _ rfl rfl (Or.inl rfl) hlt hd
      (by decide) (by decide) (by decide) (by decide) hlet)
    (by
      rw [lh_skipWhitespace_at hd (by decide) (by decide)]
      exact dispatchContainerBlock_of_quote _ _ 0 Parser.rootNode _ _ rfl h3)]
  rw [dispatchLine_plain quoteEmpty (quoteNode []) (LineHandler.mk (62 :: 32 :: a) 2 2 0 1 1) _ rfl
    (Or.inr (Or.inl rfl)) (Or.inl rfl) hlt (show _ = c :: rest by simp [ht]) hc rfl (by simp)]
  have g_appendParagraph := fun (p : Parser) (i : Nat) (lh : LineHandler) (fuel : Nat) (_ : (p.nodes[i]?).isSome = true) =>
    Parser.appendParagraph.eq_2 p i lh fuel
  have g_appendParagraphText := fun (p : Parser) (i : Nat) (lh : LineHandler) (fuel : Nat) (_ : (p.nodes[i]?).isSome = true) =>
    Parser.appendParagraphText.eq_2 p i lh fuel
  have g_appendNewParagraph := fun (p : Parser) (i : Nat) (lh : LineHandler) (_ : (p.nodes[i]?).isSome = true) =>
    Parser.appendNewParagraph.eq_1 p i lh
  have g_appendLeafBlock := fun (p : Parser) (i : Nat) (b : Nat) (_ : (p.nodes[i]?).isSome = true) =>
    Parser.appendLeafBlock.eq_1 p i b
  have g_appendBlock := fun (p : Parser) (i : Nat) (b : Nat) (_ : (p.nodes[i]?).isSome = true) =>
    Parser.appendBlock.eq_1 p i b
  have g_close := fun (p : Parser) (i : Nat) (fuel : Nat) (_ : (p.nodes[i]?).isSome = true) =>
    Parser.close.eq_2 p i fuel
  have g_appendLine := fun (p : Parser) (i : Nat) (lh : LineHandler) (_ : (p.nodes[i]?).isSome = true) =>
    Parser.appendLine.eq_1 p i lh
  simp [treeFuel_mk, g_appendParagraph, g_appendParagraphText, g_appendNewParagraph, g_appendLeafBlock, g_appendBlock, g_close, g_appendLine, Parser.get, Parser.last,
      Parser.newParagraph, Parser.alloc, Kind.isItem,
      Parser.update, Parser.put, LineHandler.currentText,
      LineHandler.currentTextRef, LineHandler.spaces, quoteEmpty, quoteNode, quoteDoc]

theorem feedLine_quote_second (a b : QString) (hb : isLetters b = true) :
    (quoteDoc a).feedLine (62 :: 32 :: b) = .ok (quoteDoc (a ++ 10 :: b)) := by
  obtain ⟨c, rest, ht, hc⟩ := letters_head hb
  obtain ⟨hlt, _, hlet⟩ := quote_line_facts hb
  have h32 : c ≠ 32 := by simpa using letter_ne_32 hc
  have h9 : c ≠ 9 := by simpa using letter_ne_9 hc
  have h62 : c ≠ 62 := by simpa using letter_ne_62 hc
  have hd : (LineHandler.new (62 :: 32 :: b)).line.drop (LineHandler.new (62 :: 32 :: b)).physicalPosition =
      62 :: 32 :: b := rfl
  have hopen : LastOpen (quoteDoc a) (quoteNode [2]) :=
    Or.inr ⟨2, { kind := Kind.paragraph, parent := some 1, text := a }, rfl, rfl, rfl, rfl⟩
  have h3 : (quoteDoc a).dispatchBlockQuote 1 (LineHandler.new (62 :: 32 :: b)) =
      .ok (true, LineHandler.mk (62 :: 32 :: b) 2 2 0 1 1, quoteDoc a) := by
    subst ht
    have g_dispatchBlockQuote := fun (p : Parser) (i : Nat) (lh : LineHandler) (_ : (p.nodes[i]?).isSome = true) =>
      Parser.dispatchBlockQuote.eq_1 p i lh
    simp [Parser.get, g_dispatchBlockQuote, matchBlockQuote_marker c rest h32 h9 h62, quoteDoc, quoteNode]
  rw [feedLine_nonblank (quoteDoc a) (quoteNode [2]) _ rfl (by simp [LineHandler.isBlank, LineHandler.new])]
  rw [dispatchLine_of_container (quoteDoc a) _ _ _ _
    (dispatchIndentedCode_plain (quoteDoc a) 1 (quoteNode [2]) _ _ rfl (Or.inr (Or.inl rfl)) hopen hd
      (by decide) (by decide) rfl (by simp [LineHandler.new]))
    (dispatchLeafBlock_plain (quoteDoc a) 1 (quoteNode [2]) _ rfl rfl hopen.plain hlt hd
      (by decide) (by decide) (by decide) (by decide) hlet)
    (by
      rw [lh_skipWhitespace_at hd (by decide) (by decide)]
      exact dispatchContainerBlock_of_quote _ _ 1 (quoteNode [2]) _ _ rfl h3)]
  rw [dispatchLine_plain (quoteDoc a) (quoteNode [2]) (LineHandler.mk (62 :: 32 :: b) 2 2 0 1 1) _ rfl
    (Or.inr (Or.inl rfl)) hopen hlt (show _ = c :: rest by simp [ht]) hc rfl (by simp)]
  have g_appendParagraph := fun (p : Parser) (i : Nat) (lh : LineHandler) (fuel : Nat) (_ : (p.nodes[i]?).isSome = true) =>
    Parser.appendParagraph.eq_2 p i lh fuel
  have g_appendParagraphText := fun (p : Parser) (i : Nat) (lh : LineHandler) (fuel : Nat) (_ : (p.nodes[i]?).isSome = true) =>
    Parser.appendParagraphText.eq_2 p i lh fuel
  have g_appendNewParagraph := fun (p : Parser) (i : Nat) (lh : LineHandler) (_ : (p.nodes[i]?).isSome = true) =>
    Parser.appendNewParagraph.eq_1 p i lh
  have g_appendLeafBlock := fun (p : Parser) (i : Nat) (b : Nat) (_ : (p.nodes[i]?).isSome = true) =>
    Parser.appendLeafBlock.eq_1 p i b
  have g_appendBlock := fun (p : Parser) (i : Nat) (b : Nat) (_ : (p.nodes[i]?).isSome = true) =>
    Parser.appendBlock.eq_1 p i b
  have g_close := fun (p : Parser) (i : Nat) (fuel : Nat) (_ : (p.nodes[i]?).isSome = true) =>
    Parser.close.eq_2 p i fuel
  have g_appendLine := fun (p : Parser) (i : Nat) (lh : LineHandler) (_ : (p.nodes[i]?).isSome = true) =>
    Parser.appendLine.eq_1 p i lh
  simp [treeFuel_mk, g_appendParagraph, g_appendParagraphText, g_appendNewParagraph, g_appendLeafBlock, g_appendBlock, g_close, g_appendLine, Parser.get, Parser.last,
      Parser.update, Parser.put, LineHandler.putLinebreakAtBOL, LineHandler.currentTextRef, qs, utf16,
      quoteDoc, quoteNode]

theorem finish_quoteDoc (text : QString) {c : Nat} {rest : QString} (ht : text = c :: rest)
    (hc : isAsciiLetter c = true) (hcalm : calm text = true) :
    ((quoteDoc text).finish >>= fun r => Except.ok r.1) =
      .ok (qs "<blockquote>\n<p>" ++ text ++ qs "</p>\n</blockquote>") := by
  have h32 : c ≠ 32 := by simpa using letter_ne_32 hc
  have h9 : c ≠ 9 := by simpa using letter_ne_9 hc
  have h10 : c ≠ 10 := by simpa using letter_ne_10 hc
  have h91 : c ≠ 91 := by simpa using letter_ne_91 hc
  have pc := paragraphClose_plain (quoteDoc text) 2
    { kind := Kind.paragraph, parent := some 1, text := text } text.length rfl ht h91 h9 h32 h10
  have g_unwindAll := fun (p : Parser) (fuel : Nat) (_ : (p.nodes[p.current]?).isSome = true) =>
    Parser.unwindAll.eq_2 p fuel
  have g_unwind := fun (p : Parser)  (_ : (p.nodes[p.current]?).isSome = true) =>
    Parser.unwind.eq_1 p 
  have g_close := fun (p : Parser) (i : Nat) (fuel : Nat) (_ : (p.nodes[i]?).isSome = true) =>
    Parser.close.eq_2 p i fuel
  have g_disable := fun (p : Parser) (i : Nat) (_ : (p.nodes[i]?).isSome = true) =>
    Parser.disable.eq_1 p i
  have g_html := fun (p : Parser) (i : Nat) (fuel : Nat) (_ : (p.nodes[i]?).isSome = true) =>
    Parser.html.eq_2 p i fuel
  have g_hasBlankline := fun (p : Parser) (i : Nat) (fuel : Nat) (_ : (p.nodes[i]?).isSome = true) =>
    Parser.hasBlankline.eq_2 p i fuel
  simp only [quoteDoc, quoteNode] at pc
  simp [Parser.finish, treeFuel_mk, g_unwindAll, g_unwind, g_close, g_disable, g_html, g_hasBlankline, Parser.get, Kind.isContainer, Parser.last, pc,
    Parser.update, Parser.put, Parser.collect, Kind.isList, Kind.isItem,
    textToHTML_calm [] text hcalm, QString.join, quoteDoc, quoteNode, qs, utf16]

theorem htmlOf_quote_aux (a b : QString) (ha : isLetters a = true) (hb : isLetters b = true) :
    htmlOf (62 :: 32 :: a ++ 10 :: 62 :: 32 :: b) =
      .ok (qs "<blockquote>
<p>" ++ a ++ 10 :: b ++ qs "</p>
</blockquote>") := by
  obtain ⟨c, rest, ht, hc⟩ := letters_head ha
  have es : QString.splitRef (62 :: 32 :: a ++ 10 :: 62 :: 32 :: b) 10 = [62 :: 32 :: a, 62 :: 32 :: b] := by
    have e1 := splitRef_append (62 :: 32 :: b) (quote_line_facts ha).2.1
    have e2 := splitRef_no_sep (quote_line_facts hb).2.1
    simpa [e2] using e1
  have ef := finish_quoteDoc (a ++ 10 :: b) (show _ = c :: (rest ++ 10 :: b) by simp [ht]) hc
    (calm_two_lines ha hb)
  simp only [htmlOf, Parser.getHTMLText, parseBlocks_eq, es, Parser.feedLines, feedLine_quote_first a ha,
    feedLine_quote_second a b hb, ok_bind, pure_eq_ok] at ef ⊢
  simpa using ef

theorem new_indent (l : QString) : (LineHandler.new l).indent = 0 := rfl

theorem new_depth (l : QString) : (LineHandler.new l).depth = 0 := rfl

theorem dispatchContainerBlock_of_bullet (p p2 : Parser) (i : Nat) (n : Node) (lh lh2 : LineHandler)
    (hn : p.nodes[i]? = some n) (hk : n.kind ≠ Kind.orderedItem)
    (hq : p.dispatchBlockQuote i lh = .ok (false, lh, p))
    (hb : Parser.dispatchBulletList p.treeFuel p i lh = .ok (true, lh2, p2)) :
    p.dispatchContainerBlock i lh = .ok (true, lh2, p2) := by
  simp [Parser.dispatchContainerBlock, get_of_getElem? hn, hq, hk, hb]

theorem dispatchBlockQuote_at (p : Parser) (i : Nat) (n : Node) (lh : LineHandler)
    (hn : p.nodes[i]? = some n) {c : Nat} {rest : QString}
    (hd : lh.line.drop lh.physicalPosition = c :: rest) (h62 : c ≠ 62) :
    p.dispatchBlockQuote i lh = .ok (false, lh, p) := by
  simp [Parser.dispatchBlockQuote, get_of_getElem? hn, matchBlockQuote_at hd h62]

theorem findBullet_marker (c : Nat) (rest : QString) (h32 : c ≠ 32) (h9 : c ≠ 9) :
    (LineHandler.new (45 :: 32 :: c :: rest)).findBullet =
      .ok (45, LineHandler.mk (45 :: 32 :: c :: rest) 2 2 0 0 2) := by
  simp [LineHandler.findBullet, LineHandler.findBulletChar, LineHandler.new, LineHandler.skipToMarker,
    LineHandler.skipWhitespaceFollowedListMarker, LineHandler.listMarkerLoop, h32, h9]

theorem bullet_line_facts {a : QString} (ha : isLetters a = true) :
    (∀ x ∈ (45 :: 32 :: a : QString), x ≠ 60) ∧ (∀ x ∈ (45 :: 32 :: a : QString), x ≠ 10) ∧
    (∃ x ∈ (45 :: 32 :: a : QString), isAsciiLetter x = true) := by
  obtain ⟨c, rest, ht, hc⟩ := letters_head ha
  refine ⟨?_, ?_, ⟨c, by simp [ht], hc⟩⟩
  · intro x hx
    simp at hx
    rcases hx with h1 | h1 | h1
    · omega
    · omega
    · simpa using letter_ne_60 (letters_mem ha x h1)
  · intro x hx
    simp at hx
    rcases hx with h1 | h1 | h1
    · omega
    · omega
    · simpa using letter_ne_10 (letters_mem ha x h1)

theorem feedLine_bullet_first (a : QString) (ha : isLetters a = true) :
    Parser.start.feedLine (45 :: 32 :: a) = .ok (listOne a) := by
  obtain ⟨c, rest, ht, hc⟩ := letters_head ha
  obtain ⟨hlt, _, hlet⟩ := bullet_line_facts ha
  have h32 : c ≠ 32 := by simpa using letter_ne_32 hc
  have h9 : c ≠ 9 := by simpa using letter_ne_9 hc
  have hd : (LineHandler.new (45 :: 32 :: a)).line.drop (LineHandler.new (45 :: 32 :: a)).physicalPosition =
      45 :: 32 :: a := rfl
  have h3 : Parser.dispatchBulletList Parser.start.treeFuel Parser.start 0 (LineHandler.new (45 :: 32 :: a)) =
      .ok (true, LineHandler.mk (45 :: 32 :: a) 2 2 0 0 2, listEmpty) := by
    subst ht
    have g_dispatchBulletList := fun (p : Parser) (i : Nat) (lh : LineHandler) (fuel : Nat) (_ : (p.nodes[i]?).isSome = true) =>
      Parser.dispatchBulletList.eq_2 p i lh fuel
    have g_appendFirstBulletList := fun (p : Parser) (i : Nat) (lh : LineHandler) (b : QChar) (k : Nat) (fuel : Nat) (_ : (p.nodes[i]?).isSome = true) =>
      Parser.appendFirstBulletList.eq_2 p i lh b k fuel
    have g_appendContainerBlock := fun (p : Parser) (i : Nat) (b : Nat) (_ : (p.nodes[i]?).isSome = true) =>
      Parser.appendContainerBlock.eq_1 p i b
    have g_appendBlock := fun (p : Parser) (i : Nat) (b : Nat) (_ : (p.nodes[i]?).isSome = true) =>
      Parser.appendBlock.eq_1 p i b
    have g_close := fun (p : Parser) (i : Nat) (fuel : Nat) (_ : (p.nodes[i]?).isSome = true) =>
      Parser.close.eq_2 p i fuel
    have g_setHasBlankline := fun (p : Parser) (i : Nat) (b : Bool) (_ : (p.nodes[i]?).isSome = true) =>
      Parser.setHasBlankline.eq_1 p i b
    have g_baseIndent := fun (p : Parser) (i : Nat) (fuel : Nat) (_ : (p.nodes[i]?).isSome = true) =>
      Parser.baseIndent.eq_2 p i fuel
    have g_appendBulletList := fun (p : Parser) (i : Nat) (b : QChar) (k : Nat) (m : Nat) (f : Bool) (_ : (p.nodes[i]?).isSome = true) =>
      Parser.appendBulletList.eq_1 p i b k m f
    have g_paragraphClose := fun (p : Parser) (i : Nat) (fuel : Nat) (_ : (p.nodes[i]?).isSome = true) =>
      Parser.paragraphClose.eq_2 p i fuel
    have g_disable := fun (p : Parser) (i : Nat) (_ : (p.nodes[i]?).isSome = true) =>
      Parser.disable.eq_1 p i
    simp [Parser.start, treeFuel_mk, Parser.get, Parser.rootNode, g_dispatchBulletList, g_appendFirstBulletList, g_appendContainerBlock, g_appendBlock, g_close, g_setHasBlankline, g_baseIndent, g_appendBulletList, g_paragraphClose, g_disable,
      findBullet_marker c rest h32 h9, Parser.containerBulletList, LineHandler.isBlank, new_indent, new_depth,
      Parser.isIndentEnoughForChild, Parser.alloc, h32, h9,
      Kind.isItem, Kind.isList, Parser.last, Parser.update, Parser.put, listEmpty, bulletListNode, bulletItemNode]
  rw [feedLine_nonblank Parser.start Parser.rootNode _ rfl (by simp [LineHandler.isBlank, LineHandler.new])]
  rw [dispatchLine_of_container Parser.start _ _ _ _
    (dispatchIndentedCode_plain Parser.start 0 Parser.rootNode _ _ rfl (Or.inl rfl) (Or.inl rfl) hd
      (by decide) (by decide) rfl (by simp [LineHandler.new]))
    (dispatchLeafBlock_plain Parser.start 0 Parser.rootNode _ rfl rfl (Or.inl rfl) hlt hd
      (by decide) (by decide) (by decide) (by decide) hlet)
    (by
      rw [lh_skipWhitespace_at hd (by decide) (by decide)]
      exact dispatchContainerBlock_of_bullet _ _ 0 Parser.rootNode _ _ rfl (by simp [Parser.rootNode])
        (dispatchBlockQuote_at _ 0 Parser.rootNode _ rfl hd (by decide)) h3)]
  rw [dispatchLine_plain listEmpty (bulletItemNode [] true) (LineHandler.mk (45 :: 32 :: a) 2 2 0 0 2) _ rfl
    (Or.inr (Or.inr ⟨rfl, by simp [bulletItemNode]⟩)) (Or.inl rfl) hlt (show _ = c :: rest by simp [ht]) hc rfl (by simp)]
  have g_appendParagraph := fun (p : Parser) (i : Nat) (lh : LineHandler) (fuel : Nat) (_ : (p.nodes[i]?).isSome = true) =>
    Parser.appendParagraph.eq_2 p i lh fuel
  have g_appendParagraphText := fun (p : Parser) (i : Nat) (lh : LineHandler) (fuel : Nat) (_ : (p.nodes[i]?).isSome = true) =>
    Parser.appendParagraphText.eq_2 p i lh fuel
  have g_appendNewParagraph := fun (p : Parser) (i : Nat) (lh : LineHandler) (_ : (p.nodes[i]?).isSome = true) =>
    Parser.appendNewParagraph.eq_1 p i lh
  have g_appendLeafBlock := fun (p : Parser) (i : Nat) (b : Nat) (_ : (p.nodes[i]?).isSome = true) =>
    Parser.appendLeafBlock.eq_1 p i b
  have g_appendBlock := fun (p : Parser) (i : Nat) (b : Nat) (_ : (p.nodes[i]?).isSome = true) =>
    Parser.appendBlock.eq_1 p i b
  have g_close := fun (p : Parser) (i : Nat) (fuel : Nat) (_ : (p.nodes[i]?).isSome = true) =>
    Parser.close.eq_2 p i fuel
  have g_appendLine := fun (p : Parser) (i : Nat) (lh : LineHandler) (_ : (p.nodes[i]?).isSome = true) =>
    Parser.appendLine.eq_1 p i lh
  have g_setHasBlankline := fun (p : Parser) (i : Nat) (b : Bool) (_ : (p.nodes[i]?).isSome = true) =>
    Parser.setHasBlankline.eq_1 p i b
  simp [treeFuel_mk, g_appendParagraph, g_appendParagraphText, g_appendNewParagraph, g_appendLeafBlock, g_appendBlock, g_close, g_appendLine, g_setHasBlankline, Parser.get, Parser.last, LineHandler.isBlank, ht, h32, h9,
      Parser.newParagraph, Parser.alloc, Kind.isItem, Kind.isList,
      Parser.update, Parser.put, LineHandler.currentText,
      LineHandler.currentTextRef, LineHandler.spaces, listEmpty, listOne, bulletListNode, bulletItemNode]

theorem feedLine_bullet_second (a b : QString) (ha : isLetters a = true) (hb : isLetters b = true) :
    (listOne a).feedLine (45 :: 32 :: b) = .ok (listTwo a b) := by
  obtain ⟨ca, ra, hta, hca⟩ := letters_head ha
  obtain ⟨c, rest, ht, hc⟩ := letters_head hb
  obtain ⟨hlt, _, hlet⟩ := bullet_line_facts hb
  have h32 : c ≠ 32 := by simpa using letter_ne_32 hc
  have h9 : c ≠ 9 := by simpa using letter_ne_9 hc
  have hd : (LineHandler.new (45 :: 32 :: b)).line.drop (LineHandler.new (45 :: 32 :: b)).physicalPosition =
      45 :: 32 :: b := rfl
  have hopen : LastOpen (listOne a) (bulletItemNode [3] true) :=
    Or.inr ⟨3, { kind := Kind.paragraph, parent := some 2, text := a }, rfl, rfl, rfl, rfl⟩
  have pc := fun (p : Parser) (fuel : Nat)
      (hn : p.nodes[3]? = some { kind := Kind.paragraph, parent := some 2, text := a }) =>
    paragraphClose_plain p 3 _ fuel hn hta
      (by simpa using letter_ne_91 hca) (by simpa using letter_ne_9 hca) (by simpa using letter_ne_32 hca)
      (by simpa using letter_ne_10 hca)
  have h3 : Parser.dispatchBulletList (listOne a).treeFuel (listOne a) 2 (LineHandler.new (45 :: 32 :: b)) =
      .ok (true, LineHandler.mk (45 :: 32 :: b) 2 2 0 0 2, listTwoEmpty a) := by
    subst ht
    have g_dispatchBulletList := fun (p : Parser) (i : Nat) (lh : LineHandler) (fuel : Nat) (_ : (p.nodes[i]?).isSome = true) =>
      Parser.dispatchBulletList.eq_2 p i lh fuel
    have g_appendContainerBlock := fun (p : Parser) (i : Nat) (b : Nat) (_ : (p.nodes[i]?).isSome = true) =>
      Parser.appendContainerBlock.eq_1 p i b
    have g_appendBlock := fun (p : Parser) (i : Nat) (b : Nat) (_ : (p.nodes[i]?).isSome = true) =>
      Parser.appendBlock.eq_1 p i b
    have g_close := fun (p : Parser) (i : Nat) (fuel : Nat) (_ : (p.nodes[i]?).isSome = true) =>
      Parser.close.eq_2 p i fuel
    have g_setHasBlankline := fun (p : Parser) (i : Nat) (b : Bool) (_ : (p.nodes[i]?).isSome = true) =>
      Parser.setHasBlankline.eq_1 p i b
    have g_baseIndent := fun (p : Parser) (i : Nat) (fuel : Nat) (_ : (p.nodes[i]?).isSome = true) =>
      Parser.baseIndent.eq_2 p i fuel
    have g_appendBulletList := fun (p : Parser) (i : Nat) (b : QChar) (k : Nat) (m : Nat) (f : Bool) (_ : (p.nodes[i]?).isSome = true) =>
      Parser.appendBulletList.eq_1 p i b k m f
    have g_disable := fun (p : Parser) (i : Nat) (_ : (p.nodes[i]?).isSome = true) =>
      Parser.disable.eq_1 p i
    simp [treeFuel_mk, Parser.get, g_dispatchBulletList, g_appendContainerBlock, g_appendBlock, g_close, g_setHasBlankline, g_baseIndent, g_appendBulletList, g_disable, pc,
      findBullet_marker c rest h32 h9, new_indent, new_depth, Parser.alloc, Kind.isContainer,
      Kind.isItem, Kind.isList, Parser.last, Parser.first, Parser.update, Parser.put, listOne, listTwoEmpty,
      bulletListNode, bulletItemNode]
  rw [feedLine_nonblank (listOne a) (bulletItemNode [3] true) _ rfl
    (by simp [LineHandler.isBlank, LineHandler.new])]
  rw [dispatchLine_of_container (listOne a) _ _ _ _
    (dispatchIndentedCode_plain (listOne a) 2 (bulletItemNode [3] true) _ _ rfl (Or.inr (Or.inr rfl)) hopen hd
      (by decide) (by decide) rfl (by simp [LineHandler.new]))
    (dispatchLeafBlock_plain (listOne a) 2 (bulletItemNode [3] true) _ rfl rfl hopen.plain hlt hd
      (by decide) (by decide) (by decide) (by decide) hlet)
    (by
      rw [lh_skipWhitespace_at hd (by decide) (by decide)]
      exact dispatchContainerBlock_of_bullet _ _ 2 (bulletItemNode [3] true) _ _ rfl
        (by simp [bulletItemNode])
        (dispatchBlockQuote_at _ 2 (bulletItemNode [3] true) _ rfl hd (by decide)) h3)]
  rw [dispatchLine_plain (listTwoEmpty a) (bulletItemNode [] true) (LineHandler.mk (45 :: 32 :: b) 2 2 0 0 2) _
    rfl (Or.inr (Or.inr ⟨rfl, by simp [bulletItemNode]⟩)) (Or.inl rfl) hlt (show _ = c :: rest by simp [ht]) hc rfl (by simp)]
  have g_appendParagraph := fun (p : Parser) (i : Nat) (lh : LineHandler) (fuel : Nat) (_ : (p.nodes[i]?).isSome = true) =>
    Parser.appendParagraph.eq_2 p i lh fuel
  have g_appendParagraphText := fun (p : Parser) (i : Nat) (lh : LineHandler) (fuel : Nat) (_ : (p.nodes[i]?).isSome = true) =>
    Parser.appendParagraphText.eq_2 p i lh fuel
  have g_appendNewParagraph := fun (p : Parser) (i : Nat) (lh : LineHandler) (_ : (p.nodes[i]?).isSome = true) =>
    Parser.appendNewParagraph.eq_1 p i lh
  have g_appendLeafBlock := fun (p : Parser) (i : Nat) (b : Nat) (_ : (p.nodes[i]?).isSome = true) =>
    Parser.appendLeafBlock.eq_1 p i b
  have g_appendBlock := fun (p : Parser) (i : Nat) (b : Nat) (_ : (p.nodes[i]?).isSome = true) =>
    Parser.appendBlock.eq_1 p i b
  have g_close := fun (p : Parser) (i : Nat) (fuel : Nat) (_ : (p.nodes[i]?).isSome = true) =>
    Parser.close.eq_2 p i fuel
  have g_appendLine := fun (p : Parser) (i : Nat) (lh : LineHandler) (_ : (p.nodes[i]?).isSome = true) =>
    Parser.appendLine.eq_1 p i lh
  have g_setHasBlankline := fun (p : Parser) (i : Nat) (b : Bool) (_ : (p.nodes[i]?).isSome = true) =>
    Parser.setHasBlankline.eq_1 p i b
  simp [treeFuel_mk, g_appendParagraph, g_appendParagraphText, g_appendNewParagraph, g_appendLeafBlock, g_appendBlock, g_close, g_appendLine, g_setHasBlankline, Parser.get, Parser.last, LineHandler.isBlank, ht, h32, h9,
      Parser.newParagraph, Parser.alloc, Kind.isItem, Kind.isList,
      Parser.update, Parser.put, LineHandler.currentText,
      LineHandler.currentTextRef, LineHandler.spaces, listTwoEmpty, listTwo, bulletListNode, bulletItemNode]

theorem close_listTwo (a b : QString) (hb : isLetters b = true) :
    (Parser.unwindAll (listTwo a b).treeFuel (listTwo a b) >>= fun p1 => Parser.close p1.treeFuel p1 0) =
      .ok (listDone a b) := by
  obtain ⟨c, rest, ht, hc⟩ := letters_head hb
  have pc := fun (p : Parser) (fuel : Nat)
      (hn : p.nodes[5]? = some { kind := Kind.paragraph, parent := some 4, text := b }) =>
    paragraphClose_plain p 5 _ fuel hn ht
      (by simpa using letter_ne_91 hc) (by simpa using letter_ne_9 hc) (by simpa using letter_ne_32 hc)
      (by simpa using letter_ne_10 hc)
  have g_unwindAll := fun (p : Parser) (fuel : Nat) (_ : (p.nodes[p.current]?).isSome = true) =>
    Parser.unwindAll.eq_2 p fuel
  have g_unwind := fun (p : Parser)  (_ : (p.nodes[p.current]?).isSome = true) =>
    Parser.unwind.eq_1 p 
  have g_close := fun (p : Parser) (i : Nat) (fuel : Nat) (_ : (p.nodes[i]?).isSome = true) =>
    Parser.close.eq_2 p i fuel
  have g_disable := fun (p : Parser) (i : Nat) (_ : (p.nodes[i]?).isSome = true) =>
    Parser.disable.eq_1 p i
  simp [treeFuel_mk, g_unwindAll, g_unwind, g_close, g_disable, Parser.get, Kind.isContainer, Parser.last, pc,
    Parser.update, Parser.put, listTwo, listDone, bulletListNode, bulletItemNode]

theorem itemHtml_letters {t : QString} (h : isLetters t = true) :
    Parser.itemHtml t = qs "<li>" ++ t ++ qs "</li>" := by
  obtain ⟨c, rest, ht, hc⟩ := letters_head h
  obtain ⟨init, z, hi, hz⟩ := exists_init (t := t) (by rw [ht]; simp)
  have hzl := letters_mem h z hz
  have e1 : t.head? = some c := by simp [ht]
  have e2 : t.getLast? = some z := by simp [hi]
  simp [Parser.itemHtml, e1, e2, letter_ne_60 hc, letter_ne_62 hzl]

theorem hasBlankline_listDone (a b : QString) (fuel : Nat) (i : Nat) (hi : i = 2 ∨ i = 4) :
    Parser.hasBlankline (listDone a b) (fuel + 2) i = .ok false := by
  have g_hasBlankline := fun (p : Parser) (i : Nat) (fuel : Nat) (_ : i < p.nodes.length) =>
    Parser.hasBlankline.eq_2 p i fuel
  rcases hi with rfl | rfl <;>
    simp [g_hasBlankline, Parser.get, Kind.isList, Kind.isItem, listDone, bulletListNode, bulletItemNode]

theorem html_listDone (a b : QString) (ha : isLetters a = true) (hb : isLetters b = true) (fuel : Nat) :
    Parser.html (listDone a b) (fuel + 4) 0 =
      .ok (qs "<ul>\n" ++ ((qs "<li>" ++ a ++ qs "</li>") ++ [10]) ++ ((qs "<li>" ++ b ++ qs "</li>") ++ [10]) ++
        qs "</ul>") := by
  have g_html := fun (p : Parser) (i : Nat) (fuel : Nat) (_ : i < p.nodes.length) =>
    Parser.html.eq_2 p i fuel
  have h2 := hasBlankline_listDone a b 6 2 (Or.inl rfl)
  have h4 := hasBlankline_listDone a b 6 4 (Or.inr rfl)
  simp only [listDone, bulletListNode, bulletItemNode] at h2 h4
  simp [treeFuel_mk, g_html, h2, h4, Parser.get, Parser.collect, Kind.isList, Kind.isItem,
    textToHTML_calm [] a (letters_calm ha), textToHTML_calm [] b (letters_calm hb), QString.join,
    itemHtml_letters ha, itemHtml_letters hb, listDone, bulletListNode, bulletItemNode]

theorem finish_of_close (p pd : Parser) (text : QString)
    (hc : (Parser.unwindAll p.treeFuel p >>= fun p1 => Parser.close p1.treeFuel p1 0) = .ok pd)
    (hh : Parser.html pd pd.treeFuel 0 = .ok text) : p.finish = .ok (text, pd) := by
  cases hu : Parser.unwindAll p.treeFuel p with
  | error e => rw [hu] at hc; cases hc
  | ok p1 =>
    rw [hu] at hc
    have hc' : Parser.close p1.treeFuel p1 0 = .ok pd := hc
    simp only [Parser.finish, hu, ok_bind, hc', hh, pure_eq_ok]

theorem htmlOf_bullets_aux (a b : QString) (ha : isLetters a = true) (hb : isLetters b = true) :
    htmlOf (45 :: 32 :: a ++ 10 :: 45 :: 32 :: b) =
      .ok (qs "<ul>\n<li>" ++ a ++ qs "</li>\n<li>" ++ b ++ qs "</li>\n</ul>") := by
  have es : QString.splitRef (45 :: 32 :: a ++ 10 :: 45 :: 32 :: b) 10 = [45 :: 32 :: a, 45 :: 32 :: b] := by
    have e1 := splitRef_append (45 :: 32 :: b) (bullet_line_facts ha).2.1
    have e2 := splitRef_no_sep (bullet_line_facts hb).2.1
    simpa [e2] using e1
  have ef := finish_of_close (listTwo a b) (listDone a b) _ (close_listTwo a b hb) (html_listDone a b ha hb 4)
  simp only [htmlOf, Parser.getHTMLText, parseBlocks_eq, es, Parser.feedLines, feedLine_bullet_first a ha,
    feedLine_bullet_second a b ha hb, ok_bind, pure_eq_ok, ef]
  simp [qs, utf16]

theorem blank_isBlank {l : QString} (h : isBlankLine l = true) : (LineHandler.new l).isBlank = true := by
  simpa [LineHandler.isBlank, LineHandler.new, isBlankLine] using h

theorem blank_no_nl {l : QString} (h : isBlankLine l = true) : ∀ x ∈ l, x ≠ 10 := by
  intro x hx
  simp [isBlankLine] at h
  rcases h x hx with h1 | h1 <;> omega

theorem splitRef_join : ∀ (w : List QString), (∀ l ∈ w, ∀ x ∈ l, x ≠ 10) → w ≠ [] →
    QString.splitRef (QString.join [10] w) 10 = w
  | [], _, h => absurd rfl h
  | [x], hw, _ => by
    simpa [QString.join] using splitRef_no_sep (hw x (List.mem_cons_self _ _))
  | x :: y :: r, hw, _ => by
    have ih := splitRef_join (y :: r) (fun l hl => hw l (List.mem_cons_of_mem _ hl)) (by simp)
    have := splitRef_append (QString.join [10] (y :: r)) (hw x (List.mem_cons_self _ _))
    simpa [QString.join, ih] using this

theorem feedLine_words (t : QString) (h : isWords t = true) :
    Parser.start.feedLine t = .ok (paragraphDoc t true) := by
  obtain ⟨c, rest, ht, hc⟩ := words_head h
  have hmem := words_mem h
  have hlt : ∀ x ∈ t, x ≠ 60 := by
    intro x hx
    rcases hmem x hx with h1 | h1
    · simpa using letter_ne_60 h1
    · omega
  have g_appendParagraph := fun (p : Parser) (i : Nat) (lh : LineHandler) (fuel : Nat) (_ : i < p.nodes.length) =>
    Parser.appendParagraph.eq_2 p i lh fuel
  have g_appendParagraphText := fun (p : Parser) (i : Nat) (lh : LineHandler) (fuel : Nat) (_ : i < p.nodes.length) =>
    Parser.appendParagraphText.eq_2 p i lh fuel
  have g_appendNewParagraph := fun (p : Parser) (i : Nat) (lh : LineHandler) (_ : i < p.nodes.length) =>
    Parser.appendNewParagraph.eq_1 p i lh
  have g_appendLeafBlock := fun (p : Parser) (i : Nat) (b : Nat) (_ : i < p.nodes.length) =>
    Parser.appendLeafBlock.eq_1 p i b
  have g_appendBlock := fun (p : Parser) (i : Nat) (b : Nat) (_ : i < p.nodes.length) =>
    Parser.appendBlock.eq_1 p i b
  have g_close := fun (p : Parser) (i : Nat) (fuel : Nat) (_ : i < p.nodes.length) =>
    Parser.close.eq_2 p i fuel
  rw [feedLine_plain Parser.start Parser.rootNode t (by simp [Parser.start]) (Or.inl rfl) (Or.inl rfl) hlt ht hc]
  simp [Parser.start, treeFuel_mk, g_appendParagraph, g_appendParagraphText, g_appendNewParagraph,
    g_appendLeafBlock, g_appendBlock, g_close, Parser.get, Parser.rootNode, Parser.last,
    Parser.newParagraph, Parser.alloc, Kind.isItem,
    Parser.update, Parser.put, LineHandler.currentText, LineHandler.new,
    LineHandler.currentTextRef, LineHandler.spaces, paragraphDoc]

theorem feedLine_blank_paragraph (t l : QString) (w : Bool) (h : isWords t = true) (hl : isBlankLine l = true) :
    (paragraphDoc t w).feedLine l = .ok (paragraphDoc t false) := by
  obtain ⟨c, rest, ht, hc⟩ := words_head h
  have hb := blank_isBlank hl
  have pc := fun (p : Parser) (fuel : Nat)
      (hn : p.nodes[1]? = some { kind := Kind.paragraph, parent := some 0, text := t }) =>
    paragraphClose_plain p 1 _ fuel hn ht
      (by simpa using letter_ne_91 hc) (by simpa using letter_ne_9 hc) (by simpa using letter_ne_32 hc)
      (by simpa using letter_ne_10 hc)
  have g_dispatchBlankLine := fun (p : Parser) (i : Nat) (lh : LineHandler) (_ : i < p.nodes.length) =>
    Parser.dispatchBlankLine.eq_1 p i lh
  have g_handleBlankLine := fun (p : Parser) (i : Nat) (lh : LineHandler) (_ : i < p.nodes.length) =>
    Parser.handleBlankLine.eq_1 p i lh
  have g_setHasBlankline := fun (p : Parser) (i : Nat) (b : Bool) (_ : i < p.nodes.length) =>
    Parser.setHasBlankline.eq_1 p i b
  have g_close := fun (p : Parser) (i : Nat) (fuel : Nat) (_ : i < p.nodes.length) =>
    Parser.close.eq_2 p i fuel
  have g_disable := fun (p : Parser) (i : Nat) (_ : i < p.nodes.length) =>
    Parser.disable.eq_1 p i
  cases w <;>
    simp [Parser.feedLine, treeFuel_mk, g_dispatchBlankLine, g_handleBlankLine, g_setHasBlankline, g_close, g_disable, hb, pc, Parser.get, Parser.last, Kind.isList,
      Kind.isItem, Kind.isContainer, Parser.update, Parser.put, paragraphDoc]

theorem feedLines_blank_paragraph (t : QString) (h : isWords t = true) :
    ∀ (ls : List QString) (w : Bool), (∀ l ∈ ls, isBlankLine l = true) → ls ≠ [] →
      (paragraphDoc t w).feedLines ls = .ok (paragraphDoc t false)
  | [], _, _, hne => absurd rfl hne
  | [l], w, hls, _ => by
    simp [Parser.feedLines, feedLine_blank_paragraph t l w h (hls l (List.mem_cons_self _ _))]
  | l :: m :: r, w, hls, _ => by
    have ih := feedLines_blank_paragraph t h (m :: r) false
      (fun x hx => hls x (List.mem_cons_of_mem _ hx)) (by simp)
    rw [Parser.feedLines]
    simp only [feedLine_blank_paragraph t l w h (hls l (List.mem_cons_self _ _)), ok_bind, ih]

theorem finish_paragraphDoc (t : QString) (w : Bool) (h : isWords t = true) :
    ((paragraphDoc t w).finish >>= fun r => Except.ok r.1) = .ok (qs "<p>" ++ t ++ qs "</p>") := by
  obtain ⟨c, rest, ht, hc⟩ := words_head h
  have pc := fun (p : Parser) (fuel : Nat)
      (hn : p.nodes[1]? = some { kind := Kind.paragraph, parent := some 0, text := t }) =>
    paragraphClose_plain p 1 _ fuel hn ht
      (by simpa using letter_ne_91 hc) (by simpa using letter_ne_9 hc) (by simpa using letter_ne_32 hc)
      (by simpa using letter_ne_10 hc)
  have g_unwindAll := fun (p : Parser) (fuel : Nat) (_ : p.current < p.nodes.length) =>
    Parser.unwindAll.eq_2 p fuel
  have g_unwind := fun (p : Parser)  (_ : p.current < p.nodes.length) =>
    Parser.unwind.eq_1 p 
  have g_close := fun (p : Parser) (i : Nat) (fuel : Nat) (_ : i < p.nodes.length) =>
    Parser.close.eq_2 p i fuel
  have g_disable := fun (p : Parser) (i : Nat) (_ : i < p.nodes.length) =>
    Parser.disable.eq_1 p i
  have g_html := fun (p : Parser) (i : Nat) (fuel : Nat) (_ : i < p.nodes.length) =>
    Parser.html.eq_2 p i fuel
  have g_hasBlankline := fun (p : Parser) (i : Nat) (fuel : Nat) (_ : i < p.nodes.length) =>
    Parser.hasBlankline.eq_2 p i fuel
  cases w <;>
    simp [Parser.finish, treeFuel_mk, g_unwindAll, g_unwind, g_close, g_disable, g_html, g_hasBlankline,
      Parser.get, Kind.isContainer, Parser.last, pc,
      Parser.update, Parser.put, Parser.collect, Kind.isList, Kind.isItem,
      textToHTML_calm [] t (words_calm h), QString.join, paragraphDoc]

theorem htmlOf_trailing_blank_aux (s : QString) (w : List QString) (hs : isWords s = true)
    (hw : ∀ l ∈ w, isBlankLine l = true) :
    htmlOf (s ++ 10 :: QString.join [10] w) = .ok (qs "<p>" ++ s ++ qs "</p>") := by
  have hnl : ∀ x ∈ s, x ≠ 10 := by
    intro x hx
    rcases words_mem hs x hx with h1 | h1
    · simpa using letter_ne_10 h1
    · omega
  have ef := finish_paragraphDoc s false hs
  by_cases hne : w = []
  · subst hne
    have e2 := feedLine_blank_paragraph s [] true hs rfl
    have es : QString.splitRef (s ++ 10 :: QString.join [10] []) 10 = [s, []] := by
      rw [splitRef_append _ hnl]; rfl
    simp only [htmlOf, Parser.getHTMLText, parseBlocks_eq, es, Parser.feedLines, feedLine_words s hs, ok_bind,
      e2, pure_eq_ok] at ef ⊢
    simpa using ef
  · have e2 := feedLines_blank_paragraph s hs w true hw hne
    simp only [htmlOf, Parser.getHTMLText, parseBlocks_eq, splitRef_append _ hnl,
      splitRef_join w (fun l hl => blank_no_nl (hw l hl)) hne, Parser.feedLines, feedLine_words s hs, ok_bind,
      e2, pure_eq_ok] at ef ⊢
    simpa using ef

theorem lookup_append_single {α β : Type} [BEq α] (xs : List (α × β)) (k k2 : α) (v : β) :
    (xs ++ [(k, v)]).lookup k2 =
      match xs.lookup k2 with
      | some x => some x
      | none => if k2 == k then some v else none := by
  induction xs with
  | nil => simp [List.lookup]; split <;> simp_all
  | cons x xs ih =>
    obtain ⟨a, b⟩ := x
    simp only [List.cons_append, List.lookup]
    split
    · rfl
    · exact ih

theorem defineLink_of_none (links : LinkList) (l d t : QString)
    (h : links.lookup (QString.toLower l) = none) :
    Parser.defineLink links l d t = links ++ [(QString.toLower l, (d, t))] := by
  simp [Parser.defineLink, h]

theorem defineLink_of_some (links : LinkList) (l d t : QString)
    (h : (links.lookup (QString.toLower l)).isSome = true) :
    Parser.defineLink links l d t = links := by
  simp [Parser.defineLink, h]

theorem lookup_defineLink_self (links : LinkList) (l d t : QString) :
    ((Parser.defineLink links l d t).lookup (QString.toLower l)).isSome = true := by
  cases hl : links.lookup (QString.toLower l) with
  | some x => rw [defineLink_of_some links l d t (by simp [hl]), hl]; rfl
  | none => rw [defineLink_of_none links l d t hl, lookup_append_single, hl]; simp

theorem lookup_defineLink_other (links : LinkList) (l d t k : QString) (hk : k ≠ QString.toLower l) :
    (Parser.defineLink links l d t).lookup k = links.lookup k := by
  cases hl : links.lookup (QString.toLower l) with
  | some x => rw [defineLink_of_some links l d t (by simp [hl])]
  | none =>
    rw [defineLink_of_none links l d t hl, lookup_append_single]
    cases links.lookup k with
    | some y => rfl
    | none => simp [hk]

theorem backslashEscapedList_low : ∀ c, c < 255 →
    EscapeChar.backslashEscapedList c =
      .ok (if c = 10 ∨ isAsciiPunctuation c = true then ⟨escapedText c, 2⟩ else ⟨[92], 1⟩) := by
  decide!

theorem backslashEscapedList_high (c : Nat) (h : 256 ≤ c) :
    EscapeChar.backslashEscapedList c = .ok ⟨[92], 1⟩ := by
  have h1 : QChar.toLatin1 c = 0 := by
    unfold QChar.toLatin1
    rw [if_pos (show c > 255 by omega)]
  unfold EscapeChar.backslashEscapedList
  rw [h1]
  rfl

theorem get_backslash (c : Nat) (rest : QString) :
    EscapeChar.get (92 :: c :: rest) = EscapeChar.backslashEscapedList c := by
  cases h : EscapeChar.backslashEscapedList c with
  | error e => simp [EscapeChar.get, EscapeChar.getBackslashEscaped, h]
  | ok e =>
    have hne : e.inputLength ≠ 0 := by
      unfold EscapeChar.backslashEscapedList at h
      split at h
      · split at h <;> (cases h; simp)
      · cases h
    simp [EscapeChar.get, EscapeChar.getBackslashEscaped, h, EscapeChar.isEmpty, hne]

@[simp] theorem ch_semi : ch ';' = 59 := rfl

@[simp] theorem ch_x : ch 'x' = 120 := rfl

@[simp] theorem ch_X : ch 'X' = 88 := rfl

theorem codeLoop_digits (rest : QString) (stop : Nat) : ∀ (ds dec : QString) (pos : Nat),
    (∀ x ∈ ds, 48 ≤ x ∧ x ≤ 57) → pos + ds.length < stop →
    EscapeChar.codeLoop (ds ++ 59 :: rest) pos stop dec =
      EscapeChar.ofChar (EscapeChar.qcharOfInt (QString.decimalValue (dec ++ ds) 0)) ((dec ++ ds).length + 3) := by
  intro ds
  induction ds with
  | nil =>
    intro dec pos _ h
    have : pos < stop := by simpa using h
    simp [EscapeChar.codeLoop, this]
  | cons d ds ih =>
    intro dec pos hd h
    have hdd := hd d (List.mem_cons_self _ _)
    have h1 : pos < stop := by simp at h; omega
    have h59 : d ≠ 59 := by omega
    have hdig : QChar.isDigit d = true := by simp [QChar.isDigit, hdd.1, hdd.2]
    have := ih (dec ++ [d]) (pos + 1) (fun x hx => hd x (List.mem_cons_of_mem _ hx)) (by simp at h ⊢; omega)
    simp [EscapeChar.codeLoop, h1, h59, hdig, this]

theorem get_decimal_entity (ds rest : QString) (h1 : ds ≠ []) (h8 : ds.length ≤ 8)
    (hd : ∀ x ∈ ds, 48 ≤ x ∧ x ≤ 57) :
    EscapeChar.get (38 :: 35 :: ds ++ 59 :: rest) =
      .ok (EscapeChar.ofChar (QString.decimalValue ds 0 % 65536) (ds.length + 3)) := by
  cases ds with
  | nil => exact absurd rfl h1
  | cons d ds =>
    have hdd := hd d (List.mem_cons_self _ _)
    have hdig : QChar.isDigit d = true := by simp [QChar.isDigit, hdd.1, hdd.2]
    have hx : d ≠ 120 := by omega
    have hX : d ≠ 88 := by omega
    have hl : ∀ stop, 3 + ds.length < stop → EscapeChar.codeLoop (ds ++ 59 :: rest) 3 stop [d] =
        EscapeChar.ofChar (EscapeChar.qcharOfInt (QString.decimalValue (d :: ds) 0)) (ds.length + 1 + 3) := by
      intro stop hs
      have := codeLoop_digits rest stop ds [d] 3 (fun x hx => hd x (List.mem_cons_of_mem _ hx)) hs
      simpa using this
    have hstop : 3 + ds.length < (ds.length + (rest.length + 1) + 1 + 1 + 1) ⊓ 11 := by
      simp at h8 ⊢
      omega
    have hne : (EscapeChar.ofChar (EscapeChar.qcharOfInt (QString.decimalValue (d :: ds) 0))
        (ds.length + 1 + 3)).inputLength ≠ 0 := by
      unfold EscapeChar.ofChar
      repeat' split
      all_goals simp
    have hlen : 1 ≤ ds.length + (rest.length + 1) := by omega
    simp only [EscapeChar.qcharOfInt] at hne hl
    simp [EscapeChar.get, EscapeChar.getBackslashEscaped, EscapeChar.empty, EscapeChar.isEmpty,
      EscapeChar.getEntityWithCode, hdig, hx, hX, hl _ hstop, hne, hlen]

theorem not_punctuation_high (c : Nat) (h : 256 ≤ c) : ¬ (c = 10 ∨ isAsciiPunctuation c = true) := by
  intro h2
  rcases h2 with h2 | h2
  · omega
  · simp [isAsciiPunctuation] at h2
    rcases h2 with ((⟨_, b⟩ | ⟨_, b⟩) | ⟨_, b⟩) | ⟨_, b⟩ <;>
      exact absurd (Nat.le_trans h b) (by decide)

theorem findHeadingMarkerLoop_run (t : QString) (c : Nat) (hc : c = 32 ∨ c = 9) :
    ∀ (m count pos logical : Nat), count + m ≤ 6 →
    LineHandler.findHeadingMarkerLoop (List.replicate m 35 ++ c :: t) count pos logical =
      some (count + m, pos + m + 1, logical + m + 1,
        if c = 32 then 0 else LineHandler.TAB_SIZE - (logical + m) % LineHandler.TAB_SIZE - 1) := by
  intro m
  induction m with
  | zero =>
    intro count pos logical _
    rcases hc with rfl | rfl <;> simp [LineHandler.findHeadingMarkerLoop]
  | succ m ih =>
    intro count pos logical h
    have h6 : ¬ (6 ≤ count) := by omega
    simp only [List.replicate_succ, List.cons_append, LineHandler.findHeadingMarkerLoop, ch_hash]
    simp [h6, ih (count + 1) (pos + 1) (logical + 1) (by omega)]
    refine ⟨by omega, by omega, by omega, ?_⟩
    rw [show logical + 1 + m = logical + (m + 1) by omega]

theorem findHeadingMarkerLoop_long (t : QString) :
    ∀ (m count pos logical : Nat), count ≤ 6 → 7 ≤ count + m →
    LineHandler.findHeadingMarkerLoop (List.replicate m 35 ++ t) count pos logical = none := by
  intro m
  induction m with
  | zero => intro count pos logical h1 h2; omega
  | succ m ih =>
    intro count pos logical h1 h2
    simp only [List.replicate_succ, List.cons_append, LineHandler.findHeadingMarkerLoop, ch_hash]
    by_cases h6 : 6 ≤ count
    · simp [h6]
    · simp [h6, ih (count + 1) (pos + 1) (logical + 1) (by omega) (by omega)]

theorem findHeadingMarker_zero (lh : LineHandler) (h : lh.findHeadingMarker.1 = 0) :
    lh.findHeadingMarker.2 = lh := by
  unfold LineHandler.findHeadingMarker at h ⊢
  split at h
  · rfl
  · rename_i count pos logical offset _
    by_cases hc : count > 0
    · simp [hc] at h
      omega
    · simp [hc]

theorem matchBlockQuoteLoop_bounds (line_ : QString) (P : Nat) : ∀ (rest : QString) (q : LineHandler.QuoteScan),
    P ≤ q.physical → P ≤ q.lastPhysical + 1 →
    q.depth ≤ (LineHandler.matchBlockQuoteLoop line_ rest q).depth ∧
      P ≤ (LineHandler.matchBlockQuoteLoop line_ rest q).physical := by
  intro rest
  induction rest with
  | nil => intro q h1 _; simp [LineHandler.matchBlockQuoteLoop, h1]
  | cons c rest ih =>
    intro q h1 h2
    rw [LineHandler.matchBlockQuoteLoop]
    simp only [ch_tab, ch_sp, ch_gt]
    split_ifs
    · simp [LineHandler.quoteBackUp]; omega
    · refine ⟨le_trans ?_ (ih _ ?_ ?_).1, (ih _ ?_ ?_).2⟩ <;> simp <;> omega
    · simp [LineHandler.quoteBackUp]; omega
    · refine ⟨le_trans ?_ (ih _ ?_ ?_).1, (ih _ ?_ ?_).2⟩ <;> simp <;> omega
    · refine ⟨le_trans ?_ (ih _ ?_ ?_).1, (ih _ ?_ ?_).2⟩ <;> simp <;> omega
    · exact ⟨le_refl _, h1⟩

theorem setextLevel_equals (k : Nat) (h : 1 ≤ k) : Parser.setextLevel (List.replicate k 61) = .ok (some 1) := by
  have h1 : List.count 45 (List.replicate k 61) = 0 := by
    rw [List.count_eq_zero]
    intro hm
    have := List.eq_of_mem_replicate hm
    omega
  have h2 : ¬ (0 = k) := by omega
  simp [Parser.setextLevel, QString.count, h1, h2]

theorem setextLevel_dashes (k : Nat) (h : 1 ≤ k) : Parser.setextLevel (List.replicate k 45) = .ok (some 2) := by
  have h1 : List.count 61 (List.replicate k 45) = 0 := by
    rw [List.count_eq_zero]
    intro hm
    have := List.eq_of_mem_replicate hm
    omega
  have h2 : ¬ (0 = k) := by omega
  simp [Parser.setextLevel, QString.count, h1, h2]

theorem setextLevel_some {text : QString} {level : Nat}
    (h : Parser.setextLevel text = .ok (some level)) :
    text ≠ [] ∧ ((level = 1 ∧ ∀ x ∈ text, x = 61) ∨ (level = 2 ∧ ∀ x ∈ text, x = 45)) := by
  have he : (List.count 61 text = text.length) ↔ ∀ x ∈ text, x = 61 := by
    rw [List.count_eq_length]
    exact ⟨fun h x hx => (h x hx).symm, fun h x hx => (h x hx).symm⟩
  have hd : (List.count 45 text = text.length) ↔ ∀ x ∈ text, x = 45 := by
    rw [List.count_eq_length]
    exact ⟨fun h x hx => (h x hx).symm, fun h x hx => (h x hx).symm⟩
  simp only [Parser.setextLevel, QString.count, ch_eq, ch_minus] at h
  by_cases h1 : List.count 61 text = text.length <;> by_cases h2 : List.count 45 text = text.length <;>
    simp [h1, h2] at h
  · cases h
    exact ⟨fun ht => h2 (by subst ht; rfl), Or.inl ⟨rfl, he.mp h1⟩⟩
  · cases h
    exact ⟨fun ht => h1 (by subst ht; rfl), Or.inr ⟨rfl, hd.mp h2⟩⟩

theorem dispatchSetextHeading_quote (p : Parser) (i : Nat) (n : Node) (lh : LineHandler)
    (hn : p.nodes[i]? = some n) (hk : n.kind = Kind.blockQuote) :
    p.dispatchSetextHeading i lh = .ok (false, p) := by
  simp [Parser.dispatchSetextHeading, get_of_getElem? hn, hk]

theorem containerSetextHeading_promote (p : Parser) (i l : Nat) (n ln : Node) (lh : LineHandler)
    (pre : List Nat) (level : Nat)
    (hn : p.nodes[i]? = some n) (hc : n.children = pre ++ [l]) (hl : p.nodes[l]? = some ln)
    (hk : ln.kind = Kind.paragraph) (hw : ln.writable = true)
    (hs : Parser.setextLevel lh.trimmed = .ok (some level)) :
    p.containerSetextHeading i lh =
      (Parser.appendLeafBlock (setextTree p i n ln pre level) i p.nodes.length >>=
        fun p3 => Except.ok (true, p3)) := by
  have hlast : Parser.last n = some l := by simp [Parser.last, hc]
  have hi : i < p.nodes.length := by
    rcases Nat.lt_or_ge i p.nodes.length with h | h
    · exact h
    · rw [List.getElem?_eq_none h] at hn; cases hn
  have hget : (p.nodes ++ [setextNode ln level])[i]? = some n := by
    rw [List.getElem?_append_left hi]; exact hn
  have hget2 : ∀ x : Node, (p.nodes ++ [x])[i]? = some n := fun x => by
    rw [List.getElem?_append_left hi]; exact hn
  simp [Parser.containerSetextHeading, hn, hlast, Parser.convertToSetextHeading,
    hl, hk, hw, hs, Parser.alloc, Parser.removeLast, Parser.get, hget2, hc, Parser.put,
    setextTree, setextNode]

theorem letters_words_aux : ∀ (t : QString), t ≠ [] → (∀ x ∈ t, isAsciiLetter x = true) → isWords t = true
  | [], h, _ => absurd rfl h
  | [c], _, h => by simpa [isWords] using h c (List.mem_cons_self _ _)
  | c :: d :: rest, _, h => by
    have hc := h c (List.mem_cons_self _ _)
    have hd := h d (List.mem_cons_of_mem _ (List.mem_cons_self _ _))
    have h32 : d ≠ 32 := by simpa using letter_ne_32 hd
    have ih := letters_words_aux (d :: rest) (by simp) (fun x hx => h x (List.mem_cons_of_mem _ hx))
    simp [isWords, hc, h32, ih]

theorem letters_words {t : QString} (h : isLetters t = true) : isWords t = true := by
  obtain ⟨c, rest, ht, _⟩ := letters_head h
  exact letters_words_aux t (by rw [ht]; simp) (letters_mem h)

theorem trimmed_run (k : Nat) (c : Nat) (hc : QChar.isSpace c = false) :
    QString.trimmed (List.replicate (k + 1) c) = List.replicate (k + 1) c :=
  trimmed_ends (List.replicate k c) (List.replicate k c) _ (List.replicate_succ ..)
    (List.replicate_succ' ..) hc hc

theorem feedLine_setext (t : QString) (k c level : Nat) (ht : isLetters t = true)
    (hc : (c = 45 ∧ level = 2) ∨ (c = 61 ∧ level = 1)) :
    (paragraphDoc t true).feedLine (List.replicate (k + 1) c) = .ok (headingDoc t level true) := by
  have h32 : c ≠ 32 := by rcases hc with ⟨h, _⟩ | ⟨h, _⟩ <;> omega
  have h9 : c ≠ 9 := by rcases hc with ⟨h, _⟩ | ⟨h, _⟩ <;> omega
  have h96 : c ≠ 96 := by rcases hc with ⟨h, _⟩ | ⟨h, _⟩ <;> omega
  have h126 : c ≠ 126 := by rcases hc with ⟨h, _⟩ | ⟨h, _⟩ <;> omega
  have h60 : c ≠ 60 := by rcases hc with ⟨h, _⟩ | ⟨h, _⟩ <;> omega
  have h10 : c ≠ 10 := by rcases hc with ⟨h, _⟩ | ⟨h, _⟩ <;> omega
  have hsp : QChar.isSpace c = false := by rcases hc with ⟨h, _⟩ | ⟨h, _⟩ <;> subst h <;> decide
  have hd : (LineHandler.new (List.replicate (k + 1) c)).line.drop
      (LineHandler.new (List.replicate (k + 1) c)).physicalPosition = c :: List.replicate k c := by
    simp [LineHandler.new, List.replicate_succ]
  have hb : (LineHandler.new (List.replicate (k + 1) c)).isBlank = false := by
    simp [LineHandler.isBlank, LineHandler.new, List.replicate_succ, h32, h9]
  have hn : (paragraphDoc t true).nodes[(paragraphDoc t true).current]? =
      some { kind := Kind.body, parent := none, children := [1] } := rfl
  have hl : (paragraphDoc t true).nodes[1]? =
      some { kind := Kind.paragraph, parent := some 0, text := t } := rfl
  have hopen : LastOpen (paragraphDoc t true) { kind := Kind.body, parent := none, children := [1] } :=
    Or.inr ⟨1, _, rfl, hl, rfl, rfl⟩
  have hlt : ∀ x ∈ (LineHandler.new (List.replicate (k + 1) c)).line, x ≠ 60 := by
    intro x hx
    have : x = c := List.eq_of_mem_replicate hx
    omega
  have hnb : ∃ x ∈ (LineHandler.new (List.replicate (k + 1) c)).line, ¬ isWs x :=
    ⟨c, by simp [LineHandler.new, List.replicate_succ], by simp [isWs, h32, h9, h10]⟩
  have hs : Parser.setextLevel (LineHandler.new (List.replicate (k + 1) c)).trimmed = .ok (some level) := by
    have e : (LineHandler.new (List.replicate (k + 1) c)).trimmed = List.replicate (k + 1) c := by
      simp only [LineHandler.trimmed, LineHandler.new, List.drop_zero]
      exact trimmed_run k c hsp
    rw [e]
    rcases hc with ⟨h, h'⟩ | ⟨h, h'⟩
    · subst h; subst h'; exact setextLevel_dashes (k + 1) (by omega)
    · subst h; subst h'; exact setextLevel_equals (k + 1) (by omega)
  have e0 := dispatchIndentedCode_plain (paragraphDoc t true) 0 _ _ 3 hn (Or.inl rfl) hopen hd h32 h9 rfl
    (by simp [LineHandler.new])
  have e1 := dispatchHTMLBlock_plain (paragraphDoc t true) 0 _ _ hn hopen.plain hlt hnb
  have e2 := dispatchFencedCodeBlock_plain (paragraphDoc t true) 0 _ _ 3 hn hd h32 h9 h96 h126
  have e3 := containerSetextHeading_promote (paragraphDoc t true) 0 1 _ _ _ [] level hn rfl hl rfl rfl hs
  have g_appendLeafBlock := fun (p : Parser) (i : Nat) (b : Nat) (_ : i < p.nodes.length) =>
    Parser.appendLeafBlock.eq_1 p i b
  have g_appendBlock := fun (p : Parser) (i : Nat) (b : Nat) (_ : i < p.nodes.length) =>
    Parser.appendBlock.eq_1 p i b
  have e3' : (paragraphDoc t true).dispatchSetextHeading 0 (LineHandler.new (List.replicate (k + 1) c)) =
      .ok (true, headingDoc t level true) := by
    have : (paragraphDoc t true).dispatchSetextHeading 0 (LineHandler.new (List.replicate (k + 1) c)) =
        (paragraphDoc t true).containerSetextHeading 0 (LineHandler.new (List.replicate (k + 1) c)) := by
      simp [Parser.dispatchSetextHeading, Parser.get, paragraphDoc, Kind.isItem]
    rw [this, e3]
    simp [setextTree, setextNode, paragraphDoc, headingDoc, g_appendLeafBlock, g_appendBlock, Parser.get,
      Kind.isItem, Parser.last, Parser.update, Parser.put, trimmed_letters ht]
  have e4 : (paragraphDoc t true).dispatchLeafBlock 0 (LineHandler.new (List.replicate (k + 1) c)) =
      .ok (true, headingDoc t level true) := by
    simp only [Parser.dispatchLeafBlock, e1, ok_bind, Parser.treeFuel]
    have e2' : Parser.dispatchFencedCodeBlock ((paragraphDoc t true).nodes.length + 2) (paragraphDoc t true) 0
        (LineHandler.new (List.replicate (k + 1) c)) = .ok (false, paragraphDoc t true) := e2
    simp [e2', e3']
  rw [feedLine_nonblank _ _ _ hn hb]
  exact dispatchLine_of_leaf _ _ _ _ e0 e4

theorem finish_headingDoc (t : QString) (level : Nat) (ht : isLetters t = true) :
    ((headingDoc t level true).finish >>= fun r => Except.ok r.1) =
      .ok (qs "<h" ++ QString.number level ++ qs ">" ++ t ++ qs "</h" ++ QString.number level ++ qs ">") := by
  have g_unwindAll := fun (p : Parser) (fuel : Nat) (_ : p.current < p.nodes.length) =>
    Parser.unwindAll.eq_2 p fuel
  have g_unwind := fun (p : Parser)  (_ : p.current < p.nodes.length) =>
    Parser.unwind.eq_1 p
  have g_close := fun (p : Parser) (i : Nat) (fuel : Nat) (_ : i < p.nodes.length) =>
    Parser.close.eq_2 p i fuel
  have g_disable := fun (p : Parser) (i : Nat) (_ : i < p.nodes.length) =>
    Parser.disable.eq_1 p i
  have g_html := fun (p : Parser) (i : Nat) (fuel : Nat) (_ : i < p.nodes.length) =>
    Parser.html.eq_2 p i fuel
  simp [Parser.finish, treeFuel_mk, g_unwindAll, g_unwind, g_close, g_disable, g_html, Parser.get,
    Kind.isContainer, Parser.last, Parser.update, Parser.put, Parser.collect, Kind.isList, Kind.isItem,
    textToHTML_calm [] t (letters_calm ht), QString.join, headingDoc]

theorem htmlOf_setext_aux (t : QString) (k c level : Nat) (ht : isLetters t = true)
    (hc : (c = 45 ∧ level = 2) ∨ (c = 61 ∧ level = 1)) :
    htmlOf (t ++ 10 :: List.replicate (k + 1) c) =
      .ok (qs "<h" ++ QString.number level ++ qs ">" ++ t ++ qs "</h" ++ QString.number level ++ qs ">") := by
  have hnl : ∀ x ∈ t, x ≠ 10 := fun x hx => by simpa using letter_ne_10 (letters_mem ht x hx)
  have hrun : ∀ x ∈ List.replicate (k + 1) c, x ≠ 10 := by
    intro x hx
    have : x = c := List.eq_of_mem_replicate hx
    rcases hc with ⟨h, _⟩ | ⟨h, _⟩ <;> omega
  have es : QString.splitRef (t ++ 10 :: List.replicate (k + 1) c) 10 = [t, List.replicate (k + 1) c] := by
    rw [splitRef_append _ hnl, splitRef_no_sep hrun]
  have ef := finish_headingDoc t level ht
  simp only [htmlOf, Parser.getHTMLText, parseBlocks_eq, es, Parser.feedLines, feedLine_words t (letters_words ht),
    feedLine_setext t k c level ht hc, ok_bind, pure_eq_ok] at ef ⊢
  simpa using ef

theorem skipToMarker_fst : ∀ (s : QString) (pos logical : Nat),
    (LineHandler.skipToMarker s pos logical).1 = pos + (s.takeWhile isBlankChar).length
  | [], pos, logical => by simp [LineHandler.skipToMarker]
  | c :: rest, pos, logical => by
    by_cases h32 : c = 32
    · subst h32
      have := skipToMarker_fst rest (pos + 1) (logical + 1)
      simp [LineHandler.skipToMarker, isBlankChar, this]
      omega
    · by_cases h9 : c = 9
      · subst h9
        have := skipToMarker_fst rest (pos + 1) (logical + (LineHandler.TAB_SIZE - pos % LineHandler.TAB_SIZE))
        simp [LineHandler.skipToMarker, isBlankChar, this]
        omega
      · simp [LineHandler.skipToMarker, isBlankChar, h32, h9]

theorem getElem?_takeWhile_length (f : QChar → Bool) : ∀ (s : QString),
    s[(s.takeWhile f).length]? = (s.dropWhile f).head?
  | [] => rfl
  | c :: rest => by
    by_cases h : f c = true
    · simp [List.takeWhile_cons, List.dropWhile_cons, h, getElem?_takeWhile_length f rest]
    · simp [List.takeWhile_cons, List.dropWhile_cons, h]

theorem drop_takeWhile_length (f : QChar → Bool) : ∀ (s : QString),
    s.drop (s.takeWhile f).length = s.dropWhile f
  | [] => rfl
  | c :: rest => by
    by_cases h : f c = true
    · simp [List.takeWhile_cons, List.dropWhile_cons, h, drop_takeWhile_length f rest]
    · simp [List.takeWhile_cons, List.dropWhile_cons, h]

theorem listMarkerLoop_other (lh : LineHandler) (bp bl : Nat) (d : Nat) (r : QString) (pos logical : Nat)
    (h : isBlankChar d = false) :
    LineHandler.listMarkerLoop lh bp bl (d :: r) pos logical 0 = .ok none := by
  simp [isBlankChar] at h
  simp [LineHandler.listMarkerLoop, h.1, h.2]

/-- What `findBullet(bullet)` sees: the position of the first character that is neither space
nor tab, and the text from there. -/
theorem marker_position (lh : LineHandler) :
    lh.line[(LineHandler.skipToMarker (lh.line.drop lh.physicalPosition) lh.physicalPosition
        lh.logicalPosition).1]? = ((lh.line.drop lh.physicalPosition).dropWhile isBlankChar).head? ∧
    lh.line.drop ((LineHandler.skipToMarker (lh.line.drop lh.physicalPosition) lh.physicalPosition
        lh.logicalPosition).1 + 1) = ((lh.line.drop lh.physicalPosition).dropWhile isBlankChar).tail := by
  rw [skipToMarker_fst]
  constructor
  · rw [← List.getElem?_drop, getElem?_takeWhile_length]
  · rw [← List.drop_drop, ← List.drop_drop, drop_takeWhile_length, List.drop_one]

theorem findBulletChar_none (lh : LineHandler) (b : QChar) (h : markerAhead lh b = false) :
    lh.findBulletChar b = .ok none := by
  obtain ⟨e1, e2⟩ := marker_position lh
  unfold markerAhead at h
  unfold LineHandler.findBulletChar
  simp only []
  generalize (LineHandler.skipToMarker (lh.line.drop lh.physicalPosition) lh.physicalPosition
    lh.logicalPosition) = r at e1 e2 ⊢
  generalize (lh.line.drop lh.physicalPosition).dropWhile isBlankChar = s at e1 e2 h
  match s, h with
  | [], _ =>
    simp [e1]
  | d :: rest, h =>
    by_cases hd : d = b
    · subst hd
      have hlen : r.1 < lh.line.length := by
        rcases Nat.lt_or_ge r.1 lh.line.length with h1 | h1
        · exact h1
        · rw [List.getElem?_eq_none h1] at e1; cases e1
      match rest, h with
      | [], h => simp at h
      | e :: t, h =>
        have he : isBlankChar e = false := by simpa using h
        have hl : (lh.line.drop (r.1 + 1)).length = (e :: t).length := by rw [e2]; rfl
        have hne : ¬ (r.1 + 1 = lh.line.length) := by
          simp at hl
          omega
        simp only [List.tail_cons] at e2
        simp [e1, hne, LineHandler.skipWhitespaceFollowedListMarker, e2, listMarkerLoop_other _ _ _ _ _ _ _ he]
    · have : ¬ (some d = some b) := fun h => hd (Option.some.inj h)
      simp [e1, hd]

theorem findBullet_null (lh : LineHandler)
    (h1 : markerAhead lh (ch '-') = false) (h2 : markerAhead lh (ch '+') = false)
    (h3 : markerAhead lh (ch '*') = false) : lh.findBullet = .ok (0, lh) := by
  have a1 : lh.findBulletChar 45 = .ok none := findBulletChar_none lh _ h1
  have a2 : lh.findBulletChar 43 = .ok none := findBulletChar_none lh _ h2
  have a3 : lh.findBulletChar 42 = .ok none := findBulletChar_none lh _ h3
  simp [LineHandler.findBullet, a1, a2, a3]

theorem findBulletChar_some (lh lh1 : LineHandler) (b : QChar) (h : lh.findBulletChar b = .ok (some lh1)) :
    markerAhead lh b = true := by
  cases hm : markerAhead lh b with
  | true => rfl
  | false => rw [findBulletChar_none lh b hm] at h; cases h

theorem findBullet_cases (lh lh1 : LineHandler) (c : QChar) (h : lh.findBullet = .ok (c, lh1)) :
    (c = ch '-' ∧ lh.findBulletChar (ch '-') = .ok (some lh1)) ∨
    (c = ch '+' ∧ lh.findBulletChar (ch '+') = .ok (some lh1)) ∨
    (c = ch '*' ∧ lh.findBulletChar (ch '*') = .ok (some lh1)) ∨ (c = 0 ∧ lh1 = lh) := by
  unfold LineHandler.findBullet at h
  cases h1 : lh.findBulletChar (ch '-') with
  | error e => rw [h1] at h; cases h
  | ok o1 =>
    cases o1 with
    | some l1 =>
      rw [h1] at h
      injection h with h
      injection h with ha hb
      exact Or.inl ⟨ha.symm, by rw [hb]⟩
    | none =>
      rw [h1] at h
      cases h2 : lh.findBulletChar (ch '+') with
      | error e => rw [h2] at h; cases h
      | ok o2 =>
        cases o2 with
        | some l2 =>
          rw [h2] at h
          injection h with h
          injection h with ha hb
          exact Or.inr (Or.inl ⟨ha.symm, by rw [hb]⟩)
        | none =>
          rw [h2] at h
          cases h3 : lh.findBulletChar (ch '*') with
          | error e => rw [h3] at h; cases h
          | ok o3 =>
            cases o3 with
            | some l3 =>
              rw [h3] at h
              injection h with h
              injection h with ha hb
              exact Or.inr (Or.inr (Or.inl ⟨ha.symm, by rw [hb]⟩))
            | none =>
              rw [h3] at h
              injection h with h
              injection h with ha hb
              exact Or.inr (Or.inr (Or.inr ⟨ha.symm, hb.symm⟩))

theorem columns_ge : ∀ (ws : QString) (l : Nat), l ≤ columns ws l
  | [], l => Nat.le_refl _
  | c :: rest, l => by
    unfold columns
    split
    · exact Nat.le_trans (Nat.le_add_right _ _) (columns_ge rest _)
    · exact Nat.le_trans (Nat.le_add_right _ _) (columns_ge rest _)

theorem removeIndentLoop_blank (target : Nat) (tail : QString) : ∀ (ws : QString) (pos l : Nat),
    (∀ x ∈ ws, isBlankChar x = true) → columns ws l < target →
    LineHandler.removeIndentLoop target (ws ++ tail) pos l =
      LineHandler.removeIndentLoop target tail (pos + ws.length) (columns ws l)
  | [], pos, l, _, _ => by simp [columns]
  | c :: rest, pos, l, hb, hc => by
    have hl : ¬ (target ≤ l) := by
      have := columns_ge (c :: rest) l
      omega
    have hrest : ∀ x ∈ rest, isBlankChar x = true := fun x hx => hb x (List.mem_cons_of_mem _ hx)
    have hcb := hb c (List.mem_cons_self _ _)
    by_cases h9 : c = 9
    · subst h9
      have hc' : columns rest (l + (LineHandler.TAB_SIZE - l % LineHandler.TAB_SIZE)) < target := by
        simpa [columns] using hc
      have ih := removeIndentLoop_blank target tail rest (pos + 1) _ hrest hc'
      simp [LineHandler.removeIndentLoop, hl, ih, columns]
      congr 1
      omega
    · have h32 : c = 32 := by
        simp [isBlankChar] at hcb
        rcases hcb with h | h
        · exact h
        · exact absurd h h9
      subst h32
      have hc' : columns rest (l + 1) < target := by simpa [columns] using hc
      have ih := removeIndentLoop_blank target tail rest (pos + 1) _ hrest hc'
      simp [LineHandler.removeIndentLoop, hl, ih, columns]
      congr 1
      omega

theorem skipWhitespaceLoop_indent : ∀ (s : QString) (p l i : Nat),
    (LineHandler.skipWhitespaceLoop s p l i).2.2 + l = (LineHandler.skipWhitespaceLoop s p l i).2.1 + i
  | [], p, l, i => by simp [LineHandler.skipWhitespaceLoop]; omega
  | c :: rest, p, l, i => by
    by_cases h9 : c = 9
    · subst h9
      have := skipWhitespaceLoop_indent rest (p + 1) (l + (LineHandler.TAB_SIZE - l % LineHandler.TAB_SIZE))
        (i + (LineHandler.TAB_SIZE - l % LineHandler.TAB_SIZE))
      simp [LineHandler.skipWhitespaceLoop]
      omega
    · by_cases h32 : c = 32
      · subst h32
        have := skipWhitespaceLoop_indent rest (p + 1) (l + 1) (i + 1)
        simp [LineHandler.skipWhitespaceLoop]
        omega
      · simp [LineHandler.skipWhitespaceLoop, h9, h32]
        omega

theorem removeIndentLoop_logical (target : Nat) : ∀ (s : QString) (p l i : Nat),
    (LineHandler.removeIndentLoop target s p l).2.1 = target ∨
    (LineHandler.removeIndentLoop target s p l).2.1 = (LineHandler.skipWhitespaceLoop s p l i).2.1
  | [], p, l, i => by simp [LineHandler.removeIndentLoop, LineHandler.skipWhitespaceLoop]
  | c :: rest, p, l, i => by
    by_cases hl : target ≤ l
    · simp [LineHandler.removeIndentLoop, hl]
    · by_cases h9 : c = 9
      · subst h9
        have := removeIndentLoop_logical target rest (p + 1)
          (l + (LineHandler.TAB_SIZE - l % LineHandler.TAB_SIZE))
          (i + (LineHandler.TAB_SIZE - l % LineHandler.TAB_SIZE))
        simpa [LineHandler.removeIndentLoop, LineHandler.skipWhitespaceLoop, hl] using this
      · by_cases h32 : c = 32
        · subst h32
          have := removeIndentLoop_logical target rest (p + 1) (l + 1) (i + 1)
          simpa [LineHandler.removeIndentLoop, LineHandler.skipWhitespaceLoop, hl] using this
        · simp [LineHandler.removeIndentLoop, LineHandler.skipWhitespaceLoop, hl, h9, h32]

theorem removeIndent_new (line_ : QString) (n : Nat) (hn : n ≠ 0) :
    (LineHandler.new line_).removeIndent n =
      ⟨line_, (LineHandler.removeIndentLoop n line_ 0 0).1, (LineHandler.removeIndentLoop n line_ 0 0).2.1,
        (LineHandler.removeIndentLoop n line_ 0 0).2.2, 0, (LineHandler.removeIndentLoop n line_ 0 0).2.1⟩ := by
  simp [LineHandler.removeIndent, LineHandler.new, hn, LineHandler.removeIndentFrom]

theorem columns_append_tab : ∀ (ws : QString) (l : Nat),
    columns (ws ++ [9]) l = columns ws l + (LineHandler.TAB_SIZE - columns ws l % LineHandler.TAB_SIZE)
  | [], l => by simp [columns]
  | c :: rest, l => by
    simp only [List.cons_append, columns]
    split
    · exact columns_append_tab rest _
    · exact columns_append_tab rest _

theorem removeIndent_span (line_ : QString) (n : Nat)
    (h : n ≤ (LineHandler.new line_).skipWhitespace.indent) :
    n ≤ ((LineHandler.new line_).removeIndent n).indent := by
  by_cases hn : n = 0
  · subst hn; exact Nat.zero_le _
  · rw [removeIndent_new line_ n hn]
    have e := skipWhitespaceLoop_indent line_ 0 0 0
    have hs : (LineHandler.new line_).skipWhitespace.indent = (LineHandler.skipWhitespaceLoop line_ 0 0 0).2.2 := by
      simp [LineHandler.skipWhitespace, LineHandler.new]
    rw [hs] at h
    rcases removeIndentLoop_logical n line_ 0 0 0 with h1 | h1
    · simp only [h1]; exact Nat.le_refl _
    · simp only [h1]; omega

theorem removeIndent_straddle (n : Nat) (ws : QString) (c : QChar) (rest : QString)
    (hb : ∀ x ∈ ws, isBlankChar x = true) (h1 : columns ws 0 < n) (h2 : n < columns (ws ++ [9]) 0) :
    ((LineHandler.new (ws ++ 9 :: c :: rest)).removeIndent n).indent = n ∧
    ((LineHandler.new (ws ++ 9 :: c :: rest)).removeIndent n).currentText =
      LineHandler.spaces (columns (ws ++ [9]) 0 - n) ++ c :: rest := by
  have hn : n ≠ 0 := by omega
  rw [columns_append_tab] at h2 ⊢
  have hl : ¬ (n ≤ columns ws 0) := by omega
  have hg : n ≤ columns ws 0 + (LineHandler.TAB_SIZE - columns ws 0 % LineHandler.TAB_SIZE) := by omega
  have e := removeIndentLoop_blank n (9 :: c :: rest) ws 0 0 hb h1
  rw [removeIndent_new _ n hn, e]
  simp [LineHandler.removeIndentLoop, hl, hg, LineHandler.currentText, LineHandler.currentTextRef]

theorem removeIndent_last_tab (n : Nat) (ws : QString)
    (hb : ∀ x ∈ ws, isBlankChar x = true) (h1 : columns ws 0 < n) :
    ((LineHandler.new (ws ++ [9])).removeIndent n).indent = columns (ws ++ [9]) 0 ∧
    ((LineHandler.new (ws ++ [9])).removeIndent n).currentText = [] := by
  have hn : n ≠ 0 := by omega
  rw [columns_append_tab]
  have hl : ¬ (n ≤ columns ws 0) := by omega
  have e := removeIndentLoop_blank n [9] ws 0 0 hb h1
  rw [removeIndent_new _ n hn, e]
  simp [LineHandler.removeIndentLoop, hl, LineHandler.currentText, LineHandler.currentTextRef,
    LineHandler.spaces]

theorem codeToHTML_flatMap : ∀ (t : QString), InlineParser.codeToHTML t = t.flatMap namedEntity
  | [] => rfl
  | c :: rest => by
    have ih := codeToHTML_flatMap rest
    simp only [InlineParser.codeToHTML, List.flatMap_cons, ih]
    congr 1
    simp only [EntityChar.get, namedEntity, beq_iff_eq]
    split_ifs with h1 h2 h3 h4 h5 h6 h7 h8 h9
    all_goals first | rfl | exact absurd ‹List.isEmpty _ = true› (by decide) | exact absurd rfl ‹¬ ([] : QString).isEmpty = true›

theorem takeWhile_run (c : QChar) (tail : QString) (h : tail.head? ≠ some c) : ∀ (m : Nat),
    (List.replicate m c ++ tail).takeWhile (fun x => x == c) = List.replicate m c
  | 0 => by
    cases tail with
    | nil => rfl
    | cons d r =>
      have hd : d ≠ c := fun e => h (by simp [e])
      simp [List.takeWhile_cons, hd]
  | m + 1 => by
    simp [List.replicate_succ, List.takeWhile_cons, takeWhile_run c tail h m]

theorem codeRun_closing (m : Nat) : ∀ (j pos t : Nat), t + j = m →
    InlineParser.codeRun (m + 1) (List.replicate j chBacktick) pos t = InlineParser.RunResult.matched
  | 0, pos, t, h => by
    have : t = m := by omega
    simp [InlineParser.codeRun, this]
  | j + 1, pos, t, h => by
    have hne : ¬ (t = m) := by omega
    have ih := codeRun_closing m j (pos + 1) (t + 1) (by omega)
    simp only [chBacktick_eq] at ih
    simp [List.replicate_succ, InlineParser.codeRun, hne, ih]

theorem codeSpanLoop_scan (line_ : QString) (b q cnt : Nat) : ∀ (s tail : QString) (fuel pos : Nat),
    line_.drop pos = s ++ tail → (∀ x ∈ s, x ≠ chBacktick) →
    InlineParser.codeSpanLoop line_ b q cnt (fuel + s.length) pos =
      InlineParser.codeSpanLoop line_ b q cnt fuel (pos + s.length)
  | [], tail, fuel, pos, _, _ => rfl
  | c :: rest, tail, fuel, pos, hd, hs => by
    have hc : c ≠ chBacktick := hs c (List.mem_cons_self _ _)
    have hget : line_[pos]? = some c := getElem?_of_drop (show line_.drop pos = c :: (rest ++ tail) by simpa using hd)
    have hd' : line_.drop (pos + 1) = rest ++ tail := by
      rw [← List.drop_drop, hd]; rfl
    have ih := codeSpanLoop_scan line_ b q cnt rest tail fuel (pos + 1) hd'
      (fun x hx => hs x (List.mem_cons_of_mem _ hx))
    have e : fuel + (c :: rest).length = (fuel + rest.length) + 1 := by simp; omega
    rw [e, InlineParser.codeSpanLoop]
    simp only [hget, beq_iff_eq, hc, if_false]
    rw [ih]
    congr 1
    simp; omega

theorem codeSpanLoop_matched (line_ : QString) (b q cnt fuel pos : Nat)
    (h1 : line_[pos]? = some chBacktick)
    (h2 : InlineParser.codeRun cnt (line_.drop (pos + 1)) pos 0 = InlineParser.RunResult.matched) :
    InlineParser.codeSpanLoop line_ b q cnt (fuel + 1) pos =
      .ok (b + (qs "<code>" ++ InlineParser.collapseSpaces false (InlineParser.codeToHTML
              (QString.trimmed ((line_.drop q).take (pos - q)))) ++ qs "</code>").length,
           QString.replace line_ b (pos - q + 2 * cnt)
             (qs "<code>" ++ InlineParser.collapseSpaces false (InlineParser.codeToHTML
              (QString.trimmed ((line_.drop q).take (pos - q)))) ++ qs "</code>")) := by
  rw [InlineParser.codeSpanLoop]
  simp only [h1, h2, beq_self_eq_true, if_true]
  rfl

theorem replaceCodeSpan_span (m : Nat) (s : QString) (hs : s ≠ []) (hb : ∀ x ∈ s, x ≠ chBacktick) :
    InlineParser.replaceCodeSpan
        (List.replicate (m + 1) chBacktick ++ s ++ List.replicate (m + 1) chBacktick) 0 =
      .ok ((qs "<code>" ++ InlineParser.collapseSpaces false (InlineParser.codeToHTML (QString.trimmed s)) ++
              qs "</code>").length,
           qs "<code>" ++ InlineParser.collapseSpaces false (InlineParser.codeToHTML (QString.trimmed s)) ++
              qs "</code>") := by
  obtain ⟨c, rest, rfl⟩ := List.exists_cons_of_ne_nil hs
  have hc : c ≠ chBacktick := hb c (List.mem_cons_self _ _)
  generalize hline : List.replicate (m + 1) chBacktick ++ (c :: rest) ++ List.replicate (m + 1) chBacktick = line_
  have hlen : line_.length = 2 * m + 2 + (c :: rest).length := by
    rw [← hline]; simp; omega
  have h0 : line_ = chBacktick :: (List.replicate m chBacktick ++ ((c :: rest) ++ List.replicate (m + 1) chBacktick)) := by
    rw [← hline]; simp [List.replicate_succ]
  have hd1 : line_.drop (0 + 1) = List.replicate m chBacktick ++ ((c :: rest) ++ List.replicate (m + 1) chBacktick) := by
    rw [h0]; rfl
  have hq : line_.drop (0 + 1 + m) = (c :: rest) ++ List.replicate (m + 1) chBacktick := by
    rw [← List.drop_drop, hd1]
    have : m = (List.replicate m chBacktick).length := by simp
    conv => lhs; arg 1; rw [this]
    exact List.drop_left' rfl
  have hmore : ((line_.drop (0 + 1)).takeWhile fun x => x == chBacktick).length = m := by
    rw [hd1, takeWhile_run chBacktick _ (by simpa using hc) m]
    simp
  have hend : line_.drop (0 + 1 + m + (c :: rest).length) = chBacktick :: List.replicate m chBacktick := by
    rw [← List.drop_drop, hq]
    simp [List.replicate_succ]
  have hrun : line_.drop (0 + 1 + m + (c :: rest).length + 1) = List.replicate m chBacktick := by
    rw [← List.drop_drop, hend]; rfl
  have hfuel : InlineParser.lineFuel line_ = (4 * m + 11 + (c :: rest).length + 1) + (c :: rest).length := by
    simp only [InlineParser.lineFuel, hlen]; omega
  have hscan := codeSpanLoop_scan line_ 0 (0 + 1 + m) (1 + m) (c :: rest) (List.replicate (m + 1) chBacktick)
    (4 * m + 11 + (c :: rest).length + 1) (0 + 1 + m) hq hb
  have hcr : InlineParser.codeRun (1 + m) (List.replicate m chBacktick) (0 + 1 + m + (c :: rest).length) 0 =
      InlineParser.RunResult.matched := by
    have e : 1 + m = m + 1 := Nat.add_comm 1 m
    have := codeRun_closing m m (0 + 1 + m + (c :: rest).length) 0 (by omega)
    exact (congrArg (fun k => InlineParser.codeRun k (List.replicate m chBacktick)
      (0 + 1 + m + (c :: rest).length) 0) e).trans this
  have hcnt : 1 + m = m + 1 := by omega
  have htake : (line_.drop (0 + 1 + m)).take (c :: rest).length = c :: rest := by
    rw [hq]; exact List.take_left' rfl
  have hrep : ∀ span : QString, QString.replace line_ 0 ((c :: rest).length + 2 * (m + 1)) span = span := by
    intro span
    have : line_.drop (0 + ((c :: rest).length + 2 * (m + 1))) = [] :=
      List.drop_of_length_le (by rw [hlen]; omega)
    unfold QString.replace
    rw [if_neg (by omega), this]
    simp
  unfold InlineParser.replaceCodeSpan
  rw [charAt_of_drop (show line_.drop 0 = chBacktick :: _ from by rw [h0]; rfl)]
  have hge : ¬ (0 + 1 ≥ line_.length) := by rw [hlen]; omega
  have hge2 : ¬ (0 + 1 + m ≥ line_.length) := by rw [hlen]; simp; omega
  simp only [ok_bind, bne_self_eq_false, Bool.false_eq_true, if_false, hge, hmore, hge2, hfuel, hscan]
  have hsz : 0 + 1 + m + (c :: rest).length - (0 + 1 + m) = (c :: rest).length := by omega
  rw [codeSpanLoop_matched line_ 0 (0 + 1 + m) (1 + m) (4 * m + 11 + (c :: rest).length)
    (0 + 1 + m + (c :: rest).length) (getElem?_of_drop hend) (by rw [hrun]; exact hcr)]
  rw [hsz, htake]
  have e2 : 2 * (1 + m) = 2 * (m + 1) := by omega
  rw [e2, hrep]
  simp

theorem ancestorOrSelf_congr {p p1 : Parser} (h : parents p1 = parents p) : ∀ (fuel a b : Nat),
    ancestorOrSelf p1 fuel a b = ancestorOrSelf p fuel a b
  | 0, _, _ => rfl
  | fuel + 1, a, b => by
    simp only [ancestorOrSelf, h]
    cases (parents p)[b]? with
    | none => rfl
    | some o =>
      cases o with
      | none => rfl
      | some q => simp only [ancestorOrSelf_congr h fuel a q]

theorem put_parents (p : Parser) (i : Nat) (n n1 : Node) (hn : p.nodes[i]? = some n)
    (hp : n1.parent = n.parent) : parents (p.put i n1) = parents p := by
  simp only [parents, Parser.put]
  apply List.ext_getElem?
  intro j
  by_cases hj : i = j
  · subst hj
    simp [List.getElem?_set, hn, hp]
    rcases Nat.lt_or_ge i p.nodes.length with h | h
    · exact h
    · rw [List.getElem?_eq_none h] at hn; cases hn
  · simp [List.getElem?_set, hj]

theorem update_parents (p p1 : Parser) (i : Nat) (f : Node → Node) (hf : ∀ n, (f n).parent = n.parent)
    (h : p.update i f = .ok p1) : parents p1 = parents p := by
  unfold Parser.update Parser.get at h
  cases hn : p.nodes[i]? with
  | none => simp [hn] at h; cases h
  | some n =>
    simp [hn] at h
    cases h
    exact put_parents p i n (f n) hn (hf n)

theorem disable_parents (p p1 : Parser) (i : Nat) (h : p.disable i = .ok p1) : parents p1 = parents p :=
  update_parents p p1 i (fun n => { n with writable := false }) (fun _ => rfl) h

theorem removeLast_parents (p p1 : Parser) (i : Nat) (h : p.removeLast i = .ok p1) :
    parents p1 = parents p := by
  unfold Parser.removeLast Parser.get at h
  cases hn : p.nodes[i]? with
  | none => simp [hn] at h; cases h
  | some n =>
    simp only [hn, pure_eq_ok, ok_bind] at h
    split at h
    · cases h
    · cases h
      exact put_parents p i n _ hn rfl

theorem paragraphClose_parents : ∀ (fuel : Nat) (p p1 : Parser) (i : Nat),
    Parser.paragraphClose fuel p i = .ok p1 → parents p1 = parents p
  | 0, p, p1, i, h => by cases h
  | fuel + 1, p, p1, i, h => by
    rw [Parser.paragraphClose] at h
    unfold Parser.get at h
    cases hn : p.nodes[i]? with
    | none => simp [hn] at h; cases h
    | some n =>
      simp only [hn, pure_eq_ok, ok_bind] at h
      cases h1 : TextHandler.findLinkLabelNext n.text 0 (ch ':') with
      | error e => rw [h1] at h; cases h
      | ok r1 =>
        obtain ⟨label, pos1⟩ := r1
        simp only [h1, ok_bind] at h
        split at h
        · exact disable_parents p p1 i h
        · cases h2 : TextHandler.findLinkReference n.text pos1 with
          | error e => rw [h2] at h; cases h
          | ok r2 =>
            obtain ⟨reference, pos2⟩ := r2
            simp only [h2, ok_bind] at h
            split at h
            · exact disable_parents p p1 i h
            · cases h3 : TextHandler.findLinkTitle n.text pos2 with
              | error e => rw [h3] at h; cases h
              | ok r3 =>
                obtain ⟨title, pos3, ok⟩ := r3
                simp only [h3, ok_bind] at h
                split at h
                · exact disable_parents p p1 i h
                · have e2 : parents ((p.define label reference title).put i
                      { n with text := TextHandler.rest n.text pos3 }) = parents p :=
                    put_parents (p.define label reference title) i n _ hn rfl
                  generalize (p.define label reference title).put i
                    { n with text := TextHandler.rest n.text pos3 } = p2 at h e2
                  split at h
                  · split at h
                    · cases h
                    · rename_i q _
                      cases h4 : Parser.removeLast p2 q with
                      | error e => rw [h4] at h; cases h
                      | ok p3 =>
                        simp only [h4, ok_bind] at h
                        rw [disable_parents p3 p1 i h, removeLast_parents _ p3 q h4, e2]
                  · cases h4 : Parser.paragraphClose fuel p2 i with
                    | error e => rw [h4] at h; cases h
                    | ok p3 =>
                      simp only [h4, ok_bind] at h
                      rw [disable_parents p3 p1 i h, paragraphClose_parents fuel _ p3 i h4, e2]

theorem close_parents : ∀ (fuel : Nat) (p p1 : Parser) (i : Nat),
    Parser.close fuel p i = .ok p1 → parents p1 = parents p
  | 0, p, p1, i, h => by cases h
  | fuel + 1, p, p1, i, h => by
    rw [Parser.close] at h
    unfold Parser.get at h
    cases hn : p.nodes[i]? with
    | none => simp [hn] at h; cases h
    | some n =>
      simp only [hn, pure_eq_ok, ok_bind] at h
      split at h
      · split at h
        · cases h; rfl
        · exact paragraphClose_parents _ p p1 i h
      · split at h
        · cases hl : Parser.last n with
          | none =>
            simp only [hl] at h
            exact disable_parents p p1 i h
          | some l =>
            simp only [hl] at h
            cases h4 : Parser.close fuel p l with
            | error e => rw [h4] at h; cases h
            | ok p3 =>
              simp only [h4, ok_bind] at h
              rw [disable_parents p3 p1 i h, close_parents fuel p p3 l h4]
        · exact disable_parents p p1 i h

theorem unwind_root (p : Parser) (n : Node) (hn : p.nodes[p.current]? = some n) (hr : n.parent = none) :
    p.unwind = .ok (false, p) := by
  simp [Parser.unwind, Parser.get, hn, hr]

theorem unwind_inner (p : Parser) (n : Node) (q : Nat) (hn : p.nodes[p.current]? = some n)
    (hq : n.parent = some q) :
    p.unwind = (Parser.close p.treeFuel p p.current >>= fun p1 =>
      Except.ok (true, { p1 with current := q })) := by
  simp [Parser.unwind, Parser.get, hn, hq]

theorem parents_getElem? (p : Parser) (i : Nat) (n : Node) (hn : p.nodes[i]? = some n) :
    (parents p)[i]? = some n.parent := by
  simp [parents, hn]

theorem ancestorOrSelf_self (p : Parser) (fuel a : Nat) : ancestorOrSelf p fuel a a = true := by
  cases fuel <;> simp [ancestorOrSelf]

theorem unwindUntil_post : ∀ (fuel : Nat) (p p1 : Parser) (col : Nat),
    Parser.unwindUntil fuel p col = .ok p1 →
    parents p1 = parents p ∧
    (∃ n1, p1.nodes[p1.current]? = some n1 ∧ (n1.parent = none ∨ n1.indent ≤ col)) ∧
    ancestorOrSelf p fuel p1.current p.current = true
  | 0, p, p1, col, h => by cases h
  | fuel + 1, p, p1, col, h => by
    rw [Parser.unwindUntil] at h
    unfold Parser.get at h
    cases hn : p.nodes[p.current]? with
    | none => simp [hn] at h; cases h
    | some n =>
      simp only [hn, pure_eq_ok, ok_bind] at h
      split at h
      · cases hq : n.parent with
        | none =>
          rw [unwind_root p n hn hq] at h
          simp at h
          cases h
          exact ⟨rfl, ⟨n, hn, Or.inl hq⟩, ancestorOrSelf_self _ _ _⟩
        | some q =>
          rw [unwind_inner p n q hn hq] at h
          cases hc : Parser.close p.treeFuel p p.current with
          | error e => rw [hc] at h; cases h
          | ok p2 =>
            simp only [hc, ok_bind] at h
            have hpar : parents p2 = parents p := close_parents _ p p2 _ hc
            have h' : Parser.unwindUntil fuel { p2 with current := q } col = .ok p1 := by
              simpa using h
            obtain ⟨e1, e2, e3⟩ := unwindUntil_post fuel _ p1 col h'
            have hpar2 : parents { p2 with current := q } = parents p := hpar
            refine ⟨e1.trans hpar2, e2, ?_⟩
            rw [ancestorOrSelf_congr hpar2] at e3
            simp only [ancestorOrSelf, parents_getElem? p _ n hn, hq]
            simp [show ancestorOrSelf p fuel p1.current q = true from e3]
      · cases h
        refine ⟨rfl, ⟨n, hn, Or.inr (by omega)⟩, ancestorOrSelf_self _ _ _⟩

theorem unwind_false (p p1 : Parser) (n : Node) (hn : p.nodes[p.current]? = some n)
    (h : p.unwind = .ok (false, p1)) : n.parent = none ∧ p1 = p := by
  cases hq : n.parent with
  | none =>
    rw [unwind_root p n hn hq] at h
    injection h with h
    injection h with _ h2
    exact ⟨rfl, h2.symm⟩
  | some q =>
    rw [unwind_inner p n q hn hq] at h
    cases hc : Parser.close p.treeFuel p p.current with
    | error e => rw [hc] at h; cases h
    | ok p2 =>
      simp only [hc, ok_bind] at h
      injection h with h
      injection h with h1 _
      cases h1

theorem textToHTMLWith_calm (R : Nested) (links : LinkList) (line : QString) (h : calm line = true) :
    InlineParser.textToHTMLWith R links line = .ok line := by
  have := parseLoop_calm R links true
    (InlineParser.parseFuel line) line (InlineParser.skipWhitespace line 0) ⟨[], []⟩
    (calm_drop _ line h) (by simp [InlineParser.parseFuel]; omega)
  simp [InlineParser.textToHTMLWith, InlineParser.parse, this, InlineParser.render]

theorem replaceLinkLoop_letters (R : Nested) (links : LinkList) (isHTML : Bool) (line_ : QString)
    (begin : Nat) (count : Int) : ∀ (x tail : QString) (fuel pos : Nat) (label : QString),
    line_.drop pos = x ++ tail → (∀ c ∈ x, isAsciiLetter c = true) →
    InlineParser.replaceLinkLoop R links isHTML begin line_.length (fuel + x.length) line_ pos count label =
      InlineParser.replaceLinkLoop R links isHTML begin line_.length fuel line_ (pos + x.length) count
        (label ++ x)
  | [], tail, fuel, pos, label, _, _ => by simp
  | c :: rest, tail, fuel, pos, label, hd, hx => by
    have hc : isAsciiLetter c = true := hx c (List.mem_cons_self _ _)
    have hd0 : line_.drop pos = c :: (rest ++ tail) := by simpa using hd
    have hlt := lt_of_drop hd0
    have hd' : line_.drop (pos + 1) = rest ++ tail := by
      rw [← List.drop_drop, hd0]; rfl
    have ih := replaceLinkLoop_letters R links isHTML line_ begin count rest tail fuel (pos + 1)
      (label ++ [c]) hd' (fun y hy => hx y (List.mem_cons_of_mem _ hy))
    have e : fuel + (c :: rest).length = (fuel + rest.length) + 1 := by simp; omega
    rw [e, InlineParser.replaceLinkLoop]
    simp only [hlt, if_true, charAt_of_drop hd0, ok_bind]
    simp [letter_ne_92 hc, letter_ne_91 hc, letter_ne_93 hc, letter_ne_33 hc, letter_ne_60 hc,
      letter_ne_96 hc, ih]
    congr 1
    omega

theorem getLinkText_missing (R : Nested) (links : LinkList) (l : QString)
    (h : links.lookup (QString.toLower l) = none) : Parser.getLinkText R links l = .ok [] := by
  simp [Parser.getLinkText, Parser.getLinkTextWith, h]

theorem getImageText_missing (R : Nested) (links : LinkList) (l : QString)
    (h : links.lookup (QString.toLower l) = none) : Parser.getImageText R links l = .ok [] := by
  simp [Parser.getImageText, Parser.getImageTextWith, h]

theorem applyLink_missing (R : Nested) (links : LinkList) (line_ : QString) (begin pos : Nat)
    (label parsed : QString) (isHTML : Bool) (hend : pos + 1 = line_.length)
    (hR : R.toHTML label = .ok parsed) (h : links.lookup (QString.toLower label) = none) :
    InlineParser.applyLink R links line_ begin pos label isHTML = .ok (begin, line_) := by
  have hlt : ¬ (pos + 1 < line_.length) := by omega
  have hnone : line_[pos + 1]? = none := List.getElem?_eq_none (by omega)
  simp [InlineParser.applyLink, hlt, hR, InlineParser.applyInlineLink, InlineParser.applyInline,
    InlineParser.findLinkDestination, hnone, InlineParser.applyShortcutReferenceLink,
    getLinkText_missing R links label h]

theorem replaceLink_missing (links : LinkList) (k : Nat) (x : QString) (isHTML : Bool)
    (hx : isLetters x = true) (h : links.lookup (QString.toLower x) = none) :
    InlineParser.replaceLink (InlineParser.nested links (k + 1)) links (91 :: x ++ [93]) 0 isHTML =
      .ok (0, 91 :: x ++ [93]) := by
  have hmem := letters_mem hx
  generalize hline : 91 :: x ++ [93] = line_
  have hlen : line_.length = x.length + 2 := by rw [← hline]; simp
  have hd0 : line_.drop 0 = 91 :: (x ++ [93]) := by rw [← hline]; rfl
  have hd1 : line_.drop (0 + 1) = x ++ [93] := by rw [← hline]; rfl
  have hd2 : line_.drop (0 + 1 + x.length) = [93] := by
    rw [← List.drop_drop, hd1]
    exact List.drop_left' rfl
  have hscan := replaceLinkLoop_letters (InlineParser.nested links (k + 1)) links isHTML line_ 0 1 x [93]
    (x.length + 11 + 1) (0 + 1) [] hd1 hmem
  have hfuel : InlineParser.lineFuel line_ = (x.length + 11 + 1) + x.length := by
    simp only [InlineParser.lineFuel, hlen]; omega
  have happly := applyLink_missing (InlineParser.nested links (k + 1)) links line_ 0 (0 + 1 + x.length)
    x x isHTML (by rw [hlen]; omega) (textToHTMLWith_calm _ links x (letters_calm hx)) h
  have hlt : 0 + 1 + x.length < line_.length := by rw [hlen]; omega
  unfold InlineParser.replaceLink
  rw [charAt_of_drop hd0]
  simp only [ok_bind, ch_lb, bne_self_eq_false, Bool.false_eq_true, if_false, hfuel, hscan, List.nil_append]
  rw [InlineParser.replaceLinkLoop]
  simp only [hlt, if_true, charAt_of_drop hd2, ok_bind]
  simp [happly]

theorem textToHTML_missing (links : LinkList) (x : QString)
    (hx : isLetters x = true) (h : links.lookup (QString.toLower x) = none) :
    InlineParser.textToHTML links (91 :: x ++ [93]) = .ok (91 :: x ++ [93]) := by
  have hlink := replaceLink_missing links (x.length + 3) x true hx h
  have hmem := letters_mem hx
  have hcalm : calm (x ++ [93]) = true := by
    rw [calm_append_letters [93] x hmem]; decide
  generalize hline : 91 :: x ++ [93] = line_ at hlink ⊢
  have hlen : line_.length = x.length + 2 := by rw [← hline]; simp
  have hd : line_.drop 0 = 91 :: (x ++ [93]) := by rw [← hline]; rfl
  have hlt : 0 < line_.length := by omega
  have hsk : InlineParser.skipWhitespace line_ 0 = 0 := by
    simp only [InlineParser.skipWhitespace, hd]
    rfl
  have hrec := parseLoop_calm (InlineParser.nested links (x.length + 3 + 1)) links true
    (4 * x.length + 23) line_ (0 + 1) ⟨[], []⟩
    (by rw [← hline]; exact hcalm) (by rw [hlen]; omega)
  have hnest : InlineParser.nestingFuel line_ = x.length + 3 + 1 := by
    simp only [InlineParser.nestingFuel, hlen]
  have hfuel : InlineParser.parseFuel line_ = (4 * x.length + 23) + 1 := by
    simp only [InlineParser.parseFuel, hlen]; omega
  have hloop : InlineParser.parseLoop (InlineParser.nested links (x.length + 3 + 1)) links true
      ((4 * x.length + 23) + 1) line_ 0 ⟨[], []⟩ = .ok (line_, ⟨[], []⟩) := by
    have hsq : InlineParser.replaceSquareBrackets (InlineParser.lineFuel line_) line_ 0 = .ok (0, line_) :=
      replaceSquareBrackets_inert (2 * line_.length + 7) hd (by decide)
    rw [InlineParser.parseLoop]
    simp only [hlt, if_true, hsq, hlink, replaceImage_inert _ links true hd (show (91 : Nat) ≠ 33 by decide),
      replaceCodeSpan_inert hd (show (91 : Nat) ≠ 96 by decide),
      replaceSpecialCharacter_inert hd (show (91 : Nat) ≠ 92 by decide) (show (91 : Nat) ≠ 38 by decide)
        (show (91 : Nat) ≠ 34 by decide) (show (91 : Nat) ≠ 60 by decide) (show (91 : Nat) ≠ 62 by decide),
      replaceWhitespace_inert hd (show (91 : Nat) ≠ 32 by decide),
      skipEmphasis_inert _ hd (show (91 : Nat) ≠ 42 by decide) (show (91 : Nat) ≠ 95 by decide),
      ok_bind, bne_self_eq_false, Bool.false_eq_true, if_false, hrec]
  simp [InlineParser.textToHTML, InlineParser.textToHTMLWith, InlineParser.parse, hnest, hfuel, hsk, hloop,
    InlineParser.render]

theorem getLinkText_found (R : Nested) (links : LinkList) (l reference title a : QString)
    (h : links.lookup (QString.toLower l) = some (reference, title)) (ha : R.toHTML l = .ok a) :
    ∃ r, Parser.getLinkText R links l = .ok r ∧ r ≠ [] := by
  by_cases ht : title.isEmpty = true
  · exact ⟨Parser.inlineLinkTemplate1 a reference,
      by simp [Parser.getLinkText, Parser.getLinkTextWith, h, ha, ht],
      by simp [Parser.inlineLinkTemplate1, qs, utf16]⟩
  · exact ⟨Parser.inlineLinkTemplate2 a reference title,
      by simp [Parser.getLinkText, Parser.getLinkTextWith, h, ha, ht],
      by simp [Parser.inlineLinkTemplate2, qs, utf16]⟩

theorem getImageText_found (R : Nested) (links : LinkList) (l reference title a b : QString)
    (h : links.lookup (QString.toLower l) = some (reference, title)) (ha : R.toHTML title = .ok a)
    (hb : R.toPlain l = .ok b) :
    ∃ r, Parser.getImageText R links l = .ok r ∧ r ≠ [] := by
  by_cases ht : a = []
  · exact ⟨Parser.inlineImageTemplate1 b reference,
      by simp [Parser.getImageText, Parser.getImageTextWith, h, ha, hb, ht],
      by simp [Parser.inlineImageTemplate1, qs, utf16]⟩
  · exact ⟨Parser.inlineImageTemplate2 b reference a,
      by simp [Parser.getImageText, Parser.getImageTextWith, h, ha, hb, ht],
      by simp [Parser.inlineImageTemplate2, qs, utf16]⟩

theorem getLinkText_nonempty (R : Nested) (links : LinkList) (l : QString)
    (h : links.lookup (QString.toLower l) ≠ none) : Parser.getLinkText R links l ≠ .ok [] := by
  cases hl : links.lookup (QString.toLower l) with
  | none => exact absurd hl h
  | some rt =>
    obtain ⟨reference, title⟩ := rt
    cases ha : R.toHTML l with
    | error e => simp [Parser.getLinkText, Parser.getLinkTextWith, hl, ha]
    | ok a =>
      obtain ⟨r, h1, h2⟩ := getLinkText_found R links l reference title a hl ha
      rw [h1]
      intro hc
      injection hc with hc
      exact h2 hc

theorem getImageText_nonempty (R : Nested) (links : LinkList) (l : QString)
    (h : links.lookup (QString.toLower l) ≠ none) : Parser.getImageText R links l ≠ .ok [] := by
  cases hl : links.lookup (QString.toLower l) with
  | none => exact absurd hl h
  | some rt =>
    obtain ⟨reference, title⟩ := rt
    cases ha : R.toHTML title with
    | error e => simp [Parser.getImageText, Parser.getImageTextWith, hl, ha]
    | ok a =>
      cases hb : R.toPlain l with
      | error e => simp [Parser.getImageText, Parser.getImageTextWith, hl, ha, hb]
      | ok b =>
        obtain ⟨r, h1, h2⟩ := getImageText_found R links l reference title a b hl ha hb
        rw [h1]
        intro hc
        injection hc with hc
        exact h2 hc

theorem getImageText_loop (R : Nested) (e : Fault) (hh : R.toHTML (qs "![a]") = .error e) :
    Parser.getImageText R loopTable (qs "a") = .error e := by
  have hl : List.lookup (QString.toLower (qs "a")) loopTable = some (qs "/u", qs "![a]") := by decide
  simp only [Parser.getImageText, Parser.getImageTextWith, hl, hh]
  rfl

theorem replaceImage_loop (R : Nested) (e : Fault)
    (hp : R.toPlain (qs "a") = .error e ∨
      (R.toPlain (qs "a") = .ok (qs "a") ∧ R.toHTML (qs "![a]") = .error e)) :
    InlineParser.replaceImage R loopTable (qs "![a]") 0 true = .error e := by
  have h1 : ((qs "![a]").drop 0).take 2 = qs "![" := by decide
  have h2 : InlineParser.bracketLoop (qs "![a]") (InlineParser.lineFuel (qs "![a]")) (0 + 1) 1 =
      .ok (InlineParser.BracketScan.close 3) := by rfl
  have h3 : QString.trimmed (((qs "![a]").drop (0 + 2)).take (3 - (0 + 2))) = qs "a" := by decide
  have h4 : InlineParser.applyInlineImage (qs "![a]") 0 (3 + 1) (qs "a") true = .ok (0, qs "![a]") := by
    decide
  have h5 : ((3 + 1 < (qs "![a]").length) && ((qs "![a]")[3 + 1]? == some (ch '['))) = false := by decide
  unfold InlineParser.replaceImage
  simp only [h1, bne_self_eq_false, Bool.false_eq_true, if_false, h2, ok_bind]
  unfold InlineParser.applyImage
  simp only [h3, h5, Bool.false_eq_true, if_false]
  rcases hp with hp | ⟨hp, hh⟩
  · rw [hp]; rfl
  · rw [hp]
    simp only [ok_bind, h4, InlineParser.applyShortcutReferenceImage, getImageText_loop R e hh]
    rfl

theorem textToPlainWith_calm (R : Nested) (links : LinkList) (line : QString) (h : calm line = true) :
    InlineParser.textToPlainWith R links line = .ok line := by
  have := parseLoop_calm R links false
    (InlineParser.parseFuel line) line (InlineParser.skipWhitespace line 0) ⟨[], []⟩
    (calm_drop _ line h) (by simp [InlineParser.parseFuel]; omega)
  simp [InlineParser.textToPlainWith, InlineParser.parse, this, InlineParser.render]

theorem textToHTMLWith_loop (R : Nested) (e : Fault)
    (hp : R.toPlain (qs "a") = .error e ∨
      (R.toPlain (qs "a") = .ok (qs "a") ∧ R.toHTML (qs "![a]") = .error e)) :
    InlineParser.textToHTMLWith R loopTable (qs "![a]") = .error e := by
  have hd : (qs "![a]").drop 0 = 33 :: qs "[a]" := by decide
  have hsq : InlineParser.replaceSquareBrackets (InlineParser.lineFuel (qs "![a]")) (qs "![a]") 0 =
      .ok (0, qs "![a]") := replaceSquareBrackets_inert 15 hd (by decide)
  have hl := replaceLink_inert R loopTable true hd (by decide)
  have hi := replaceImage_loop R e hp
  have hloop : InlineParser.parseLoop R loopTable true (31 + 1) (qs "![a]") 0 ⟨[], []⟩ = .error e := by
    rw [InlineParser.parseLoop]
    have hlt : 0 < (qs "![a]").length := by decide
    simp only [hlt, if_true, hsq, ok_bind, bne_self_eq_false, Bool.false_eq_true, if_false, hl, hi]
    rfl
  have hf : InlineParser.parseFuel (qs "![a]") = 31 + 1 := by decide
  have hs : InlineParser.skipWhitespace (qs "![a]") 0 = 0 := by decide
  simp only [InlineParser.textToHTMLWith, InlineParser.parse, hf, hs, hloop]
  rfl

theorem nested_loop : ∀ n : Nat,
    InlineParser.textToHTMLWith (InlineParser.nested loopTable n) loopTable (qs "![a]") =
      .error Fault.outOfFuel
  | 0 => textToHTMLWith_loop _ _ (Or.inl rfl)
  | n + 1 =>
    textToHTMLWith_loop _ _
      (Or.inr ⟨textToPlainWith_calm _ loopTable (qs "a") (by decide), nested_loop n⟩)

theorem putLinebreakAtBOL_plain (lh : LineHandler) (h : lh.offset = 0) :
    lh.putLinebreakAtBOL = 10 :: lh.currentTextRef := by
  simp [LineHandler.putLinebreakAtBOL, h, qs, utf16]

theorem appendParagraphText_paragraph (p : Parser) (i : Nat) (n : Node) (lh : LineHandler)
    (hn : p.nodes[i]? = some n) (hk : n.kind = Kind.paragraph) (hw : n.writable = true) :
    Parser.appendParagraphText 1 p i lh =
      .ok (true, p.put i { n with text := n.text ++ lh.putLinebreakAtBOL }) := by
  simp [Parser.appendParagraphText, Parser.get, hn, hk, hw, Parser.appendLine, Parser.update]

theorem put_getElem?_self (p : Parser) (i : Nat) (n m : Node) (hn : p.nodes[i]? = some n) :
    (p.put i m).nodes[i]? = some m := by
  have hlt : i < p.nodes.length := by
    rcases Nat.lt_or_ge i p.nodes.length with h | h
    · exact h
    · rw [List.getElem?_eq_none h] at hn; cases hn
  simp only [Parser.put]
  exact List.getElem?_set_self hlt

theorem appendLines_text : ∀ (lhs : List LineHandler) (p : Parser) (i : Nat) (n : Node),
    p.nodes[i]? = some n → n.kind = Kind.paragraph → n.writable = true →
    (∀ lh ∈ lhs, lh.offset = 0) →
    ∃ p1, appendLines p i lhs = .ok p1 ∧
      p1.nodes[i]? = some { n with text := n.text ++
        (lhs.map fun lh => 10 :: lh.currentTextRef).flatten }
  | [], p, i, n, hn, _, _, _ => ⟨p, rfl, by simpa using hn⟩
  | lh :: more, p, i, n, hn, hk, hw, ho => by
    have h1 := appendParagraphText_paragraph p i n lh hn hk hw
    rw [putLinebreakAtBOL_plain lh (ho lh (List.mem_cons_self _ _))] at h1
    obtain ⟨p1, e1, e2⟩ := appendLines_text more _ i
      { n with text := n.text ++ 10 :: lh.currentTextRef }
      (put_getElem?_self p i n _ hn) hk hw (fun x hx => ho x (List.mem_cons_of_mem _ hx))
    refine ⟨p1, ?_, ?_⟩
    · simp only [appendLines, h1, ok_bind]
      exact e1
    · rw [e2]
      simp

theorem join_cons_lines : ∀ (first : QString) (more : List QString),
    QString.join [10] (first :: more) = first ++ (more.map fun l => 10 :: l).flatten
  | first, [] => by simp [QString.join]
  | first, y :: r => by
    rw [QString.join, join_cons_lines y r]
    simp

theorem parseLoop_skip (R : Nested) (links : LinkList) (isHTML : Bool) (line : QString)
    (e : InlineParser.Emphasis) : ∀ (a tail : QString) (fuel pos : Nat),
    line.drop pos = a ++ tail → (∀ x ∈ a, isAsciiLetter x = true) →
    InlineParser.parseLoop R links isHTML (fuel + a.length) line pos e =
      InlineParser.parseLoop R links isHTML fuel line (pos + a.length) e
  | [], tail, fuel, pos, _, _ => rfl
  | c :: rest, tail, fuel, pos, hd, ha => by
    have hc : isAsciiLetter c = true := ha c (List.mem_cons_self _ _)
    have hd0 : line.drop pos = c :: (rest ++ tail) := by simpa using hd
    have hlt := lt_of_drop hd0
    have hd1 : line.drop (pos + 1) = rest ++ tail := by
      rw [← List.drop_drop, hd0]; rfl
    have ih := parseLoop_skip R links isHTML line e rest tail fuel (pos + 1) hd1
      (fun y hy => ha y (List.mem_cons_of_mem _ hy))
    have hin := letter_inert hc
    simp only [inertChar, Bool.and_eq_true, bne_iff_ne, ne_eq] at hin
    obtain ⟨⟨⟨⟨⟨⟨⟨⟨⟨⟨h60, h91⟩, h33⟩, h96⟩, h92⟩, h38⟩, h34⟩, h62⟩, h32⟩, h42⟩, h95⟩ := hin
    have hsq : InlineParser.replaceSquareBrackets (InlineParser.lineFuel line) line pos = .ok (pos, line) :=
      replaceSquareBrackets_inert (2 * line.length + 7) hd0 h60
    have ef : fuel + (c :: rest).length = (fuel + rest.length) + 1 := by simp; omega
    rw [ef, InlineParser.parseLoop]
    simp only [hlt, if_true, hsq, replaceLink_inert R links isHTML hd0 h91,
      replaceImage_inert R links isHTML hd0 h33, replaceCodeSpan_inert hd0 h96,
      replaceSpecialCharacter_inert hd0 h92 h38 h34 h60 h62, replaceWhitespace_inert hd0 h32,
      skipEmphasis_inert e hd0 h42 h95, ok_bind, bne_self_eq_false, Bool.false_eq_true, if_false, ih]
    congr 1
    simp; omega

theorem parseLoop_space (R : Nested) (links : LinkList) (isHTML : Bool) (line l1 : QString)
    (e : InlineParser.Emphasis) (fuel pos t : Nat) (rest : QString)
    (hd : line.drop pos = 32 :: rest) (hw : InlineParser.replaceWhitespace line pos = .ok (t, l1))
    (ht : pos ≠ t) :
    InlineParser.parseLoop R links isHTML (fuel + 1) line pos e =
      InlineParser.parseLoop R links isHTML fuel l1 t e := by
  have hlt := lt_of_drop hd
  have hsq : InlineParser.replaceSquareBrackets (InlineParser.lineFuel line) line pos = .ok (pos, line) :=
    replaceSquareBrackets_inert (2 * line.length + 7) hd (by decide)
  have hne : (pos != t) = true := by simpa using ht
  rw [InlineParser.parseLoop]
  simp only [hlt, if_true, hsq, replaceLink_inert R links isHTML hd (show (32 : Nat) ≠ 91 by decide),
    replaceImage_inert R links isHTML hd (show (32 : Nat) ≠ 33 by decide),
    replaceCodeSpan_inert hd (show (32 : Nat) ≠ 96 by decide),
    replaceSpecialCharacter_inert hd (show (32 : Nat) ≠ 92 by decide) (show (32 : Nat) ≠ 38 by decide)
      (show (32 : Nat) ≠ 34 by decide) (show (32 : Nat) ≠ 60 by decide) (show (32 : Nat) ≠ 62 by decide),
    hw, ok_bind, bne_self_eq_false, Bool.false_eq_true, if_false, hne, if_true]

theorem whitespaceRun_linefeed (b : QString) : ∀ (j c : Nat),
    InlineParser.whitespaceRun (List.replicate j 32 ++ 10 :: b) c = InlineParser.WhitespaceEnd.linefeed (c + j)
  | 0, c => by simp [InlineParser.whitespaceRun]
  | j + 1, c => by
    have ih := whitespaceRun_linefeed b j (c + 1)
    simp [List.replicate_succ, InlineParser.whitespaceRun, ih]
    omega

theorem skipWhitespace_at_letter (line : QString) (pos c : Nat) (rest : QString)
    (hd : line.drop pos = c :: rest) (hc : isAsciiLetter c = true) :
    InlineParser.skipWhitespace line pos = pos := by
  simp [InlineParser.skipWhitespace, hd, List.takeWhile_cons, letter_not_space hc]

theorem replaceWhitespace_linefeed (a b : QString) (j : Nat) {c : Nat} {rest : QString}
    (hb : b = c :: rest) (hc : isAsciiLetter c = true) :
    InlineParser.replaceWhitespace (a ++ 32 :: (List.replicate j 32 ++ 10 :: b)) a.length =
      .ok (if j = 0 then (a.length + 1, a ++ 10 :: b) else (a.length + 7, a ++ qs "<br />" ++ 10 :: b)) := by
  generalize hline : a ++ 32 :: (List.replicate j 32 ++ 10 :: b) = line
  have hd : line.drop a.length = 32 :: (List.replicate j 32 ++ 10 :: b) := by
    rw [← hline]; exact List.drop_left' rfl
  have hd1 : line.drop (a.length + 1) = List.replicate j 32 ++ 10 :: b := by
    rw [← List.drop_drop, hd]; rfl
  have htake : line.take a.length = a := by
    rw [← hline]; exact List.take_left' rfl
  have hlen : line.length = a.length + 1 + j + 1 + b.length := by
    rw [← hline]; simp; omega
  have hlt : a.length + 1 < line.length := by omega
  have hrun := whitespaceRun_linefeed b j 1
  unfold InlineParser.replaceWhitespace
  rw [charAt_of_drop hd]
  simp only [ok_bind, ch_sp, bne_self_eq_false, Bool.false_eq_true, if_false, hlt, if_true, hd1, hrun]
  by_cases hj : j = 0
  · subst hj
    have hdrop : line.drop (a.length + (1 + 0)) = 10 :: b := by simpa using hd1
    have hl1 : QString.remove line a.length (1 + 0) = a ++ 10 :: b := by
      simp only [QString.remove, htake, hdrop]
    have hsk : InlineParser.skipWhitespace (a ++ 10 :: b) (a.length + 1) = a.length + 1 :=
      skipWhitespace_at_letter _ _ c rest
        (by rw [← List.drop_drop, List.drop_left' rfl]; simpa using hb) hc
    simp [hl1, hsk]
  · have hge : ¬ (1 + j < 2) := by omega
    have hdrop : line.drop (a.length + (1 + j)) = 10 :: b := by
      have e : a.length + (1 + j) = (a.length + 1) + j := by omega
      rw [e, ← List.drop_drop, hd1]
      exact List.drop_left' (by simp)
    have hl1 : QString.replace line a.length (1 + j) (qs "<br />") = a ++ qs "<br />" ++ 10 :: b := by
      have hle : ¬ (a.length > line.length) := by omega
      simp only [QString.replace, hle, if_false, htake, hdrop]
    have hsk : InlineParser.skipWhitespace (a ++ qs "<br />" ++ 10 :: b) (a.length + 6) = a.length + 7 := by
      have e1 : (a ++ qs "<br />" ++ 10 :: b).drop (a.length + 6) = 10 :: c :: rest := by
        rw [hb]
        have : (a ++ qs "<br />").length = a.length + 6 := by simp [qs, utf16]
        rw [← this]
        exact List.drop_left' rfl
      have hns := letter_not_space hc
      have h10 : QChar.isSpace 10 = true := by decide
      rw [InlineParser.skipWhitespace, e1]
      simp only [List.takeWhile_cons, hns, h10, if_true, Bool.false_eq_true, if_false, List.length_cons,
        List.length_nil]
    rw [if_neg hge, hl1, hsk, if_neg hj]
    rfl

theorem textToHTML_break (links : LinkList) (a ws line l1 : QString) (t : Nat)
    (ha : isLetters a = true) (hline : line = a ++ 32 :: ws)
    (hw : InlineParser.replaceWhitespace line a.length = .ok (t, l1)) (ht : a.length ≠ t)
    (hcalm : calm (l1.drop t) = true) (hlen : l1.length ≤ line.length + 4) :
    InlineParser.textToHTML links line = .ok l1 := by
  obtain ⟨c, rest, hac, hc⟩ := letters_head ha
  have hd0 : line.drop 0 = a ++ 32 :: ws := by rw [hline]; rfl
  have hda : line.drop (0 + a.length) = 32 :: ws := by
    rw [hline, Nat.zero_add]; exact List.drop_left' rfl
  have hll : line.length = a.length + 1 + ws.length := by rw [hline]; simp; omega
  have hsk : InlineParser.skipWhitespace line 0 = 0 :=
    skipWhitespace_at_letter line 0 c (rest ++ 32 :: ws) (by rw [hd0, hac]; rfl) hc
  have hfuel : InlineParser.parseFuel line = ((4 * line.length + 15 - a.length) + 1) + a.length := by
    simp only [InlineParser.parseFuel]; omega
  have h1 := parseLoop_skip (InlineParser.nested links (InlineParser.nestingFuel line)) links true line
    ⟨[], []⟩ a (32 :: ws) ((4 * line.length + 15 - a.length) + 1) 0 hd0 (letters_mem ha)
  have h2 := parseLoop_space (InlineParser.nested links (InlineParser.nestingFuel line)) links true line l1
    ⟨[], []⟩ (4 * line.length + 15 - a.length) (0 + a.length) t ws hda
    (by rw [Nat.zero_add]; exact hw) (by rw [Nat.zero_add]; exact ht)
  have h3 := parseLoop_calm (InlineParser.nested links (InlineParser.nestingFuel line)) links true
    (4 * line.length + 15 - a.length) l1 t ⟨[], []⟩ hcalm (by omega)
  unfold InlineParser.textToHTML InlineParser.textToHTMLWith InlineParser.parse
  rw [hsk, hfuel, h1, h2, h3]
  simp [InlineParser.render]

theorem textToHTML_linefeed (links : LinkList) (a b : QString) (j : Nat)
    (ha : isLetters a = true) (hb : isLetters b = true) :
    InlineParser.textToHTML links (a ++ 32 :: (List.replicate j 32 ++ 10 :: b)) =
      .ok (if j = 0 then a ++ 10 :: b else a ++ qs "<br />" ++ 10 :: b) := by
  obtain ⟨c, rest, hbc, hc⟩ := letters_head hb
  have hw := replaceWhitespace_linefeed a b j hbc hc
  have hcb : calm b = true := letters_calm hb
  by_cases hj : j = 0
  · subst hj
    simp only [if_true] at hw ⊢
    refine textToHTML_break links a _ _ _ (a.length + 1) ha rfl hw (by omega) ?_ (by simp; omega)
    rw [← List.drop_drop, List.drop_left' rfl]
    exact hcb
  · simp only [hj, if_false] at hw ⊢
    refine textToHTML_break links a _ _ _ (a.length + 7) ha rfl hw (by omega) ?_
      (by simp [qs, utf16]; omega)
    have e : a.length + 7 = (a ++ qs "<br />").length + 1 := by simp [qs, utf16]
    rw [e, ← List.drop_drop, List.drop_left' rfl]
    exact hcb

theorem nesting_append : ∀ (a b stack : List Nat),
    nesting stack (a ++ b) = (nesting stack a).bind fun s => nesting s b
  | [], b, stack => rfl
  | m :: a, b, stack => by
    simp only [List.cons_append, nesting]
    split
    · exact nesting_append a b _
    · cases stack with
      | nil => rfl
      | cons t below =>
        simp only []
        split
        · exact nesting_append a b _
        · rfl

theorem nesting_open (p : Precedence) (stack : List Nat) :
    nesting stack [openMark p] = some (Encodable.encode p.tag :: stack) := by
  have h1 : openMark p % 2 = 0 := by simp [openMark]
  have h2 : openMark p / 2 = Encodable.encode p.tag := by simp [openMark]
  simp [nesting, h1, h2]

theorem nesting_close (p : Precedence) (stack : List Nat) :
    nesting (Encodable.encode p.tag :: stack) [closeMark p] = some stack := by
  have h1 : ¬ (closeMark p % 2 = 0) := by simp [closeMark]; omega
  have h2 : closeMark p / 2 = Encodable.encode p.tag := by simp [closeMark]; omega
  simp [nesting, h1, h2]

theorem closeEnded_nesting (line : QString) (current : Precedence) :
    ∀ (pending : List Precedence) (temp : QString) (lastPos : Int),
    nesting [] temp = some (pending.map fun p => Encodable.encode p.tag) →
    nesting [] (InlineParser.closeEnded markRight line current pending temp lastPos).2.1 =
      some ((InlineParser.closeEnded markRight line current pending temp lastPos).1.map
        fun p => Encodable.encode p.tag)
  | [], temp, lastPos, h => by simpa [InlineParser.closeEnded] using h
  | last :: pending, temp, lastPos, h => by
    simp only [InlineParser.closeEnded]
    split
    · exact h
    · apply closeEnded_nesting line current pending
      simp only [markRight]
      rw [nesting_append, h]
      exact nesting_close last _

theorem renderLoop_nesting (line : QString) :
    ∀ (split pending : List Precedence) (temp : QString) (lastPos : Int),
    nesting [] temp = some (pending.map fun p => Encodable.encode p.tag) →
    nesting [] (InlineParser.renderLoop markLeft markRight line split pending temp lastPos).2.1 =
      some ((InlineParser.renderLoop markLeft markRight line split pending temp lastPos).1.map
        fun p => Encodable.encode p.tag)
  | [], pending, temp, lastPos, h => by simpa [InlineParser.renderLoop] using h
  | current :: more, pending, temp, lastPos, h => by
    simp only [InlineParser.renderLoop]
    split
    · exact renderLoop_nesting line more pending temp lastPos h
    · apply renderLoop_nesting line more
      have hc := closeEnded_nesting line current pending temp lastPos h
      simp only [markLeft, List.map_cons]
      rw [nesting_append, hc]
      exact nesting_open current _

theorem closeAll_nesting (line : QString) :
    ∀ (pending : List Precedence) (temp : QString) (lastPos : Int),
    nesting [] temp = some (pending.map fun p => Encodable.encode p.tag) →
    nesting [] (InlineParser.closeAll markRight line pending temp lastPos).1 = some []
  | [], temp, lastPos, h => by simpa [InlineParser.closeAll] using h
  | last :: pending, temp, lastPos, h => by
    simp only [InlineParser.closeAll]
    apply closeAll_nesting line pending
    simp only [markRight]
    rw [nesting_append, h]
    exact nesting_close last _

theorem render_wellNested (split : List Precedence) :
    wellNested (InlineParser.render markLeft markRight [] split) = true := by
  unfold InlineParser.render
  split
  · rfl
  · have h1 := renderLoop_nesting [] split [] [] 0 rfl
    have h2 := closeAll_nesting [] _ _
      (InlineParser.renderLoop markLeft markRight [] split [] [] 0).2.2 h1
    simp only [wellNested, InlineParser.right, List.length_nil]
    simp [h2]

theorem letter_not_punct {c : Nat} (h : isAsciiLetter c = true) : QChar.isPunct c = false := by
  rcases letter_range h with ⟨h1, h2⟩ | ⟨h1, h2⟩ <;> interval_cases c <;> rfl

theorem parseLoop_star (R : Nested) (links : LinkList) (isHTML : Bool) (line_ : QString)
    (e e1 : InlineParser.Emphasis) (fuel pos t : Nat) (rest : QString)
    (hd : line_.drop pos = 42 :: rest) (hs : InlineParser.skipEmphasis line_ pos e = .ok (t, e1))
    (ht : pos ≠ t) :
    InlineParser.parseLoop R links isHTML (fuel + 1) line_ pos e =
      InlineParser.parseLoop R links isHTML fuel line_ t e1 := by
  have hlt := lt_of_drop hd
  have hsq : InlineParser.replaceSquareBrackets (InlineParser.lineFuel line_) line_ pos = .ok (pos, line_) :=
    replaceSquareBrackets_inert (2 * line_.length + 7) hd (by decide)
  have hne : (pos != t) = true := by simpa using ht
  rw [InlineParser.parseLoop]
  simp only [hlt, if_true, hsq, replaceLink_inert R links isHTML hd (show (42 : Nat) ≠ 91 by decide),
    replaceImage_inert R links isHTML hd (show (42 : Nat) ≠ 33 by decide),
    replaceCodeSpan_inert hd (show (42 : Nat) ≠ 96 by decide),
    replaceSpecialCharacter_inert hd (show (42 : Nat) ≠ 92 by decide) (show (42 : Nat) ≠ 38 by decide)
      (show (42 : Nat) ≠ 34 by decide) (show (42 : Nat) ≠ 60 by decide) (show (42 : Nat) ≠ 62 by decide),
    replaceWhitespace_inert hd (show (42 : Nat) ≠ 32 by decide),
    hs, ok_bind, bne_self_eq_false, Bool.false_eq_true, if_false, hne, if_true]

theorem skipEmphasis_open_one (line_ : QString) (c : Nat) (rest : QString)
    (hd : line_.drop 0 = 42 :: c :: rest) (hr : rest ≠ []) (hc : isAsciiLetter c = true) :
    InlineParser.skipEmphasis line_ 0 ⟨[], []⟩ = .ok (1, ⟨[emRecord 0 (-1)], [0]⟩) := by
  have h0 : line_[0]? = some 42 := getElem?_of_drop hd
  have hd1 : line_.drop (0 + 1) = c :: rest := by rw [← List.drop_drop, hd]; rfl
  have h1 := charAt_of_drop hd1
  have hlen : line_.length = rest.length + 2 := by
    have := congrArg List.length hd
    simpa using this
  have hr1 : 0 < rest.length := List.length_pos.mpr hr
  have hlt : 0 + 1 < line_.length := by omega
  have hns := letter_not_space hc
  have hnp := letter_not_punct hc
  have hc42 : c ≠ 42 := by simpa using letter_ne_42 hc
  have hge : ¬ (0 + 1 ≥ line_.length) := by omega
  simp [InlineParser.skipEmphasis, h0, InlineParser.closePrecedence, charAt_of_drop hd,
    InlineParser.findSameDelimiter, InlineParser.failToClosePrecedence, hlt, Precedence.«open», h1, hc42,
    Precedence.isLeftFlankingDelimiterRun, hge, hns, Precedence.init, Precedence.reset, Precedence.isEmpty,
    Precedence.new, emRecord]

theorem skipEmphasis_close_one (line_ : QString) (n z : Nat)
    (hd : line_.drop n = [z, 42]) (hz : isAsciiLetter z = true) (hn : n ≠ 0) :
    InlineParser.skipEmphasis line_ (n + 1) ⟨[emRecord 0 (-1)], [0]⟩ =
      .ok (n + 1 + 1, ⟨[emRecord 0 (((n + 1 : Nat) : Int) + ((1 : Nat) : Int))], []⟩) := by
  have hd1 : line_.drop (n + 1) = [42] := by rw [← List.drop_drop, hd]; rfl
  have h0 : line_[n + 1]? = some 42 := getElem?_of_drop hd1
  have hc := charAt_of_drop hd1
  have hp := charAt_of_drop hd
  have hlen : line_.length = n + 2 := by
    have := congrArg List.length hd
    simp at this
    omega
  have hnone : line_[n + 1 + 1]? = none := by
    apply List.getElem?_eq_none
    omega
  have hns := letter_not_space hz
  have hnp := letter_not_punct hz
  have hlt : ¬ (n + 1 + 1 < line_.length) := by omega
  simp [InlineParser.skipEmphasis, h0, InlineParser.closePrecedence, hc, InlineParser.Emphasis.deref,
    InlineParser.findSameDelimiter, InlineParser.failToClosePrecedence, hlt, hp,
    Precedence.isRightFlankingDelimiterRun, hns, hnp, Precedence.close, Precedence.restIsOnly, hnone,
    Precedence.isContinuedAt, Precedence.isSameDelimiterAs, emRecord, hn]

theorem letters_last {w : QString} (h : isLetters w = true) :
    ∃ first z, w = first ++ [z] ∧ isAsciiLetter z = true := by
  obtain ⟨c, rest, hw, _⟩ := letters_head h
  have hne : w ≠ [] := by rw [hw]; simp
  refine ⟨w.dropLast, w.getLast hne, (List.dropLast_append_getLast hne).symm, ?_⟩
  exact letters_mem h _ (List.getLast_mem hne)

theorem render_em (line_ w : QString) (hline : line_ = 42 :: (w ++ [42])) :
    InlineParser.render Precedence.htmlLeftPart Precedence.htmlRightPart line_
      [emRecord 0 (((w.length + 1 : Nat) : Int) + ((1 : Nat) : Int))] = qs "<em>" ++ w ++ qs "</em>" := by
  have hlen : line_.length = w.length + 2 := by rw [hline]; simp
  have hd1 : line_.drop 1 = w ++ [42] := by rw [hline]; rfl
  have e1 : ((w.length + 1 : Nat) : Int) + ((1 : Nat) : Int) - ((1 : Nat) : Int) - (0 + ((1 : Nat) : Int)) =
      ((w.length : Nat) : Int) := by push_cast; omega
  have e2 : ((line_.length : Nat) : Int) - (((w.length + 1 : Nat) : Int) + ((1 : Nat) : Int)) = 0 := by
    rw [hlen]; push_cast; omega
  simp only [InlineParser.render, InlineParser.renderLoop, InlineParser.closeEnded, InlineParser.closeAll,
    Precedence.htmlLeftPart, Precedence.htmlRightPart, Precedence.isIncomplete, emRecord,
    List.isEmpty_cons, Bool.false_eq_true, if_false, e1, e2]
  have hneg : ¬ (((w.length : Nat) : Int) + 1 + 1 < 0) := by omega
  have hlt : ¬ (((w.length : Nat) : Int) + 1 < 1) := by omega
  have hle : ¬ (((w.length : Nat) : Int) + 2 ≤ 0) := by omega
  have hnat : (((w.length : Nat) : Int) + 1 - 1).toNat = w.length := by simp
  have hdr : line_.drop (w.length + 2) = [] := List.drop_of_length_le (by omega)
  simp [hneg, hlt, hle, hdr, QString.mid, InlineParser.right, hd1, hlen, qs, utf16]

theorem textToHTML_em (links : LinkList) (w : QString) (hw : isLetters w = true) :
    InlineParser.textToHTML links (42 :: (w ++ [42])) = .ok (qs "<em>" ++ w ++ qs "</em>") := by
  obtain ⟨c, rest, hwc, hc⟩ := letters_head hw
  obtain ⟨first, z, hwz, hz⟩ := letters_last hw
  generalize hline : 42 :: (w ++ [42]) = line_
  have hd0 : line_.drop 0 = 42 :: c :: (rest ++ [42]) := by rw [← hline, hwc]; rfl
  have hd1 : line_.drop 1 = w ++ [42] := by rw [← hline]; rfl
  have hdn : line_.drop w.length = [z, 42] := by
    rw [← hline, hwz]
    have : (first ++ [z]).length = (42 :: first).length := by simp
    rw [this]
    have e : 42 :: (first ++ [z] ++ [42]) = (42 :: first) ++ [z, 42] := by simp
    rw [e]
    exact List.drop_left' rfl
  have hll : line_.length = w.length + 2 := by rw [← hline]; simp
  have hwl : w.length ≠ 0 := by rw [hwc]; simp
  have hsk : InlineParser.skipWhitespace line_ 0 = 0 := by
    simp [InlineParser.skipWhitespace, hd0, List.takeWhile_cons, show QChar.isSpace 42 = false by decide]
  have hfuel : InlineParser.parseFuel line_ = ((((3 * w.length + 21) + 1) + 1) + w.length) + 1 := by
    simp only [InlineParser.parseFuel, hll]; omega
  have h1 := parseLoop_star (InlineParser.nested links (InlineParser.nestingFuel line_)) links true line_
    ⟨[], []⟩ _ ((((3 * w.length + 21) + 1) + 1) + w.length) 0 1 _ hd0
    (skipEmphasis_open_one line_ c (rest ++ [42]) hd0 (by simp) hc) (by decide)
  have h2 := parseLoop_skip (InlineParser.nested links (InlineParser.nestingFuel line_)) links true line_
    ⟨[emRecord 0 (-1)], [0]⟩ w [42] (((3 * w.length + 21) + 1) + 1) 1 hd1 (letters_mem hw)
  have hpos : 1 + w.length = w.length + 1 := by omega
  have hdl : line_.drop (w.length + 1) = [42] := by rw [← List.drop_drop, hdn]; rfl
  have h3 := parseLoop_star (InlineParser.nested links (InlineParser.nestingFuel line_)) links true line_
    _ _ ((3 * w.length + 21) + 1) (w.length + 1) (w.length + 1 + 1) _ hdl
    (skipEmphasis_close_one line_ w.length z hdn hz hwl) (by omega)
  have h4 := parseLoop_calm (InlineParser.nested links (InlineParser.nestingFuel line_)) links true
    ((3 * w.length + 21) + 1) line_ (w.length + 1 + 1)
    ⟨[emRecord 0 (((w.length + 1 : Nat) : Int) + ((1 : Nat) : Int))], []⟩
    (by rw [List.drop_of_length_le (by omega)]; rfl) (by omega)
  unfold InlineParser.textToHTML InlineParser.textToHTMLWith InlineParser.parse
  rw [hsk, hfuel, h1, h2, hpos, h3, h4]
  simp only [ok_bind]
  exact congrArg Except.ok (render_em line_ w hline.symm)

theorem skipEmphasis_open_two (line_ : QString) (c : Nat) (rest : QString)
    (hd : line_.drop 0 = 42 :: 42 :: c :: rest) (hc : isAsciiLetter c = true) :
    InlineParser.skipEmphasis line_ 0 ⟨[], []⟩ =
      .ok (2, ⟨[emRecord 0 (-1), emRecord 1 (-1)], [1, 0]⟩) := by
  have h0 : line_[0]? = some 42 := getElem?_of_drop hd
  have hd1 : line_.drop (0 + 1) = 42 :: c :: rest := by rw [← List.drop_drop, hd]; rfl
  have hd2 : line_.drop (0 + 2) = c :: rest := by rw [← List.drop_drop, hd]; rfl
  have h1 := charAt_of_drop hd1
  have h2 := charAt_of_drop hd2
  have hlen : line_.length = rest.length + 3 := by
    have := congrArg List.length hd
    simpa using this
  have hlt : 0 + 1 < line_.length := by omega
  have hns := letter_not_space hc
  have hnp := letter_not_punct hc
  have hge : ¬ (0 + 2 ≥ line_.length) := by omega
  simp [InlineParser.skipEmphasis, h0, InlineParser.closePrecedence, charAt_of_drop hd,
    InlineParser.findSameDelimiter, InlineParser.failToClosePrecedence, hlt, Precedence.«open», h1, h2,
    Precedence.isLeftFlankingDelimiterRun, hge, hns, Precedence.init, Precedence.reset, Precedence.isEmpty,
    Precedence.new, emRecord]

theorem skipEmphasis_close_two (line_ : QString) (n z : Nat)
    (hd : line_.drop n = [z, 42, 42]) (hz : isAsciiLetter z = true) (hn : n ≠ 1) :
    InlineParser.skipEmphasis line_ (n + 1) ⟨[emRecord 0 (-1), emRecord 1 (-1)], [1, 0]⟩ =
      .ok (n + 1 + 1 + 1, ⟨[strongRecord 0 (((n + 1 : Nat) : Int) + 2), emRecord 1 (-1)], []⟩) := by
  have hd1 : line_.drop (n + 1) = [42, 42] := by rw [← List.drop_drop, hd]; rfl
  have hd2 : line_.drop (n + 1 + 1) = [42] := by rw [← List.drop_drop, hd1]; rfl
  have h0 : line_[n + 1]? = some 42 := getElem?_of_drop hd1
  have h1 : line_[n + 1 + 1]? = some 42 := getElem?_of_drop hd2
  have hc := charAt_of_drop hd1
  have hc2 := charAt_of_drop hd2
  have hp := charAt_of_drop hd
  have hlen : line_.length = n + 3 := by
    have := congrArg List.length hd
    simp at this
    omega
  have hns := letter_not_space hz
  have hnp := letter_not_punct hz
  have hlt : n + 1 + 1 < line_.length := by omega
  have hlt2 : ¬ (n + 1 + 1 + 1 < line_.length) := by omega
  have hn1 : ¬ (1 = n) := fun h => hn h.symm
  have hn2 : ¬ ((2 : Int) = (n : Int) + 1) := by omega
  have hp42 : QChar.isPunct 42 = true := by decide
  have hs42 : QChar.isSpace 42 = false := by decide
  simp [InlineParser.skipEmphasis, h0, h1, InlineParser.closePrecedence, hc, hc2, InlineParser.Emphasis.deref,
    InlineParser.findSameDelimiter, InlineParser.failToClosePrecedence, hlt, hlt2, hp,
    Precedence.isRightFlankingDelimiterRun, Precedence.isLeftFlankingDelimiterRun, hns, hnp,
    Precedence.closeWith, Precedence.closeBoth, Precedence.isContinued, hp42, hs42,
    Precedence.isContinuedAt, Precedence.isSameDelimiterAs, emRecord, strongRecord, hn, hn1, hn2, hlen]

theorem render_strong (line_ w : QString) (hline : line_ = 42 :: 42 :: (w ++ [42, 42])) :
    InlineParser.render Precedence.htmlLeftPart Precedence.htmlRightPart line_
      [strongRecord 0 (((w.length + 1 + 1 : Nat) : Int) + 2), emRecord 1 (-1)] =
      qs "<strong>" ++ w ++ qs "</strong>" := by
  have hlen : line_.length = w.length + 4 := by rw [hline]; simp
  have hd2 : line_.drop 2 = w ++ [42, 42] := by rw [hline]; rfl
  simp only [InlineParser.render, InlineParser.renderLoop, InlineParser.closeEnded, InlineParser.closeAll,
    Precedence.htmlLeftPart, Precedence.htmlRightPart, Precedence.isIncomplete, emRecord, strongRecord,
    List.isEmpty_cons, Bool.false_eq_true, if_false]
  have hneg : ¬ (((w.length : Nat) : Int) + 1 + 1 + 2 < 0) := by omega
  have hlt : ¬ (((w.length : Nat) : Int) + 1 + 1 < 2) := by omega
  have hle : ¬ (((w.length : Nat) : Int) + 4 ≤ 0) := by omega
  have hnat : (((w.length : Nat) : Int) + 1 + 1 - 2).toNat = w.length := by omega
  have hdr : line_.drop (w.length + 4) = [] := List.drop_of_length_le (by omega)
  have hz0 : ((w.length : Nat) : Int) + 4 - (((w.length : Nat) : Int) + 1 + 1 + 2) = 0 := by omega
  have hz1 : ¬ (((w.length : Nat) : Int) + 4 < ((w.length : Nat) : Int) + 1 + 1 + 2) := by omega
  have hz2 : ¬ (((w.length : Nat) : Int) + 1 + 1 + 2 ≤ 0) := by omega
  simp [hneg, hlt, hle, hnat, hdr, hz0, hz1, hz2, QString.mid, InlineParser.right, hd2, hlen, qs, utf16]

theorem textToHTML_strong (links : LinkList) (w : QString) (hw : isLetters w = true) :
    InlineParser.textToHTML links (42 :: 42 :: (w ++ [42, 42])) =
      .ok (qs "<strong>" ++ w ++ qs "</strong>") := by
  obtain ⟨c, rest, hwc, hc⟩ := letters_head hw
  obtain ⟨first, z, hwz, hz⟩ := letters_last hw
  generalize hline : 42 :: 42 :: (w ++ [42, 42]) = line_
  have hd0 : line_.drop 0 = 42 :: 42 :: c :: (rest ++ [42, 42]) := by rw [← hline, hwc]; rfl
  have hd2 : line_.drop 2 = w ++ [42, 42] := by rw [← hline]; rfl
  have hdn : line_.drop (w.length + 1) = [z, 42, 42] := by
    rw [← hline, hwz]
    have : (first ++ [z]).length + 1 = (42 :: 42 :: first).length := by simp
    rw [this]
    have e : 42 :: 42 :: (first ++ [z] ++ [42, 42]) = (42 :: 42 :: first) ++ [z, 42, 42] := by simp
    rw [e]
    exact List.drop_left' rfl
  have hll : line_.length = w.length + 4 := by rw [← hline]; simp
  have hwl : w.length ≠ 0 := by rw [hwc]; simp
  have hsk : InlineParser.skipWhitespace line_ 0 = 0 := by
    simp [InlineParser.skipWhitespace, hd0, List.takeWhile_cons, show QChar.isSpace 42 = false by decide]
  have hfuel : InlineParser.parseFuel line_ = ((((3 * w.length + 29) + 1) + 1) + w.length) + 1 := by
    simp only [InlineParser.parseFuel, hll]; omega
  have h1 := parseLoop_star (InlineParser.nested links (InlineParser.nestingFuel line_)) links true line_
    ⟨[], []⟩ _ ((((3 * w.length + 29) + 1) + 1) + w.length) 0 2 _ hd0
    (skipEmphasis_open_two line_ c (rest ++ [42, 42]) hd0 hc) (by decide)
  have h2 := parseLoop_skip (InlineParser.nested links (InlineParser.nestingFuel line_)) links true line_
    ⟨[emRecord 0 (-1), emRecord 1 (-1)], [1, 0]⟩ w [42, 42] (((3 * w.length + 29) + 1) + 1) 2 hd2
    (letters_mem hw)
  have hpos : 2 + w.length = w.length + 1 + 1 := by omega
  have hdl : line_.drop (w.length + 1 + 1) = 42 :: [42] := by rw [← List.drop_drop, hdn]; rfl
  have h3 := parseLoop_star (InlineParser.nested links (InlineParser.nestingFuel line_)) links true line_
    _ _ ((3 * w.length + 29) + 1) (w.length + 1 + 1) (w.length + 1 + 1 + 1 + 1) _ hdl
    (skipEmphasis_close_two line_ (w.length + 1) z hdn hz (by omega)) (by omega)
  have h4 := parseLoop_calm (InlineParser.nested links (InlineParser.nestingFuel line_)) links true
    ((3 * w.length + 29) + 1) line_ (w.length + 1 + 1 + 1 + 1)
    ⟨[strongRecord 0 (((w.length + 1 + 1 : Nat) : Int) + 2), emRecord 1 (-1)], []⟩
    (by rw [List.drop_of_length_le (by omega)]; rfl) (by omega)
  unfold InlineParser.textToHTML InlineParser.textToHTMLWith InlineParser.parse
  rw [hsk, hfuel, h1, h2, hpos, h3, h4]
  simp only [ok_bind]
  exact congrArg Except.ok (render_strong line_ w hline.symm)

theorem matchBlockQuoteLoop_spaces (line_ rest : QString) :
    ∀ (j p l : Nat) (i : Int) (d o lp ll : Nat) (li : Int), i + (j : Int) ≤ 3 →
    LineHandler.matchBlockQuoteLoop line_ (List.replicate j 32 ++ rest) ⟨p, l, i, d, o, lp, ll, li⟩ =
      LineHandler.matchBlockQuoteLoop line_ rest ⟨p + j, l + j, i + (j : Int), d, o, lp, ll, li⟩ := by
  intro j
  induction j with
  | zero => intro p l i d o lp ll li _; simp
  | succ j ih =>
    intro p l i d o lp ll li h
    have h3 : ¬ (i + 1 > 3) := by omega
    rw [List.replicate_succ, List.cons_append, LineHandler.matchBlockQuoteLoop]
    simp only [ch_tab, ch_sp, show ((32 : Nat) == 9) = false by decide, Bool.false_eq_true, if_false,
      beq_self_eq_true, if_true, h3]
    rw [ih (p + 1) (l + 1) (i + 1) d o lp ll li (by push_cast at h; omega)]
    congr 2 <;> omega

theorem matchBlockQuoteLoop_marker (line_ rest : QString) (p l : Nat) (i : Int) (d o lp ll : Nat)
    (li : Int) :
    LineHandler.matchBlockQuoteLoop line_ (62 :: rest) ⟨p, l, i, d, o, lp, ll, li⟩ =
      LineHandler.matchBlockQuoteLoop line_ rest ⟨p + 1, l + 1, -1, d + 1, o, p + 1, l + 1, -1⟩ := by
  rw [LineHandler.matchBlockQuoteLoop]
  simp only [ch_tab, ch_sp, ch_gt, show ((62 : Nat) == 9) = false by decide,
    show ((62 : Nat) == 32) = false by decide, Bool.false_eq_true, if_false, beq_self_eq_true, if_true]

theorem matchBlockQuoteLoop_markers (line_ rest : QString) :
    ∀ (groups : List Nat) (p l : Nat) (i : Int) (d o lp ll : Nat) (li : Int),
    (∀ g ∈ groups, g ≤ 3) → i ≤ 0 → groups ≠ [] →
    LineHandler.matchBlockQuoteLoop line_ (quoteMarkers groups ++ rest) ⟨p, l, i, d, o, lp, ll, li⟩ =
      LineHandler.matchBlockQuoteLoop line_ rest
        ⟨p + (quoteMarkers groups).length, l + (quoteMarkers groups).length, -1, d + groups.length, o,
          p + (quoteMarkers groups).length, l + (quoteMarkers groups).length, -1⟩ := by
  intro groups
  induction groups with
  | nil => intro p l i d o lp ll li _ _ h; exact absurd rfl h
  | cons g more ih =>
    intro p l i d o lp ll li hg hi _
    have hg3 : g ≤ 3 := hg g (List.mem_cons_self _ _)
    have hm : ∀ x ∈ more, x ≤ 3 := fun x hx => hg x (List.mem_cons_of_mem _ hx)
    simp only [quoteMarkers, ch_sp, ch_gt, List.append_assoc, List.cons_append]
    rw [matchBlockQuoteLoop_spaces line_ _ g p l i d o lp ll li (by omega),
      matchBlockQuoteLoop_marker]
    by_cases hmore : more = []
    · subst hmore
      simp only [quoteMarkers, List.nil_append, List.length_append, List.length_replicate,
        List.length_cons, List.length_nil]
      congr 2
    · rw [ih _ _ _ _ _ _ _ _ hm (le_of_lt (by decide)) hmore]
      simp only [List.length_append, List.length_replicate, List.length_cons]
      congr 2 <;> omega

theorem matchBlockQuoteLoop_end (line_ tail : QString) (q : LineHandler.QuoteScan)
    (h : endsMarkers tail = true) : LineHandler.matchBlockQuoteLoop line_ tail q = q := by
  cases tail with
  | nil => rfl
  | cons c rest =>
    simp only [endsMarkers, ch_sp, ch_tab, ch_gt, Bool.and_eq_true, bne_iff_ne, ne_eq] at h
    rw [LineHandler.matchBlockQuoteLoop]
    simp [h.1.1, h.1.2, h.2]

theorem matchBlockQuote_markers (lh : LineHandler) (groups : List Nat) (j : Nat) (tail : QString)
    (hg : ∀ g ∈ groups, g ≤ 3) (hj : j ≤ 3) (ht : endsMarkers tail = true)
    (hd : lh.line.drop lh.physicalPosition =
      62 :: (quoteMarkers groups ++ (List.replicate j 32 ++ tail))) :
    lh.matchBlockQuote = (true, LineHandler.mk lh.line
      (lh.physicalPosition + 1 + (quoteMarkers groups).length + j)
      (lh.logicalPosition + (lh.offset + 1) + (quoteMarkers groups).length + j) 0
      (lh.depth + 1 + groups.length) (if groups = [] then j else j - 1)) := by
  simp only [LineHandler.matchBlockQuote, hd, ch_gt, bne_self_eq_false, Bool.false_eq_true, if_false]
  by_cases hgr : groups = []
  · subst hgr
    simp only [quoteMarkers, List.nil_append, List.length_nil, Nat.add_zero, if_true]
    rw [matchBlockQuoteLoop_spaces lh.line tail j _ _ _ _ _ _ _ _ (by omega),
      matchBlockQuoteLoop_end _ _ _ ht]
    simp
  · rw [matchBlockQuoteLoop_markers _ _ groups _ _ _ _ _ _ _ _ hg (le_refl _) hgr,
      matchBlockQuoteLoop_spaces lh.line tail j _ _ _ _ _ _ _ _ (by omega),
      matchBlockQuoteLoop_end _ _ _ ht]
    have hi : (if j = 0 then 0 else (-1 + (j : Int)).toNat) = j - 1 := by
      split <;> omega
    simp [hgr, hi]

@[simp] theorem eraseNode_kind (n : Node) : (eraseNode n).kind = n.kind := rfl

@[simp] theorem eraseNode_writable (n : Node) : (eraseNode n).writable = n.writable := rfl

@[simp] theorem eraseNode_children (n : Node) : (eraseNode n).children = n.children := rfl

@[simp] theorem eraseNode_parent (n : Node) : (eraseNode n).parent = n.parent := rfl

@[simp] theorem eraseNode_text (n : Node) : (eraseNode n).text = n.text := rfl

@[simp] theorem eraseNode_last (n : Node) : Parser.last (eraseNode n) = Parser.last n := rfl

@[simp] theorem erase_nodes (p : Parser) : (erase p).nodes = p.nodes.map eraseNode := rfl

@[simp] theorem erase_current (p : Parser) : (erase p).current = p.current := rfl

@[simp] theorem erase_linkList (p : Parser) : (erase p).linkList = p.linkList := rfl

@[simp] theorem erase_treeFuel (p : Parser) : (erase p).treeFuel = p.treeFuel := by
  simp [Parser.treeFuel]

theorem erase_getElem? (p : Parser) (i : Nat) :
    (erase p).nodes[i]? = (p.nodes[i]?).map eraseNode := by
  simp [List.getElem?_map]

theorem erase_get (p : Parser) (i : Nat) : (erase p).get i = (p.get i).map eraseNode := by
  unfold Parser.get
  rw [erase_getElem?]
  cases p.nodes[i]? <;> rfl

theorem erase_put (p : Parser) (i : Nat) (n : Node) :
    erase (p.put i n) = (erase p).put i (eraseNode n) := by
  simp [erase, Parser.put, List.map_set]

theorem erase_mk_current (p : Parser) (q : Nat) :
    erase { p with current := q } = { erase p with current := q } := rfl

theorem erase_disable (p : Parser) (i : Nat) : (erase p).disable i = (p.disable i).map erase := by
  unfold Parser.disable Parser.update
  rw [erase_get]
  cases h : p.get i with
  | error e => rfl
  | ok n => simp [Except.map, erase_put, eraseNode]

theorem erase_removeLast (p : Parser) (i : Nat) :
    (erase p).removeLast i = (p.removeLast i).map erase := by
  unfold Parser.removeLast
  rw [erase_get]
  cases h : p.get i with
  | error e => rfl
  | ok n =>
    cases hc : n.children with
    | nil => simp [Except.map, hc]; rfl
    | cons a r => simp [Except.map, hc, erase_put, eraseNode]

theorem erase_define (p : Parser) (a b c : QString) : erase (p.define a b c) = (erase p).define a b c := rfl

theorem erase_put_text (p : Parser) (i : Nat) (n : Node) (t : QString) :
    (erase p).put i { eraseNode n with text := t } = erase (p.put i { n with text := t }) := by
  rw [erase_put]; rfl

theorem map_bind_erase {α : Type} (x : M α) (f : α → M Parser) :
    (x >>= f).map erase = x >>= fun a => (f a).map erase := by
  cases x <;> rfl

theorem erase_then_disable (x : M Parser) (i : Nat) :
    ((x.map erase) >>= fun p3 => p3.disable i) = (x >>= fun p3 => p3.disable i).map erase := by
  cases x with
  | error e => rfl
  | ok p3 => exact erase_disable p3 i

theorem erase_paragraphClose : ∀ (fuel : Nat) (p : Parser) (i : Nat),
    Parser.paragraphClose fuel (erase p) i = (Parser.paragraphClose fuel p i).map erase := by
  intro fuel
  induction fuel with
  | zero => intro p i; rfl
  | succ fuel ih =>
    intro p i
    simp only [Parser.paragraphClose]
    rw [erase_get]
    cases hg : p.get i with
    | error e => rfl
    | ok n =>
      simp only [Except.map, ok_bind, eraseNode_text, eraseNode_parent]
      cases h1 : TextHandler.findLinkLabelNext n.text 0 (ch ':') with
      | error e => rfl
      | ok r1 =>
        simp only [ok_bind]
        split
        · exact erase_disable p i
        · cases h2 : TextHandler.findLinkReference n.text r1.2 with
          | error e => rfl
          | ok r2 =>
            simp only [ok_bind]
            split
            · exact erase_disable p i
            · cases h3 : TextHandler.findLinkTitle n.text r2.2 with
              | error e => rfl
              | ok r3 =>
                simp only [ok_bind]
                split
                · exact erase_disable p i
                · have e : ((erase p).define r1.1 r2.1 r3.1).put i
                      { eraseNode n with text := TextHandler.rest n.text r3.2.1 } =
                      erase ((p.define r1.1 r2.1 r3.1).put i
                        { n with text := TextHandler.rest n.text r3.2.1 }) := by
                    rw [erase_put]; rfl
                  have e' : ((erase p).define r1.1 r2.1 r3.1).put i
                      { kind := (eraseNode n).kind, parent := n.parent,
                        writable := (eraseNode n).writable, children := (eraseNode n).children,
                        depth := (eraseNode n).depth, indent := (eraseNode n).indent,
                        hasBlankline := (eraseNode n).hasBlankline,
                        baseIndent := (eraseNode n).baseIndent, bullet := (eraseNode n).bullet,
                        separator := (eraseNode n).separator, markerLength := (eraseNode n).markerLength,
                        start := (eraseNode n).start, text := TextHandler.rest n.text r3.2.1,
                        pending := (eraseNode n).pending, fence := (eraseNode n).fence,
                        count := (eraseNode n).count, info := (eraseNode n).info,
                        fenceIndent := (eraseNode n).fenceIndent, level := (eraseNode n).level,
                        closeTag := (eraseNode n).closeTag } =
                      erase ((p.define r1.1 r2.1 r3.1).put i
                        { n with text := TextHandler.rest n.text r3.2.1 }) := e
                  rw [e']
                  split
                  · cases n.parent with
                    | none => rfl
                    | some q =>
                      simp only [erase_removeLast]
                      exact erase_then_disable _ i
                  · rw [ih]
                    exact erase_then_disable _ i

theorem erase_close : ∀ (fuel : Nat) (p : Parser) (i : Nat),
    Parser.close fuel (erase p) i = (Parser.close fuel p i).map erase := by
  intro fuel
  induction fuel with
  | zero => intro p i; rfl
  | succ fuel ih =>
    intro p i
    simp only [Parser.close]
    rw [erase_get]
    cases hg : p.get i with
    | error e => rfl
    | ok n =>
      simp only [Except.map, ok_bind, eraseNode_text, eraseNode_kind, eraseNode_writable, eraseNode_last]
      split
      · split
        · rfl
        · exact erase_paragraphClose _ p i
      · split
        · cases Parser.last n with
          | none => exact erase_disable p i
          | some l =>
            simp only []
            rw [ih]
            exact erase_then_disable _ i
        · exact erase_disable p i

theorem erase_unwind (p : Parser) :
    (erase p).unwind = (p.unwind).map fun r => (r.1, erase r.2) := by
  unfold Parser.unwind
  rw [erase_get, erase_treeFuel, erase_current, erase_close]
  cases hg : p.get p.current with
  | error e => rfl
  | ok n =>
    simp only [Except.map, ok_bind, eraseNode_parent]
    cases n.parent with
    | none => rfl
    | some q =>
      simp only []
      cases Parser.close p.treeFuel p p.current with
      | error e => rfl
      | ok p1 => rfl

theorem erase_unwindAll : ∀ (fuel : Nat) (p : Parser),
    Parser.unwindAll fuel (erase p) = (Parser.unwindAll fuel p).map erase := by
  intro fuel
  induction fuel with
  | zero => intro p; rfl
  | succ fuel ih =>
    intro p
    simp only [Parser.unwindAll]
    rw [erase_unwind]
    cases p.unwind with
    | error e => rfl
    | ok r =>
      obtain ⟨b, p1⟩ := r
      simp only [Except.map, ok_bind]
      cases b with
      | false => rfl
      | true => simpa using ih p1

theorem erase_hasBlankline : ∀ (fuel : Nat) (p : Parser) (i : Nat),
    Parser.hasBlankline (erase p) fuel i = Parser.hasBlankline p fuel i := by
  intro fuel
  induction fuel with
  | zero => intro p i; rfl
  | succ fuel ih =>
    intro p i
    simp only [Parser.hasBlankline]
    rw [erase_get]
    cases hg : p.get i with
    | error e => rfl
    | ok n =>
      simp only [Except.map, ok_bind, eraseNode_kind, eraseNode_parent]
      split
      · rename_i hl
        have : n.kind.isItem = false := by
          cases hk : n.kind <;> simp [hk, Kind.isList, Kind.isItem] at hl ⊢
        simp [eraseNode, this]
      · split
        · cases n.parent with
          | none => rfl
          | some q => exact ih p q
        · rfl

theorem erase_html : ∀ (fuel : Nat) (p : Parser) (i : Nat),
    Parser.html (erase p) fuel i = Parser.html p fuel i := by
  intro fuel
  induction fuel with
  | zero => intro p i; rfl
  | succ fuel ih =>
    intro p i
    have hf : Parser.html (erase p) fuel = Parser.html p fuel := funext (ih p)
    simp only [Parser.html]
    rw [erase_get]
    cases hg : p.get i with
    | error e => rfl
    | ok n =>
      simp only [Except.map, ok_bind, eraseNode_kind, eraseNode_parent, eraseNode_children, eraseNode_text,
        hf, erase_hasBlankline, erase_treeFuel, erase_linkList]
      cases hk : n.kind <;> simp only [] <;> rfl

theorem erase_finish (p : Parser) :
    ((erase p).finish).map (fun r => r.1) = (p.finish).map (fun r => r.1) := by
  unfold Parser.finish
  rw [erase_treeFuel, erase_unwindAll]
  cases Parser.unwindAll p.treeFuel p with
  | error e => rfl
  | ok p1 =>
    simp only [Except.map, ok_bind, erase_treeFuel, erase_close]
    cases Parser.close p1.treeFuel p1 0 with
    | error e => rfl
    | ok p2 =>
      simp only [ok_bind, erase_treeFuel, erase_html]
      cases Parser.html p2 p2.treeFuel 0 <;> rfl

theorem closedSub_mono (p : Parser) : ∀ (f x : Nat), closedSub p f x = true → closedSub p (f + 1) x = true := by
  intro f
  induction f with
  | zero => intro x h; simp [closedSub] at h
  | succ f ih =>
    intro x h
    rw [closedSub] at h ⊢
    cases hn : p.nodes[x]? with
    | none => simp [hn] at h
    | some n =>
      simp only [hn] at h ⊢
      cases hl : Parser.last n with
      | none => simpa [hl] using h
      | some l =>
        simp only [hl, Bool.and_eq_true] at h ⊢
        refine ⟨h.1, ?_⟩
        have h2 := h.2
        split at h2
        · simp [*]
        · split at h2
          · simp only [Bool.and_eq_true] at h2
            simp [*, ih l h2.2]
          · simp [*]

theorem closedSub_le (p : Parser) (x : Nat) : ∀ (f g : Nat), f ≤ g → closedSub p f x = true →
    closedSub p g x = true := by
  intro f g hfg h
  induction hfg with
  | refl => exact h
  | step _ ih => exact closedSub_mono p _ x ih

theorem put_same (p : Parser) (i : Nat) (n : Node) (hn : p.nodes[i]? = some n) : p.put i n = p := by
  have hi : i < p.nodes.length := by
    rcases Nat.lt_or_ge i p.nodes.length with h | h
    · exact h
    · rw [List.getElem?_eq_none h] at hn; cases hn
  have : p.nodes.set i n = p.nodes := by
    apply List.ext_getElem? 
    intro j
    by_cases hj : j = i
    · subst hj; simp [hi, hn]
    · simp [List.getElem?_set, Ne.symm hj]
  simp [Parser.put, this]

theorem disable_closed (p : Parser) (i : Nat) (n : Node) (hn : p.nodes[i]? = some n)
    (hw : n.writable = false) : p.disable i = .ok p := by
  have e : ({ n with writable := false } : Node) = n := by
    cases n; simp_all
  simp [Parser.disable, Parser.update, get_of_getElem? hn, e, put_same p i n hn]

theorem closedSub_close (p : Parser) : ∀ (f x : Nat), closedSub p f x = true →
    Parser.close f p x = .ok p := by
  intro f
  induction f with
  | zero => intro x h; simp [closedSub] at h
  | succ f ih =>
    intro x h
    rw [closedSub] at h
    cases hn : p.nodes[x]? with
    | none => simp [hn] at h
    | some n =>
      simp only [hn, Bool.and_eq_true, Bool.not_eq_true'] at h
      obtain ⟨hw, h2⟩ := h
      rw [Parser.close]
      simp only [get_of_getElem? hn, ok_bind]
      by_cases hk : n.kind = Kind.paragraph
      · simp [hk, hw]
      · have hk' : (n.kind == Kind.paragraph) = false := by simpa using hk
        simp only [hk', Bool.false_eq_true, if_false] at h2 ⊢
        by_cases hc : n.kind.isContainer = true
        · simp only [hc, if_true] at h2 ⊢
          cases hl : Parser.last n with
          | none => simpa using disable_closed p x n hn hw
          | some l =>
            simp only [hl, Bool.and_eq_true] at h2 ⊢
            rw [ih l h2.2]
            simpa using disable_closed p x n hn hw
        · simp only [hc, Bool.false_eq_true, if_false]
          exact disable_closed p x n hn hw

theorem lt_of_getElem? {p : Parser} {i : Nat} {n : Node} (hn : p.nodes[i]? = some n) :
    i < p.nodes.length := by
  rcases Nat.lt_or_ge i p.nodes.length with h | h
  · exact h
  · rw [List.getElem?_eq_none h] at hn; cases hn

theorem put_getElem?_ne (p : Parser) (i j : Nat) (n : Node) (h : j ≠ i) :
    (p.put i n).nodes[j]? = p.nodes[j]? := by
  simp [Parser.put, List.getElem?_set, Ne.symm h]

theorem put_getElem?_eq (p : Parser) (i : Nat) (n m : Node) (hn : p.nodes[i]? = some m) :
    (p.put i n).nodes[i]? = some n := by
  simp [Parser.put, List.getElem?_set, lt_of_getElem? hn]

theorem put_length (p : Parser) (i : Nat) (n : Node) : (p.put i n).nodes.length = p.nodes.length := by
  simp [Parser.put]

theorem closedSub_frame (p p1 : Parser) (c : Nat)
    (hfr : ∀ (j : Nat) (n : Node), c < j → p.nodes[j]? = some n → n.writable = false →
      ∃ n1, p1.nodes[j]? = some n1 ∧ n1.writable = false ∧ n1.kind = n.kind ∧ n1.children = n.children) :
    ∀ (f x : Nat), c < x → closedSub p f x = true → closedSub p1 f x = true := by
  intro f
  induction f with
  | zero => intro x _ h; simp [closedSub] at h
  | succ f ih =>
    intro x hx h
    rw [closedSub] at h ⊢
    cases hn : p.nodes[x]? with
    | none => simp [hn] at h
    | some n =>
      simp only [hn, Bool.and_eq_true, Bool.not_eq_true'] at h
      obtain ⟨hw, h2⟩ := h
      obtain ⟨n1, h1, hw1, hk1, hc1⟩ := hfr x n hx hn hw
      have hl1 : Parser.last n1 = Parser.last n := by simp [Parser.last, hc1]
      simp only [h1, hw1, hk1, hl1, Bool.not_false, Bool.true_and]
      split at h2
      · simp [*]
      · split at h2
        · cases hl : Parser.last n with
          | none => simp [*]
          | some l =>
            simp only [hl, Bool.and_eq_true, decide_eq_true_eq] at h2
            simp [*, ih l (lt_trans hx h2.1) h2.2]
        · simp [*]

theorem disable_effect (p p1 : Parser) (i : Nat) (n : Node) (hn : p.nodes[i]? = some n)
    (h : p.disable i = .ok p1) : p1 = p.put i { n with writable := false } := by
  simp [Parser.disable, Parser.update, get_of_getElem? hn] at h
  exact h.symm

theorem paragraphClose_effect : ∀ (fuel : Nat) (p p1 : Parser) (l c : Nat) (ln cn : Node),
    p.nodes[l]? = some ln → ln.parent = some c → c ≠ l → p.nodes[c]? = some cn →
    Parser.paragraphClose fuel p l = .ok p1 →
    p1.nodes.length = p.nodes.length ∧ p1.current = p.current ∧
      (∀ j, j ≠ l → j ≠ c → p1.nodes[j]? = p.nodes[j]?) ∧
      (∃ t, p1.nodes[l]? = some (closedPara ln t)) ∧
      (p1.nodes[c]? = some cn ∨ p1.nodes[c]? = some (withoutLast cn)) := by
  intro fuel
  induction fuel with
  | zero => intro p p1 l c ln cn _ _ _ _ h; cases h
  | succ fuel ih =>
    intro p p1 l c ln cn hl hp hcl hc h
    have hdis : ∀ p1, p.disable l = .ok p1 →
        p1.nodes.length = p.nodes.length ∧ p1.current = p.current ∧
        (∀ j, j ≠ l → j ≠ c → p1.nodes[j]? = p.nodes[j]?) ∧
        (∃ t, p1.nodes[l]? = some (closedPara ln t)) ∧
        (p1.nodes[c]? = some cn ∨ p1.nodes[c]? = some (withoutLast cn)) := by
      intro p1 hd
      rw [disable_effect p p1 l ln hl hd]
      refine ⟨put_length _ _ _, rfl, fun j hj _ => put_getElem?_ne _ _ _ _ hj,
        ⟨ln.text, put_getElem?_eq _ _ _ _ hl⟩, Or.inl ?_⟩
      rw [put_getElem?_ne _ _ _ _ hcl]; exact hc
    rw [Parser.paragraphClose] at h
    simp only [get_of_getElem? hl, ok_bind, ch_colon] at h
    cases h1 : TextHandler.findLinkLabelNext ln.text 0 58 with
    | error e => simp [h1] at h
    | ok r1 =>
      simp only [h1, ok_bind] at h
      split at h
      · exact hdis p1 h
      · cases h2 : TextHandler.findLinkReference ln.text r1.2 with
        | error e => simp [h2] at h
        | ok r2 =>
          simp only [h2, ok_bind] at h
          split at h
          · exact hdis p1 h
          · cases h3 : TextHandler.findLinkTitle ln.text r2.2 with
            | error e => simp [h3] at h
            | ok r3 =>
              simp only [h3, ok_bind] at h
              split at h
              · exact hdis p1 h
              · have hp2l : ((p.define r1.1 r2.1 r3.1).put l
                    { ln with text := TextHandler.rest ln.text r3.2.1 }).nodes[l]? =
                    some { ln with text := TextHandler.rest ln.text r3.2.1 } :=
                  put_getElem?_eq (p.define r1.1 r2.1 r3.1) l _ ln hl
                have hp2c : ((p.define r1.1 r2.1 r3.1).put l
                    { ln with text := TextHandler.rest ln.text r3.2.1 }).nodes[c]? = some cn := by
                  rw [put_getElem?_ne _ _ _ _ hcl]; exact hc
                have hp2j : ∀ j, j ≠ l → ((p.define r1.1 r2.1 r3.1).put l
                    { ln with text := TextHandler.rest ln.text r3.2.1 }).nodes[j]? = p.nodes[j]? :=
                  fun j hj => put_getElem?_ne (p.define r1.1 r2.1 r3.1) l j _ hj
                have hp2len : ((p.define r1.1 r2.1 r3.1).put l
                    { ln with text := TextHandler.rest ln.text r3.2.1 }).nodes.length = p.nodes.length :=
                  put_length _ _ _
                have hp2cur : ((p.define r1.1 r2.1 r3.1).put l
                    { ln with text := TextHandler.rest ln.text r3.2.1 }).current = p.current := rfl
                generalize (p.define r1.1 r2.1 r3.1).put l
                    { ln with text := TextHandler.rest ln.text r3.2.1 } = p2 at h hp2l hp2c hp2j hp2len hp2cur
                split at h
                · rw [hp] at h
                  simp only [Parser.removeLast, get_of_getElem? hp2c, ok_bind] at h
                  split at h
                  · cases h
                  · simp only [pure_eq_ok, ok_bind] at h
                    have hl3 : (p2.put c { cn with children := cn.children.dropLast }).nodes[l]? =
                        some { ln with text := TextHandler.rest ln.text r3.2.1 } := by
                      rw [put_getElem?_ne _ _ _ _ (Ne.symm hcl)]; exact hp2l
                    rw [disable_effect _ p1 l _ hl3 h]
                    refine ⟨by rw [put_length, put_length, hp2len], hp2cur, ?_, ⟨_, put_getElem?_eq _ _ _ _ hl3⟩,
                      Or.inr ?_⟩
                    · intro j hj hjc
                      rw [put_getElem?_ne _ _ _ _ hj, put_getElem?_ne _ _ _ _ hjc, hp2j j hj]
                    · rw [put_getElem?_ne _ _ _ _ hcl]
                      exact put_getElem?_eq _ _ _ _ hp2c
                · cases hpc : Parser.paragraphClose fuel p2 l with
                  | error e => simp [hpc] at h
                  | ok p3 =>
                    simp only [hpc, ok_bind] at h
                    obtain ⟨e1, e2, e3, ⟨t, e4⟩, e5⟩ := ih p2 p3 l c _ cn hp2l hp hcl hp2c hpc
                    rw [disable_effect _ p1 l _ e4 h]
                    refine ⟨by rw [put_length, e1, hp2len], by rw [← hp2cur, ← e2]; rfl, ?_,
                      ⟨t, put_getElem?_eq _ _ _ _ e4⟩, ?_⟩
                    · intro j hj hjc
                      rw [put_getElem?_ne _ _ _ _ hj, e3 j hj hjc, hp2j j hj]
                    · rw [put_getElem?_ne _ _ _ _ hcl]
                      exact e5

theorem finish_fst (p : Parser) : (p.finish >>= fun r => Except.ok r.1) = finWith p.treeFuel p := by
  unfold Parser.finish finWith
  cases Parser.unwindAll p.treeFuel p with
  | error e => rfl
  | ok p1 =>
    simp only [ok_bind]
    cases Parser.close p1.treeFuel p1 0 with
    | error e => rfl
    | ok p2 =>
      simp only [ok_bind]
      cases Parser.html p2 p2.treeFuel 0 <;> rfl

theorem closeHtml_erase (p : Parser) :
    (Parser.close (erase p).treeFuel (erase p) 0 >>= fun p2 => Parser.html p2 p2.treeFuel 0) =
      (Parser.close p.treeFuel p 0 >>= fun p2 => Parser.html p2 p2.treeFuel 0) := by
  rw [erase_treeFuel, erase_close]
  cases Parser.close p.treeFuel p 0 with
  | error e => rfl
  | ok p2 => simp only [Except.map, ok_bind, erase_treeFuel, erase_html]

theorem finWith_erase (f : Nat) (p : Parser) : finWith f (erase p) = finWith f p := by
  unfold finWith
  rw [erase_unwindAll]
  cases Parser.unwindAll f p with
  | error e => rfl
  | ok p1 =>
    simp only [Except.map, ok_bind]
    exact closeHtml_erase p1

theorem finWith_congr (f : Nat) (p p1 : Parser) (h : erase p1 = erase p) : finWith f p1 = finWith f p := by
  rw [← finWith_erase f p1, h, finWith_erase]

theorem closeHtml_congr (p p1 : Parser) (h : erase p1 = erase p) :
    (Parser.close p1.treeFuel p1 0 >>= fun p2 => Parser.html p2 p2.treeFuel 0) =
      (Parser.close p.treeFuel p 0 >>= fun p2 => Parser.html p2 p2.treeFuel 0) := by
  rw [← closeHtml_erase p1, h, closeHtml_erase]

theorem unwindAll_mono : ∀ (f : Nat) (p r : Parser), Parser.unwindAll f p = .ok r →
    Parser.unwindAll (f + 1) p = .ok r := by
  intro f
  induction f with
  | zero => intro p r h; cases h
  | succ f ih =>
    intro p r h
    rw [Parser.unwindAll] at h ⊢
    cases hu : p.unwind with
    | error e => simp [hu] at h
    | ok x =>
      obtain ⟨b, p1⟩ := x
      simp only [hu, ok_bind] at h ⊢
      cases b with
      | false => exact h
      | true =>
        simp only [if_true] at h ⊢
        exact ih p1 r h

theorem finWith_mono (f : Nat) (p : Parser) (h : QString) (hf : finWith f p = .ok h) :
    finWith (f + 1) p = .ok h := by
  unfold finWith at hf ⊢
  cases hu : Parser.unwindAll f p with
  | error e => simp [hu] at hf
  | ok p1 =>
    rw [unwindAll_mono f p p1 hu]
    simpa [hu] using hf

theorem unwind_eq (p : Parser) (cn : Node) (hc : p.nodes[p.current]? = some cn) :
    p.unwind = match cn.parent with
      | none => .ok (false, p)
      | some q => Parser.close p.treeFuel p p.current >>= fun pc =>
          Except.ok (true, { pc with current := q }) := by
  unfold Parser.unwind
  simp only [get_of_getElem? hc, ok_bind]
  cases cn.parent <;> rfl

theorem finWith_succ (f : Nat) (p : Parser) (cn : Node) (hc : p.nodes[p.current]? = some cn) :
    finWith (f + 1) p = match cn.parent with
      | none => Parser.close p.treeFuel p 0 >>= fun p2 => Parser.html p2 p2.treeFuel 0
      | some q => Parser.close p.treeFuel p p.current >>= fun pc =>
          finWith f { pc with current := q } := by
  unfold finWith
  rw [Parser.unwindAll, unwind_eq p cn hc]
  cases cn.parent with
  | none => rfl
  | some q =>
    simp only []
    cases Parser.close p.treeFuel p p.current with
    | error e => rfl
    | ok pc => rfl

theorem erase_with_current (pc pc1 : Parser) (q : Nat) (h : erase pc1 = erase pc) :
    erase { pc1 with current := q } = erase { pc with current := q } := by
  unfold erase at h ⊢
  injection h with a b c
  simp [a, c]

theorem fin_of_close (p p1 : Parser) (cn cn1 : Node) (f : Nat) (h : QString)
    (hc : p.nodes[p.current]? = some cn) (hcur : p1.current = p.current)
    (hc1 : p1.nodes[p.current]? = some cn1) (hpar : cn1.parent = cn.parent)
    (hroot : cn.parent = none → p.current = 0) (hlen : p1.nodes.length = p.nodes.length)
    (hcl : ∀ pc, Parser.close p.treeFuel p p.current = .ok pc →
      ∃ pc1, Parser.close p.treeFuel p1 p.current = .ok pc1 ∧ erase pc1 = erase pc)
    (hf : finWith (f + 1) p = .ok h) : finWith (f + 1) p1 = .ok h := by
  have hfuel : p1.treeFuel = p.treeFuel := by simp [Parser.treeFuel, hlen]
  rw [finWith_succ f p cn hc] at hf
  rw [finWith_succ f p1 cn1 (by rw [hcur]; exact hc1), hpar, hfuel, hcur]
  cases hp : cn.parent with
  | none =>
    have h0 := hroot hp
    simp only [hp] at hf ⊢
    rw [h0] at hcl
    cases hpc : Parser.close p.treeFuel p 0 with
    | error e => simp [hpc] at hf
    | ok pc =>
      obtain ⟨pc1, e1, e2⟩ := hcl pc hpc
      simp only [hpc, ok_bind] at hf
      simp only [e1, ok_bind]
      rw [← erase_html, ← erase_treeFuel, e2, erase_treeFuel, erase_html]
      exact hf
  | some q =>
    simp only [hp] at hf ⊢
    cases hpc : Parser.close p.treeFuel p p.current with
    | error e => simp [hpc] at hf
    | ok pc =>
      obtain ⟨pc1, e1, e2⟩ := hcl pc hpc
      simp only [hpc, ok_bind] at hf
      simp only [e1, ok_bind]
      rw [finWith_congr f { pc with current := q } { pc1 with current := q }
        (erase_with_current pc pc1 q e2)]
      exact hf

theorem closedSub_erase (p : Parser) : ∀ (f x : Nat), closedSub (erase p) f x = closedSub p f x := by
  intro f
  induction f with
  | zero => intro x; rfl
  | succ f ih =>
    intro x
    rw [closedSub, closedSub, erase_getElem?]
    cases hn : p.nodes[x]? with
    | none => rfl
    | some n =>
      simp only [Option.map_some', eraseNode_writable, eraseNode_kind, eraseNode_last]
      cases Parser.last n with
      | none => rfl
      | some l => simp only [ih l]

theorem closedAt_erase (p : Parser) (x : Nat) : closedAt (erase p) x = closedAt p x := by
  simp [closedAt, closedSub_erase]

theorem openChain_erase (p : Parser) : ∀ (f c : Nat), openChain (erase p) f c = openChain p f c := by
  intro f
  induction f with
  | zero => intro c; rfl
  | succ f ih =>
    intro c
    rw [openChain, openChain, erase_getElem?]
    cases hn : p.nodes[c]? with
    | none => rfl
    | some n =>
      simp only [Option.map_some', eraseNode_kind, eraseNode_parent]
      cases n.parent with
      | none => rfl
      | some q =>
        simp only [ih q, erase_getElem?]
        cases p.nodes[q]? <;> rfl

theorem settled_erase (p : Parser) : settled (erase p) = settled p := by
  unfold settled
  have hl : (erase p).nodes.length = p.nodes.length := by simp
  rw [erase_current, erase_getElem?, hl, openChain_erase]
  cases hn : p.nodes[p.current]? with
  | none => rfl
  | some cn =>
    simp only [Option.map_some', eraseNode_last]
    cases Parser.last cn with
    | none => rfl
    | some l =>
      simp only [lastSettled, erase_getElem?, beforeLastClosed, closedAt_erase, eraseNode_children]
      cases p.nodes[l]? with
      | none => rfl
      | some ln =>
        simp only [Option.map_some', eraseNode_kind, eraseNode_parent, eraseNode_writable]
        cases cn.children.dropLast.getLast? with
        | none => rfl
        | some x =>
          simp only []
          cases p.nodes[x]? <;> rfl

theorem erase_length (p p1 : Parser) (h : erase p1 = erase p) : p1.nodes.length = p.nodes.length := by
  have := congrArg (fun q => q.nodes.length) h
  simpa using this

theorem absorbed_of_erase (p p1 : Parser) (h : QString) (he : erase p1 = erase p)
    (hs : settled p = true) (hf : finWith p.treeFuel p = .ok h) :
    settled p1 = true ∧ finWith p1.treeFuel p1 = .ok h := by
  refine ⟨by rw [← settled_erase, he, settled_erase]; exact hs, ?_⟩
  have : p1.treeFuel = p.treeFuel := by simp [Parser.treeFuel, erase_length p p1 he]
  rw [this, finWith_congr _ p p1 he]
  exact hf

theorem openChain_mono (p : Parser) : ∀ (f c : Nat), openChain p f c = true → openChain p (f + 1) c = true := by
  intro f
  induction f with
  | zero => intro c h; simp [openChain] at h
  | succ f ih =>
    intro c h
    rw [openChain] at h ⊢
    cases hn : p.nodes[c]? with
    | none => simp [hn] at h
    | some n =>
      simp only [hn, Bool.and_eq_true] at h ⊢
      refine ⟨h.1, ?_⟩
      have h2 := h.2
      cases hp : n.parent with
      | none => simpa [hp] using h2
      | some q =>
        simp only [hp, Bool.and_eq_true] at h2 ⊢
        exact ⟨h2.1, ih q h2.2⟩

theorem openChain_below (p p1 : Parser) : ∀ (f c : Nat), (∀ j, j ≤ c → p1.nodes[j]? = p.nodes[j]?) →
    openChain p f c = true → openChain p1 f c = true := by
  intro f
  induction f with
  | zero => intro c _ h; simp [openChain] at h
  | succ f ih =>
    intro c hj h
    rw [openChain] at h ⊢
    rw [hj c (le_refl _)]
    cases hn : p.nodes[c]? with
    | none => simp [hn] at h
    | some n =>
      simp only [hn, Bool.and_eq_true] at h ⊢
      refine ⟨h.1, ?_⟩
      have h2 := h.2
      cases hp : n.parent with
      | none => simpa [hp] using h2
      | some q =>
        simp only [hp, Bool.and_eq_true, decide_eq_true_eq] at h2 ⊢
        have hq : q < c := h2.1.1
        rw [hj q (le_of_lt hq)]
        exact ⟨h2.1, ih q (fun j hjq => hj j (le_trans hjq (le_of_lt hq))) h2.2⟩

theorem openChain_frame (p p1 : Parser) (f c : Nat) (n n1 : Node)
    (hn : p.nodes[c]? = some n) (hn1 : p1.nodes[c]? = some n1) (hk : n1.kind = n.kind)
    (hp : n1.parent = n.parent) (hj : ∀ j, j < c → p1.nodes[j]? = p.nodes[j]?)
    (h : openChain p f c = true) : openChain p1 f c = true := by
  cases f with
  | zero => simp [openChain] at h
  | succ f =>
    rw [openChain] at h ⊢
    simp only [hn, hn1, hk, hp, Bool.and_eq_true] at h ⊢
    refine ⟨h.1, ?_⟩
    have h2 := h.2
    cases hpp : n.parent with
    | none => simpa [hpp] using h2
    | some q =>
      simp only [hpp, Bool.and_eq_true, decide_eq_true_eq] at h2 ⊢
      have hq : q < c := h2.1.1
      rw [hj q hq]
      exact ⟨h2.1, openChain_below p p1 f q (fun j hjq => hj j (lt_of_le_of_lt hjq hq)) h2.2⟩

theorem settled_unpack (p : Parser) (hs : settled p = true) :
    ∃ cn, p.nodes[p.current]? = some cn ∧ openChain p p.nodes.length p.current = true ∧
      (∀ l, Parser.last cn = some l → lastSettled p p.current cn l = true) := by
  unfold settled at hs
  cases hn : p.nodes[p.current]? with
  | none => simp [hn] at hs
  | some cn =>
    simp only [hn, Bool.and_eq_true] at hs
    refine ⟨cn, rfl, hs.1, ?_⟩
    intro l hl
    simpa [hl] using hs.2

theorem settled_pack (p : Parser) (cn : Node) (hn : p.nodes[p.current]? = some cn)
    (hoc : openChain p p.nodes.length p.current = true)
    (hl : ∀ l, Parser.last cn = some l → lastSettled p p.current cn l = true) : settled p = true := by
  unfold settled
  simp only [hn, hoc, Bool.true_and]
  cases h : Parser.last cn with
  | none => rfl
  | some l => exact hl l h

theorem openChain_unpack (p : Parser) (f c : Nat) (cn : Node) (hn : p.nodes[c]? = some cn)
    (h : openChain p f c = true) :
    cn.kind.isContainer = true ∧ (cn.parent = none → c = 0) ∧
      (∀ q, cn.parent = some q → q < c ∧ (∃ qn, p.nodes[q]? = some qn ∧ Parser.last qn = some c) ∧
        openChain p f q = true) := by
  cases f with
  | zero => simp [openChain] at h
  | succ f =>
    rw [openChain] at h
    simp only [hn, Bool.and_eq_true] at h
    refine ⟨h.1, ?_, ?_⟩
    · intro hp
      simpa [hp] using h.2
    · intro q hp
      have h2 := h.2
      simp only [hp, Bool.and_eq_true, decide_eq_true_eq] at h2
      refine ⟨h2.1.1, ?_, openChain_mono p f q h2.2⟩
      cases hq : p.nodes[q]? with
      | none => simp [hq] at h2
      | some qn =>
        refine ⟨qn, rfl, ?_⟩
        have := h2.1.2
        simpa [hq] using this

theorem lastSettled_unpack (p : Parser) (c l : Nat) (cn : Node) (h : lastSettled p c cn l = true) :
    ∃ ln, p.nodes[l]? = some ln ∧ c < l ∧
      ((ln.kind.isContainer = true ∧ closedAt p l = true) ∨
       (ln.kind.isContainer = false ∧ ln.parent = some c ∧ cn.kind.isList = false ∧
         (ln.writable = false ∨
          (ln.writable = true ∧ (quietKind ln.kind = true ∨ cn.kind = Kind.blockQuote) ∧
            (ln.kind = Kind.paragraph → beforeLastClosed p c cn = true))))) := by
  unfold lastSettled at h
  cases hn : p.nodes[l]? with
  | none => simp [hn] at h
  | some ln =>
    simp only [hn, Bool.and_eq_true, decide_eq_true_eq] at h
    refine ⟨ln, rfl, h.1, ?_⟩
    have h2 := h.2
    by_cases hk : ln.kind.isContainer = true
    · left
      simp only [hk, if_true] at h2
      exact ⟨hk, h2⟩
    · right
      have hk' : ln.kind.isContainer = false := by simpa using hk
      simp only [hk', Bool.false_eq_true, if_false, Bool.and_eq_true, beq_iff_eq, Bool.not_eq_true'] at h2
      refine ⟨hk', h2.1.1, h2.1.2, ?_⟩
      by_cases hw : ln.writable = true
      · right
        have h3 := h2.2
        simp only [hw, if_true, Bool.and_eq_true, Bool.or_eq_true, beq_iff_eq, bne_iff_ne, ne_eq] at h3
        refine ⟨hw, h3.1, ?_⟩
        intro hp
        rcases h3.2 with h4 | h4
        · exact absurd hp h4
        · exact h4
      · left
        simpa using hw

theorem closedSub_writable (p : Parser) (f x : Nat) (h : closedSub p f x = true) :
    ∃ n, p.nodes[x]? = some n ∧ n.writable = false := by
  cases f with
  | zero => simp [closedSub] at h
  | succ f =>
    rw [closedSub] at h
    cases hn : p.nodes[x]? with
    | none => simp [hn] at h
    | some n =>
      simp only [hn, Bool.and_eq_true, Bool.not_eq_true'] at h
      exact ⟨n, rfl, h.1⟩

theorem closedAt_leaf (p : Parser) (x : Nat) (n : Node) (hn : p.nodes[x]? = some n)
    (hw : n.writable = false) (hk : n.kind.isContainer = false) : closedAt p x = true := by
  have hx := lt_of_getElem? hn
  obtain ⟨f, hf⟩ : ∃ f, p.nodes.length - x = f + 1 := ⟨p.nodes.length - x - 1, by omega⟩
  unfold closedAt
  rw [hf, closedSub]
  simp only [hn, hw, hk, Bool.not_false, Bool.true_and, Bool.false_eq_true, if_false]
  split <;> rfl

theorem closedAt_close (p : Parser) (x g : Nat) (h : closedAt p x = true) (hg : p.nodes.length ≤ g) :
    Parser.close g p x = .ok p :=
  closedSub_close p g x (closedSub_le p x _ g (by omega) h)

theorem close_leaf (p : Parser) (l g : Nat) (ln : Node) (hl : p.nodes[l]? = some ln)
    (hk : ln.kind.isContainer = false) :
    Parser.close (g + 1) p l =
      if ln.kind = Kind.paragraph then
        (if ln.writable = false then .ok p else Parser.paragraphClose (ln.text.length + 1) p l)
      else p.disable l := by
  rw [Parser.close]
  simp only [get_of_getElem? hl, ok_bind, hk]
  by_cases hp : ln.kind = Kind.paragraph
  · simp [hp]
  · simp [hp]

theorem lastSettled_closed_leaf (p : Parser) (c l : Nat) (cn ln : Node) (hl : p.nodes[l]? = some ln)
    (hcl : c < l) (hk : ln.kind.isContainer = false) (hp : ln.parent = some c)
    (hlist : cn.kind.isList = false) (hw : ln.writable = false) : lastSettled p c cn l = true := by
  unfold lastSettled
  simp [hl, hcl, hk, hp, hlist, hw]

theorem close_last (p pl : Parser) (c l g : Nat) (cn : Node)
    (hc : p.nodes[c]? = some cn) (hlast : Parser.last cn = some l)
    (hLS : lastSettled p c cn l = true) (hg : p.nodes.length ≤ g)
    (h : Parser.close g p l = .ok pl) :
    (∀ g1, p.nodes.length ≤ g1 → Parser.close g1 p l = .ok pl) ∧
    pl.nodes.length = p.nodes.length ∧ pl.current = p.current ∧
      (∀ j, j < c → pl.nodes[j]? = p.nodes[j]?) ∧
      (∃ cn1, pl.nodes[c]? = some cn1 ∧ cn1.kind = cn.kind ∧ cn1.parent = cn.parent ∧
        (∀ x, Parser.last cn1 = some x → lastSettled pl c cn1 x = true ∧ closedAt pl x = true)) := by
  obtain ⟨ln, hl, hcl, hcase⟩ := lastSettled_unpack p c l cn hLS
  have hlen := lt_of_getElem? hl
  have hsame : ∀ x, Parser.last cn = some x → x = l := by
    intro x hx; rw [hlast] at hx; cases hx; rfl
  rcases hcase with ⟨hk, hcA⟩ | ⟨hk, hpar, hlist, hw⟩
  · -- a closed container
    have e : ∀ g1, p.nodes.length ≤ g1 → Parser.close g1 p l = .ok p := fun g1 h1 => closedAt_close p l g1 hcA h1
    rw [e g hg] at h
    cases h
    refine ⟨e, rfl, rfl, fun j _ => rfl, cn, hc, rfl, rfl, ?_⟩
    intro x hx
    rw [hsame x hx]
    exact ⟨hLS, hcA⟩
  · obtain ⟨g0, rfl⟩ : ∃ g0, g = g0 + 1 := ⟨g - 1, by omega⟩
    rw [close_leaf p l g0 ln hl hk] at h
    have efuel : ∀ g1, p.nodes.length ≤ g1 → Parser.close g1 p l = Parser.close (g0 + 1) p l := by
      intro g1 h1
      obtain ⟨g2, rfl⟩ : ∃ g2, g1 = g2 + 1 := ⟨g1 - 1, by omega⟩
      rw [close_leaf p l g2 ln hl hk, close_leaf p l g0 ln hl hk]
    have efuel' : ∀ g1, p.nodes.length ≤ g1 → Parser.close g1 p l = .ok pl := by
      intro g1 h1
      rw [efuel g1 h1, close_leaf p l g0 ln hl hk]
      exact h
    refine ⟨efuel', ?_⟩
    rcases hw with hw | ⟨hw, hq, hbefore⟩
    · -- a closed leaf
      have e : pl = p := by
        by_cases hp : ln.kind = Kind.paragraph
        · simp [hp, hw] at h
          exact h.symm
        · simp only [hp, if_false] at h
          rw [disable_closed p l ln hl hw] at h
          cases h; rfl
      subst e
      refine ⟨rfl, rfl, fun j _ => rfl, cn, hc, rfl, rfl, ?_⟩
      intro x hx
      rw [hsame x hx]
      exact ⟨hLS, closedAt_leaf pl l ln hl hw hk⟩
    · by_cases hp : ln.kind = Kind.paragraph
      · -- an open paragraph
        simp only [hp, if_true, hw, Bool.true_eq_false, if_false] at h
        obtain ⟨e1, e2, e3, ⟨t, e4⟩, e5⟩ :=
          paragraphClose_effect _ p pl l c ln cn hl hpar (Nat.ne_of_lt hcl) hc h
        have hl1 : closedAt pl l = true :=
          closedAt_leaf pl l _ e4 rfl (by simpa [closedPara] using hk)
        have hls1 : ∀ cn1 : Node, cn1.kind = cn.kind → lastSettled pl c cn1 l = true := fun cn1 hk1 =>
          lastSettled_closed_leaf pl c l cn1 _ e4 hcl (by simpa [closedPara] using hk)
            (by simpa [closedPara] using hpar) (by rw [hk1]; exact hlist) rfl
        refine ⟨e1, e2, fun j hj => e3 j (by omega) (by omega), ?_⟩
        rcases e5 with e5 | e5
        · refine ⟨cn, e5, rfl, rfl, ?_⟩
          intro x hx
          rw [hsame x hx]
          exact ⟨hls1 cn rfl, hl1⟩
        · refine ⟨withoutLast cn, e5, rfl, rfl, ?_⟩
          intro x hx
          have hb := hbefore hp
          unfold beforeLastClosed at hb
          have hx' : cn.children.dropLast.getLast? = some x := hx
          simp only [hx', Bool.and_eq_true, decide_eq_true_eq] at hb
          obtain ⟨⟨hcx, hxc⟩, hxn⟩ := hb
          obtain ⟨xn, hxn1, hxw⟩ := closedSub_writable p _ x hxc
          have hxl : x ≠ l := by
            intro hxl
            rw [hxl, hl] at hxn1
            cases hxn1
            rw [hw] at hxw
            cases hxw
          have hpx : pl.nodes[x]? = some xn := by
            rw [e3 x hxl (by omega)]; exact hxn1
          have hfr : closedAt pl x = true := by
            unfold closedAt at hxc ⊢
            rw [e1]
            refine closedSub_frame p pl c ?_ _ x hcx hxc
            intro j n hj hn hnw
            have hjl : j ≠ l := by
              intro hjl
              rw [hjl, hl] at hn
              cases hn
              rw [hw] at hnw
              cases hnw
            exact ⟨n, by rw [e3 j hjl (by omega)]; exact hn, hnw, rfl, rfl⟩
          refine ⟨?_, hfr⟩
          unfold lastSettled
          simp only [hpx, hcx, decide_True, Bool.true_and]
          by_cases hxk : xn.kind.isContainer = true
          · simp [hxk, hfr]
          · have hxk' : xn.kind.isContainer = false := by simpa using hxk
            simp only [hxn1, hxk', Bool.false_or, beq_iff_eq] at hxn
            simp [hxk', hxn, hxw, withoutLast, hlist]
      · -- an open leaf block other than a paragraph
        simp only [hp, if_false] at h
        have e := disable_effect p pl l ln hl h
        subst e
        have e4 : (p.put l { ln with writable := false }).nodes[l]? = some { ln with writable := false } :=
          put_getElem?_eq p l _ ln hl
        refine ⟨put_length _ _ _, rfl, fun j hj => put_getElem?_ne _ _ _ _ (by omega), cn,
          by rw [put_getElem?_ne _ _ _ _ (by omega)]; exact hc, rfl, rfl, ?_⟩
        intro x hx
        rw [hsame x hx]
        exact ⟨lastSettled_closed_leaf _ c l cn _ e4 hcl hk hpar hlist rfl,
          closedAt_leaf _ l _ e4 rfl hk⟩

theorem container_not_paragraph {k : Kind} (h : k.isContainer = true) : (k == Kind.paragraph) = false := by
  cases k <;> simp [Kind.isContainer] at h ⊢

theorem close_container (p : Parser) (c g : Nat) (cn : Node) (hc : p.nodes[c]? = some cn)
    (hk : cn.kind.isContainer = true) :
    Parser.close (g + 1) p c =
      match Parser.last cn with
      | none => p.disable c
      | some l => Parser.close g p l >>= fun p1 => p1.disable c := by
  rw [Parser.close]
  simp only [get_of_getElem? hc, ok_bind, container_not_paragraph hk, hk, Bool.false_eq_true, if_false,
    if_true]
  try (cases Parser.last cn <;> rfl)

theorem close_last_absorbed (p p1 : Parser) (cn : Node) (l : Nat) (h : QString)
    (hs : settled p = true) (hc : p.nodes[p.current]? = some cn) (hlast : Parser.last cn = some l)
    (hcl : Parser.close p.treeFuel p l = .ok p1) (hf : finWith p.treeFuel p = .ok h) :
    settled p1 = true ∧ finWith p1.treeFuel p1 = .ok h := by
  obtain ⟨cn', hc', hoc, hLS⟩ := settled_unpack p hs
  rw [hc] at hc'
  cases hc'
  obtain ⟨hk, hroot, -⟩ := openChain_unpack p _ _ cn hc hoc
  obtain ⟨efuel, e1, e2, e3, cn1, hc1, hk1, hp1, hP⟩ :=
    close_last p p1 p.current l p.treeFuel cn hc hlast (hLS l hlast) (by simp [Parser.treeFuel]) hcl
  have hfuel : p1.treeFuel = p.treeFuel := by simp [Parser.treeFuel, e1]
  refine ⟨?_, ?_⟩
  · refine settled_pack p1 cn1 (by rw [e2]; exact hc1) ?_ ?_
    · rw [e1, e2]
      exact openChain_frame p p1 _ _ cn cn1 hc hc1 hk1 hp1 e3 hoc
    · intro x hx
      rw [e2]
      exact (hP x hx).1
  · rw [hfuel]
    have hF : p.treeFuel = (p.nodes.length + 1) + 1 := rfl
    rw [hF] at hf ⊢
    refine fin_of_close p p1 cn cn1 _ h hc e2 hc1 hp1 hroot e1 ?_ hf
    intro pc hpc
    rw [hF, close_container p _ _ cn hc hk, hlast] at hpc
    simp only [efuel (p.nodes.length + 1) (by omega), ok_bind] at hpc
    refine ⟨pc, ?_, rfl⟩
    rw [hF, close_container p1 _ _ cn1 hc1 (by rw [hk1]; exact hk)]
    cases hx : Parser.last cn1 with
    | none => exact hpc
    | some x =>
      simp only []
      rw [closedAt_close p1 x _ (hP x hx).2 (by omega)]
      exact hpc

theorem lastSettled_lt (p : Parser) (c l : Nat) (cn : Node) (h : lastSettled p c cn l = true) : c < l := by
  obtain ⟨_, _, h1, _⟩ := lastSettled_unpack p c l cn h
  exact h1

theorem closedAt_put_closed (pl : Parser) (c : Nat) (cn1 : Node) (hc1 : pl.nodes[c]? = some cn1)
    (hk : cn1.kind.isContainer = true)
    (hP : ∀ x, Parser.last cn1 = some x → c < x ∧ closedAt pl x = true) :
    closedAt (pl.put c { cn1 with writable := false }) c = true := by
  have hlt := lt_of_getElem? hc1
  obtain ⟨f, hf⟩ : ∃ f, pl.nodes.length - c = f + 1 := ⟨pl.nodes.length - c - 1, by omega⟩
  unfold closedAt
  rw [put_length, hf, closedSub, put_getElem?_eq pl c _ cn1 hc1]
  simp only [Bool.not_false, Bool.true_and, container_not_paragraph hk, Bool.false_eq_true, if_false, hk,
    if_true]
  cases hx : Parser.last cn1 with
  | none =>
    have : Parser.last { cn1 with writable := false } = none := hx
    simp [this]
  | some x =>
    have : Parser.last { cn1 with writable := false } = some x := hx
    obtain ⟨hcx, hxc⟩ := hP x hx
    simp only [this, hcx, decide_True, Bool.true_and]
    refine closedSub_frame pl _ c ?_ f x hcx (closedSub_le pl x _ f (by omega) hxc)
    intro j n hj hn hw
    exact ⟨n, by rw [put_getElem?_ne _ _ _ _ (by omega)]; exact hn, hw, rfl, rfl⟩

theorem closedSub_nodes (p p1 : Parser) (hn : p1.nodes = p.nodes) :
    ∀ (f x : Nat), closedSub p1 f x = closedSub p f x := by
  intro f
  induction f with
  | zero => intro x; rfl
  | succ f ih =>
    intro x
    rw [closedSub, closedSub, hn]
    cases p.nodes[x]? with
    | none => rfl
    | some n =>
      simp only []
      cases Parser.last n with
      | none => rfl
      | some l => simp only [ih l]

theorem unwind_absorbed (p pc : Parser) (cn : Node) (q : Nat) (h : QString)
    (hs : settled p = true) (hc : p.nodes[p.current]? = some cn) (hp : cn.parent = some q)
    (hpc : Parser.close p.treeFuel p p.current = .ok pc) (hf : finWith p.treeFuel p = .ok h) :
    settled { pc with current := q } = true ∧
      finWith ({ pc with current := q } : Parser).treeFuel { pc with current := q } = .ok h := by
  obtain ⟨cn', hc', hoc, hLS⟩ := settled_unpack p hs
  rw [hc] at hc'
  cases hc'
  obtain ⟨hk, -, hchain⟩ := openChain_unpack p _ _ cn hc hoc
  obtain ⟨hqc, ⟨qn, hq, hqlast⟩, hocq⟩ := hchain q hp
  have hF : p.treeFuel = (p.nodes.length + 1) + 1 := rfl
  have key : pc.nodes.length = p.nodes.length ∧ (∀ j, j < p.current → pc.nodes[j]? = p.nodes[j]?) ∧
      (∃ cN, pc.nodes[p.current]? = some cN ∧ cN.kind = cn.kind) ∧ closedAt pc p.current = true := by
    rw [hF, close_container p _ _ cn hc hk] at hpc
    cases hl : Parser.last cn with
    | none =>
      simp only [hl] at hpc
      rw [disable_effect p pc _ cn hc hpc]
      refine ⟨put_length _ _ _, fun j hj => put_getElem?_ne _ _ _ _ (by omega),
        ⟨_, put_getElem?_eq p _ _ cn hc, rfl⟩, ?_⟩
      exact closedAt_put_closed p _ cn hc hk (fun x hx => by rw [hl] at hx; cases hx)
    | some l =>
      simp only [hl] at hpc
      cases hpl : Parser.close (p.nodes.length + 1) p l with
      | error e => simp [hpl] at hpc
      | ok pl =>
        simp only [hpl, ok_bind] at hpc
        obtain ⟨-, e1, e2, e3, cn1, hc1, hk1, hp1, hP⟩ :=
          close_last p pl p.current l _ cn hc hl (hLS l hl) (by omega) hpl
        rw [disable_effect pl pc _ cn1 hc1 hpc]
        refine ⟨by rw [put_length, e1], fun j hj => by rw [put_getElem?_ne _ _ _ _ (by omega), e3 j hj],
          ⟨_, put_getElem?_eq pl _ _ cn1 hc1, hk1⟩, ?_⟩
        exact closedAt_put_closed pl _ cn1 hc1 (by rw [hk1]; exact hk)
          (fun x hx => ⟨lastSettled_lt pl _ x cn1 (hP x hx).1, (hP x hx).2⟩)
  obtain ⟨k1, k2, ⟨cN, k3, k4⟩, k5⟩ := key
  refine ⟨?_, ?_⟩
  · have hq' : pc.nodes[q]? = some qn := by rw [k2 q hqc]; exact hq
    refine settled_pack { pc with current := q } qn hq' ?_ ?_
    · show openChain { pc with current := q } pc.nodes.length q = true
      rw [k1]
      exact openChain_below p _ _ q (fun j hj => k2 j (by omega)) hocq
    · intro x hx
      rw [hqlast] at hx
      cases hx
      show lastSettled { pc with current := q } q qn p.current = true
      unfold lastSettled
      have hcN : ({ pc with current := q } : Parser).nodes[p.current]? = some cN := k3
      have hcl : closedAt ({ pc with current := q } : Parser) p.current = true := by
        unfold closedAt at k5 ⊢
        rw [closedSub_nodes pc { pc with current := q } rfl]
        exact k5
      simp [hcN, hqc, k4, hk, hcl]
  · have hfuel : ({ pc with current := q } : Parser).treeFuel = (p.nodes.length + 1) + 1 := by
      show pc.nodes.length + 2 = _
      rw [k1]
    rw [hfuel]
    rw [hF, finWith_succ _ p cn hc, hp] at hf
    simp only [hpc, ok_bind] at hf
    exact finWith_mono _ _ _ hf

theorem erase_put_eraseEq (p : Parser) (i : Nat) (n n1 : Node) (hn : p.nodes[i]? = some n)
    (he : eraseNode n1 = eraseNode n) : erase (p.put i n1) = erase p := by
  rw [erase_put, he]
  exact put_same (erase p) i (eraseNode n) (by rw [erase_getElem?, hn]; rfl)

theorem setHasBlankline_erase (p : Parser) (c : Nat) (cn : Node) (hc : p.nodes[c]? = some cn)
    (hlist : cn.kind.isList = false) :
    ∃ p1 cn1, p.setHasBlankline c true = .ok p1 ∧ erase p1 = erase p ∧ p1.nodes[c]? = some cn1 ∧
      Parser.last cn1 = Parser.last cn ∧ (∀ j, j ≠ c → p1.nodes[j]? = p.nodes[j]?) := by
  unfold Parser.setHasBlankline
  simp only [get_of_getElem? hc, ok_bind, hlist, Bool.false_or]
  by_cases hi : cn.kind.isItem = true
  · refine ⟨p.put c { cn with hasBlankline := cn.hasBlankline || true },
      { cn with hasBlankline := cn.hasBlankline || true }, by simp only [hi, if_true]; rfl, ?_,
      put_getElem?_eq p c _ cn hc, rfl, fun j hj => put_getElem?_ne _ _ _ _ hj⟩
    exact erase_put_eraseEq p c cn _ hc (by simp [eraseNode, hi])
  · exact ⟨p, cn, by simp [hi], rfl, hc, rfl, fun _ _ => rfl⟩

theorem close_last_ok (p : Parser) (cn : Node) (l : Nat) (h : QString)
    (hs : settled p = true) (hc : p.nodes[p.current]? = some cn) (hlast : Parser.last cn = some l)
    (hf : finWith p.treeFuel p = .ok h) : ∃ pl, Parser.close p.treeFuel p l = .ok pl := by
  obtain ⟨cn', hc', hoc, hLS⟩ := settled_unpack p hs
  rw [hc] at hc'
  cases hc'
  obtain ⟨hk, hroot, -⟩ := openChain_unpack p _ _ cn hc hoc
  have hF : p.treeFuel = (p.nodes.length + 1) + 1 := rfl
  have hcc : ∃ pc, Parser.close p.treeFuel p p.current = .ok pc := by
    rw [hF, finWith_succ _ p cn hc] at hf
    cases hp : cn.parent with
    | none =>
      rw [hroot hp]
      simp only [hp] at hf
      cases hx : Parser.close p.treeFuel p 0 with
      | error e => simp [hx] at hf
      | ok pc => exact ⟨pc, rfl⟩
    | some q =>
      simp only [hp] at hf
      cases hx : Parser.close p.treeFuel p p.current with
      | error e => simp [hx] at hf
      | ok pc => exact ⟨pc, rfl⟩
  obtain ⟨pc, hpc⟩ := hcc
  rw [hF, close_container p _ _ cn hc hk, hlast] at hpc
  cases hpl : Parser.close (p.nodes.length + 1) p l with
  | error e => simp [hpl] at hpc
  | ok pl =>
    obtain ⟨efuel, -⟩ := close_last p pl p.current l _ cn hc hlast (hLS l hlast) (by omega) hpl
    exact ⟨pl, efuel _ (by simp [Parser.treeFuel])⟩

theorem close_current_empty_absorbed (p p1 : Parser) (cn : Node) (h : QString)
    (hs : settled p = true) (hc : p.nodes[p.current]? = some cn) (hlast : Parser.last cn = none)
    (hcl : Parser.close p.treeFuel p p.current = .ok p1) (hf : finWith p.treeFuel p = .ok h) :
    settled p1 = true ∧ finWith p1.treeFuel p1 = .ok h := by
  obtain ⟨cn', hc', hoc, hLS⟩ := settled_unpack p hs
  rw [hc] at hc'
  cases hc'
  obtain ⟨hk, hroot, -⟩ := openChain_unpack p _ _ cn hc hoc
  have hF : p.treeFuel = (p.nodes.length + 1) + 1 := rfl
  have hcl0 := hcl
  rw [hF, close_container p _ _ cn hc hk, hlast] at hcl
  simp only [] at hcl
  have e := disable_effect p p1 _ cn hc hcl
  have hc1 : p1.nodes[p.current]? = some { cn with writable := false } := by
    rw [e]; exact put_getElem?_eq p _ _ cn hc
  have hlen : p1.nodes.length = p.nodes.length := by rw [e]; exact put_length _ _ _
  have hcur : p1.current = p.current := by rw [e]; rfl
  refine ⟨?_, ?_⟩
  · refine settled_pack p1 _ (by rw [hcur]; exact hc1) ?_ ?_
    · rw [hlen, hcur]
      refine openChain_frame p p1 _ _ cn _ hc hc1 rfl rfl ?_ hoc
      intro j hj
      rw [e]
      exact put_getElem?_ne _ _ _ _ (by omega)
    · intro x hx
      have : Parser.last cn = some x := hx
      rw [hlast] at this
      cases this
  · have hfuel : p1.treeFuel = p.treeFuel := by simp [Parser.treeFuel, hlen]
    rw [hfuel, hF]
    rw [hF] at hf
    refine fin_of_close p p1 cn _ _ h hc hcur hc1 rfl hroot hlen ?_ hf
    intro pc hpc
    rw [hcl0] at hpc
    cases hpc
    refine ⟨p1, ?_, rfl⟩
    rw [hF, close_container p1 _ _ _ hc1 hk]
    have : Parser.last { cn with writable := false } = none := hlast
    simp only [this]
    exact disable_closed p1 _ _ hc1 rfl

theorem handleBlank_absorbed (p : Parser) (cn : Node) (l : Nat) (lh : LineHandler) (h : QString)
    (hs : settled p = true) (hc : p.nodes[p.current]? = some cn) (hlast : Parser.last cn = some l)
    (hq : cn.kind ≠ Kind.blockQuote) (hf : finWith p.treeFuel p = .ok h) :
    ∃ p1, p.handleBlankLine l lh = .ok p1 ∧ settled p1 = true ∧ finWith p1.treeFuel p1 = .ok h := by
  obtain ⟨cn', hc', hoc, hLS⟩ := settled_unpack p hs
  rw [hc] at hc'
  cases hc'
  obtain ⟨ln, hl, hcl, hcase⟩ := lastSettled_unpack p _ l cn (hLS l hlast)
  have hsame : ∃ p1, (Except.ok p : M Parser) = Except.ok p1 ∧ settled p1 = true ∧ finWith p1.treeFuel p1 = .ok h :=
    ⟨p, rfl, hs, hf⟩
  have hclose : ∃ p1, Parser.close p.treeFuel p l = .ok p1 ∧ settled p1 = true ∧
      finWith p1.treeFuel p1 = .ok h := by
    obtain ⟨pl, hpl⟩ := close_last_ok p cn l h hs hc hlast hf
    exact ⟨pl, hpl, close_last_absorbed p pl cn l h hs hc hlast hpl hf⟩
  have hF : p.treeFuel = (p.nodes.length + 1) + 1 := rfl
  unfold Parser.handleBlankLine
  simp only [get_of_getElem? hl, ok_bind]
  rcases hcase with ⟨hk, hcA⟩ | ⟨hk, hpar, hlist, hw⟩
  · -- a closed container
    cases hkind : ln.kind <;> simp only [hkind, Kind.isContainer, Bool.false_eq_true] at hk ⊢
    all_goals first
      | exact hclose
      | exact hsame
  · have hflag := setHasBlankline_erase p _ cn hc hlist
    have hdis : ln.kind ≠ Kind.paragraph → (p.disable l = Parser.close p.treeFuel p l) := by
      intro hnp
      rw [hF, close_leaf p l _ ln hl hk]
      simp [hnp]
    have hwq : ln.writable = true → quietKind ln.kind = true := by
      intro hw1
      rcases hw with hw | ⟨_, hw2, _⟩
      · rw [hw] at hw1; cases hw1
      · rcases hw2 with hw2 | hw2
        · exact hw2
        · exact absurd hw2 hq
    cases hkind : ln.kind <;> simp only [hkind, Kind.isContainer, Bool.true_eq_false] at hk ⊢
    · -- paragraph
      obtain ⟨p', cn1, e1, e2, e3, e4, e5⟩ := hflag
      simp only [hpar, e1, ok_bind]
      obtain ⟨hs', hf'⟩ := absorbed_of_erase p p' h e2 hs hf
      have hcur : p'.current = p.current := by
        have := congrArg Parser.current e2
        simpa using this
      have hc1 : p'.nodes[p'.current]? = some cn1 := by rw [hcur]; exact e3
      have hl1 : Parser.last cn1 = some l := by rw [e4]; exact hlast
      obtain ⟨pl, hpl⟩ := close_last_ok p' cn1 l h hs' hc1 hl1 hf'
      exact ⟨pl, hpl, close_last_absorbed p' pl cn1 l h hs' hc1 hl1 hpl hf'⟩
    · -- indented code
      simp only [hpar, get_of_getElem? hc, ok_bind, pure_eq_ok]
      refine ⟨_, rfl, absorbed_of_erase p _ h ?_ hs hf⟩
      exact erase_put_eraseEq p l ln _ hl (by simp [eraseNode, hkind, hpar, Kind.isItem])
    · -- fenced code
      by_cases hw1 : ln.writable = true
      · have := hwq hw1
        rw [hkind] at this
        cases this
      · obtain ⟨p', cn1, e1, e2, e3, e4, e5⟩ := hflag
        simp only [hw1, Bool.false_eq_true, if_false, hpar, e1]
        exact ⟨p', rfl, absorbed_of_erase p p' h e2 hs hf⟩
    · -- heading
      rw [hdis (by rw [hkind]; decide)]
      exact hclose
    · exact hsame
    · -- HTML block
      rw [hdis (by rw [hkind]; decide)]
      exact hclose
    · -- HTML block with an end condition
      by_cases hw1 : ln.writable = true
      · have := hwq hw1
        rw [hkind] at this
        cases this
      · simp only [hw1, Bool.false_eq_true, if_false]
        exact hsame

theorem blank_absorbed (p : Parser) (line_ : QString) (h : QString) (hb : isBlankLine line_ = true)
    (hs : settled p = true) (hf : finWith p.treeFuel p = .ok h) :
    ∃ p1, p.feedLine line_ = .ok p1 ∧ settled p1 = true ∧ finWith p1.treeFuel p1 = .ok h := by
  obtain ⟨cn, hc, hoc, hLS⟩ := settled_unpack p hs
  obtain ⟨hk, hroot, -⟩ := openChain_unpack p _ _ cn hc hoc
  have hbl := blank_isBlank hb
  have hF : p.treeFuel = (p.nodes.length + 1) + 1 := rfl
  unfold Parser.feedLine Parser.dispatchBlankLine
  simp only [get_of_getElem? hc, ok_bind, hbl, Bool.not_true, Bool.false_eq_true, if_false]
  by_cases hq : cn.kind = Kind.blockQuote
  · simp only [hq, beq_self_eq_true, if_true]
    rw [unwind_eq p cn hc]
    cases hp : cn.parent with
    | none => exact ⟨p, rfl, hs, hf⟩
    | some q =>
      simp only []
      cases hpc : Parser.close p.treeFuel p p.current with
      | error e =>
        rw [hF, finWith_succ _ p cn hc, hp] at hf
        simp [hpc] at hf
      | ok pc => exact ⟨_, rfl, unwind_absorbed p pc cn q h hs hc hp hpc hf⟩
  · have hq' : (cn.kind == Kind.blockQuote) = false := by simpa using hq
    simp only [hq', Bool.false_eq_true, if_false]
    cases hl : Parser.last cn with
    | none =>
      simp only []
      by_cases hi : cn.kind.isItem = true
      · have hlist : cn.kind.isList = false := by
          cases hkk : cn.kind <;> simp [hkk, Kind.isItem, Kind.isList] at hi ⊢
        obtain ⟨p', cn1, e1, e2, e3, e4, e5⟩ := setHasBlankline_erase p _ cn hc hlist
        obtain ⟨hs', hf'⟩ := absorbed_of_erase p p' h e2 hs hf
        have hcur : p'.current = p.current := by
          have := congrArg Parser.current e2
          simpa using this
        have hc1 : p'.nodes[p'.current]? = some cn1 := by rw [hcur]; exact e3
        have hl1 : Parser.last cn1 = none := by rw [e4]; exact hl
        have hk1 : cn1.kind.isContainer = true := by
          obtain ⟨cn2, hc2, hoc2, -⟩ := settled_unpack p' hs'
          rw [hc1] at hc2
          cases hc2
          exact (openChain_unpack p' _ _ cn1 hc1 hoc2).1
        have hcl : Parser.close p'.treeFuel p' p.current = .ok (p'.put p.current { cn1 with writable := false }) := by
          have hF' : p'.treeFuel = (p'.nodes.length + 1) + 1 := rfl
          rw [hF', close_container p' _ _ cn1 e3 hk1, hl1]
          simp [Parser.disable, Parser.update, get_of_getElem? e3]
        simp only [hi, if_true, e1, ok_bind, hcl]
        refine ⟨_, rfl, close_current_empty_absorbed p' _ cn1 h hs' hc1 hl1 (by rw [hcur]; exact hcl) hf'⟩
      · simp only [hi, Bool.false_eq_true, if_false]
        exact ⟨p, rfl, hs, hf⟩
    | some l =>
      simp only []
      obtain ⟨p1, e1, e2⟩ := handleBlank_absorbed p cn l (LineHandler.new line_) h hs hc hl hq hf
      exact ⟨p1, by simp [e1], e2⟩

theorem blanks_absorbed (h : QString) : ∀ (w : List QString) (p : Parser),
    (∀ l ∈ w, isBlankLine l = true) → settled p = true → finWith p.treeFuel p = .ok h →
    ∃ p1, p.feedLines w = .ok p1 ∧ finWith p1.treeFuel p1 = .ok h
  | [], p, _, _, hf => ⟨p, rfl, hf⟩
  | l :: w, p, hw, hs, hf => by
    obtain ⟨p1, e1, hs1, hf1⟩ := blank_absorbed p l h (hw l (List.mem_cons_self _ _)) hs hf
    obtain ⟨p2, e2, hf2⟩ := blanks_absorbed h w p1 (fun x hx => hw x (List.mem_cons_of_mem _ hx)) hs1 hf1
    exact ⟨p2, by simp [Parser.feedLines, e1, e2], hf2⟩

theorem splitLoop_append_sep (sep : Nat) (t : QString) : ∀ (s cur : QString),
    QString.splitLoop sep (s ++ sep :: t) cur =
      QString.splitLoop sep s cur ++ QString.splitLoop sep t []
  | [], cur => by simp [QString.splitLoop]
  | c :: s, cur => by
    simp only [List.cons_append, QString.splitLoop]
    split
    · have ih := splitLoop_append_sep sep t s []
      simp only [List.cons_append]
      exact congrArg (List.cons cur.reverse) ih
    · exact splitLoop_append_sep sep t s (c :: cur)

theorem splitRef_append_sep (s t : QString) (sep : Nat) :
    QString.splitRef (s ++ sep :: t) sep = QString.splitRef s sep ++ QString.splitRef t sep :=
  splitLoop_append_sep sep t s []

theorem feedLines_append : ∀ (a b : List QString) (p : Parser),
    p.feedLines (a ++ b) = p.feedLines a >>= fun p1 => p1.feedLines b
  | [], b, p => rfl
  | x :: a, b, p => by
    simp only [List.cons_append, Parser.feedLines]
    cases p.feedLine x with
    | error e => rfl
    | ok p1 => simpa using feedLines_append a b p1

theorem blank_lines_split (w : List QString) (hw : ∀ l ∈ w, isBlankLine l = true) :
    ∀ l ∈ QString.splitRef (QString.join [10] w) 10, isBlankLine l = true := by
  by_cases hne : w = []
  · subst hne
    intro l hl
    simp [QString.join, QString.splitRef, QString.splitLoop] at hl
    subst hl
    rfl
  · rw [splitRef_join w (fun l hl => blank_no_nl (hw l hl)) hne]
    exact hw

theorem htmlOf_eq_finWith (s : QString) (p : Parser) (hp : Parser.start.feedLines (QString.splitRef s 10) = .ok p) :
    htmlOf s = finWith p.treeFuel p := by
  simp only [htmlOf, Parser.getHTMLText, parseBlocks_eq, hp, ok_bind, pure_eq_ok]
  exact finish_fst p

theorem htmlOf_trailing_blank_settled (s : QString) (w : List QString) (h : QString) (p : Parser)
    (hw : ∀ l ∈ w, isBlankLine l = true) (hp : Parser.new.parseBlocks s = .ok p)
    (hs : settled p = true) (hh : htmlOf s = .ok h) :
    htmlOf (s ++ 10 :: QString.join [10] w) = .ok h := by
  rw [parseBlocks_eq] at hp
  rw [htmlOf_eq_finWith s p hp] at hh
  obtain ⟨p1, e1, e2⟩ := blanks_absorbed h _ p (blank_lines_split w hw) hs hh
  have hp1 : Parser.start.feedLines (QString.splitRef (s ++ 10 :: QString.join [10] w) 10) = .ok p1 := by
    rw [splitRef_append_sep, feedLines_append, hp]
    exact e1
  rw [htmlOf_eq_finWith _ p1 hp1]
  exact e2

/-! ## The claims C1 to C10 -/

/-- C1, refuted on the code: `getHTMLText` is not total. On the text `[` the scanner
`findLinkLabel` steps past the bracket and reads `text_.at(1)` of a text of length 1; on the
text `<` the method `replaceAutolink` reads `line_.at(1)`; on a backslash followed by U+00FF
the table of 255 backslash escapes is read at index 255. Each read is out of range. -/
theorem getHTMLText_reads_out_of_range :
    htmlOf (qs "[") = .error Fault.outOfRange ∧ htmlOf (qs "<") = .error Fault.outOfRange ∧
    htmlOf [ch '\\', 0xff] = .error Fault.outOfRange := by
  refine ⟨?_, ?_, ?_⟩ <;> decide!

/-- C2: `getHTMLText` carries no state between calls. A parser that has processed `s` gives
for every `t` the result of a freshly constructed parser, the parser afterwards included. -/
theorem getHTMLText_stateless (p : Parser) (s t : QString) (r : QString × Parser)
    (_ : p.getHTMLText s = .ok r) : r.2.getHTMLText t = Parser.new.getHTMLText t := rfl

/-- Witness of C2: the parser left by the text `[x]: /u` answers the text `[x]` as a fresh parser
does. -/
theorem getHTMLText_stateless_witness :
    ∃ r, Parser.new.getHTMLText (qs "[x]: /u") = .ok r ∧
      r.2.getHTMLText (qs "[x]") = Parser.new.getHTMLText (qs "[x]") :=
  ⟨(Parser.new.getHTMLText (qs "[x]: /u")).toOption.getD ([], Parser.new), by decide!,
    getHTMLText_stateless Parser.new (qs "[x]: /u") (qs "[x]") _ (by decide!)⟩

/-- C3: for every level `n` from 1 to 6 and every non-empty text `t` of ASCII letters, the line
made of `n` characters `#`, one space and `t` is rendered as the heading `<hn>t</hn>`, the
digit of `n` being the code unit `48 + n`. -/
theorem heading_line_html (n : Nat) (t : QString) (h1 : 1 ≤ n) (h6 : n ≤ 6) (ht : isLetters t = true) :
    htmlOf (List.replicate n (ch '#') ++ ch ' ' :: t) =
      .ok (qs "<h" ++ [48 + n] ++ qs ">" ++ t ++ qs "</h" ++ [48 + n] ++ qs ">") := by
  obtain ⟨m, rfl⟩ : ∃ m, n = m + 1 := ⟨n - 1, by omega⟩
  exact htmlOf_heading_aux m t h6 ht

/-- Witness of C3: `# Hello` gives `<h1>Hello</h1>`. -/
theorem heading_line_html_witness : htmlOf (qs "# Hello") = .ok (qs "<h1>Hello</h1>") :=
  heading_line_html 1 (qs "Hello") (by decide) (by decide) (by decide)

/-- C4: for non-empty texts `a` and `b` of ASCII letters the two lines `- a` and `- b` are
rendered as one tight bullet list of two items, the paragraphs without `<p>`. -/
theorem bullet_list_html (a b : QString) (ha : isLetters a = true) (hb : isLetters b = true) :
    htmlOf (qs "- " ++ a ++ qs "\n- " ++ b) =
      .ok (qs "<ul>\n<li>" ++ a ++ qs "</li>\n<li>" ++ b ++ qs "</li>\n</ul>") := by
  have h := htmlOf_bullets_aux a b ha hb
  simpa [qs, utf16] using h

/-- Witness of C4: `- a`, `- b`. -/
theorem bullet_list_html_witness :
    htmlOf (qs "- a\n- b") = .ok (qs "<ul>\n<li>a</li>\n<li>b</li>\n</ul>") :=
  bullet_list_html (qs "a") (qs "b") (by decide) (by decide)

/-- C5: for non-empty texts `a` and `b` of ASCII letters the two lines `> a` and `> b` land in
one paragraph of a single block quote, and the paragraph is wrapped in `<p>`. -/
theorem block_quote_html (a b : QString) (ha : isLetters a = true) (hb : isLetters b = true) :
    htmlOf (qs "> " ++ a ++ qs "\n> " ++ b) =
      .ok (qs "<blockquote>\n<p>" ++ a ++ qs "\n" ++ b ++ qs "</p>\n</blockquote>") := by
  have h := htmlOf_quote_aux a b ha hb
  simpa [qs, utf16] using h

/-- Witness of C5: `> a`, `> b`. -/
theorem block_quote_html_witness :
    htmlOf (qs "> a\n> b") = .ok (qs "<blockquote>\n<p>a\nb</p>\n</blockquote>") :=
  block_quote_html (qs "a") (qs "b") (by decide) (by decide)

/-- C6: for every non-empty text `c` of ASCII letters, four spaces followed by `c` and a final
newline are rendered as `<pre><code>c\n</code></pre>`: the indent is stripped and the trailing
blank line is not emitted. -/
theorem indented_code_html (c : QString) (hc : isLetters c = true) :
    htmlOf (qs "    " ++ c ++ qs "\n") = .ok (qs "<pre><code>" ++ c ++ qs "\n</code></pre>") := by
  have h := htmlOf_indented_aux c hc
  simpa [qs, utf16] using h

/-- Witness of C6: four spaces, `code` and a newline. -/
theorem indented_code_html_witness :
    htmlOf (qs "    code\n") = .ok (qs "<pre><code>code\n</code></pre>") :=
  indented_code_html (qs "code") (by decide)

/-- C7: a paragraph that is only a link reference definition is removed and registers the
reference, and the later shortcut reference `[foo]` is rendered as the anchor. -/
theorem link_definition_html :
    htmlOf (qs "[foo]: /url \"t\"\n\n[foo]") = .ok (qs "<p><a href=\"/url\" title=\"t\">foo</a></p>") := by
  decide!

/-- C8, counterexample: the one-letter text `a` is rendered as `<p>a</p>`, not as `a`. -/
theorem bare_paragraph_counterexample :
    htmlOf (qs "a") = .ok (qs "<p>a</p>") ∧ htmlOf (qs "a") ≠ .ok (qs "a") := by
  decide!

/-- C8, amended: for every non-empty text `t` of ASCII letters with single spaces between
them, the result is the paragraph `<p>t</p>`; a paragraph of the document root is always
wrapped, because `ContainerBlock::hasBlankline` answers `true`. -/
theorem paragraph_html (t : QString) (h : isWords t = true) :
    htmlOf t = .ok (qs "<p>" ++ t ++ qs "</p>") :=
  htmlOf_words_aux t h

/-- Witness of C8, amended: `abc def`. -/
theorem paragraph_html_witness : htmlOf (qs "abc def") = .ok (qs "<p>abc def</p>") :=
  paragraph_html (qs "abc def") (by decide)

/-- C9, counterexample: after an open fenced code block a trailing empty line is kept as a
line of the code, so the text with the final newline is rendered differently. -/
theorem trailing_blank_counterexample :
    htmlOf (qs "```\na") = .ok (qs "<pre><code>a\n</code></pre>") ∧
    htmlOf (qs "```\na" ++ qs "\n") = .ok (qs "<pre><code>a\n\n</code></pre>") := by
  decide!

/-- C9, amended: for every text `s` that `getHTMLText` renders as `h` and after whose lines
the block tree `p` is settled, and for every sequence `w` of lines made only of spaces and
tabs, `s` followed by a newline and the lines of `w` is rendered as `h` too. The tree is
settled when the path from the current container to the root is the open path of the tree
and the last child of the current container is closed, or is an open paragraph, heading,
thematic break, HTML block without an end condition or indented code block, or is any open
leaf block inside an open block quote, which a blank line closes as a whole. An open fenced
code block and an open HTML block with an end condition elsewhere take the lines of `w` as
lines of their text. For a paragraph `s` of words the statement holds without conditions. -/
theorem trailing_blank_lines (s : QString) (w : List QString) (hw : ∀ l ∈ w, isBlankLine l = true) :
    (∀ (h : QString) (p : Parser), Parser.new.parseBlocks s = .ok p → settled p = true →
      htmlOf s = .ok h → htmlOf (s ++ ch '\n' :: QString.join [ch '\n'] w) = .ok h) ∧
    (isWords s = true → htmlOf (s ++ ch '\n' :: QString.join [ch '\n'] w) = htmlOf s) := by
  refine ⟨fun h p hp hs hh => htmlOf_trailing_blank_settled s w h p hw hp hs hh, fun hs => ?_⟩
  rw [htmlOf_words_aux s hs]
  exact htmlOf_trailing_blank_aux s w hs hw

/-- Witness of C9, amended: the list of `- a` and `- b`, the block quote of `> a` and the
paragraph `ab`, each followed by an empty line and a line of a space and a tab. -/
theorem trailing_blank_lines_witness :
    htmlOf (qs "- a\n- b" ++ ch '\n' :: QString.join [ch '\n'] [[], qs " \t"]) =
      .ok (qs "<ul>\n<li>a</li>\n<li>b</li>\n</ul>") ∧
    htmlOf (qs "> a" ++ ch '\n' :: QString.join [ch '\n'] [[], qs " \t"]) =
      .ok (qs "<blockquote>\n<p>a</p>\n</blockquote>") ∧
    htmlOf (qs "ab" ++ ch '\n' :: QString.join [ch '\n'] [[], qs " \t"]) = htmlOf (qs "ab") :=
  ⟨(trailing_blank_lines (qs "- a\n- b") [[], qs " \t"] (by decide)).1 _
      ((Parser.new.parseBlocks (qs "- a\n- b")).toOption.getD Parser.new) (by decide!) (by decide!)
      (by decide!),
   (trailing_blank_lines (qs "> a") [[], qs " \t"] (by decide)).1 _
      ((Parser.new.parseBlocks (qs "> a")).toOption.getD Parser.new) (by decide!) (by decide!)
      (by decide!),
   (trailing_blank_lines (qs "ab") [[], qs " \t"] (by decide)).2 (by decide)⟩

/-- C10: the table of link references is first-writer-wins. When `defineLink(l, d1, t1)` is
followed by `defineLink(l2, d2, t2)` with `l2` equal to `l` up to letter case, the second call
leaves the table as it is; the label is mapped to `(d1, t1)` when the first call was its first
definition, and every other key has the value it had before the two calls. -/
theorem defineLink_first_writer_wins (links : LinkList) (l l2 d1 t1 d2 t2 : QString)
    (h : QString.toLower l2 = QString.toLower l) :
    Parser.defineLink (Parser.defineLink links l d1 t1) l2 d2 t2 = Parser.defineLink links l d1 t1 ∧
    (links.lookup (QString.toLower l) = none →
      (Parser.defineLink (Parser.defineLink links l d1 t1) l2 d2 t2).lookup (QString.toLower l) =
        some (d1, t1)) ∧
    (∀ k, k ≠ QString.toLower l →
      (Parser.defineLink (Parser.defineLink links l d1 t1) l2 d2 t2).lookup k = links.lookup k) := by
  have e2 : Parser.defineLink (Parser.defineLink links l d1 t1) l2 d2 t2 =
      Parser.defineLink links l d1 t1 :=
    defineLink_of_some _ l2 d2 t2 (by rw [h]; exact lookup_defineLink_self links l d1 t1)
  refine ⟨e2, ?_, ?_⟩
  · intro hl
    rw [e2, defineLink_of_none links l d1 t1 hl, lookup_append_single, hl]
    simp
  · intro k hk
    rw [e2]
    exact lookup_defineLink_other links l d1 t1 k hk

/-- Witness of C10: `Foo` defined, then `FOO`. -/
theorem defineLink_first_writer_wins_witness :
    Parser.defineLink (Parser.defineLink [] (qs "Foo") (qs "/a") (qs "x")) (qs "FOO") (qs "/b") (qs "y") =
      Parser.defineLink [] (qs "Foo") (qs "/a") (qs "x") :=
  (defineLink_first_writer_wins [] (qs "Foo") (qs "FOO") (qs "/a") (qs "x") (qs "/b") (qs "y")
    (by decide)).1

/-! ## The claims C11 to C20 -/

/-- C13, refuted on the code at one character: a backslash followed by `c` is decoded as the
claim says for every `c` other than U+00FF (input length 2 and the escaped text for a newline
and the ASCII punctuation, input length 1 and a backslash otherwise, also above U+00FF), a lone
backslash has input length 1, and for U+00FF the table of 255 entries is read at index 255. -/
theorem backslash_escape_decoding (c : QChar) (rest : QString) :
    (c ≠ 0xff → EscapeChar.get (ch '\\' :: c :: rest) =
      .ok (if c = ch '\n' ∨ isAsciiPunctuation c = true then ⟨escapedText c, 2⟩ else ⟨qs "\\", 1⟩)) ∧
    EscapeChar.get [ch '\\'] = .ok ⟨qs "\\", 1⟩ ∧
    EscapeChar.get (ch '\\' :: 0xff :: rest) = .error Fault.outOfRange := by
  refine ⟨?_, by decide!, ?_⟩
  · intro hc
    simp only [ch_bs, ch_nl]
    rw [get_backslash]
    have hc' : (c : Nat) ≠ 255 := hc
    rcases Nat.lt_or_ge c 255 with h | h
    · exact backslashEscapedList_low c h
    · have h256 : 256 ≤ (c : Nat) := Nat.succ_le_of_lt (Nat.lt_of_le_of_ne h (Ne.symm hc'))
      rw [backslashEscapedList_high c h256]
      have h1 := not_punctuation_high c h256
      simp [h1, qs, utf16]
  · simp only [ch_bs]
    rw [get_backslash]
    decide!

/-- Witness of C13: the escaped asterisk, the escaped letter `a` and the escaped U+00FF. -/
theorem backslash_escape_decoding_witness :
    EscapeChar.get (qs "\\*") = .ok ⟨qs "*", 2⟩ ∧ EscapeChar.get (qs "\\a") = .ok ⟨qs "\\", 1⟩ ∧
    EscapeChar.get [ch '\\', 0xff] = .error Fault.outOfRange :=
  ⟨(backslash_escape_decoding (ch '*') []).1 (by decide),
   (backslash_escape_decoding (ch 'a') []).1 (by decide),
   (backslash_escape_decoding 0 []).2.2⟩

/-- C14, refuted on the code: a decimal character reference `&#` + 1 to 8 digits + `;` gives
the character whose code is the written number modulo 65536, because `QChar(int)` keeps the
low 16 bits; a number above 0xFFFF does not give its code point. -/
theorem numeric_entity_truncated (ds rest : QString) (h1 : ds ≠ []) (h8 : ds.length ≤ 8)
    (hd : ∀ x ∈ ds, 48 ≤ x ∧ x ≤ 57) :
    EscapeChar.get (qs "&#" ++ ds ++ ch ';' :: rest) =
      .ok (EscapeChar.ofChar (QString.decimalValue ds 0 % 65536) (ds.length + 3)) :=
  get_decimal_entity ds rest h1 h8 hd

/-- Witness of C14: `&#65601;` (U+10041) gives the letter `A`. -/
theorem numeric_entity_truncated_witness :
    EscapeChar.get (qs "&#65601;") = .ok ⟨qs "A", 8⟩ :=
  numeric_entity_truncated (qs "65601") [] (by decide) (by decide) (by decide)

/-- C15, refuted on the code: the name loop of `getEntityWithText` steps over a character that
is neither a letter, a digit, a space nor the semicolon, so `&a.mp;` is decoded as `&amp;`. -/
theorem entity_name_with_noise_decoded :
    EscapeChar.get (qs "&a.mp;") = .ok ⟨qs "&amp;", 5⟩ ∧
    htmlOf (qs "&a.mp;") = .ok (qs "<p>&amp;;</p>") := by
  decide!

/-- C16, refuted on the code: on `&a.mp;` the input length is 5 while the recognised text has
6 characters; the character at index 4 is `p`, not the semicolon. -/
theorem input_length_not_exact :
    (EscapeChar.get (qs "&a.mp;")).map EscapeChar.inputLength = .ok 5 ∧
    (qs "&a.mp;")[4]? = some (ch 'p') ∧ (qs "&a.mp;")[5]? = some (ch ';') := by
  decide!

/-- C20, refuted on the code: on a tab, `1.` and two tabs the scanner
`skipWhitespaceFollowedListMarker` reads `line_.at(6)` of a line of 5 characters, the logical
column being used as an index; `findDigit` does not return. -/
theorem findDigit_reads_out_of_range :
    (LineHandler.new (qs "\t1.\t\t")).findDigit = .error Fault.outOfRange := by
  decide!

/-- C17: `findHeadingMarker` at a run of `n` characters `#`. For `1 ≤ n ≤ 6` and a following
space or tab it returns `n` and moves the cursor past the run and that character; for `n ≥ 7`
it returns 0 and leaves the scanner unchanged; whenever it returns 0 the scanner is
unchanged. -/
theorem findHeadingMarker_run (lh : LineHandler) (n : Nat) (rest : QString) :
    (1 ≤ n → n ≤ 6 → ∀ c, c = ch ' ' ∨ c = ch '\t' →
      lh.line.drop lh.physicalPosition = List.replicate n (ch '#') ++ c :: rest →
      lh.findHeadingMarker.1 = n ∧
        lh.findHeadingMarker.2.physicalPosition = lh.physicalPosition + n + 1 ∧
        lh.findHeadingMarker.2.line = lh.line) ∧
    (7 ≤ n → lh.line.drop lh.physicalPosition = List.replicate n (ch '#') ++ rest →
      lh.findHeadingMarker = (0, lh)) ∧
    (lh.findHeadingMarker.1 = 0 → lh.findHeadingMarker.2 = lh) := by
  refine ⟨?_, ?_, findHeadingMarker_zero lh⟩
  · intro h1 h6 c hc hd
    simp only [ch_sp, ch_tab, ch_hash] at hc hd
    have hpos : n > 0 := by omega
    simp [LineHandler.findHeadingMarker, hd,
      findHeadingMarkerLoop_run rest c hc n 0 lh.physicalPosition (lh.logicalPosition + lh.offset) (by omega),
      hpos]
  · intro h7 hd
    simp only [ch_hash] at hd
    simp [LineHandler.findHeadingMarker, hd,
      findHeadingMarkerLoop_long rest n 0 lh.physicalPosition (lh.logicalPosition + lh.offset) (by omega)
        (by omega)]

/-- Witness of C17: `## a` gives 2 with the cursor at index 3, and seven `#` give 0. -/
theorem findHeadingMarker_run_witness :
    ((LineHandler.new (qs "## a")).findHeadingMarker.1 = 2 ∧
      (LineHandler.new (qs "## a")).findHeadingMarker.2.physicalPosition = 0 + 2 + 1 ∧
      (LineHandler.new (qs "## a")).findHeadingMarker.2.line = qs "## a") ∧
    (LineHandler.new (qs "####### a")).findHeadingMarker = (0, LineHandler.new (qs "####### a")) :=
  ⟨(findHeadingMarker_run (LineHandler.new (qs "## a")) 2 (qs "a")).1 (by decide) (by decide) (ch ' ')
      (Or.inl rfl) (by decide),
   (findHeadingMarker_run (LineHandler.new (qs "####### a")) 7 (qs " a")).2.1 (by decide) (by decide)⟩

/-- C18, counterexample: on `>> a` the scanner consumes both markers and the depth increases
by 2, not by exactly 1. -/
theorem matchBlockQuote_counterexample :
    (LineHandler.new (qs ">> a")).matchBlockQuote = (true, LineHandler.mk (qs ">> a") 3 3 0 2 0) ∧
    (LineHandler.new (qs ">> a")).depth = 0 := by
  decide!

/-- C18, amended: `matchBlockQuote` returns `false` and leaves the scanner unchanged when the
cursor is at the end of the line or at a character other than `>`; when the cursor is at `>`
it returns `true`, the depth has increased by at least 1 and the cursor has advanced by at
least one character. Every further `>` that follows after at most three spaces is consumed
in the same call and adds 1 to the depth: when the `>` at the cursor is followed by the
groups `groups`, each of at most three spaces and one `>`, then by `j` spaces, `j` at most
3, and then by the end of the line or a character other than a space, a tab and `>`, the
call returns `true`, the depth has increased by exactly 1 plus the number of groups, the
cursor stands behind the `j` spaces and the offset is 0. -/
theorem matchBlockQuote_cases (lh : LineHandler) :
    (lh.line.drop lh.physicalPosition = [] → lh.matchBlockQuote = (false, lh)) ∧
    (∀ c rest, lh.line.drop lh.physicalPosition = c :: rest → c ≠ ch '>' →
      lh.matchBlockQuote = (false, lh)) ∧
    (∀ rest, lh.line.drop lh.physicalPosition = ch '>' :: rest →
      lh.matchBlockQuote.1 = true ∧ lh.depth + 1 ≤ lh.matchBlockQuote.2.depth ∧
        lh.physicalPosition + 1 ≤ lh.matchBlockQuote.2.physicalPosition) ∧
    (∀ (groups : List Nat) (j : Nat) (tail : QString), (∀ g ∈ groups, g ≤ 3) → j ≤ 3 →
      endsMarkers tail = true →
      lh.line.drop lh.physicalPosition =
        ch '>' :: (quoteMarkers groups ++ (List.replicate j (ch ' ') ++ tail)) →
      lh.matchBlockQuote = (true, LineHandler.mk lh.line
        (lh.physicalPosition + 1 + (quoteMarkers groups).length + j)
        (lh.logicalPosition + (lh.offset + 1) + (quoteMarkers groups).length + j) 0
        (lh.depth + 1 + groups.length) (if groups = [] then j else j - 1))) := by
  refine ⟨?_, ?_, ?_, ?_⟩
  · intro h
    simp [LineHandler.matchBlockQuote, h]
  · intro c rest hd hc
    simp only [ch_gt] at hc
    exact matchBlockQuote_at hd hc
  · intro rest hd
    simp only [ch_gt] at hd
    have hb := matchBlockQuoteLoop_bounds lh.line (lh.physicalPosition + 1) rest
      ⟨lh.physicalPosition + 1, lh.logicalPosition + (lh.offset + 1), 0, lh.depth + 1, 0,
        lh.physicalPosition + 1, lh.logicalPosition + (lh.offset + 1), 0⟩ (le_refl _) (by simp)
    simp only [LineHandler.matchBlockQuote, hd, ch_gt]
    simpa using hb
  · intro groups j tail hg hj ht hd
    simp only [ch_gt, ch_sp] at hd
    exact matchBlockQuote_markers lh groups j tail hg hj ht hd

/-- Witness of C18, amended: `a` is no marker; on `>> a` and on `> > a` both markers are
consumed and the depth is 2, on `> a` it is 1. -/
theorem matchBlockQuote_cases_witness :
    (LineHandler.new (qs "a")).matchBlockQuote = (false, LineHandler.new (qs "a")) ∧
    (LineHandler.new (qs ">> a")).matchBlockQuote = (true, LineHandler.mk (qs ">> a") 3 3 0 2 0) ∧
    (LineHandler.new (qs "> > a")).matchBlockQuote = (true, LineHandler.mk (qs "> > a") 4 4 0 2 0) ∧
    (LineHandler.new (qs "> a")).matchBlockQuote = (true, LineHandler.mk (qs "> a") 2 2 0 1 1) :=
  ⟨(matchBlockQuote_cases (LineHandler.new (qs "a"))).2.1 (ch 'a') [] rfl (by decide),
   (matchBlockQuote_cases (LineHandler.new (qs ">> a"))).2.2.2 [0] 1 (qs "a") (by decide) (by decide)
     rfl rfl,
   (matchBlockQuote_cases (LineHandler.new (qs "> > a"))).2.2.2 [1] 1 (qs "a") (by decide) (by decide)
     rfl rfl,
   (matchBlockQuote_cases (LineHandler.new (qs "> a"))).2.2.2 [] 1 (qs "a") (by decide) (by decide)
     rfl rfl⟩

/-- C11, refuted on the code: `defineLink`, `getLinkText` and `getImageText` only lowercase
the label, they never collapse white space. A reference defined under `a b` is found under
`A b`, but under `a  b` (two spaces) both functions return the empty string, and the text
`[a  b]` behind the paragraph definition `[a b]: /u` is left as it is. -/
theorem label_whitespace_not_collapsed :
    Parser.getLinkText (InlineParser.nested [] 2)
        (Parser.defineLink [] (qs "a b") (qs "/u") []) (qs "a  b") = .ok [] ∧
    Parser.getImageText (InlineParser.nested [] 2)
        (Parser.defineLink [] (qs "a b") (qs "/u") []) (qs "a  b") = .ok [] ∧
    Parser.getLinkText (InlineParser.nested [] 2)
        (Parser.defineLink [] (qs "a b") (qs "/u") []) (qs "A b") = .ok (qs "<a href=\"/u\">A b</a>") ∧
    htmlOf (qs "[a b]: /u\n\n[a  b]") = .ok (qs "<p>[a  b]</p>") ∧
    htmlOf (qs "[a b]: /u\n\n[a b]") = .ok (qs "<p><a href=\"/u\">a b</a></p>") := by
  decide!

/-- C19: when `findBullet` returns a character `c` other than the null character, `c` is one
of `-`, `+`, `*`, it is the first character at or after the cursor that is neither space nor
tab, and it is the last character of the line or is followed by a space or a tab. When no
such marker is ahead, `findBullet` returns the null character, and whenever it returns the
null character every field of the scanner is unchanged. -/
theorem findBullet_only_at_marker (lh : LineHandler) :
    (∀ (c : QChar) (lh1 : LineHandler), lh.findBullet = .ok (c, lh1) → c ≠ 0 →
      (c = ch '-' ∨ c = ch '+' ∨ c = ch '*') ∧ markerAhead lh c = true) ∧
    ((∀ c : QChar, c = ch '-' ∨ c = ch '+' ∨ c = ch '*' → markerAhead lh c = false) →
      lh.findBullet = .ok (0, lh)) ∧
    (∀ lh1 : LineHandler, lh.findBullet = .ok (0, lh1) → lh1 = lh) := by
  refine ⟨?_, ?_, ?_⟩
  · intro c lh1 h hc
    rcases findBullet_cases lh lh1 c h with ⟨e, h1⟩ | ⟨e, h1⟩ | ⟨e, h1⟩ | ⟨e, _⟩
    · exact ⟨Or.inl e, e ▸ findBulletChar_some lh lh1 _ h1⟩
    · exact ⟨Or.inr (Or.inl e), e ▸ findBulletChar_some lh lh1 _ h1⟩
    · exact ⟨Or.inr (Or.inr e), e ▸ findBulletChar_some lh lh1 _ h1⟩
    · exact absurd e hc
  · intro h
    exact findBullet_null lh (h _ (Or.inl rfl)) (h _ (Or.inr (Or.inl rfl))) (h _ (Or.inr (Or.inr rfl)))
  · intro lh1 h
    rcases findBullet_cases lh lh1 0 h with ⟨e, _⟩ | ⟨e, _⟩ | ⟨e, _⟩ | ⟨_, e⟩
    · exact absurd e (by decide)
    · exact absurd e (by decide)
    · exact absurd e (by decide)
    · exact e

theorem findBullet_only_at_marker_witness :
    ((ch '-' = ch '-' ∨ ch '-' = ch '+' ∨ ch '-' = ch '*') ∧
      markerAhead (LineHandler.new (qs " - a")) (ch '-') = true) ∧
    (LineHandler.new (qs "-a")).findBullet = .ok (0, LineHandler.new (qs "-a")) :=
  ⟨(findBullet_only_at_marker (LineHandler.new (qs " - a"))).1 (ch '-')
      (LineHandler.mk (qs " - a") 3 3 0 0 3) (by decide!) (by decide),
   (findBullet_only_at_marker (LineHandler.new (qs "-a"))).2.1
      (fun c hc => by rcases hc with rfl | rfl | rfl <;> decide)⟩

/-- C12: when the lowercased label `l` is not in the reference table, `getLinkText(l)` and
`getImageText(l)` return the empty string; when it is in the table, neither of them returns
the empty string, and `getLinkText(l)` returns a non-empty text as soon as the nested
rendering of the label returns. For every non-empty text `x` of ASCII letters without a
definition in the table, the inline rendering of `[x]` is `[x]`. -/
theorem missing_label_unchanged (R : Nested) (links : LinkList) (l : QString) :
    (links.lookup (QString.toLower l) = none →
      Parser.getLinkText R links l = .ok [] ∧ Parser.getImageText R links l = .ok []) ∧
    (links.lookup (QString.toLower l) ≠ none →
      Parser.getLinkText R links l ≠ .ok [] ∧ Parser.getImageText R links l ≠ .ok [] ∧
      (∀ a : QString, R.toHTML l = .ok a → ∃ r, Parser.getLinkText R links l = .ok r ∧ r ≠ [])) ∧
    (isLetters l = true → links.lookup (QString.toLower l) = none →
      InlineParser.textToHTML links (qs "[" ++ l ++ qs "]") = .ok (qs "[" ++ l ++ qs "]")) := by
  refine ⟨fun h => ⟨getLinkText_missing R links l h, getImageText_missing R links l h⟩, ?_, ?_⟩
  · intro h
    refine ⟨getLinkText_nonempty R links l h, getImageText_nonempty R links l h, ?_⟩
    intro a ha
    cases hl : links.lookup (QString.toLower l) with
    | none => exact absurd hl h
    | some rt => exact getLinkText_found R links l rt.1 rt.2 a hl ha
  · intro hx h
    exact textToHTML_missing links l hx h

theorem missing_label_unchanged_witness :
    (Parser.getLinkText (InlineParser.nested [] 2) [] (qs "x") = .ok [] ∧
      Parser.getImageText (InlineParser.nested [] 2) [] (qs "x") = .ok []) ∧
    InlineParser.textToHTML [] (qs "[x]") = .ok (qs "[x]") :=
  ⟨(missing_label_unchanged (InlineParser.nested [] 2) [] (qs "x")).1 rfl,
   (missing_label_unchanged (InlineParser.nested [] 2) [] (qs "x")).2.2 (by decide) rfl⟩

/-! ## The claims C21 to C30 -/

/-- C22, refuted on the code: behind the opening marker of `# a#` the closing run is preceded
by the letter `a`, yet `removeLastSequence` truncates the line at the cursor and the heading
is empty, because the loop `while (--pos > physicalPosition_)` never looks at the character
at the cursor; and behind the marker of `# #` the run that starts at the cursor is kept. -/
theorem removeLastSequence_at_cursor :
    ((LineHandler.new (qs "# a#")).findHeadingMarker.2.removeLastSequence (ch '#')).currentText = [] ∧
    ((LineHandler.new (qs "# #")).findHeadingMarker.2.removeLastSequence (ch '#')).currentText = qs "#" ∧
    htmlOf (qs "# a#") = .ok (qs "<h1></h1>") ∧ htmlOf (qs "# #") = .ok (qs "<h1>#</h1>") := by
  decide!

/-- C23, refuted on the code: `countIndent` adds `TAB_SIZE - pos % TAB_SIZE` for a tab, `pos`
being the index of the tab and not the logical column, so two tabs count 7 columns while
`skipWhitespace` on a fresh scanner reports the indent 8. -/
theorem countIndent_two_tabs :
    (LineHandler.new (qs "\t\t")).countIndent = 7 ∧
    (LineHandler.new (qs "\t\t")).skipWhitespace.indent = 8 := by
  decide!

/-- C27, counterexample: in the block quote of `> Foo` the line `> ---` does not promote
the paragraph; the block quote holds the paragraph followed by a thematic break. -/
theorem setext_in_block_quote_counterexample :
    htmlOf (qs "> Foo\n> ---") = .ok (qs "<blockquote>\n<p>Foo</p>\n<hr />\n</blockquote>") := by
  decide!

/-- C27, amended: setext promotion applies in the body and in a list item, never in a block
quote. On a block quote `dispatchSetextHeading` answers false and leaves the tree as it is.
On the body, and on a list item when the indent of the line is not less than the indent of
the item, whose last child `l` is a writable paragraph, a line whose trimmed text has the
setext level `level` makes it remove `l` from the children, allocate a heading of that level
with the trimmed text of the paragraph and append this heading in its place. A text has the
level 1 exactly when it is a non-empty run of `=` and the level 2 exactly when it is a
non-empty run of `-`; for the empty text the source does not determine a level: both keys
of the `std::unordered_map` match and the first one in its unspecified order wins, as on the
second line of `> - a`, `>   `. -/
theorem setext_promotion (p : Parser) (i : Nat) (n : Node) (lh : LineHandler)
    (hn : p.nodes[i]? = some n) :
    (n.kind = Kind.blockQuote → p.dispatchSetextHeading i lh = .ok (false, p)) ∧
    (∀ (l : Nat) (ln : Node) (pre : List Nat) (level : Nat),
      (n.kind = Kind.body ∨ (n.kind.isItem = true ∧ n.indent ≤ lh.skipWhitespace.indent)) →
      n.children = pre ++ [l] → p.nodes[l]? = some ln → ln.kind = Kind.paragraph →
      ln.writable = true → Parser.setextLevel lh.trimmed = .ok (some level) →
      p.dispatchSetextHeading i lh =
        (Parser.appendLeafBlock (setextTree p i n ln pre level) i p.nodes.length >>=
          fun p3 => Except.ok (true, p3))) ∧
    (∀ k : Nat, 1 ≤ k → Parser.setextLevel (List.replicate k (ch '=')) = .ok (some 1) ∧
      Parser.setextLevel (List.replicate k (ch '-')) = .ok (some 2)) ∧
    (∀ (text : QString) (level : Nat), Parser.setextLevel text = .ok (some level) →
      text ≠ [] ∧ ((level = 1 ∧ ∀ x ∈ text, x = ch '=') ∨ (level = 2 ∧ ∀ x ∈ text, x = ch '-'))) ∧
    Parser.setextLevel [] = .error Fault.unspecified ∧
    htmlOf (qs "> - a\n>   ") = .error Fault.unspecified := by
  refine ⟨fun hk => dispatchSetextHeading_quote p i n lh hn hk, ?_,
    fun k hk => ⟨setextLevel_equals k hk, setextLevel_dashes k hk⟩,
    fun text level h => setextLevel_some h, rfl, by decide!⟩
  intro l ln pre level hkind hc hl hk hw hs
  rw [← containerSetextHeading_promote p i l n ln lh pre level hn hc hl hk hw hs]
  rcases hkind with hb | ⟨hitem, hind⟩
  · simp [Parser.dispatchSetextHeading, hn, Parser.get, hb, Kind.isItem]
  · have hq : n.kind ≠ Kind.blockQuote := by
      intro h
      rw [h] at hitem
      cases hitem
    simp [Parser.dispatchSetextHeading, hn, Parser.get, hq, hitem, hind]

theorem setext_promotion_witness :
    Parser.dispatchSetextHeading setextDemo 0 (LineHandler.new (qs "---")) =
      .ok (true, Parser.mk
        [{ kind := Kind.body, parent := none, children := [2] },
         { kind := Kind.paragraph, parent := some 0, text := qs " Foo " },
         { kind := Kind.heading, parent := some 0, text := qs "Foo", level := 2 }] 0 []) :=
  ((setext_promotion setextDemo 0 { kind := Kind.body, parent := none, children := [1] }
      (LineHandler.new (qs "---")) rfl).2.1 1
      { kind := Kind.paragraph, parent := some 0, text := qs " Foo " } [] 2
      (Or.inl rfl) rfl rfl rfl rfl (by decide!)).trans (by decide!)

/-- C28, refuted on the code: `dispatchOrderedList` tests `last()->isParagraph()` and not
whether that paragraph is still open, so behind a paragraph that a blank line has closed
the marker `2.` opens no list and starts a new paragraph; the same line at the start of a
text opens a list with the start number 2. -/
theorem ordered_list_after_closed_paragraph :
    htmlOf (qs "a\n\n2. b") = .ok (qs "<p>a</p>\n<p>2. b</p>") ∧
    htmlOf (qs "a\n\n1. b") = .ok (qs "<p>a</p>\n<ol>\n<li>b</li>\n</ol>") ∧
    htmlOf (qs "2. b") = .ok (qs "<ol start=\"2\">\n<li>b</li>\n</ol>") := by
  decide!

/-- C29: the text of a list item is `<li></li>` when the joined text of its children is
empty, and otherwise `<li>` + X + `</li>` with a newline before X exactly when X starts
with `<` and a newline behind X exactly when X ends with `>`. When the children of the
node `i` render as `parts`, a list item renders as the item text of the parts joined by
newlines, a bullet list as `<ul>` and a newline, every part followed by a newline, and
`</ul>`, and an ordered list in the same way between `<ol>` and `</ol>`, with the attribute
`start` exactly when its start number is not 1. -/
theorem list_rendering (p : Parser) (fuel i : Nat) (n : Node) (parts : List QString)
    (hn : p.nodes[i]? = some n)
    (hp : Parser.collect (Parser.html p fuel) n.children = .ok parts) :
    Parser.itemHtml [] = qs "<li></li>" ∧
    (∀ (X : QString) (hX : X ≠ []), Parser.itemHtml X =
      qs "<li>" ++ (if X.head hX = ch '<' then qs "\n" else []) ++ X ++
        (if X.getLast hX = ch '>' then qs "\n" else []) ++ qs "</li>") ∧
    (n.kind = Kind.bulletItem ∨ n.kind = Kind.orderedItem →
      Parser.html p (fuel + 1) i = .ok (Parser.itemHtml (QString.join (qs "\n") parts))) ∧
    (n.kind = Kind.bulletList →
      Parser.html p (fuel + 1) i =
        .ok (qs "<ul>\n" ++ (parts.map fun t => t ++ qs "\n").flatten ++ qs "</ul>")) ∧
    (n.kind = Kind.orderedList → n.start = 1 →
      Parser.html p (fuel + 1) i =
        .ok (qs "<ol>\n" ++ (parts.map fun t => t ++ qs "\n").flatten ++ qs "</ol>")) ∧
    (n.kind = Kind.orderedList → n.start ≠ 1 →
      Parser.html p (fuel + 1) i =
        .ok (qs "<ol start=\"" ++ QString.number n.start ++ qs "\">\n" ++
          (parts.map fun t => t ++ qs "\n").flatten ++ qs "</ol>")) := by
  refine ⟨rfl, ?_, ?_, ?_, ?_, ?_⟩
  · intro X hX
    obtain ⟨c, r, rfl⟩ := List.exists_cons_of_ne_nil hX
    have hl : (c :: r).getLast? = some ((c :: r).getLast hX) := List.getLast?_eq_getLast _ hX
    simp only [Parser.itemHtml, List.head?_cons, hl, List.head_cons, beq_iff_eq]
    rfl
  · rintro (hk | hk) <;>
      · rw [Parser.html]
        simp [Parser.get, hn, hk, hp]
        rfl
  · intro hk
    rw [Parser.html]
    simp [Parser.get, hn, hk, hp]
    rfl
  · intro hk hs
    rw [Parser.html]
    simp [Parser.get, hn, hk, hp, hs]
    rfl
  · intro hk hs
    rw [Parser.html]
    simp [Parser.get, hn, hk, hp, hs]
    rfl

theorem list_rendering_witness :
    Parser.html listDemo 2 0 = .ok (qs "<ul>\n<li></li>\n</ul>") :=
  ((list_rendering listDemo 1 0 { kind := Kind.bulletList, parent := none, children := [1] }
      [qs "<li></li>"] rfl (by decide!)).2.2.2.1 rfl).trans (by decide!)

/-- C26: for every non-empty text `t` of ASCII letters and every `n` of at least 1, the text
`t`, a newline and `n` characters `-` renders as `<h2>t</h2>`, and with `n` characters `=`
as `<h1>t</h1>`: the run behind the paragraph makes a setext heading and no `<hr />`. -/
theorem setext_wins_over_thematic_break (t : QString) (n : Nat) (ht : isLetters t = true) (hn : 1 ≤ n) :
    htmlOf (t ++ qs "\n" ++ List.replicate n (ch '-')) = .ok (qs "<h2>" ++ t ++ qs "</h2>") ∧
    htmlOf (t ++ qs "\n" ++ List.replicate n (ch '=')) = .ok (qs "<h1>" ++ t ++ qs "</h1>") := by
  obtain ⟨k, rfl⟩ : ∃ k, n = k + 1 := ⟨n - 1, by omega⟩
  have e2 := htmlOf_setext_aux t k 45 2 ht (Or.inl ⟨rfl, rfl⟩)
  have e1 := htmlOf_setext_aux t k 61 1 ht (Or.inr ⟨rfl, rfl⟩)
  have n2 : QString.number 2 = qs "2" := by decide
  have n1 : QString.number 1 = qs "1" := by decide
  rw [n2] at e2
  rw [n1] at e1
  constructor
  · simpa [qs, utf16] using e2
  · simpa [qs, utf16] using e1

theorem setext_wins_over_thematic_break_witness :
    htmlOf (qs "Foo\n---") = .ok (qs "<h2>Foo</h2>") ∧ htmlOf (qs "Foo\n=") = .ok (qs "<h1>Foo</h1>") :=
  ⟨(setext_wins_over_thematic_break (qs "Foo") 3 (by decide) (by decide)).1,
   (setext_wins_over_thematic_break (qs "Foo") 1 (by decide) (by decide)).2⟩

/-- C21, refuted on the code: the loop of `removeIndent` tests `logical >= target` only at
its top, before the next character is read. A tab that straddles column `n` is split when a
character follows it, the columns beyond `n` being kept as spaces; when the tab is the last
character of the line the loop ends by `pos < length` without the test, the tab is not
split, the indent is the column behind the tab and the current text is empty. -/
theorem removeIndent_tab_at_end_not_split :
    ((LineHandler.new (qs "\tfoo")).removeIndent 2).indent = 2 ∧
    ((LineHandler.new (qs "\tfoo")).removeIndent 2).currentText = qs "  foo" ∧
    ((LineHandler.new (qs "\t")).removeIndent 2).indent = 4 ∧
    ((LineHandler.new (qs "\t")).removeIndent 2).currentText = [] ∧
    ((LineHandler.new (qs "    \tx")).removeIndent 6).indent = 6 ∧
    ((LineHandler.new (qs "    \tx")).removeIndent 6).currentText = qs "  x" ∧
    ((LineHandler.new (qs "    \t")).removeIndent 6).indent = 8 ∧
    ((LineHandler.new (qs "    \t")).removeIndent 6).currentText = [] := by
  decide

/-- C30: for every `N` of at least 1 and every non-empty text `s` without a backtick,
`replaceCodeSpan` at the first backtick of `N` backticks, `s` and `N` backticks replaces the
whole span by `<code>`, the code text of `s` and `</code>`, and returns the index just
behind the inserted text; the code text is `s` trimmed, with each of `&`, `<`, `>` and the
double quote replaced by its named entity and each run of spaces and newlines collapsed to
one space. -/
theorem code_span_replaced (N : Nat) (s : QString) (hN : 1 ≤ N) (hs : s ≠ [])
    (hb : ∀ x ∈ s, x ≠ chBacktick) :
    InlineParser.replaceCodeSpan
        (List.replicate N chBacktick ++ s ++ List.replicate N chBacktick) 0 =
      .ok ((qs "<code>" ++ codeText s ++ qs "</code>").length,
           qs "<code>" ++ codeText s ++ qs "</code>") := by
  obtain ⟨m, rfl⟩ : ∃ m, N = m + 1 := ⟨N - 1, by omega⟩
  rw [replaceCodeSpan_span m s hs hb, codeToHTML_flatMap]
  rfl

theorem code_span_replaced_witness :
    InlineParser.replaceCodeSpan (qs "\x60a  b\x60") 0 = .ok (16, qs "<code>a b</code>") :=
  code_span_replaced 1 (qs "a  b") (by decide) (by decide) (by decide)

/-- C24: when the parent pointer of the current container is null (the root), `unwind`
returns false and leaves the parser as it is, and it returns false in this case only;
otherwise it closes the current container and makes its parent current. Whenever
`unwindUntil(col)` returns, the current container is the root or has an indent that is not
greater than `col`, and it is the container that was current before the call or one of its
ancestors. -/
theorem unwind_discipline (p : Parser) (n : Node) (hn : p.nodes[p.current]? = some n) :
    (n.parent = none → p.unwind = .ok (false, p)) ∧
    (∀ q : Nat, n.parent = some q →
      p.unwind = (Parser.close p.treeFuel p p.current >>= fun p1 =>
        Except.ok (true, { p1 with current := q }))) ∧
    (∀ p1 : Parser, p.unwind = .ok (false, p1) → n.parent = none ∧ p1 = p) ∧
    (∀ (fuel col : Nat) (p1 : Parser), Parser.unwindUntil fuel p col = .ok p1 →
      (∃ n1, p1.nodes[p1.current]? = some n1 ∧ (n1.parent = none ∨ n1.indent ≤ col)) ∧
      ancestorOrSelf p fuel p1.current p.current = true) :=
  ⟨unwind_root p n hn, fun q hq => unwind_inner p n q hn hq, fun p1 h => unwind_false p p1 n hn h,
    fun fuel col p1 h => (unwindUntil_post fuel p p1 col h).2⟩

theorem unwind_discipline_witness :
    unwindDemo.unwind = .ok (true, unwindDone) ∧
    ((∃ n1, unwindDone.nodes[unwindDone.current]? = some n1 ∧ (n1.parent = none ∨ n1.indent ≤ 0)) ∧
      ancestorOrSelf unwindDemo 3 unwindDone.current unwindDemo.current = true) :=
  ⟨((unwind_discipline unwindDemo
        { kind := Kind.blockQuote, parent := some 0, depth := 1, indent := 2 } rfl).2.1 0 rfl).trans
      (by decide!),
   (unwind_discipline unwindDemo
        { kind := Kind.blockQuote, parent := some 0, depth := 1, indent := 2 } rfl).2.2.2 3 0 unwindDone
      (by decide!)⟩

/-! ## The claims C31 to C40 -/

/-- C33, refuted on the code: `findLinkReference` strips the angle brackets only in the
branch that a white space character behind the destination enters. When the destination
`<bar>` ends the paragraph the loop is left by `pos < length`, the brackets stay and the
reference is registered as `%3Cbar%3E`; followed by a space or by a title it is `bar`. -/
theorem angle_destination_at_end_not_unwrapped :
    TextHandler.findLinkReference (qs "[foo]: <bar>") 6 = .ok (qs "%3Cbar%3E", 12) ∧
    TextHandler.findLinkReference (qs "[foo]: <bar> ") 6 = .ok (qs "bar", 12) ∧
    htmlOf (qs "[foo]: <bar>\n\n[foo]") = .ok (qs "<p><a href=\"%3Cbar%3E\">foo</a></p>") ∧
    htmlOf (qs "[foo]: <bar> \n\n[foo]") = .ok (qs "<p><a href=\"bar\">foo</a></p>") ∧
    htmlOf (qs "[foo]: <bar> \"t\"\n\n[foo]") =
      .ok (qs "<p><a href=\"bar\" title=\"t\">foo</a></p>") := by
  decide!

/-- C35, refuted on the code: `dispatchLeafBlock` tries `dispatchHTMLBlock` and
`dispatchThematicBreak` before `appendFencedCodeText` and none of them looks at the open
fenced code block, so the line `---` inside a fence closes the code block and makes a
thematic break, and the line `<!-- x -->` makes an HTML block; the closing fence then opens
a second code block. The lines `- a` and `ab` are kept as code. -/
theorem fence_content_not_verbatim :
    htmlOf (qs "\x60\x60\x60\n---\n\x60\x60\x60") =
      .ok (qs "<pre><code></code></pre>\n<hr />\n<pre><code></code></pre>") ∧
    htmlOf (qs "\x60\x60\x60\n<!-- x -->\n\x60\x60\x60") =
      .ok (qs "<pre><code></code></pre>\n<!-- x -->\n<pre><code></code></pre>") ∧
    htmlOf (qs "\x60\x60\x60\n- a\n\x60\x60\x60") = .ok (qs "<pre><code>- a\n</code></pre>") ∧
    htmlOf (qs "\x60\x60\x60\nab\n\x60\x60\x60") = .ok (qs "<pre><code>ab\n</code></pre>") := by
  decide!

/-- C36, refuted on the code: the loop of `convertEntityReferecence` runs while
`pos < text_.length()`, the length of the text before any replacement, over the copy that
grows with every replacement: on `a&b&c` it stops behind the first entity and the second
`&` stays raw, also in the text of an autolink; on a text with leading white space the copy
is shorter than the bound and the loop reads behind its end. -/
theorem convertEntityReferecence_leaves_ampersand :
    TextHandler.convertEntityReferecence (qs "a&b&c") = .ok (qs "a&amp;b&c") ∧
    TextHandler.convertEntityReferecence (qs " ab") = .error Fault.outOfRange ∧
    InlineParser.textToHTML [] (qs "<http://a.b?x&y&z>") =
      .ok (qs "<a href=\"http://a.b?x&amp;y&amp;z\">http://a.b?x&amp;y&z</a>") := by
  decide!

/-- C37, refuted on the code: `applyAutolink` returns `begin + uri.length() + 1`, one
position behind the first character that follows the anchor, so that character is never
seen by the inline scan: in `<http://a.b>&` the anchor has 35 characters, the returned
position is 36 and the `&` at position 35 stays raw. -/
theorem autolink_skips_next_character :
    InlineParser.replaceSquareBrackets 50 (qs "<http://a.b>&") 0 =
      .ok (36, qs "<a href=\"http://a.b\">http://a.b</a>&") ∧
    (qs "<a href=\"http://a.b\">http://a.b</a>").length = 35 ∧
    InlineParser.textToHTML [] (qs "<http://a.b>&") =
      .ok (qs "<a href=\"http://a.b\">http://a.b</a>&") ∧
    InlineParser.textToHTML [] (qs "<http://a.b>*c*") =
      .ok (qs "<a href=\"http://a.b\">http://a.b</a>*c*") := by
  decide!

/-- C39, refuted on the code: the constructor `EscapeChar(QChar, int)` replaces the double
quote, `<` and `>` by their entities but appends every other character as it is, also `&`:
on `&#38;` and `&#x26;` `EscapeChar::get` returns the raw `&`, and the paragraph `&#38;` is
rendered as `<p>&</p>`. -/
theorem numeric_ampersand_left_raw :
    EscapeChar.get (qs "&#38;") = .ok ⟨qs "&", 5⟩ ∧
    EscapeChar.get (qs "&#x26;") = .ok ⟨qs "&", 6⟩ ∧
    EscapeChar.get (qs "&#60;") = .ok ⟨qs "&lt;", 5⟩ ∧
    htmlOf (qs "&#38;") = .ok (qs "<p>&</p>") := by
  decide!

/-- C40, refuted on the code: the loop of `matchHTMLTag` runs while `pos < length - 3`, so
on a line of three characters such as `<p>` it is never entered and the result is false;
`<td>`, `<p >` and `</p>` are recognised. Behind a paragraph the line `<p>` therefore
continues the paragraph, while `<td>` starts an HTML block. -/
theorem matchHTMLTag_misses_short_line :
    (LineHandler.new (qs "<p>")).matchHTMLTag HTMLTag.type6List = false ∧
    (LineHandler.new (qs "<td>")).matchHTMLTag HTMLTag.type6List = true ∧
    (LineHandler.new (qs "<p >")).matchHTMLTag HTMLTag.type6List = true ∧
    (LineHandler.new (qs "</p>")).matchHTMLTag HTMLTag.type6List = true ∧
    htmlOf (qs "a\n<p>") = .ok (qs "<p>a\n<p></p>") ∧
    htmlOf (qs "a\n<td>") = .ok (qs "<p>a</p>\n<td>") := by
  decide!

/-- C38, refuted on the code: `getImageText` renders the title of the table entry with a new
inline parser, so with a table in which the title of `a` is `![a]` the scan of the text
`![a]` calls itself without end: whatever the budget `n` of nested parsers is, the rendering
runs out of it. The text of the two paragraphs `[a]: /u "![a]"` and `![a]` builds this table
and never returns from `getHTMLText`. -/
theorem inline_scan_recursion_without_end :
    (∀ n : Nat, InlineParser.textToHTMLWith (InlineParser.nested loopTable n) loopTable (qs "![a]") =
      .error Fault.outOfFuel) ∧
    (Parser.start.feedLines [qs "[a]: /u \"![a]\"", qs ""]).map (fun p => p.linkList) =
      .ok loopTable ∧
    htmlOf (qs "[a]: /u \"![a]\"\n\n![a]") = .error Fault.outOfFuel :=
  ⟨nested_loop, by decide!, by decide!⟩

/-- C34, counterexample: the paragraph built from the lines `ab` and `cd` has the raw text
`ab`, a line break, `cd`; there is no space behind the line break. -/
theorem paragraph_text_counterexample :
    (Parser.start.feedLines [qs "ab", qs "cd"]).map (fun p => p.nodes.map fun n => n.text) =
      .ok [[], qs "ab\ncd"] := by
  decide!

/-- C34, amended: for every open paragraph and every list of scanners without a leftover tab
offset, the calls of `appendParagraphText` for these scanners all return, and afterwards the
raw text of the paragraph is its text before, the first line, and the current texts of the
scanners, joined by a line break alone; `putLinebreakAtBOL` of such a scanner is the line
break followed by the current text. -/
theorem paragraph_text_accumulation (p : Parser) (i : Nat) (n : Node) (lhs : List LineHandler)
    (hn : p.nodes[i]? = some n) (hk : n.kind = Kind.paragraph) (hw : n.writable = true)
    (ho : ∀ lh ∈ lhs, lh.offset = 0) :
    (∀ lh ∈ lhs, lh.putLinebreakAtBOL = qs "\n" ++ lh.currentTextRef) ∧
    ∃ p1, appendLines p i lhs = .ok p1 ∧
      p1.nodes[i]? =
        some (withText n (QString.join (qs "\n") (n.text :: lhs.map fun lh => lh.currentTextRef))) := by
  refine ⟨fun lh hl => putLinebreakAtBOL_plain lh (ho lh hl), ?_⟩
  obtain ⟨p1, e1, e2⟩ := appendLines_text lhs p i n hn hk hw ho
  refine ⟨p1, e1, ?_⟩
  rw [e2]
  have : qs "\n" = [10] := rfl
  rw [this, join_cons_lines]
  simp [List.map_map, Function.comp_def, withText]

theorem paragraph_text_accumulation_witness :
    ∃ p1, appendLines (paragraphDoc (qs "ab") true) 1 [LineHandler.new (qs "cd"), LineHandler.new (qs "ef")] =
        .ok p1 ∧
      p1.nodes[1]? = some { kind := Kind.paragraph, parent := some 0, text := qs "ab\ncd\nef" } :=
  (paragraph_text_accumulation (paragraphDoc (qs "ab") true) 1
    { kind := Kind.paragraph, parent := some 0, text := qs "ab" }
    [LineHandler.new (qs "cd"), LineHandler.new (qs "ef")] rfl rfl rfl (by decide)).2

/-- C31, counterexample: the newline between `ab` and `cd` is kept by `textToHTML`, it is
not collapsed to a space. -/
theorem inline_newline_counterexample :
    InlineParser.textToHTML [] (qs "ab\ncd") = .ok (qs "ab\ncd") ∧
    InlineParser.textToHTML [] (qs "ab\ncd") ≠ .ok (qs "ab cd") := by
  decide!

/-- C31, amended: for every pair of non-empty texts `a` and `b` of ASCII letters and every
reference table, `textToHTML` of `a`, one space, a newline and `b` is `a`, the newline and
`b`; with two or more spaces before the newline it is `a`, `<br />`, the newline and `b`;
and `textToHTML` of `a`, a newline and `b` is that text unchanged: the newline is kept. -/
theorem inline_whitespace (links : LinkList) (a b : QString)
    (ha : isLetters a = true) (hb : isLetters b = true) :
    InlineParser.textToHTML links (a ++ qs " \n" ++ b) = .ok (a ++ qs "\n" ++ b) ∧
    (∀ k : Nat, 2 ≤ k →
      InlineParser.textToHTML links (a ++ List.replicate k (ch ' ') ++ qs "\n" ++ b) =
        .ok (a ++ qs "<br />\n" ++ b)) ∧
    InlineParser.textToHTML links (a ++ qs "\n" ++ b) = .ok (a ++ qs "\n" ++ b) := by
  refine ⟨?_, ?_, ?_⟩
  · have h := textToHTML_linefeed links a b 0 ha hb
    simpa [qs, utf16] using h
  · intro k hk
    obtain ⟨j, rfl⟩ : ∃ j, k = j + 2 := ⟨k - 2, by omega⟩
    have h := textToHTML_linefeed links a b (j + 1) ha hb
    simpa [qs, utf16, List.replicate_succ] using h
  · have h := textToHTML_calm links (a ++ 10 :: b) (calm_two_lines ha hb)
    simpa [qs, utf16] using h

theorem inline_whitespace_witness :
    InlineParser.textToHTML [] (qs "ab \ncd") = .ok (qs "ab\ncd") ∧
    InlineParser.textToHTML [] (qs "ab   \ncd") = .ok (qs "ab<br />\ncd") :=
  ⟨(inline_whitespace [] (qs "ab") (qs "cd") (by decide) (by decide)).1,
   (inline_whitespace [] (qs "ab") (qs "cd") (by decide) (by decide)).2.1 3 (by decide)⟩

/-- C32: the loops of `textToHTML` open and close the tags of the completed records in stack
order. For every list `split` of records, the rendering in which the left part of a record
appends only the mark of `<tag>` and the right part only the mark of `</tag>` gives a list of
marks that is well nested: every opening mark is closed by the mark of the same tag and the
pairs do not cross. The parts of the HTML rendering append `<tag>` and `</tag>` of the
record exactly there. For every reference table and every non-empty word `w` of ASCII
letters, `*w*` renders as `<em>w</em>` and `**w**` as `<strong>w</strong>`. -/
theorem emphasis_tags_nested (links : LinkList) (split : List Precedence) (w : QString)
    (hw : isLetters w = true) :
    wellNested (InlineParser.render markLeft markRight [] split) = true ∧
    (∀ (p : Precedence) (text applied : QString) (lastPos : Int),
      (Precedence.htmlLeftPart p text applied lastPos).1 =
        applied ++ QString.mid text lastPos.toNat (p.begin_ - lastPos) ++ qs "<" ++ p.tag ++ qs ">" ∧
      (Precedence.htmlRightPart p text applied lastPos).1 =
        applied ++ QString.mid text lastPos.toNat (p.end_ - p.count - lastPos) ++ qs "</" ++ p.tag ++
          qs ">") ∧
    InlineParser.textToHTML links (qs "*" ++ w ++ qs "*") = .ok (qs "<em>" ++ w ++ qs "</em>") ∧
    InlineParser.textToHTML links (qs "**" ++ w ++ qs "**") =
      .ok (qs "<strong>" ++ w ++ qs "</strong>") := by
  refine ⟨render_wellNested split, fun p text applied lastPos => ⟨rfl, rfl⟩, ?_, ?_⟩
  · have h := textToHTML_em links w hw
    simpa [qs, utf16] using h
  · have h := textToHTML_strong links w hw
    simpa [qs, utf16] using h

theorem emphasis_tags_nested_witness :
    wellNested (InlineParser.render markLeft markRight []
      [strongRecord 0 9, emRecord 3 5, emRecord 11 13]) = true ∧
    InlineParser.textToHTML [] (qs "*w*") = .ok (qs "<em>w</em>") ∧
    InlineParser.textToHTML [] (qs "**ab**") = .ok (qs "<strong>ab</strong>") :=
  ⟨(emphasis_tags_nested [] [strongRecord 0 9, emRecord 3 5, emRecord 11 13] (qs "w") (by decide)).1,
   (emphasis_tags_nested [] [] (qs "w") (by decide)).2.2.1,
   (emphasis_tags_nested [] [] (qs "ab") (by decide)).2.2.2⟩

end MdParser
